import Mathlib

/-! # ohnogen: ordering, deduplication, run detection and lookup tables

A verification development for `cmd/ohnogen/main.go`.  The generator collects
the constants of one enum type, sorts and deduplicates them, splits them into
runs of consecutive values and prints one of three lookup programs.  The
definitions below follow the Go source function by function; Go slices become
lists, `for` loops become recursion on an explicit iteration count, and
`uint64` values are natural numbers reduced modulo `2^64`.

The printed program is kept as its parts (constants, index arrays, cases, map
entries) and read by the rules of the Go language: the enum type is an integer
type of `w` bits (8, 16, 32 or 64), its arithmetic wraps around at that width, a
constant conversion that overflows the type is rejected by the compiler, an
index or slice out of range returns nothing, and so does a declaration that the
compiler rejects.
-/

namespace Ohnogen

/-- A Go string is an immutable sequence of bytes; `len` is the number of bytes. -/
abbrev GoString := List UInt8

/-- The bytes of a text, as the Go compiler stores a source literal (UTF-8). -/
def utf8 (s : String) : GoString := s.data.flatMap String.utf8EncodeChar

/-- Value represents a declared constant (`type Value struct`).  The field
`value` is the 64-bit pattern, `signed` tells how to read it, and `str` is the
literal of the constant as the go/constant package prints it. -/
structure Value where
  originalName : GoString
  name : GoString
  value : Nat
  signed : Bool
  str : GoString
  description : GoString
deriving DecidableEq, Repr

/-- The zero `Value`, what Go reads from a freshly allocated slice element. -/
def Value.zero : Value := ⟨[], [], 0, false, [], []⟩

/-- Go conversion `int64(x)` of a `uint64` pattern. -/
def int64 (x : Nat) : Int := if x < 2 ^ 63 then (x : Int) else (x : Int) - 2 ^ 64

/-- Method `byValue.Less`, on the two elements it compares: signed comparison
when the first one is signed, unsigned comparison otherwise. -/
def byValue.Less (bi bj : Value) : Bool :=
  if bi.signed then decide (int64 bi.value < int64 bj.value)
  else decide (bi.value < bj.value)

/-- One step of a stable insertion: `x`, which preceded all of the list in the
input, goes in front of the first element that is not less than it. -/
def insertStable (x : Value) : List Value → List Value
  | [] => [x]
  | y :: ys => if byValue.Less y x then y :: insertStable x ys else x :: y :: ys

/-- The call `sort.Stable(byValue(values))`.  The standard library promises a
sorted slice in which equal elements keep their input order; a stable insertion
sort is the embedding of that contract. -/
def sortStable : List Value → List Value
  | [] => []
  | x :: xs => insertStable x (sortStable xs)

/-- The duplicate-removal loop of `splitIntoRuns`,
`for i := 1; i < len(values); i++`, with `n` iterations left.  It works in
place: `values[j] = values[i]` overwrites the slice it is reading.  Returns the
final `j` and the slice. -/
def dedupLoop : Nat → Nat → Nat → List Value → Nat × List Value
  | 0, _, j, values => (j, values)
  | n + 1, i, j, values =>
    if (values.getD i Value.zero).value ≠ (values.getD (i - 1) Value.zero).value then
      dedupLoop n (i + 1) (j + 1) (values.set j (values.getD i Value.zero))
    else
      dedupLoop n (i + 1) j values

/-- The sort and the duplicate removal of `splitIntoRuns`, up to and including
`values = values[:j]`. -/
def sortAndDedup (values : List Value) : List Value :=
  let sorted := sortStable values
  let r := dedupLoop (sorted.length - 1) 1 1 sorted
  r.2.take r.1

/-- The inner loop of `splitIntoRuns`:
`for i < len(values) && values[i].value == values[i-1].value+1 { i++ }`,
with `n` iterations left; the addition is that of `uint64`. -/
def runEnd (values : List Value) : Nat → Nat → Nat
  | 0, i => i
  | n + 1, i =>
    if i < values.length ∧
        (values.getD i Value.zero).value = ((values.getD (i - 1) Value.zero).value + 1) % 2 ^ 64 then
      runEnd values n (i + 1)
    else i

/-- The outer loop of `splitIntoRuns`, `for len(values) > 0`, with `n`
iterations left: one run is cut off the front per iteration. -/
def runsLoop : Nat → List Value → List (List Value) → List (List Value)
  | 0, _, runs => runs
  | n + 1, values, runs =>
    if values.length > 0 then
      let i := runEnd values values.length 1
      runsLoop n (values.drop i) (runs ++ [values.take i])
    else runs

/-- Function `splitIntoRuns`: breaks the values into runs of contiguous
sequences.  Every pass of the outer loop removes at least one element, so
`len(values)` passes are enough.  The input slice is known to be non-empty
(`generate` stops before the call otherwise). -/
def splitIntoRuns (values : List Value) : List (List Value) :=
  let values := sortAndDedup values
  runsLoop values.length values []

/-- A declaration with the given name, value and comment, unsigned. -/
def mkU (n : String) (v : Nat) (d : String) : Value :=
  ⟨utf8 n, utf8 n, v, false, utf8 (toString v), utf8 d⟩

/-- A declaration with the given name, value and comment, signed. -/
def mkS (n : String) (v : Int) (d : String) : Value :=
  ⟨utf8 n, utf8 n, (v % 2 ^ 64).toNat, true, utf8 (toString v), utf8 d⟩

/-- The integer a 64-bit pattern stands for in a type of signedness `s`. -/
def key (s : Bool) (x : Nat) : Int := if s then int64 x else (x : Int)

/-- All declarations belong to one type of signedness `s`, and every `value`
is a `uint64`. -/
def OneType (s : Bool) (vs : List Value) : Prop :=
  ∀ v ∈ vs, v.signed = s ∧ v.value < 2 ^ 64

instance (s : Bool) (vs : List Value) : Decidable (OneType s vs) := by
  unfold OneType; infer_instance

/-- What the duplicate-removal loop computes, without the in-place writes:
an element is kept when its value differs from its predecessor's. -/
def dedupFrom (prev : Value) : List Value → List Value
  | [] => []
  | y :: ys => if y.value ≠ prev.value then y :: dedupFrom y ys else dedupFrom y ys

/-- The first element is always kept (`j` starts at 1). -/
def dedupAdj : List Value → List Value
  | [] => []
  | x :: xs => x :: dedupFrom x xs

/-- The `uint64` test of the inner loop: `b.value == a.value+1`. -/
def Step (a b : Value) : Prop := b.value = (a.value + 1) % 2 ^ 64

instance (a b : Value) : Decidable (Step a b) := by unfold Step; infer_instance

/-- Number of elements the inner loop walks over after the element `p`. -/
def countRun (p : Value) : List Value → Nat
  | [] => 0
  | y :: ys => if y.value = (p.value + 1) % 2 ^ 64 then countRun y ys + 1 else 0

/-- Strictly ascending in the order of a type of signedness `s`. -/
def Ascending (s : Bool) (l : List Value) : Prop :=
  l.Pairwise (fun a b => key s a.value < key s b.value)

/-- Two neighbouring runs cannot be merged: the first value of the later run
does not pass the loop test after the last value of the earlier one. -/
def Boundary (r1 r2 : List Value) : Prop :=
  ∀ a b, r1.getLast? = some a → r2.head? = some b → ¬ Step a b

/-! ## Example declaration lists -/

/-- The constants `A = 0, B = 1, C = 2, D = 2`, declared in that order. -/
def exAlias : List Value :=
  [mkU "A" 0 "first", mkU "B" 1 "second", mkU "C" 2 "third", mkU "D" 2 "alias"]

/-- Six constants with the values 1, 2, 3, 5, 6, 7, declared out of order. -/
def exSix : List Value :=
  [mkU "F" 6 "", mkU "A" 1 "", mkU "G" 7 "", mkU "C" 3 "", mkU "B" 2 "", mkU "E" 5 ""]

/-- Two signed constants with the values -1 and 0. -/
def exMinusOne : List Value := [mkS "Zero" 0 "", mkS "MinusOne" (-1) ""]

/-! ## The lookup tables -/

/-- Function `usize`: the number of bits of the smallest unsigned integer type
that will hold `n`. -/
def usize (n : Nat) : Nat :=
  if n < 2 ^ 8 then 8 else if n < 2 ^ 16 then 16 else 32

/-- The loop `for i := range run { b.WriteString(text(run[i])); indexes[i] = b.Len() }`
of `createIndexAndNameDecl` and `createIndexAndNameDescDecl`, started with the
buffer `b`: returns `indexes` and the final buffer. -/
def writeAll (text : Value → GoString) : List Value → GoString → List Nat × GoString
  | [], b => ([], b)
  | v :: run, b =>
    let r := writeAll text run (b ++ text v)
    ((b ++ text v).length :: r.1, r.2)

/-- The pair of declarations returned by `createIndexAndNameDecl`:
`_T_name = <text>` and `_T_index = [...]uint<bits>{0, <indexes>}`.  The text is
printed with `%q`, which writes a literal that denotes exactly the bytes of the
buffer, so the constant is kept as those bytes. -/
structure IndexAndName where
  name : GoString
  bits : Nat
  index : List Nat
deriving DecidableEq, Repr

/-- Function `createIndexAndNameDecl`. -/
def createIndexAndNameDecl (run : List Value) : IndexAndName :=
  let r := writeAll (fun v => v.name) run []
  ⟨r.2, usize r.2.length, 0 :: r.1⟩

/-- Function `createIndexAndNameDescDecl`. -/
def createIndexAndNameDescDecl (run : List Value) : IndexAndName :=
  let r := writeAll (fun v => v.description) run []
  ⟨r.2, usize r.2.length, 0 :: r.1⟩

/-! ## Go expressions of the generated code

The generated methods have a receiver `i` of the enum type `T`.  `T` is an
integer type of `w` bits and signedness `s` (`genDecl` accepts every integer
type and records the signedness only).  A value of `T` is kept the way `genDecl`
keeps a constant, as the 64-bit pattern of its conversion to `int64` or
`uint64`, and `key s` reads it.  A result `none` means that no string is
returned: the expression panics, or the compiler rejects the declaration. -/

/-- The largest value of the type `T`, plus one. -/
def limitT (w : Nat) (s : Bool) : Int :=
  if s then ((2 ^ (w - 1) : Nat) : Int) else ((2 ^ w : Nat) : Int)

/-- The smallest value of the type `T`. -/
def minT (w : Nat) (s : Bool) : Int :=
  if s then -((2 ^ (w - 1) : Nat) : Int) else 0

/-- The pattern `x` is a value of the type `T`. -/
def InT (w : Nat) (s : Bool) (x : Nat) : Prop :=
  x < 2 ^ 64 ∧ minT w s ≤ key s x ∧ key s x < limitT w s

instance (w : Nat) (s : Bool) (x : Nat) : Decidable (InT w s x) := by
  unfold InT; infer_instance

/-- All declarations are constants of one type `T` of `w` bits and signedness
`s`. -/
def OfType (w : Nat) (s : Bool) (vs : List Value) : Prop :=
  ∀ v ∈ vs, v.signed = s ∧ InT w s v.value

instance (w : Nat) (s : Bool) (vs : List Value) : Decidable (OfType w s vs) := by
  unfold OfType; infer_instance

/-- No run has more elements than the largest value of the type `T`. -/
def Fits (w : Nat) (s : Bool) (runs : List (List Value)) : Prop :=
  ∀ r ∈ runs, (r.length : Int) < limitT w s

instance (w : Nat) (s : Bool) (runs : List (List Value)) : Decidable (Fits w s runs) := by
  unfold Fits; infer_instance

/-- The value of type `T` that the integer `z` wraps around to: the one value of
the type that differs from `z` by a multiple of `2^w`. -/
def wrapT (w : Nat) (s : Bool) (z : Int) : Nat :=
  (((z - minT w s) % ((2 ^ w : Nat) : Int) + minT w s) % 2 ^ 64).toNat

/-- `i - c` in the type `T`. -/
def subT (w : Nat) (s : Bool) (i c : Nat) : Nat := wrapT w s (key s i - key s c)

/-- `i + c` in the type `T`. -/
def addT (w : Nat) (s : Bool) (i c : Nat) : Nat := wrapT w s (key s i + key s c)

/-- The constant conversion `T(z)`: the compiler rejects a constant that the
type cannot represent. -/
def convT? (w : Nat) (s : Bool) (z : Int) : Option Nat :=
  if minT w s ≤ z ∧ z < limitT w s then some (z % 2 ^ 64).toNat else none

/-- The index expression `a[i]` with `i` of type `T`: it panics when `i` is
negative or not below `len(a)`. -/
def index? (s : Bool) (a : List Nat) (i : Nat) : Option Nat :=
  if 0 ≤ key s i then a[(key s i).toNat]? else none

/-- The slice expression `str[lo:hi]` on a string: it needs `lo <= hi <= len(str)`. -/
def slice? (str : GoString) (lo hi : Nat) : Option GoString :=
  if lo ≤ hi ∧ hi ≤ str.length then some ((str.take hi).drop lo) else none

/-- The call `strconv.FormatInt(x, 10)`: decimal digits, with a minus sign for a
negative number. -/
def FormatInt (x : Int) : GoString := utf8 (toString x)

/-- The expression `"T(" + strconv.FormatInt(int64(i), 10) + ")"` that every
generated method returns for a value it does not know. -/
def fallback (typeName : GoString) (i : Nat) : GoString :=
  typeName ++ utf8 "(" ++ FormatInt (int64 i) ++ utf8 ")"

/-- The expression `_T_name[_T_index[i]:_T_index[i+1]]`; `i+1` is an addition
in the type `T`. -/
def tableEntry (w : Nat) (s : Bool) (t : IndexAndName) (i : Nat) : Option GoString :=
  match index? s t.index i, index? s t.index (addT w s i 1) with
  | some lo, some hi => slice? t.name lo hi
  | _, _ => none

/-! ## One run -/

/-- What `buildOneRun` prints: the two constants with their index arrays
(`declareIndexAndNameVar`), the text `lessThanZero` as a flag, and the template
chosen: `offset = none` for `stringOneRun` and `stringOneRunDesc`,
`offset = some v` for `stringOneRunWithOffset` and `stringOneRunWithOffsetDesc`
with the literal `v.String()`. -/
structure OneRun where
  typeName : GoString
  names : IndexAndName
  descs : IndexAndName
  lessThanZero : Bool
  offset : Option Value
deriving DecidableEq, Repr

/-- Function `buildOneRun`; `runs[0]` and `values[0]` panic on an empty slice. -/
def buildOneRun (runs : List (List Value)) (typeName : GoString) : Option OneRun :=
  match runs with
  | [] => none
  | values :: _ =>
    match values with
    | [] => none
    | v0 :: _ =>
      some ⟨typeName, createIndexAndNameDecl values, createIndexAndNameDescDecl values,
        v0.signed, if v0.value = 0 then none else some v0⟩

/-- The body shared by the templates `stringOneRun` and `stringOneRunDesc`:
`if [i < 0 ||] i >= T(len(index)-1) { return fallback }; return name[index[i]:index[i+1]]`.
`len(index)-1` is a constant, and so is its conversion to `T`. -/
def stringOneRun (w : Nat) (s : Bool) (typeName : GoString) (lessThanZero : Bool)
    (t : IndexAndName) (i : Nat) : Option GoString :=
  match convT? w s ((t.index.length : Int) - 1) with
  | none => none
  | some n =>
    if (lessThanZero ∧ key s i < 0) ∨ key s i ≥ key s n then
      some (fallback typeName i)
    else tableEntry w s t i

/-- The body shared by the templates `stringOneRunWithOffset` and
`stringOneRunWithOffsetDesc`: `i -= start` comes first, and the fallback prints
`int64(i + start)`.  The literal `start` denotes the constant whose pattern is
`start.value`. -/
def stringOneRunWithOffset (w : Nat) (s : Bool) (typeName : GoString) (start : Value)
    (lessThanZero : Bool) (t : IndexAndName) (i : Nat) : Option GoString :=
  match convT? w s ((t.index.length : Int) - 1) with
  | none => none
  | some n =>
    let j := subT w s i start.value
    if (lessThanZero ∧ key s j < 0) ∨ key s j ≥ key s n then
      some (fallback typeName (addT w s j start.value))
    else tableEntry w s t j

/-- The generated method `String` of the single-run shape. -/
def OneRun.String (w : Nat) (s : Bool) (p : OneRun) (i : Nat) : Option GoString :=
  match p.offset with
  | none => stringOneRun w s p.typeName p.lessThanZero p.names i
  | some start => stringOneRunWithOffset w s p.typeName start p.lessThanZero p.names i

/-- The generated method `Description` of the single-run shape. -/
def OneRun.Description (w : Nat) (s : Bool) (p : OneRun) (i : Nat) : Option GoString :=
  match p.offset with
  | none => stringOneRun w s p.typeName p.lessThanZero p.descs i
  | some start => stringOneRunWithOffset w s p.typeName start p.lessThanZero p.descs i

/-! ## Multiple runs -/

/-- Runs `f` over a list from left to right; `none` as soon as one call fails. -/
def mapOpt {α β : Type} (f : α → Option β) : List α → Option (List β)
  | [] => some []
  | a :: as =>
    match f a, mapOpt f as with
    | some b, some bs => some (b :: bs)
    | _, _ => none

/-- One `case` of the switch printed by `buildMultipleRuns`.
`single v name` is `case i == v: return _T_name_k`;
`range lower first last sub t` is `case [first <= i &&] i <= last:`, followed by
`i -= first` when `sub` is set, and `return _T_name_k[_T_index_k[i]:_T_index_k[i+1]]`. -/
inductive Case where
  | single (v : Value) (name : GoString)
  | range (lower : Bool) (first last : Value) (sub : Bool) (t : IndexAndName)
deriving DecidableEq, Repr

/-- The body of the loop `for i, values := range runs` of `buildMultipleRuns`,
for a table made by `mk` (names in the first loop, descriptions in the second). -/
def runCase (mk : List Value → IndexAndName) (values : List Value) : Option Case :=
  match values with
  | [] => none
  | [v] => some (Case.single v (mk values).name)
  | v0 :: w :: rest =>
    some (Case.range (!(v0.value == 0 && !v0.signed)) v0 ((w :: rest).getLastD v0)
      (v0.value != 0) (mk values))

/-- What `buildMultipleRuns` prints: the cases of `String` and the cases of
`Description`, in the order of the runs; `default:` returns the fallback. -/
structure MultipleRuns where
  typeName : GoString
  nameCases : List Case
  descCases : List Case
deriving DecidableEq, Repr

/-- Function `buildMultipleRuns`. -/
def buildMultipleRuns (runs : List (List Value)) (typeName : GoString) : Option MultipleRuns :=
  match mapOpt (runCase createIndexAndNameDecl) runs,
        mapOpt (runCase createIndexAndNameDescDecl) runs with
  | some ns, some ds => some ⟨typeName, ns, ds⟩
  | _, _ => none

/-- Whether the condition of a case holds for `i`. -/
def Case.holds (s : Bool) : Case → Nat → Bool
  | Case.single v _, i => i == v.value
  | Case.range lower first last _ _, i =>
    (!lower || decide (key s first.value ≤ key s i)) && decide (key s i ≤ key s last.value)

/-- The statements of a case; `i -= first` is a subtraction in the type `T`. -/
def Case.body (w : Nat) (s : Bool) : Case → Nat → Option GoString
  | Case.single _ name, _ => some name
  | Case.range _ first _ sub t, i =>
    tableEntry w s t (if sub then subT w s i first.value else i)

/-- The `switch` statement: the first case whose condition holds is taken. -/
def switchCases (w : Nat) (s : Bool) (typeName : GoString) :
    List Case → Nat → Option GoString
  | [], i => some (fallback typeName i)
  | c :: cs, i => if c.holds s i then c.body w s i else switchCases w s typeName cs i

/-- The generated method `String` of the multiple-runs shape. -/
def MultipleRuns.String (w : Nat) (s : Bool) (p : MultipleRuns) (i : Nat) :
    Option GoString :=
  switchCases w s p.typeName p.nameCases i

/-- The generated method `Description` of the multiple-runs shape. -/
def MultipleRuns.Description (w : Nat) (s : Bool) (p : MultipleRuns) (i : Nat) :
    Option GoString :=
  switchCases w s p.typeName p.descCases i

/-! ## Interpreted string literals

`declareNameVars` prints the concatenated texts with `%s` between two double
quotes.  What the Go compiler makes of such a text is fixed by the language
specification (section "String literals"); `interpreted` follows it: a raw
double quote or newline ends the literal too early, and a backslash starts an
escape sequence. -/

/-- The value of a hexadecimal digit. -/
def hexDigit (b : UInt8) : Option Nat :=
  if 48 ≤ b ∧ b ≤ 57 then some (b.toNat - 48)
  else if 97 ≤ b ∧ b ≤ 102 then some (b.toNat - 87)
  else if 65 ≤ b ∧ b ≤ 70 then some (b.toNat - 55)
  else none

/-- The value of an octal digit. -/
def octDigit (b : UInt8) : Option Nat :=
  if 48 ≤ b ∧ b ≤ 55 then some (b.toNat - 48) else none

/-- The number written by the digits `ds` in the given base. -/
def numeral (base : Nat) (digit : UInt8 → Option Nat) (ds : List UInt8) : Option Nat :=
  ds.foldl (fun acc b =>
    match acc, digit b with
    | some a, some d => some (a * base + d)
    | _, _ => none) (some 0)

/-- The escapes `\a \b \f \n \r \t \v \\ \"` of a string literal. -/
def simpleEscape (e : UInt8) : Option UInt8 :=
  if e = 97 then some 7 else if e = 98 then some 8 else if e = 102 then some 12
  else if e = 110 then some 10 else if e = 114 then some 13 else if e = 116 then some 9
  else if e = 118 then some 11 else if e = 92 then some 92 else if e = 34 then some 34
  else none

/-- The UTF-8 bytes of the code point of a `\u` or `\U` escape; surrogate halves
and values above 0x10FFFF are illegal. -/
def runeBytes (c : Nat) : Option GoString :=
  if c < 0xD800 ∨ (0xDFFF < c ∧ c < 0x110000) then some (String.utf8EncodeChar (Char.ofNat c))
  else none

/-- The bytes denoted by the text between the quotes of an interpreted string
literal, read from the left with `n` steps left. -/
def interpretedAux : Nat → GoString → Option GoString
  | 0, _ => none
  | _ + 1, [] => some []
  | n + 1, b :: rest =>
    if b = 34 ∨ b = 10 then none
    else if b = 92 then
      match rest with
      | [] => none
      | e :: r =>
        match simpleEscape e with
        | some c => (interpretedAux n r).map (fun t => c :: t)
        | none =>
          if e = 120 then
            match r with
            | h1 :: h2 :: r2 =>
              match numeral 16 hexDigit [h1, h2], interpretedAux n r2 with
              | some v, some t => some (UInt8.ofNat v :: t)
              | _, _ => none
            | _ => none
          else if e = 117 then
            match r with
            | h1 :: h2 :: h3 :: h4 :: r2 =>
              match (numeral 16 hexDigit [h1, h2, h3, h4]).bind runeBytes,
                    interpretedAux n r2 with
              | some bs, some t => some (bs ++ t)
              | _, _ => none
            | _ => none
          else if e = 85 then
            match r with
            | h1 :: h2 :: h3 :: h4 :: h5 :: h6 :: h7 :: h8 :: r2 =>
              match (numeral 16 hexDigit [h1, h2, h3, h4, h5, h6, h7, h8]).bind runeBytes,
                    interpretedAux n r2 with
              | some bs, some t => some (bs ++ t)
              | _, _ => none
            | _ => none
          else
            match r with
            | o2 :: o3 :: r2 =>
              match numeral 8 octDigit [e, o2, o3], interpretedAux n r2 with
              | some v, some t => if v ≤ 255 then some (UInt8.ofNat v :: t) else none
              | _, _ => none
            | _ => none
    else (interpretedAux n rest).map (fun t => b :: t)

/-- The string constant declared by `"<text>"`, when that is a string literal. -/
def interpreted (text : GoString) : Option GoString :=
  interpretedAux (text.length + 1) text

/-! ## The map shape -/

/-- The entries `<v>: _T_name[n:n+len(text)],` printed by one of the two nested
loops of `buildMap`, which visit the values of all runs in order; `n` is the
running offset. -/
def mapEntries (text : Value → GoString) : List Value → Nat → List (Value × Nat × Nat)
  | [], _ => []
  | v :: vs, n => (v, n, n + (text v).length) :: mapEntries text vs (n + (text v).length)

/-- What `buildMap` prints: the texts that `declareNameVars` writes between the
quotes of `_T_name = "..."` and `_T_desc_name = "..."`, and the entries of
`_T_map` and `_T_desc_map`. -/
structure MapShape where
  typeName : GoString
  nameText : GoString
  descText : GoString
  nameEntries : List (Value × Nat × Nat)
  descEntries : List (Value × Nat × Nat)
deriving DecidableEq, Repr

/-- Function `declareNameVars`: every name, then every description, printed
with `%s` one after the other. -/
def declareNameVars (runs : List (List Value)) : GoString × GoString :=
  ((runs.flatten.map (fun v => v.name)).flatten,
   (runs.flatten.map (fun v => v.description)).flatten)

/-- Function `buildMap`. -/
def buildMap (runs : List (List Value)) (typeName : GoString) : MapShape :=
  ⟨typeName, (declareNameVars runs).1, (declareNameVars runs).2,
    mapEntries (fun v => v.name) runs.flatten 0,
    mapEntries (fun v => v.description) runs.flatten 0⟩

/-- The value of a map literal `map[T]string{ v: const[lo:hi], ... }` over the
string constant declared by `"<text>"`: the keys with their strings.  The slice
bounds are constants, so the compiler checks them against the constant. -/
def mapLiteral (text : GoString) (entries : List (Value × Nat × Nat)) :
    Option (List (Nat × GoString)) :=
  match interpreted text with
  | none => none
  | some c => mapOpt (fun e => (slice? c e.2.1 e.2.2).map (fun str => (e.1.value, str))) entries

/-- The body shared by the templates `stringMap` and `stringDescMap`:
`if str, ok := m[i]; ok { return str }; return fallback`. -/
def stringMap (typeName : GoString) (m : List (Nat × GoString)) (i : Nat) : GoString :=
  match m.find? (fun kv => kv.1 == i) with
  | some kv => kv.2
  | none => fallback typeName i

/-- The generated method `String` of the map shape; the file holds both maps,
so there is a method only when both declarations are accepted. -/
def MapShape.String (p : MapShape) (i : Nat) : Option GoString :=
  match mapLiteral p.nameText p.nameEntries, mapLiteral p.descText p.descEntries with
  | some m, some _ => some (stringMap p.typeName m i)
  | _, _ => none

/-- The generated method `Description` of the map shape. -/
def MapShape.Description (p : MapShape) (i : Nat) : Option GoString :=
  match mapLiteral p.nameText p.nameEntries, mapLiteral p.descText p.descEntries with
  | some _, some m => some (stringMap p.typeName m i)
  | _, _ => none

/-! ## The choice of the shape -/

/-- The lookup code printed for one type. -/
inductive Lookup where
  | oneRun (p : OneRun)
  | multipleRuns (p : MultipleRuns)
  | map (p : MapShape)
deriving DecidableEq, Repr

/-- The output of `generate` up to the lookup code: the lines
`_ = x[<originalName> - <str>]` of the guard function and the lookup code. -/
structure Generated where
  guard : List (GoString × GoString)
  lookup : Lookup
deriving DecidableEq, Repr

/-- Method `generate`, from the collected `values` on: `none` is the exit through
`log.Fatalf` (or a panic of a builder). -/
def generate (typeName : GoString) (values : List Value) : Option Generated :=
  if values.length = 0 then none
  else
    let guard := values.map (fun v => (v.originalName, v.str))
    let runs := splitIntoRuns values
    if runs.length = 1 then
      (buildOneRun runs typeName).map (fun p => ⟨guard, Lookup.oneRun p⟩)
    else if runs.length ≤ 10 then
      (buildMultipleRuns runs typeName).map (fun p => ⟨guard, Lookup.multipleRuns p⟩)
    else some ⟨guard, Lookup.map (buildMap runs typeName)⟩

/-- The generated method `String`. -/
def Lookup.String (w : Nat) (s : Bool) : Lookup → Nat → Option GoString
  | Lookup.oneRun p, i => p.String w s i
  | Lookup.multipleRuns p, i => p.String w s i
  | Lookup.map p, i => p.String i

/-- The generated method `Description`. -/
def Lookup.Description (w : Nat) (s : Bool) : Lookup → Nat → Option GoString
  | Lookup.oneRun p, i => p.Description w s i
  | Lookup.multipleRuns p, i => p.Description w s i
  | Lookup.map p, i => p.Description i

/-- The three shapes of lookup code. -/
inductive Shape where
  | singleRun
  | multipleRuns
  | sparseMap
deriving DecidableEq, Repr

/-- The shape of a piece of lookup code. -/
def Lookup.shape : Lookup → Shape
  | Lookup.oneRun _ => Shape.singleRun
  | Lookup.multipleRuns _ => Shape.multipleRuns
  | Lookup.map _ => Shape.sparseMap

/-- Ten unsigned constants with the values 0, 2, ..., 18: ten runs of length 1. -/
def exTenRuns : List Value :=
  [mkU "E0" 0 "zero", mkU "E2" 2 "two", mkU "E4" 4 "four", mkU "E6" 6 "six",
   mkU "E8" 8 "eight", mkU "E10" 10 "ten", mkU "E12" 12 "twelve", mkU "E14" 14 "fourteen",
   mkU "E16" 16 "sixteen", mkU "E18" 18 "eighteen"]

/-- Eleven unsigned constants with the values 1, ..., 10 and 12: two runs. -/
def exTwoRuns : List Value :=
  [mkU "V1" 1 "", mkU "V2" 2 "", mkU "V3" 3 "", mkU "V4" 4 "", mkU "V5" 5 "", mkU "V6" 6 "",
   mkU "V7" 7 "", mkU "V8" 8 "", mkU "V9" 9 "", mkU "V10" 10 "", mkU "V12" 12 ""]

/-- Eleven unsigned constants with the values 0, 2, ..., 20; the comment of the
first one is `d`. -/
def exSparse (d : String) : List Value :=
  [mkU "E0" 0 d, mkU "E2" 2 "two", mkU "E4" 4 "four", mkU "E6" 6 "six", mkU "E8" 8 "eight",
   mkU "E10" 10 "ten", mkU "E12" 12 "twelve", mkU "E14" 14 "fourteen",
   mkU "E16" 16 "sixteen", mkU "E18" 18 "eighteen", mkU "E20" 20 "twenty"]

/-- The constants `X = 0, Y = 1, Z = 2` of an unsigned type. -/
def exXYZ : List Value := [mkU "X" 0 "ex", mkU "Y" 1 "why", mkU "Z" 2 "zed"]

/-- The constants `X = 0, Y = 1, Z = 2` of a signed type. -/
def exSignedXYZ : List Value := [mkS "X" 0 "ex", mkS "Y" 1 "why", mkS "Z" 2 "zed"]

/-- The seven constants of `examples/usage_without_ohno/example.go`, a signed
type with the values 100, ..., 106. -/
def exFabulous : List Value :=
  [mkS "NotFound" 100 "I didn't find what you were looking for!",
   mkS "AlreadyExists" 101 "I have this already!",
   mkS "Internal" 102 "Its not you, its me :(",
   mkS "Unknown" 103 "I don't know what happened",
   mkS "Busy" 104 "I'm busy rn, can we do this later?",
   mkS "Unauthorised" 105 "You ain't got the creds to do this",
   mkS "Fatal" 106 "Help!!! Im dying!!!"]

/-- All 256 values of an 8-bit unsigned type, `V0 = 0` to `V255 = 255`. -/
def exByte : List Value :=
  (List.range 256).map (fun k => mkU ("V" ++ toString k) k "")

/-- The constants `V0 = 0` to `V127 = 127` of an 8-bit signed type. -/
def exInt8 : List Value :=
  (List.range 128).map (fun k => mkS ("V" ++ toString k) k "")

/-- The constants `M2 = -2` and `V0 = 0` to `V127 = 127` of an 8-bit signed
type: two runs. -/
def exInt8Two : List Value := mkS "M2" (-2) "" :: exInt8

/-- The fallback text in the words of the specification: the type name and, in
parentheses, the base-10 rendering of the value `v` of the type. -/
def fallbackAsStated (typeName : GoString) (s : Bool) (v : Nat) : GoString :=
  typeName ++ utf8 "(" ++ utf8 (toString (key s v)) ++ utf8 ")"

/-- A text without a double quote, a backslash or a newline: between two double
quotes it is a string literal that denotes itself. -/
def Plain (t : GoString) : Prop := ∀ b ∈ t, b ≠ 34 ∧ b ≠ 92 ∧ b ≠ 10

instance (t : GoString) : Decidable (Plain t) := by unfold Plain; infer_instance

/-- The declarations that `createIndexAndNameDecl` (with `text` the name) and
`createIndexAndNameDescDecl` (with `text` the description) return. -/
def tableOf (text : Value → GoString) (run : List Value) : IndexAndName :=
  let r := writeAll text run []
  ⟨r.2, usize r.2.length, 0 :: r.1⟩

/-! ## The other generated methods -/

/-- The call `strconv.FormatUint(x, base)`: the digits of `x` in the base, with
lower-case letters for the digits from ten on. -/
def FormatUint (x : Nat) (base : Nat) : GoString := utf8 (String.mk (Nat.toDigits base x))

/-- The call `strconv.FormatInt(x, base)` for any base: a minus sign and the
digits of the magnitude for a negative number. -/
def FormatIntBase (x : Int) (base : Nat) : GoString :=
  if x < 0 then utf8 "-" ++ FormatUint x.natAbs base else FormatUint x.toNat base

/-- The `switch *codeBaseFlag` of `main`: the text put in front of the
`strconv` call of `Code`, kept as the string it denotes (`"0x" + ` is "0x");
`none` is the `default:` branch that stops with `log.Fatalf`. -/
def codeBasePrefixString (codeBase : Int) : Option GoString :=
  if codeBase = 2 then some (utf8 "0b")
  else if codeBase = 8 then some (utf8 "0o")
  else if codeBase = 10 then some (utf8 "")
  else if codeBase = 16 then some (utf8 "0x")
  else none

/-- Type `Package`: the name of the loaded package, and, in place of the syntax
trees, the constants that the walk with `genDecl` collects for a type name
(an error when `genDecl` stops with `log.Fatalf`). -/
structure Package where
  name : GoString
  values : GoString → Except GoString (List Value)

/-- Type `Generator`, without the output buffer. -/
structure Generator where
  pkg : Package
  trimPrefix : GoString
  lineComment : Bool
  ohnoEnable : Bool
  codeBase : Int
  codeBasePrefix : GoString

/-- Everything `generate` prints for one type: the guard and the lookup code,
then `errFunc`, `pkgFunc` with the package name, `codeFunc` with the conversion
(`FormatInt` and `int64` when `signed`, `FormatUint` and `uint64` otherwise),
the base and its prefix, and `ohNoFunc` when the flag is set. -/
structure Methods where
  typeName : GoString
  generated : Generated
  package : GoString
  signed : Bool
  codeBase : Int
  codeBasePrefix : GoString
  ohNo : Bool
deriving DecidableEq

/-- Method `generate` as a whole.  It stops with `log.Fatalf` when no constant
of the type was found; `signed` is read from `values[0]` before the sort. -/
def Generator.generate (g : Generator) (typeName : GoString) : Except GoString Methods :=
  match g.pkg.values typeName with
  | Except.error msg => Except.error msg
  | Except.ok values =>
    if values.length = 0 then
      Except.error (utf8 "no values defined for type " ++ typeName)
    else
      match Ohnogen.generate typeName values with
      | none => Except.error (utf8 "index out of range")
      | some gen =>
        Except.ok ⟨typeName, gen, g.pkg.name, (values.headD Value.zero).signed, g.codeBase,
          g.codeBasePrefix, g.ohnoEnable⟩

/-- The generated method `String`. -/
def Methods.String (w : Nat) (s : Bool) (m : Methods) (i : Nat) : Option GoString :=
  m.generated.lookup.String w s i

/-- The generated method `Description`. -/
def Methods.Description (w : Nat) (s : Bool) (m : Methods) (i : Nat) : Option GoString :=
  m.generated.lookup.Description w s i

/-- The generated method `Package` (`pkgFunc`): the constant string. -/
def Methods.Package (m : Methods) : GoString := m.package

/-- The generated method `Code` (`codeFunc`):
`return <prefix> + strconv.FormatInt(int64(i), <base>)`, or the same with
`FormatUint` and `uint64`. -/
def Methods.Code (m : Methods) (i : Nat) : GoString :=
  m.codeBasePrefix ++
    (if m.signed then FormatIntBase (int64 i) m.codeBase.toNat
     else FormatUint i m.codeBase.toNat)

/-- The generated method `Error` (`errFunc`):
`"[" + i.Code() + "]" + i.Package() + "." + i.String() + ": " + i.Description()`. -/
def Methods.Error (w : Nat) (s : Bool) (m : Methods) (i : Nat) : Option GoString :=
  match m.String w s i, m.Description w s i with
  | some name, some desc =>
    some (utf8 "[" ++ m.Code i ++ utf8 "]" ++ m.Package ++ utf8 "." ++ name ++ utf8 ": " ++ desc)
  | _, _ => none

/-! ## The guard function -/

/-- The value of a decimal digit. -/
def decDigit (b : UInt8) : Option Nat :=
  if 48 ≤ b ∧ b ≤ 57 then some (b.toNat - 48) else none

/-- The integer written by a literal as the go/constant package prints an
integer constant: decimal digits, with a minus sign for a negative value. -/
def atoi (lit : GoString) : Option Int :=
  match lit with
  | [] => none
  | b :: ds =>
    if b = 45 then
      if ds = [] then none else (numeral 10 decDigit ds).map (fun n => -(n : Int))
    else (numeral 10 decDigit (b :: ds)).map (fun n => (n : Int))

/-- The index of the guard line `_ = x[<name> - <literal>]`, a constant
expression, when the constants have the values `current` at the time the
generated file is compiled. -/
def guardIndex (current : GoString → Int) (line : GoString × GoString) : Option Int :=
  (atoi line.2).map (fun recorded => current line.1 - recorded)

/-- A constant index into an array of length `len` is accepted by the compiler
when it is in range; otherwise the build fails with "invalid array index". -/
def inBounds (len : Nat) (idx : Int) : Prop := 0 ≤ idx ∧ idx < (len : Int)

instance (len : Nat) (idx : Int) : Decidable (inBounds len idx) := by
  unfold inBounds; infer_instance

/-! ## The command -/

/-- The call `strings.Split(s, sep)` for a one-byte separator. -/
def splitOn (sep : UInt8) : GoString → List GoString
  | [] => [[]]
  | b :: rest =>
    if b = sep then [] :: splitOn sep rest
    else
      match splitOn sep rest with
      | [] => [[b]]
      | w :: ws => (b :: w) :: ws

/-- The flags of the command (`typeNames`, `output`, `trimprefix`, `ohnoFlag`,
`codeBaseFlag`, `buildTags`). -/
structure Flags where
  typeNames : GoString
  output : GoString
  trimPrefixFlag : GoString
  ohnoFlag : Bool
  codeBaseFlag : Int
  buildTags : GoString

/-- What a run of the command meets outside of it: `argsError` is the message
of the fatal error in the handling of the arguments (`isDirectory`, or `-tags`
given with file names), `load` the result of `parsePackage`, `writeError` the
error of `os.WriteFile`. -/
structure World where
  argsError : Option GoString
  load : Except GoString Package
  writeError : Option GoString

/-- The steps of a run that reach outside or produce output. -/
inductive Event where
  | parsePackage
  | generate (typeName : GoString)
  | writeFile (methods : List Methods)
deriving DecidableEq

/-- How a run ends: `flag.Usage()` with `os.Exit(2)`, `log.Fatalf` with its
message, or the return from `main`. -/
inductive Exit where
  | usage
  | fatal (msg : GoString)
  | success
deriving DecidableEq

/-- A run of the command: its events in order, and its end. -/
structure Run where
  events : List Event
  exit : Exit
deriving DecidableEq

/-- The loop `for _, typeName := range types { g.generate(typeName) }`: the
events, and the output gathered in the buffer or the message of the fatal
error. -/
def generateTypes (g : Generator) :
    List GoString → List Methods → List Event × Except GoString (List Methods)
  | [], out => ([], Except.ok out)
  | t :: ts, out =>
    match g.generate t with
    | Except.error msg => ([Event.generate t], Except.error msg)
    | Except.ok m =>
      let r := generateTypes g ts (out ++ [m])
      (Event.generate t :: r.1, r.2)

/-- Function `main`. -/
def main (flags : Flags) (world : World) : Run :=
  if flags.typeNames.length = 0 then ⟨[], Exit.usage⟩
  else
    match codeBasePrefixString flags.codeBaseFlag with
    | none =>
      ⟨[], Exit.fatal (utf8 "formatbase can only be one of 2,8,10,16 current value = " ++
        FormatInt flags.codeBaseFlag)⟩
    | some pre =>
      match world.argsError with
      | some msg => ⟨[], Exit.fatal msg⟩
      | none =>
        match world.load with
        | Except.error msg => ⟨[Event.parsePackage], Exit.fatal msg⟩
        | Except.ok pkg =>
          let g : Generator :=
            ⟨pkg, flags.trimPrefixFlag, true, flags.ohnoFlag, flags.codeBaseFlag, pre⟩
          let r := generateTypes g (splitOn 44 flags.typeNames) []
          match r.2 with
          | Except.error msg => ⟨Event.parsePackage :: r.1, Exit.fatal msg⟩
          | Except.ok ms =>
            match world.writeError with
            | some err =>
              ⟨Event.parsePackage :: r.1 ++ [Event.writeFile ms],
                Exit.fatal (utf8 "writing output: " ++ err)⟩
            | none => ⟨Event.parsePackage :: r.1 ++ [Event.writeFile ms], Exit.success⟩

/-- The package of `examples/usage_without_ohno/example.go`. -/
def exFabulousPackage : Package :=
  ⟨utf8 "usage_without_ohno",
    fun t => if t = utf8 "MyFabulousError" then Except.ok exFabulous else Except.ok []⟩

/-- The generator of `go run ../../cmd/ohnogen/main.go -type=MyFabulousError
-formatbase=16 -output=example_errors.go`. -/
def exFabulousGenerator : Generator :=
  ⟨exFabulousPackage, [], true, false, 16, utf8 "0x"⟩

/-- The constants that `genDecl` collects from the example in the package
documentation, type `MyError` of package `somepkg`.  The last line of the
example, `Unknown = Internal`, has a value and no type, and its value is no
conversion `MyError(...)`: `genDecl` resets the remembered type and skips the
line, so four constants are collected (see `genDeclSpecs`). -/
def exMyError : List Value :=
  [mkS "NotFound" 0 "Requested resource was not found",
   mkS "Timeout" 1 "Operation timed out",
   mkS "AlreadyExists" 2 "Resource already exists",
   mkS "Internal" 3 "An internal error occurred"]

/-- The generator of the package documentation for `MyError`, for a base and
its prefix. -/
def exMyErrorGenerator (codeBase : Int) (pre : String) : Generator :=
  ⟨⟨utf8 "somepkg", fun t => if t = utf8 "MyError" then Except.ok exMyError else Except.ok []⟩,
    [], true, true, codeBase, utf8 pre⟩

/-- What `ohnogen -type=MyError -ohno` prints for the example of the package
documentation, with the default formatbase 10. -/
def exMyErrorMethods : Methods :=
  ⟨utf8 "MyError",
    ⟨exMyError.map (fun v => (v.originalName, v.str)),
      Lookup.oneRun ⟨utf8 "MyError", createIndexAndNameDecl exMyError,
        createIndexAndNameDescDecl exMyError, true, none⟩⟩,
    utf8 "somepkg", true, 10, utf8 "", true⟩

/-! ## The constants read by `genDecl` -/

/-- The call `strings.HasPrefix(s, p)`:
`len(s) >= len(p) && s[:len(p)] == p`. -/
def HasPrefix (s p : GoString) : Bool :=
  decide (p.length ≤ s.length) && decide (s.take p.length = p)

/-- The call `strings.TrimPrefix(s, p)`: `s` without the leading `p`, or `s`
itself when it does not start with `p`. -/
def TrimPrefix (s p : GoString) : GoString :=
  if HasPrefix s p then s.drop p.length else s

/-- One constant of the wanted type as `genDecl` gets it from the syntax tree
and the type checker: `name.Name`, the pattern `u64`, whether the underlying
type is unsigned (`info&types.IsUnsigned != 0`), the literal `value.String()`,
and the trimmed text of the line comment when the declaration has a comment
group of exactly one comment. -/
structure Constant where
  name : GoString
  u64 : Nat
  isUnsigned : Bool
  str : GoString
  comment : Option GoString
deriving DecidableEq, Repr

/-- The `Value` that `genDecl` appends to `f.values` for one constant: the
composite literal, the description when `f.lineComment` is set, and the name
with `f.trimPrefix` taken off. -/
def genDeclValue (trimPrefix : GoString) (lineComment : Bool) (c : Constant) : Value :=
  let v : Value := ⟨c.name, [], c.u64, !c.isUnsigned, c.str, []⟩
  let v : Value :=
    match lineComment, c.comment with
    | true, some text => { v with description := text }
    | _, _ => v
  { v with name := TrimPrefix v.originalName trimPrefix }

/-- One `ValueSpec` of a constant declaration, as far as `genDecl` looks at it:
the type (`none` when `vspec.Type` is nil, `some none` when it is no identifier,
`some (some T)` for the identifier `T`), whether values are written, the
function name when `vspec.Values[0]` is the call of an identifier (a conversion
such as `T(1)`), and the constants of its names, the blank identifier left
out. -/
structure ValueSpec where
  typ : Option (Option GoString)
  hasValues : Bool
  conversion : Option GoString
  names : List Constant
deriving DecidableEq, Repr

/-- The loop `for _, spec := range decl.Specs` of `genDecl`, started with the
remembered type `typ`.  A line with values and no type resets the remembered
type and is skipped unless its first value is a conversion; a line whose type
is no identifier is skipped; a line of another type than `f.typeName` is
skipped; the constants of the other lines are appended to `f.values`. -/
def genDeclSpecs (typeName trimPrefix : GoString) (lineComment : Bool) :
    GoString → List ValueSpec → List Value
  | _, [] => []
  | typ, vspec :: rest =>
    let collect := fun (t : GoString) =>
      if t ≠ typeName then genDeclSpecs typeName trimPrefix lineComment t rest
      else vspec.names.map (genDeclValue trimPrefix lineComment) ++
        genDeclSpecs typeName trimPrefix lineComment t rest
    match vspec.typ with
    | none =>
      if vspec.hasValues then
        match vspec.conversion with
        | none => genDeclSpecs typeName trimPrefix lineComment [] rest
        | some f => collect f
      else collect typ
    | some none => genDeclSpecs typeName trimPrefix lineComment typ rest
    | some (some ident) => collect ident

/-- The constant declaration of the example in the package documentation:
`NotFound MyError = iota`, three lines without type and value, and
`Unknown = Internal`. -/
def exMyErrorSpecs : List ValueSpec :=
  [⟨some (some (utf8 "MyError")), true, none,
      [⟨utf8 "NotFound", 0, false, utf8 "0", some (utf8 "Requested resource was not found")⟩]⟩,
   ⟨none, false, none,
      [⟨utf8 "Timeout", 1, false, utf8 "1", some (utf8 "Operation timed out")⟩]⟩,
   ⟨none, false, none,
      [⟨utf8 "AlreadyExists", 2, false, utf8 "2", some (utf8 "Resource already exists")⟩]⟩,
   ⟨none, false, none,
      [⟨utf8 "Internal", 3, false, utf8 "3", some (utf8 "An internal error occurred")⟩]⟩,
   ⟨none, true, none,
      [⟨utf8 "Unknown", 3, false, utf8 "3", some (utf8 "An unknown error occurred")⟩]⟩]

/-- The declaration `v` as `genDecl` would have stored it under another
`trimPrefix`: only the field `name` is computed again. -/
def retrim (trimPrefix : GoString) (v : Value) : Value :=
  { v with name := TrimPrefix v.originalName trimPrefix }

/-- Constants `ErrNotFound = 0`, `ErrBusy = 1`, `Fatal = 3` of an unsigned type. -/
def exPrefixed : List Constant :=
  [⟨utf8 "ErrNotFound", 0, true, utf8 "0", some (utf8 "not found")⟩,
   ⟨utf8 "ErrBusy", 1, true, utf8 "1", some (utf8 "busy")⟩,
   ⟨utf8 "Fatal", 3, true, utf8 "3", none⟩]

/-! ## The declarations of the tables -/

/-- The declarations printed in front of the methods of the single-run and of
the multiple-runs shape.  `names` and `dNames` are the `const` block, an entry
standing for `_T_name<suffix> = <text>` or `_T_desc_name<suffix> = <text>`;
`indexes` and `dIndexes` are the `var` block, an entry standing for
`_T_index<suffix> = [...]uint<bits>{<elements>}` or its `_desc_` twin.  The
suffix is `none` for the empty suffix and `some k` for `_k`. -/
structure Declarations where
  names : List (Option Nat × GoString)
  dNames : List (Option Nat × GoString)
  indexes : List (Option Nat × Nat × List Nat)
  dIndexes : List (Option Nat × Nat × List Nat)
deriving DecidableEq, Repr

/-- The loop `for i, run := range runs` of `declareIndexAndNameVars`, from the
run number `i` on: the index declarations are appended only when
`len(run) != 1`, the constants always. -/
def declareIndexAndNameVarsLoop : Nat → List (List Value) → Declarations → Declarations
  | _, [], d => d
  | i, run :: runs, d =>
    let t := createIndexAndNameDecl run
    let dt := createIndexAndNameDescDecl run
    let indexes := if run.length ≠ 1 then d.indexes ++ [(some i, t.bits, t.index)] else d.indexes
    let dIndexes :=
      if run.length ≠ 1 then d.dIndexes ++ [(some i, dt.bits, dt.index)] else d.dIndexes
    declareIndexAndNameVarsLoop (i + 1) runs
      ⟨d.names ++ [(some i, t.name)], d.dNames ++ [(some i, dt.name)], indexes, dIndexes⟩

/-- Function `declareIndexAndNameVars`, called by `buildMultipleRuns` with all
the runs. -/
def declareIndexAndNameVars (runs : List (List Value)) : Declarations :=
  declareIndexAndNameVarsLoop 0 runs ⟨[], [], [], []⟩

/-- Function `declareIndexAndNameVar`, the single-run version, called by
`buildOneRun` with `runs[0]`: both constants and both index arrays are printed. -/
def declareIndexAndNameVar (run : List Value) : Declarations :=
  let t := createIndexAndNameDecl run
  let dt := createIndexAndNameDescDecl run
  ⟨[(none, t.name)], [(none, dt.name)], [(none, t.bits, t.index)], [(none, dt.bits, dt.index)]⟩

/-! # The packages `sourceinfo` and `ohno`

The second half of the repository is the runtime that wraps a generated
constant: `pkg/sourceinfo/source_info.go`, `pkg/ohno/ohno_error.go` and
`pkg/ohno/ohno_join_error.go`.  What the standard library does for them
(`time.Time.Format`, `runtime.Callers`, `encoding/json`) is a parameter of the
definitions below. -/

/-! ## Package `sourceinfo` -/

/-- Type `SourceInformation`. -/
structure SourceInformation where
  File : GoString
  Function : GoString
  Line : Int
deriving DecidableEq, Repr

/-- Method `String` of `SourceInformation`; `strconv.Itoa` is the decimal
rendering. -/
def SourceInformation.String (s : SourceInformation) : GoString :=
  let funcName : GoString := if s.Function ≠ [] then utf8 " (" ++ s.Function ++ utf8 ")" else []
  s.File ++ utf8 ":" ++ FormatInt s.Line ++ funcName ++ utf8 ":"

/-- Type `SourceInfoType`, an `int`. -/
abbrev SourceInfoType := Int

/-- Source information won't be retrieved. -/
def NoSourceInfo : SourceInfoType := 0

/-- Full file name and line number. -/
def FullFileAndLine : SourceInfoType := 1

/-- Full file name and line number with function name. -/
def FullFileAndLineWithFunc : SourceInfoType := 2

/-- Short file name and line number. -/
def ShortFileAndLine : SourceInfoType := 3

/-- Short file name and line number with function name. -/
def ShortFileAndLineWithFunc : SourceInfoType := 4

/-- Constant `DefaultCallDepth`. -/
def DefaultCallDepth : Int := 1

/-- The fields of a `runtime.Frame` that `GetSourceInformation` reads. -/
structure Frame where
  PC : Nat
  File : GoString
  Function : GoString
  Line : Int
deriving DecidableEq, Repr

/-- The call stack at a call of `GetSourceInformation`, as the package
`runtime` shows it: `callers skip` is the number that
`runtime.Callers(skip, rpc)` returns for a slice `rpc` of length 1, and
`frame skip` is the frame that `runtime.CallersFrames(rpc).Next()` returns
after it. -/
structure Stack where
  callers : Int → Nat
  frame : Int → Frame

/-- The calls into the package `runtime`. -/
inductive RuntimeCall where
  | Callers (skip : Int)
  | CallersFrames (skip : Int)
deriving DecidableEq, Repr

/-- The call `path.Base(p)` of the standard library: the last element of the
path, after the trailing slashes are removed; "." for the empty path and "/"
for a path of slashes only. -/
def path.Base (p : GoString) : GoString :=
  if p = [] then utf8 "."
  else
    let stripped := (p.reverse.dropWhile (fun b => b == 47)).reverse
    let last := (stripped.reverse.takeWhile (fun b => b != 47)).reverse
    if last = [] then utf8 "/" else last

/-- Function `GetSourceInformation`: the calls it makes into `runtime`, and the
pointer it returns (`none` is the nil pointer). -/
def GetSourceInformation (stack : Stack) (callDepth : Int) (sourceInfoType : SourceInfoType) :
    List RuntimeCall × Option SourceInformation :=
  if sourceInfoType = NoSourceInfo then ([], none)
  else
    let callDepth := if callDepth = 0 then DefaultCallDepth else callDepth
    let n := stack.callers (callDepth + 1)
    if n < 1 then ([RuntimeCall.Callers (callDepth + 1)], none)
    else
      let frame := stack.frame (callDepth + 1)
      let calls := [RuntimeCall.Callers (callDepth + 1), RuntimeCall.CallersFrames (callDepth + 1)]
      if frame.PC = 0 then (calls, none)
      else
        let sourceInfo : SourceInformation := ⟨frame.File, [], frame.Line⟩
        let sourceInfo : SourceInformation :=
          if sourceInfoType = ShortFileAndLine ∨ sourceInfoType = ShortFileAndLineWithFunc then
            { sourceInfo with File := path.Base frame.File }
          else sourceInfo
        let sourceInfo : SourceInformation :=
          if sourceInfoType = ShortFileAndLineWithFunc ∨
              sourceInfoType = FullFileAndLineWithFunc then
            { sourceInfo with Function := frame.Function }
          else sourceInfo
        (calls, some sourceInfo)

/-- The stack of the call `Fatal.OhNo(...)` in `Foo` of `example_test.go`, seen
from `ohno.New` with the call depth `DefaultCallDepth + 1`: one frame, line 23
of the test file (the directory is the one of a checkout in `/src/ohno`). -/
def exStack : Stack :=
  ⟨fun _ => 1,
    fun _ => ⟨4198400, utf8 "/src/ohno/examples/usage_with_ohno/example_test.go",
      utf8 "github.com/A-0-5/ohno/examples/usage_with_ohno_test.Foo", 23⟩⟩

/-- A stack on which no frame can be read. -/
def exNoStack : Stack := ⟨fun _ => 0, fun _ => ⟨0, [], [], 0⟩⟩

/-! ## Package `ohno`: the error values -/

/-- A `time.Time`: the seconds since January 1, year 1, 00:00:00 UTC, and the
nanoseconds within the second. -/
structure Time where
  sec : Int
  nsec : Nat
deriving DecidableEq, Repr

/-- Method `IsZero` of `time.Time`: `t.sec() == 0 && t.nsec() == 0`. -/
def Time.IsZero (t : Time) : Bool := t.sec == 0 && t.nsec == 0

/-- The call `time.Unix(sec, 0)`: 62135596800 seconds lie between the year 1
and 1970. -/
def Time.Unix (sec : Int) : Time := ⟨sec + 62135596800, 0⟩

/-- Constant `time.RFC3339Nano`. -/
def RFC3339Nano : GoString := utf8 "2006-01-02T15:04:05.999999999Z07:00"

/-- Constant `time.DateTime`. -/
def DateTime : GoString := utf8 "2006-01-02 15:04:05"

/-- A value of type `any` that is not nil, kept as the text that the package
`fmt` prints for it with the verb `%+v`. -/
structure Any where
  plusV : GoString
deriving DecidableEq, Repr

/-- An error value whose type implements `ohnoer.OhNoer`, kept as its dynamic
type, a number that tells the values of the type apart, whether the type is
comparable, and what its methods `Error`, `Package`, `Code`, `String` and
`Description` return. -/
structure OhNoer where
  dynType : GoString
  value : Nat
  comparable : Bool
  Error : GoString
  Package : GoString
  Code : GoString
  String : GoString
  Description : GoString
deriving DecidableEq, Repr

/-- The value `i` of a type of `w` bits generated by `ohnogen`, with the methods
of the generated file. -/
def Methods.ohnoer (w : Nat) (m : Methods) (i : Nat) : Option OhNoer :=
  match m.Error w m.signed i, m.String w m.signed i, m.Description w m.signed i with
  | some e, some n, some d =>
    some ⟨m.package ++ utf8 "." ++ m.typeName, i, true, e, m.Package, m.Code i, n, d⟩
  | _, _, _ => none

/-- Type `OhNoError`, over the type `E` of the values of the interface `error`. -/
structure OhNoErrorOf (E : Type) where
  ErrorCode : E
  Message : GoString
  Extra : Option Any
  Cause : E
  SourceInfo : Option SourceInformation
  Timestamp : Time
  TimestampLayout : GoString

/-- Type `OhNoJoinError`, over the type `E` of the values of the interface
`error`. -/
structure OhNoJoinErrorOf (E : Type) where
  Errors : List E

/-- The values of the interface `error`: the nil interface; a value that
implements `OhNoer`; a pointer to an error of another package that has the
method `Error` only (`errors.New`), or also `Unwrap() error` (`fmt.Errorf`
with `%w`), or also `Unwrap() []error` (`errors.Join`), each kept with the text
of its `Error()`; a pointer to an `OhNoError`; a pointer to an
`OhNoJoinError`.  A pointer is kept as the struct it points to. -/
inductive GoError where
  | nil
  | ohnoer (c : OhNoer)
  | plain (text : GoString)
  | wrap (text : GoString) (inner : GoError)
  | multi (text : GoString) (errs : List GoError)
  | ohNo (o : OhNoErrorOf GoError)
  | join (j : OhNoJoinErrorOf GoError)

/-- Type `OhNoError`. -/
abbrev OhNoError := OhNoErrorOf GoError

/-- Type `OhNoJoinError`. -/
abbrev OhNoJoinError := OhNoJoinErrorOf GoError

/-- The test `err == nil` on an interface value. -/
def GoError.isNil : GoError → Bool
  | GoError.nil => true
  | _ => false

/-- Constant `separator`. -/
def separator : GoString := utf8 " "

/-- Constant `commaSeparator`. -/
def commaSeparator : GoString := utf8 ", "

/-- Constant `newline`. -/
def newline : GoString := utf8 "\n"

/-- Constant `newlineTab`. -/
def newlineTab : GoString := utf8 "\n-> "

/-- The statements of the method `Error` of `OhNoError`, with the
`strings.Builder` `ob`.  The two calls that leave the struct come in as
results: `code` is `o.ErrorCode.Error()`, `causeText` is `o.Cause.Error()`, read
only when `causeNil` is false; `none` is the panic of a call on the nil
interface.  The assignment `o.TimestampLayout = time.RFC3339Nano` changes the
receiver and not the text: `layout` is the field after it. -/
def OhNoError.writeError (format : Time → GoString → GoString) (message : GoString)
    (extra : Option Any) (sourceInfo : Option SourceInformation) (timestamp : Time)
    (timestampLayout : GoString) (code : Option GoString) (causeNil : Bool)
    (causeText : Option GoString) : Option GoString :=
  let ob : GoString := []
  let ob :=
    if !timestamp.IsZero then
      let layout := if timestampLayout = [] then RFC3339Nano else timestampLayout
      ob ++ format timestamp layout ++ separator
    else ob
  let ob :=
    match sourceInfo with
    | some s => ob ++ s.String ++ separator
    | none => ob
  match code with
  | none => none
  | some code =>
    let ob := ob ++ code
    let ob := if message ≠ [] then ob ++ commaSeparator ++ message else ob
    let ob :=
      match extra with
      | some x => ob ++ commaSeparator ++ x.plusV
      | none => ob
    if !causeNil then
      match causeText with
      | none => none
      | some text => some (ob ++ newlineTab ++ text)
    else some ob

mutual
/-- The method `Error` of an `error` value; `none` is the panic of a call on
the nil interface.  `format` is `time.Time.Format`. -/
def GoError.Error (format : Time → GoString → GoString) : GoError → Option GoString
  | GoError.nil => none
  | GoError.ohnoer c => some c.Error
  | GoError.plain text => some text
  | GoError.wrap text _ => some text
  | GoError.multi text _ => some text
  | GoError.ohNo o => OhNoError.Error format o
  | GoError.join j => OhNoJoinError.Error format j
/-- Method `Error` of `OhNoError`: the statements of `OhNoError.writeError`
around the calls `o.ErrorCode.Error()` and `o.Cause.Error()`. -/
def OhNoError.Error (format : Time → GoString → GoString) : OhNoError → Option GoString
  | ⟨errorCode, message, extra, cause, sourceInfo, timestamp, timestampLayout⟩ =>
    OhNoError.writeError format message extra sourceInfo timestamp timestampLayout
      (GoError.Error format errorCode) cause.isNil (GoError.Error format cause)
/-- Method `Error` of `OhNoJoinError`. -/
def OhNoJoinError.Error (format : Time → GoString → GoString) : OhNoJoinError → Option GoString
  | ⟨errs⟩ => joinLoop format errs 0 []
/-- The loop `for i, err := range oj.Errors` of `OhNoJoinError.Error`, from the
index `i` on, with the bytes `b` gathered so far. -/
def joinLoop (format : Time → GoString → GoString) :
    List GoError → Nat → GoString → Option GoString
  | [], _, b => some b
  | err :: rest, i, b =>
    let b := if i > 0 then b ++ [10] else b
    match GoError.Error format err with
    | none => none
    | some text => joinLoop format rest (i + 1) (b ++ text)
end

/-! ## Examples of the package `ohno` -/

/-- A number with two decimal digits. -/
def twoDigits (n : Nat) : GoString := utf8 (String.mk [Nat.digitChar (n / 10 % 10), Nat.digitChar (n % 10)])

/-- The year, month and day of the day number `n`, counted from January 1 of
the year 1 (proleptic Gregorian calendar). -/
def civil (n : Nat) : Nat × Nat × Nat :=
  let z := n + 306
  let era := z / 146097
  let doe := z % 146097
  let yoe := (doe - doe / 1460 + doe / 36524 - doe / 146096) / 365
  let doy := doe - (365 * yoe + yoe / 4 - yoe / 100)
  let mp := (5 * doy + 2) / 153
  let d := doy - (153 * mp + 2) / 5 + 1
  let m := if mp < 10 then mp + 3 else mp - 9
  (yoe + era * 400 + (if m ≤ 2 then 1 else 0), m, d)

/-- What `time.Time.Format` prints, for a time in UTC with no fraction of a
second, for the two layouts of the examples, `time.DateTime` and
`time.RFC3339Nano`; the examples use no other layout, and for one the layout
itself stands in. -/
def exFormat (t : Time) (layout : GoString) : GoString :=
  let n := t.sec.toNat
  let c := civil (n / 86400)
  let date := twoDigits (c.1 / 100) ++ twoDigits c.1 ++ utf8 "-" ++ twoDigits c.2.1 ++
    utf8 "-" ++ twoDigits c.2.2
  let clock := twoDigits (n % 86400 / 3600) ++ utf8 ":" ++ twoDigits (n % 3600 / 60) ++
    utf8 ":" ++ twoDigits (n % 60)
  if layout = DateTime then date ++ utf8 " " ++ clock
  else if layout = RFC3339Nano then date ++ utf8 "T" ++ clock ++ utf8 "Z"
  else layout

/-- The fraction of a second as `time.Time.Format` prints it for the layout
element ".999999999" (package `time`: a decimal point followed by nines stands
for a fractional second with the trailing zeros removed): the nine digits of
the nanoseconds without their trailing zeros, and nothing at all, the decimal
point included, when the nanoseconds are zero. -/
def fractionNines (nsec : Nat) : GoString :=
  if nsec % 1000000000 = 0 then []
  else
    let digits := (Nat.toDigits 10 (1000000000 + nsec % 1000000000)).drop 1
    utf8 (String.mk ('.' :: (digits.reverse.dropWhile (fun c => c == '0')).reverse))

/-- What `time.Time.Format` prints for the layout ".999999999", the fraction of
the second alone; for the layouts of the examples see `exFormat`. -/
def exFormatFraction (t : Time) (layout : GoString) : GoString :=
  if layout = utf8 ".999999999" then fractionNines t.nsec else exFormat t layout

/-- The methods generated for the type `MyFabulousOhNoError` of the package
`examples/usage_with_ohno`, whose constants are those of
`examples/usage_without_ohno` (formatbase 16, with `-ohno`). -/
def exOhNoGenerator : Generator :=
  ⟨⟨utf8 "usage_with_ohno",
      fun t => if t = utf8 "MyFabulousOhNoError" then Except.ok exFabulous else Except.ok []⟩,
    [], true, true, 16, utf8 "0x"⟩

/-- The constant `usage_with_ohno.Fatal`. -/
def exFatal : OhNoer :=
  ⟨utf8 "usage_with_ohno.MyFabulousOhNoError", 106, true,
    utf8 "[0x6a]usage_with_ohno.Fatal: Help!!! Im dying!!!", utf8 "usage_with_ohno",
    utf8 "0x6a", utf8 "Fatal", utf8 "Help!!! Im dying!!!"⟩

/-- The constant `usage_with_ohno.Unknown`. -/
def exUnknown : OhNoer :=
  ⟨utf8 "usage_with_ohno.MyFabulousOhNoError", 103, true,
    utf8 "[0x67]usage_with_ohno.Unknown: I don't know what happened", utf8 "usage_with_ohno",
    utf8 "0x67", utf8 "Unknown", utf8 "I don't know what happened"⟩

/-- The constant `usage_with_ohno.Internal`. -/
def exInternal : OhNoer :=
  ⟨utf8 "usage_with_ohno.MyFabulousOhNoError", 102, true,
    utf8 "[0x66]usage_with_ohno.Internal: Its not you, its me :(", utf8 "usage_with_ohno",
    utf8 "0x66", utf8 "Internal", utf8 "Its not you, its me :("⟩

/-- The error that `Foo` of `example_test.go` returns. -/
def exFoo : OhNoError :=
  ⟨GoError.ohnoer exFatal, utf8 "something really bad happened",
    some ⟨utf8 "{BadStuff:some data here}"⟩, GoError.nil,
    some ⟨utf8 "example_test.go",
      utf8 "github.com/A-0-5/ohno/examples/usage_with_ohno_test.Foo", 23⟩,
    Time.Unix 0, DateTime⟩

/-- The error `myError` of `ExampleMyFabulousOhNoError_wrapUnwrap`, which wraps
the error of `Foo`. -/
def exWrapped : OhNoError :=
  ⟨GoError.ohnoer exUnknown, utf8 "Ive got no clue as to what happened", some ⟨utf8 "12345"⟩,
    GoError.ohNo exFoo, none, Time.Unix 300, DateTime⟩

/-- The error `myErr` of `ExampleMyFabulousOhNoError_join`. -/
def exInternalError : OhNoError :=
  ⟨GoError.ohnoer exInternal, utf8 "something went wrong", some ⟨utf8 "some data"⟩,
    GoError.nil, none, Time.Unix 300, DateTime⟩

/-! ## `errors.Is` and the method `Is` -/

/-- Whether the dynamic type of an error value is comparable
(`reflectlite.TypeOf(target).Comparable()`): pointers are. -/
def GoError.comparable : GoError → Bool
  | GoError.ohnoer c => c.comparable
  | _ => true

/-- The comparison `a == b` of two interface values: the dynamic types are the
same and the values are equal.  Two values that implement `OhNoer` are told
apart by type and number.  Two pointers are equal when they are the same
pointer, which the structs they point to do not tell: `samePointer` decides. -/
def GoError.equal (samePointer : GoError → GoError → Bool) : GoError → GoError → Bool
  | GoError.nil, GoError.nil => true
  | GoError.ohnoer a, GoError.ohnoer b => a.dynType == b.dynType && a.value == b.value
  | GoError.plain s, GoError.plain t => samePointer (GoError.plain s) (GoError.plain t)
  | GoError.wrap s a, GoError.wrap t b => samePointer (GoError.wrap s a) (GoError.wrap t b)
  | GoError.multi s a, GoError.multi t b => samePointer (GoError.multi s a) (GoError.multi t b)
  | GoError.ohNo a, GoError.ohNo b => samePointer (GoError.ohNo a) (GoError.ohNo b)
  | GoError.join a, GoError.join b => samePointer (GoError.join a) (GoError.join b)
  | _, _ => false

/-- The body of `errors.Is(err, target)` of the standard library:
`if err == nil || target == nil { return err == target }`, and the result
`loop` of the unexported `is` otherwise. -/
def errors.IsOf (errNil targetNil : Bool) (loop : Bool) : Bool :=
  if errNil || targetNil then errNil && targetNil else loop

mutual
/-- The unexported loop `is(err, target, targetComparable)` behind `errors.Is`:
`err == target` when the target is comparable; then the method `Is` of `err`,
which of the error values here only `*OhNoError` has (its body,
`OhNoError.Is`, stands in the line of `GoError.ohNo`); then the same for what
`Unwrap` returns, `false` when that is nil or when there is no `Unwrap`. -/
def errors.is (samePointer : GoError → GoError → Bool) (target : GoError) : GoError → Bool
  | GoError.nil => false
  | GoError.ohnoer c =>
    target.comparable && GoError.equal samePointer (GoError.ohnoer c) target
  | GoError.plain text =>
    target.comparable && GoError.equal samePointer (GoError.plain text) target
  | GoError.wrap text inner =>
    (target.comparable && GoError.equal samePointer (GoError.wrap text inner) target) ||
      errors.is samePointer target inner
  | GoError.multi text errs =>
    (target.comparable && GoError.equal samePointer (GoError.multi text errs) target) ||
      errors.isAny samePointer target errs
  | GoError.ohNo ⟨errorCode, message, extra, cause, sourceInfo, timestamp, timestampLayout⟩ =>
    (target.comparable && GoError.equal samePointer
        (GoError.ohNo ⟨errorCode, message, extra, cause, sourceInfo, timestamp,
          timestampLayout⟩) target) ||
      (if errorCode.isNil then false
        else errors.IsOf errorCode.isNil target.isNil
          (errors.is samePointer target errorCode)) ||
      errors.is samePointer target cause
  | GoError.join ⟨errs⟩ =>
    (target.comparable && GoError.equal samePointer (GoError.join ⟨errs⟩) target) ||
      errors.isAny samePointer target errs
/-- The loop `for _, err := range x.Unwrap()` of `is`. -/
def errors.isAny (samePointer : GoError → GoError → Bool) (target : GoError) :
    List GoError → Bool
  | [] => false
  | err :: rest => errors.is samePointer target err || errors.isAny samePointer target rest
end

/-- The call `errors.Is(err, target)` of the standard library. -/
def errors.Is (samePointer : GoError → GoError → Bool) (err target : GoError) : Bool :=
  errors.IsOf err.isNil target.isNil (errors.is samePointer target err)

/-- Method `Is` of `OhNoError`. -/
def OhNoError.Is (samePointer : GoError → GoError → Bool) (o : OhNoError) (target : GoError) :
    Bool :=
  if o.ErrorCode.isNil then false
  else errors.Is samePointer o.ErrorCode target

/-- Method `Unwrap` of `OhNoError`. -/
def OhNoError.Unwrap (o : OhNoError) : GoError := o.Cause

/-- Method `Unwrap` of `OhNoJoinError`. -/
def OhNoJoinError.Unwrap (oj : OhNoJoinError) : List GoError := oj.Errors

/-- No two pointers are the same: every error of the examples is its own
allocation and is compared with other values only. -/
def exDistinct : GoError → GoError → Bool := fun _ _ => false

/-! ## Flattening a chain of causes -/

mutual
/-- The second half of `removeCauseAndAppendRecursive`, from `if o.Cause == nil`
on, for the cause `o.Cause`: the recursive call for an `*OhNoError`, the
elements of an `*OhNoJoinError` or of another error with `Unwrap() []error`,
and the cause itself otherwise. -/
def GoError.appendCause : GoError → List GoError → List GoError
  | GoError.nil, errs => errs
  | GoError.ohNo cause, errs => OhNoError.removeCauseAndAppendRecursive cause errs
  | GoError.join ⟨causes⟩, errs => errs ++ causes
  | GoError.multi _ causes, errs => errs ++ causes
  | GoError.ohnoer c, errs => errs ++ [GoError.ohnoer c]
  | GoError.plain text, errs => errs ++ [GoError.plain text]
  | GoError.wrap text inner, errs => errs ++ [GoError.wrap text inner]
/-- Method `removeCauseAndAppendRecursive` of `OhNoError`: the copy `oNew`
without the cause is appended, then the cause is worked off by
`GoError.appendCause`. -/
def OhNoError.removeCauseAndAppendRecursive : OhNoError → List GoError → List GoError
  | ⟨errorCode, message, extra, cause, sourceInfo, timestamp, timestampLayout⟩, errs =>
    let oNew : OhNoError :=
      ⟨errorCode, message, extra, GoError.nil, sourceInfo, timestamp, timestampLayout⟩
    GoError.appendCause cause (errs ++ [GoError.ohNo oNew])
end

/-- Method `drillDownAndStackUp` of `OhNoError`; the result is the pointer to
the new `OhNoJoinError`. -/
def OhNoError.drillDownAndStackUp (o : OhNoError) : GoError :=
  let errorList : List GoError := []
  let errorList := o.removeCauseAndAppendRecursive errorList
  GoError.join ⟨errorList⟩

/-- The chain of the given `OhNoError`s, each the `Cause` of the one before it;
the last one has the nil `Cause`.  The `Cause` fields of the list are not read. -/
def chained : List OhNoError → GoError
  | [] => GoError.nil
  | o :: rest => GoError.ohNo { o with Cause := chained rest }

/-- The error `barErr` of `ExampleMyFabulousOhNoError_convertToJoinError`, which
wraps the error of `Foo`. -/
def exBar : OhNoError :=
  ⟨GoError.ohnoer exInternal, utf8 "this error wraps fooErr", some ⟨utf8 "level-1 nesting"⟩,
    GoError.ohNo exFoo, none, Time.Unix 300, DateTime⟩

/-- The error `bazErr` of the same example, which wraps `barErr`. -/
def exBaz : OhNoError :=
  ⟨GoError.ohnoer exUnknown, utf8 "this error wraps barErr", some ⟨utf8 "level-2 nesting"⟩,
    GoError.ohNo exBar, none, Time.Unix 600, DateTime⟩

/-! ## Marshalling -/

/-- Type `ohNoMarshalError`. -/
structure ohNoMarshalError where
  Package : GoString
  Code : GoString
  Name : GoString
  Description : GoString
  TimeStamp : GoString
  SourceInfo : Option SourceInformation
  CausedBy : GoError

/-- The keys that `encoding/json` and `yaml.v3` write for an
`ohNoMarshalError`, by its struct tags: `package`, `code`, `name` and
`description` always; `timestamp`, `source_information` and `caused_by` carry
`omitempty` and are left out for the empty string, the nil pointer and the nil
interface. -/
def ohNoMarshalError.keys (r : ohNoMarshalError) : List GoString :=
  [utf8 "package", utf8 "code", utf8 "name", utf8 "description"] ++
    (if r.TimeStamp ≠ [] then [utf8 "timestamp"] else []) ++
    (if r.SourceInfo.isSome then [utf8 "source_information"] else []) ++
    (if !r.CausedBy.isNil then [utf8 "caused_by"] else [])

/-- Whether the dynamic type of an error value implements `ohnoer.OhNoer`: the
result `ok` of the type assertion `err.(ohnoer.OhNoer)`. -/
def GoError.implementsOhNoer : GoError → Bool
  | GoError.ohnoer _ => true
  | _ => false

/-- Method `marshalableError` of `OhNoError`; `none` is the panic of the type
assertion `o.ErrorCode.(ohnoer.OhNoer)`. -/
def OhNoError.marshalableError (format : Time → GoString → GoString) (o : OhNoError) :
    Option ohNoMarshalError :=
  let marshalErr : ohNoMarshalError := ⟨[], [], [], [], [], none, GoError.nil⟩
  match o.ErrorCode with
  | GoError.ohnoer ohnoer =>
    let marshalErr := { marshalErr with
      Package := ohnoer.Package, Code := ohnoer.Code, Name := ohnoer.String,
      Description := ohnoer.Description }
    let marshalErr :=
      if !o.Timestamp.IsZero then
        let layout := if o.TimestampLayout = [] then RFC3339Nano else o.TimestampLayout
        { marshalErr with TimeStamp := format o.Timestamp layout }
      else marshalErr
    let marshalErr :=
      match o.SourceInfo with
      | some s => { marshalErr with SourceInfo := some s }
      | none => marshalErr
    let marshalErr :=
      if !o.Cause.isNil then { marshalErr with CausedBy := o.Cause } else marshalErr
    some marshalErr
  | _ => none

/-- What a marshaller of `OhNoError` hands to the encoder: the plain string or
the record. -/
inductive Marshalled where
  | text (s : GoString)
  | record (r : ohNoMarshalError)

/-- Method `MarshalYAML` of `OhNoError`; the error it returns is always nil. -/
def OhNoError.MarshalYAML (format : Time → GoString → GoString) (o : OhNoError) :
    Option Marshalled :=
  if !o.ErrorCode.implementsOhNoer then (o.Error format).map Marshalled.text
  else (o.marshalableError format).map Marshalled.record

/-- Method `MarshalJSON` of `OhNoError`; `jsonMarshal` is `json.Marshal`. -/
def OhNoError.MarshalJSON (format : Time → GoString → GoString)
    (jsonMarshal : Marshalled → Except GoString GoString) (o : OhNoError) :
    Option (Except GoString GoString) :=
  if !o.ErrorCode.implementsOhNoer then
    (o.Error format).map (fun s => jsonMarshal (Marshalled.text s))
  else (o.marshalableError format).map (fun r => jsonMarshal (Marshalled.record r))

/-- An encoder that writes the keys of a record, or the text. -/
def exJson : Marshalled → Except GoString GoString
  | Marshalled.text s => Except.ok s
  | Marshalled.record r => Except.ok (List.intercalate (utf8 ",") r.keys)

/-! ## The receiver after `Error()` -/

mutual
/-- The error value after a call of its method `Error` that returns: the call
reaches the `OhNoError`s behind it and may set their `TimestampLayout`.  An
error of another package is taken to return its stored text, without a call
that changes an error of this package. -/
def GoError.afterError : GoError → GoError
  | GoError.nil => GoError.nil
  | GoError.ohnoer c => GoError.ohnoer c
  | GoError.plain text => GoError.plain text
  | GoError.wrap text inner => GoError.wrap text inner
  | GoError.multi text errs => GoError.multi text errs
  | GoError.ohNo o => GoError.ohNo (OhNoError.afterError o)
  | GoError.join j => GoError.join (OhNoJoinError.afterError j)
/-- The receiver after `OhNoError.Error` has returned: the one assignment of
the method, `o.TimestampLayout = time.RFC3339Nano`, is made when `Timestamp` is
not the zero time and `TimestampLayout` is empty; `ErrorCode` and `Cause` are
the same errors, after the calls of their `Error` (`Cause` only when it is not
nil). -/
def OhNoError.afterError : OhNoError → OhNoError
  | ⟨errorCode, message, extra, cause, sourceInfo, timestamp, timestampLayout⟩ =>
    ⟨GoError.afterError errorCode, message, extra, GoError.afterError cause, sourceInfo,
      timestamp,
      if (!timestamp.IsZero) ∧ timestampLayout = [] then RFC3339Nano else timestampLayout⟩
/-- The `OhNoJoinError` after its `Error` has returned. -/
def OhNoJoinError.afterError : OhNoJoinError → OhNoJoinError
  | ⟨errs⟩ => ⟨GoError.afterErrors errs⟩
/-- The elements of a join error after the loop of `OhNoJoinError.Error`. -/
def GoError.afterErrors : List GoError → List GoError
  | [] => []
  | err :: rest => GoError.afterError err :: GoError.afterErrors rest
end

/-- The chain of the given `OhNoError`s, each the `Cause` of the one before it,
the last one with the cause `last`.  The `Cause` fields of the list are not
read. -/
def chainedOnto (last : GoError) : List OhNoError → GoError
  | [] => last
  | o :: rest => GoError.ohNo { o with Cause := chainedOnto last rest }

mutual
/-- The error value with the field `TimestampLayout` of every `OhNoError` in it
set to the empty string: what is left of an error when the layouts are not
looked at. -/
def GoError.eraseLayouts : GoError → GoError
  | GoError.nil => GoError.nil
  | GoError.ohnoer c => GoError.ohnoer c
  | GoError.plain text => GoError.plain text
  | GoError.wrap text inner => GoError.wrap text (GoError.eraseLayouts inner)
  | GoError.multi text errs => GoError.multi text (GoError.eraseLayoutsList errs)
  | GoError.ohNo o => GoError.ohNo (OhNoError.eraseLayouts o)
  | GoError.join j => GoError.join (OhNoJoinError.eraseLayouts j)
/-- An `OhNoError` without its layouts. -/
def OhNoError.eraseLayouts : OhNoError → OhNoError
  | ⟨errorCode, message, extra, cause, sourceInfo, timestamp, _⟩ =>
    ⟨GoError.eraseLayouts errorCode, message, extra, GoError.eraseLayouts cause, sourceInfo,
      timestamp, []⟩
/-- An `OhNoJoinError` without its layouts. -/
def OhNoJoinError.eraseLayouts : OhNoJoinError → OhNoJoinError
  | ⟨errs⟩ => ⟨GoError.eraseLayoutsList errs⟩
/-- A list of errors without their layouts. -/
def GoError.eraseLayoutsList : List GoError → List GoError
  | [] => []
  | err :: rest => GoError.eraseLayouts err :: GoError.eraseLayoutsList rest
end

/-! # Lemmas -/

/-! ## Sorting -/

theorem less_eq_key {s : Bool} {a b : Value} (ha : a.signed = s) :
    byValue.Less a b = decide (key s a.value < key s b.value) := by
  unfold byValue.Less key
  cases s <;> simp [ha]

theorem key_inj {s : Bool} {x y : Nat} (hx : x < 2 ^ 64) (hy : y < 2 ^ 64)
    (h : key s x = key s y) : x = y := by
  unfold key int64 at h
  cases s <;> simp only [Bool.false_eq_true, if_false, if_true] at h
  · omega
  · split at h <;> split at h <;> omega

theorem less_ne {a b : Value} (h : byValue.Less a b = true) : a.value ≠ b.value := by
  unfold byValue.Less at h
  intro e
  split at h <;> simp [e] at h

theorem insertStable_perm (x : Value) (l : List Value) :
    (insertStable x l).Perm (x :: l) := by
  induction l with
  | nil => simp [insertStable]
  | cons y ys ih =>
    simp only [insertStable]
    split
    · exact (List.Perm.cons y ih).trans (List.Perm.swap x y ys)
    · exact List.Perm.refl _

theorem sortStable_perm (l : List Value) : (sortStable l).Perm l := by
  induction l with
  | nil => exact List.Perm.refl _
  | cons x xs ih =>
    simp only [sortStable]
    exact (insertStable_perm x _).trans (List.Perm.cons x ih)

theorem insertStable_filter (v : Nat) (x : Value) (l : List Value) :
    (insertStable x l).filter (fun d => d.value == v) =
      (x :: l).filter (fun d => d.value == v) := by
  induction l with
  | nil => simp [insertStable]
  | cons y ys ih =>
    simp only [insertStable]
    split
    · rename_i hlt
      have hne := less_ne hlt
      rw [List.filter_cons, ih]
      by_cases hy : y.value = v
      · have hx : ¬ x.value = v := fun e => hne (hy.trans e.symm)
        simp [List.filter_cons, hy, hx]
      · simp [List.filter_cons, hy]
    · rfl

/-- Stability: among the declarations of one value the input order is kept. -/
theorem sortStable_filter (v : Nat) (l : List Value) :
    (sortStable l).filter (fun d => d.value == v) = l.filter (fun d => d.value == v) := by
  induction l with
  | nil => rfl
  | cons x xs ih =>
    simp only [sortStable]
    rw [insertStable_filter, List.filter_cons, List.filter_cons, ih]

theorem insertStable_sorted {s : Bool} (x : Value) (l : List Value)
    (hx : x.signed = s) (hl : ∀ d ∈ l, d.signed = s)
    (h : l.Pairwise (fun a b => key s a.value ≤ key s b.value)) :
    (insertStable x l).Pairwise (fun a b => key s a.value ≤ key s b.value) := by
  induction l with
  | nil => simp [insertStable]
  | cons y ys ih =>
    have hy : y.signed = s := hl y (List.mem_cons_self _ _)
    have hys : ∀ d ∈ ys, d.signed = s := fun d hd => hl d (List.mem_cons_of_mem _ hd)
    rw [List.pairwise_cons] at h
    simp only [insertStable]
    split
    · rename_i hlt
      rw [less_eq_key hy, decide_eq_true_eq] at hlt
      rw [List.pairwise_cons]
      refine ⟨?_, ih hys h.2⟩
      intro d hd
      rcases List.mem_cons.mp ((insertStable_perm x ys).mem_iff.mp hd) with e | hd
      · subst e; omega
      · exact h.1 d hd
    · rename_i hlt
      rw [less_eq_key hy, decide_eq_true_eq] at hlt
      rw [List.pairwise_cons]
      refine ⟨?_, List.pairwise_cons.mpr h⟩
      intro d hd
      rcases List.mem_cons.mp hd with e | hd
      · subst e; omega
      · have := h.1 d hd; omega

theorem sortStable_sorted {s : Bool} (l : List Value) (hl : ∀ d ∈ l, d.signed = s) :
    (sortStable l).Pairwise (fun a b => key s a.value ≤ key s b.value) := by
  induction l with
  | nil => simp [sortStable]
  | cons x xs ih =>
    simp only [sortStable]
    have hxs : ∀ d ∈ xs, d.signed = s := fun d hd => hl d (List.mem_cons_of_mem _ hd)
    exact insertStable_sorted x _ (hl x (List.mem_cons_self _ _))
      (fun d hd => hxs d ((sortStable_perm xs).mem_iff.mp hd)) (ih hxs)

/-! ## Duplicate removal -/

theorem dedupFrom_sublist (p : Value) (l : List Value) : (dedupFrom p l).Sublist l := by
  induction l generalizing p with
  | nil => exact List.Sublist.slnil
  | cons y ys ih =>
    simp only [dedupFrom]
    split
    · exact (ih y).cons₂ y
    · exact (ih y).cons y

theorem dedupAdj_sublist (l : List Value) : (dedupAdj l).Sublist l := by
  cases l with
  | nil => exact List.Sublist.slnil
  | cons x xs => exact (dedupFrom_sublist x xs).cons₂ x

theorem dedupFrom_snoc (p y : Value) (l : List Value) :
    dedupFrom p (l ++ [y]) =
      dedupFrom p l ++ (if y.value ≠ (l.getLastD p).value then [y] else []) := by
  induction l generalizing p with
  | nil => simp [dedupFrom]
  | cons z zs ih =>
    rw [List.cons_append]
    simp only [dedupFrom, List.getLastD_cons]
    split
    · rw [ih z]; rfl
    · rw [ih z]

theorem getD_cons_eq_getLastD_take (x : Value) (xs : List Value) (k : Nat)
    (hk : k ≤ xs.length) : (x :: xs).getD k Value.zero = (xs.take k).getLastD x := by
  induction xs generalizing x k with
  | nil =>
    have : k = 0 := by simpa using hk
    subst this; rfl
  | cons y ys ih =>
    cases k with
    | zero => rfl
    | succ k =>
      have hk2 : k ≤ ys.length := by simpa using hk
      have := ih y k hk2
      simp only [List.take_succ_cons, List.getLastD_cons]
      rw [← this]
      simp [List.getD_eq_getElem?_getD]

/-- The in-place loop computes `dedupAdj`: at every iteration the slice is the
kept elements followed by the untouched rest of the sorted slice. -/
theorem dedupLoop_spec (x : Value) (xs : List Value) :
    ∀ (n k : Nat) (D : List Value), k + n = xs.length →
      D = x :: dedupFrom x (xs.take k) →
      ((dedupLoop n (k + 1) D.length (D ++ (x :: xs).drop D.length)).2.take
        (dedupLoop n (k + 1) D.length (D ++ (x :: xs).drop D.length)).1) =
        dedupAdj (x :: xs) := by
  intro n
  induction n with
  | zero =>
    intro k D hk hD
    have hk2 : k = xs.length := by omega
    subst hk2
    simp only [dedupLoop]
    rw [List.take_left' rfl, hD, List.take_length]
    rfl
  | succ n ih =>
    intro k D hk hD
    have hklt : k < xs.length := by omega
    have hDlen : D.length ≤ k + 1 := by
      rw [hD]
      have := (dedupFrom_sublist x (xs.take k)).length_le
      simp only [List.length_cons, List.length_take] at this ⊢
      omega
    have hDpos : 1 ≤ D.length := by rw [hD]; simp
    -- the element read at index `i`
    have hread : (D ++ (x :: xs).drop D.length).getD (k + 1) Value.zero = xs[k] := by
      simp only [List.getD_eq_getElem?_getD, List.getElem?_append_right hDlen,
        List.getElem?_drop]
      have : D.length + (k + 1 - D.length) = k + 1 := by omega
      rw [this]
      simp [hklt]
    -- the element read at index `i - 1`
    have hprev : (D ++ (x :: xs).drop D.length).getD k Value.zero =
        (xs.take k).getLastD x := by
      rw [← getD_cons_eq_getLastD_take x xs k (by omega)]
      by_cases hj : D.length ≤ k
      · simp only [List.getD_eq_getElem?_getD, List.getElem?_append_right hj,
          List.getElem?_drop]
        have : D.length + (k - D.length) = k := by omega
        rw [this]
      · have hlen : D.length = k + 1 := by omega
        have hsub := dedupFrom_sublist x (xs.take k)
        have hlen2 : (dedupFrom x (xs.take k)).length = (xs.take k).length := by
          have : D.length = (dedupFrom x (xs.take k)).length + 1 := by rw [hD]; simp
          simp only [List.length_take]
          omega
        have heq := hsub.eq_of_length hlen2
        have hk' : k < D.length := by omega
        simp only [List.getD_eq_getElem?_getD, List.getElem?_append_left hk']
        rw [hD, heq]
        cases k with
        | zero => simp
        | succ k =>
          have hk3 : k < xs.length := by omega
          simp [List.getElem?_take, hk3]
    have htake : xs.take (k + 1) = xs.take k ++ [xs[k]] := by
      rw [List.take_succ]
      simp [hklt]
    simp only [dedupLoop, Nat.add_sub_cancel, hread, hprev]
    split
    · rename_i hne
      have hjlt : D.length < (x :: xs).length := by simp only [List.length_cons]; omega
      have hset : (D ++ (x :: xs).drop D.length).set D.length xs[k] =
          (D ++ [xs[k]]) ++ (x :: xs).drop (D ++ [xs[k]]).length := by
        rw [List.set_append]
        simp only [lt_self_iff_false, if_false, Nat.sub_self]
        rw [List.drop_eq_getElem_cons hjlt]
        simp
      have hD2 : D ++ [xs[k]] = x :: dedupFrom x (xs.take (k + 1)) := by
        rw [htake, dedupFrom_snoc, if_pos hne, hD]
        rfl
      have := ih (k + 1) (D ++ [xs[k]]) (by omega) hD2
      rw [hset]
      simpa using this
    · rename_i hne
      have hD2 : D = x :: dedupFrom x (xs.take (k + 1)) := by
        rw [htake, dedupFrom_snoc, if_neg hne, hD]
        simp
      exact ih (k + 1) D (by omega) hD2

theorem sortAndDedup_eq (vs : List Value) : sortAndDedup vs = dedupAdj (sortStable vs) := by
  unfold sortAndDedup
  cases h : sortStable vs with
  | nil => simp [dedupLoop, dedupAdj]
  | cons x xs =>
    have := dedupLoop_spec x xs xs.length 0 [x] (by simp) (by simp [dedupFrom])
    simpa using this

theorem dedupFrom_chain {s : Bool} (L : List Value) :
    ∀ (prev kept : Value), kept.value = prev.value →
      (prev :: L).Pairwise (fun a b => key s a.value ≤ key s b.value) →
      (∀ d ∈ prev :: L, d.value < 2 ^ 64) →
      List.Chain (fun a b => key s a.value < key s b.value) kept (dedupFrom prev L) := by
  induction L with
  | nil => intro _ _ _ _ _; exact List.Chain.nil
  | cons y ys ih =>
    intro prev kept hk hs hv
    rw [List.pairwise_cons] at hs
    have hvy : ∀ d ∈ y :: ys, d.value < 2 ^ 64 := fun d hd => hv d (List.mem_cons_of_mem _ hd)
    simp only [dedupFrom]
    split
    · rename_i hne
      refine List.Chain.cons ?_ (ih y y rfl hs.2 hvy)
      have hle := hs.1 y (List.mem_cons_self _ _)
      have hkne : key s prev.value ≠ key s y.value := fun e =>
        hne (key_inj (hv prev (List.mem_cons_self _ _)) (hvy y (List.mem_cons_self _ _)) e).symm
      rw [hk]
      omega
    · rename_i hne
      have hyv : y.value = prev.value := by simpa using hne
      exact ih y kept (hk.trans hyv.symm) hs.2 hvy

theorem dedupAdj_ascending {s : Bool} (L : List Value)
    (hs : L.Pairwise (fun a b => key s a.value ≤ key s b.value))
    (hv : ∀ d ∈ L, d.value < 2 ^ 64) : Ascending s (dedupAdj L) := by
  cases L with
  | nil => exact List.Pairwise.nil
  | cons x xs =>
    have hc := dedupFrom_chain xs x x rfl hs hv
    haveI : IsTrans Value (fun a b => key s a.value < key s b.value) :=
      ⟨fun _ _ _ h1 h2 => lt_trans h1 h2⟩
    exact List.chain'_iff_pairwise.mp hc

theorem dedupFrom_filter {s : Bool} (v : Nat) (L : List Value) :
    ∀ (prev : Value),
      (prev :: L).Pairwise (fun a b => key s a.value ≤ key s b.value) →
      (∀ d ∈ prev :: L, d.value < 2 ^ 64) →
      (dedupFrom prev L).filter (fun d => d.value == v) =
        if prev.value = v then [] else (L.filter (fun d => d.value == v)).take 1 := by
  induction L with
  | nil => intro _ _ _; simp [dedupFrom]
  | cons y ys ih =>
    intro prev hs hv
    rw [List.pairwise_cons] at hs
    have hvy : ∀ d ∈ y :: ys, d.value < 2 ^ 64 := fun d hd => hv d (List.mem_cons_of_mem _ hd)
    have hih := ih y hs.2 hvy
    simp only [dedupFrom]
    by_cases hne : y.value ≠ prev.value
    · rw [if_pos hne, List.filter_cons, hih]
      by_cases hp : prev.value = v
      · have hyv : ¬ y.value = v := fun e => hne (e.trans hp.symm)
        have hnil : ys.filter (fun d => d.value == v) = [] := by
          rw [List.filter_eq_nil_iff]
          intro d hd
          have h1 := hs.1 y (List.mem_cons_self _ _)
          have h2 := (List.pairwise_cons.mp hs.2).1 d hd
          have hkne : key s prev.value ≠ key s y.value := fun e =>
            hne (key_inj (hv prev (List.mem_cons_self _ _))
              (hvy y (List.mem_cons_self _ _)) e).symm
          intro hdv
          have hdv2 : d.value = prev.value := by rw [hp]; simpa using hdv
          rw [hdv2] at h2
          omega
        simp [hp, hyv, hnil]
      · by_cases hyv : y.value = v
        · simp [hp, hyv, List.filter_cons]
        · simp [hp, hyv, List.filter_cons]
    · rw [if_neg hne, hih]
      have hyp : y.value = prev.value := by simpa using hne
      by_cases hp : prev.value = v
      · simp [hp, hyp]
      · have hyv : ¬ y.value = v := fun e => hp (hyp.symm.trans e)
        simp [hp, hyv, List.filter_cons]

theorem dedupAdj_filter {s : Bool} (v : Nat) (L : List Value)
    (hs : L.Pairwise (fun a b => key s a.value ≤ key s b.value))
    (hv : ∀ d ∈ L, d.value < 2 ^ 64) :
    (dedupAdj L).filter (fun d => d.value == v) =
      (L.filter (fun d => d.value == v)).take 1 := by
  cases L with
  | nil => rfl
  | cons x xs =>
    simp only [dedupAdj]
    rw [List.filter_cons, dedupFrom_filter v xs x hs hv, List.filter_cons]
    by_cases hx : x.value = v <;> simp [hx]

theorem find?_eq_head?_filter (p : Value → Bool) (l : List Value) :
    l.find? p = (l.filter p).head? := by
  induction l with
  | nil => rfl
  | cons x xs ih =>
    rw [List.find?_cons, List.filter_cons]
    cases hp : p x
    · simp
    · simp

/-- The kept declarations of one value: the first one of the input, alone. -/
theorem sortAndDedup_filter {s : Bool} (vs : List Value) (h : OneType s vs) (v : Nat) :
    (sortAndDedup vs).filter (fun d => d.value == v) =
      (vs.find? (fun d => d.value == v)).toList := by
  rw [sortAndDedup_eq, find?_eq_head?_filter, ← List.take_one]
  rw [dedupAdj_filter v _
    (sortStable_sorted vs (fun d hd => (h d hd).1))
    (fun d hd => (h d ((sortStable_perm vs).mem_iff.mp hd)).2)]
  rw [sortStable_filter]

theorem sortAndDedup_ascending {s : Bool} (vs : List Value) (h : OneType s vs) :
    Ascending s (sortAndDedup vs) := by
  rw [sortAndDedup_eq]
  exact dedupAdj_ascending _ (sortStable_sorted vs (fun d hd => (h d hd).1))
    (fun d hd => (h d ((sortStable_perm vs).mem_iff.mp hd)).2)

theorem sortAndDedup_subset (vs : List Value) : ∀ d ∈ sortAndDedup vs, d ∈ vs := by
  intro d hd
  rw [sortAndDedup_eq] at hd
  exact (sortStable_perm vs).mem_iff.mp ((dedupAdj_sublist _).subset hd)

theorem sortAndDedup_oneType {s : Bool} (vs : List Value) (h : OneType s vs) :
    OneType s (sortAndDedup vs) :=
  fun d hd => h d (sortAndDedup_subset vs d hd)

theorem sortAndDedup_ne_nil (vs : List Value) (h : vs ≠ []) : sortAndDedup vs ≠ [] := by
  rw [sortAndDedup_eq]
  have hp := sortStable_perm vs
  cases hs : sortStable vs with
  | nil => rw [hs] at hp; exact absurd hp.symm.eq_nil h
  | cons x xs => simp [dedupAdj]

theorem sortAndDedup_mem_value {s : Bool} (vs : List Value) (h : OneType s vs) (v : Nat) :
    (∃ d ∈ sortAndDedup vs, d.value = v) ↔ (∃ d ∈ vs, d.value = v) := by
  constructor
  · rintro ⟨d, hd, hv⟩
    exact ⟨d, sortAndDedup_subset vs d hd, hv⟩
  · rintro ⟨d, hd, hv⟩
    have hf := sortAndDedup_filter vs h v
    cases hfind : vs.find? (fun d => d.value == v) with
    | none =>
      have := List.find?_eq_none.mp hfind d hd
      simp [hv] at this
    | some e =>
      rw [hfind] at hf
      have he : e ∈ (sortAndDedup vs).filter (fun d => d.value == v) := by
        rw [hf]; simp
      rw [List.mem_filter] at he
      exact ⟨e, he.1, by simpa using he.2⟩

/-! ## Runs -/

theorem runEnd_eq (rest : List Value) :
    ∀ (pre : List Value) (p : Value) (n : Nat), rest.length ≤ n →
      runEnd (pre ++ p :: rest) n (pre.length + 1) = pre.length + 1 + countRun p rest := by
  induction rest with
  | nil =>
    intro pre p n _
    cases n with
    | zero => simp [runEnd, countRun]
    | succ n => simp [runEnd, countRun]
  | cons y ys ih =>
    intro pre p n hn
    cases n with
    | zero => simp at hn
    | succ n =>
      have hn2 : ys.length ≤ n := by simpa using hn
      have hi : pre.length + 1 < (pre ++ p :: y :: ys).length := by simp
      have hread : (pre ++ p :: y :: ys).getD (pre.length + 1) Value.zero = y := by
        rw [List.getD_eq_getElem?_getD, List.getElem?_append_right (by omega)]
        simp
      have hprev : (pre ++ p :: y :: ys).getD (pre.length + 1 - 1) Value.zero = p := by
        rw [List.getD_eq_getElem?_getD, List.getElem?_append_right (by omega)]
        simp
      simp only [runEnd, hi, hread, hprev, true_and, countRun]
      split
      · have := ih (pre ++ [p]) y n hn2
        simp only [List.append_assoc, List.singleton_append, List.length_append,
          List.length_singleton] at this
        rw [this]
        omega
      · rfl

theorem countRun_le (xs : List Value) : ∀ x, countRun x xs ≤ xs.length := by
  induction xs with
  | nil => intro x; simp [countRun]
  | cons y ys ih =>
    intro x
    simp only [countRun]
    split
    · have := ih y; simp only [List.length_cons]; omega
    · omega

theorem countRun_chain (xs : List Value) :
    ∀ x, List.Chain Step x (xs.take (countRun x xs)) := by
  induction xs with
  | nil => intro x; exact List.Chain.nil
  | cons y ys ih =>
    intro x
    simp only [countRun]
    split
    · rename_i h
      rw [List.take_succ_cons]
      exact List.Chain.cons h (ih y)
    · exact List.Chain.nil

theorem countRun_stop (xs : List Value) :
    ∀ x b, (xs.drop (countRun x xs)).head? = some b →
      ¬ Step ((xs.take (countRun x xs)).getLastD x) b := by
  induction xs with
  | nil => intro x b h; simp at h
  | cons y ys ih =>
    intro x b h
    simp only [countRun] at h ⊢
    split
    · rename_i hs
      rw [if_pos hs] at h
      rw [List.take_succ_cons, List.getLastD_cons]
      rw [List.drop_succ_cons] at h
      exact ih y b h
    · rename_i hs
      rw [if_neg hs] at h
      simp only [List.drop_zero, List.head?_cons, Option.some.injEq] at h
      subst h
      simpa [Step] using hs

/-- What the two loops of `splitIntoRuns` return for a slice of at most `n`
elements: the slice cut into non-empty pieces, each piece passing the loop test
between neighbours, and no two neighbouring pieces passing it at their joint. -/
theorem runsLoop_spec :
    ∀ (n : Nat) (values : List Value) (runs : List (List Value)), values.length ≤ n →
      ∃ R, runsLoop n values runs = runs ++ R ∧ R.flatten = values ∧
        (∀ r ∈ R, r ≠ [] ∧ List.Chain' Step r) ∧ List.Chain' Boundary R := by
  intro n
  induction n with
  | zero =>
    intro values runs h
    have : values = [] := List.eq_nil_of_length_eq_zero (by omega)
    subst this
    exact ⟨[], by simp [runsLoop], rfl, by simp, List.chain'_nil⟩
  | succ n ih =>
    intro values runs h
    cases values with
    | nil => exact ⟨[], by simp [runsLoop], rfl, by simp, List.chain'_nil⟩
    | cons x xs =>
      have hend : runEnd (x :: xs) (x :: xs).length 1 = countRun x xs + 1 := by
        have := runEnd_eq xs [] x (x :: xs).length (by simp)
        simpa [Nat.add_comm] using this
      have hle := countRun_le xs x
      obtain ⟨R, hR, hflat, hruns, hchain⟩ :=
        ih (xs.drop (countRun x xs)) (runs ++ [x :: xs.take (countRun x xs)])
          (by simp only [List.length_drop, List.length_cons] at h ⊢; omega)
      refine ⟨(x :: xs.take (countRun x xs)) :: R, ?_, ?_, ?_, ?_⟩
      · simp only [runsLoop, List.length_cons, Nat.zero_lt_succ, if_true]
        simp only [List.length_cons] at hend
        rw [hend, List.take_succ_cons, List.drop_succ_cons, hR]
        simp
      · rw [List.flatten_cons, hflat]
        simp
      · intro r hr
        rcases List.mem_cons.mp hr with e | hr
        · subst e
          exact ⟨by simp, countRun_chain xs x⟩
        · exact hruns r hr
      · cases R with
        | nil => exact List.chain'_singleton _
        | cons r2 R2 =>
          rw [List.chain'_cons]
          refine ⟨?_, hchain⟩
          intro a b ha hb
          have hr2 := (hruns r2 (List.mem_cons_self _ _)).1
          have hhead : (xs.drop (countRun x xs)).head? = some b := by
            rw [← hflat, List.flatten_cons]
            cases r2 with
            | nil => exact absurd rfl hr2
            | cons c cs =>
              simp only [List.head?_cons, Option.some.injEq] at hb
              simp [hb]
          have hlast : a = (xs.take (countRun x xs)).getLastD x := by
            have : (x :: xs.take (countRun x xs)).getLast? =
                some ((xs.take (countRun x xs)).getLastD x) := by
              rw [List.getLast?_cons, List.getLastD_eq_getLast?]
            rw [this] at ha
            exact (Option.some.inj ha).symm
          rw [hlast]
          exact countRun_stop xs x b hhead

theorem splitIntoRuns_spec (vs : List Value) :
    (splitIntoRuns vs).flatten = sortAndDedup vs ∧
      (∀ r ∈ splitIntoRuns vs, r ≠ [] ∧ List.Chain' Step r) ∧
      List.Chain' Boundary (splitIntoRuns vs) := by
  obtain ⟨R, hR, h⟩ := runsLoop_spec (sortAndDedup vs).length (sortAndDedup vs) [] (le_refl _)
  have : splitIntoRuns vs = R := by simpa [splitIntoRuns] using hR
  rw [this]
  exact h

theorem chain'_imp_mem {α : Type} {P Q : α → α → Prop} :
    ∀ (l : List α), List.Chain' P l → (∀ x ∈ l, ∀ y ∈ l, P x y → Q x y) → List.Chain' Q l := by
  intro l
  induction l with
  | nil => intro _ _; exact List.chain'_nil
  | cons x xs ih =>
    intro hc himp
    cases xs with
    | nil => exact List.chain'_singleton _
    | cons y ys =>
      rw [List.chain'_cons] at hc ⊢
      refine ⟨himp x (List.mem_cons_self _ _) y (List.mem_cons_of_mem _ (List.mem_cons_self _ _)) hc.1,
        ih hc.2 (fun a ha b hb => himp a (List.mem_cons_of_mem _ ha) b (List.mem_cons_of_mem _ hb))⟩

theorem chain'_and {α : Type} {P Q : α → α → Prop} :
    ∀ (l : List α), List.Chain' P l → List.Chain' Q l →
      List.Chain' (fun a b => P a b ∧ Q a b) l := by
  intro l
  induction l with
  | nil => intro _ _; exact List.chain'_nil
  | cons x xs ih =>
    intro hp hq
    cases xs with
    | nil => exact List.chain'_singleton _
    | cons y ys =>
      rw [List.chain'_cons] at hp hq ⊢
      exact ⟨⟨hp.1, hq.1⟩, ih hp.2 hq.2⟩

theorem step_key_succ {s : Bool} {a b : Value} (ha : a.value < 2 ^ 64) (hs : Step a b)
    (hlt : key s a.value < key s b.value) : key s b.value = key s a.value + 1 := by
  unfold Step at hs
  unfold key int64 at hlt ⊢
  cases s <;> simp only [Bool.false_eq_true, if_false, if_true] at hlt ⊢
  · omega
  · split at hlt <;> split at hlt <;> omega

theorem key_succ_step {s : Bool} {a b : Value} (ha : a.value < 2 ^ 64) (hb : b.value < 2 ^ 64)
    (h : key s b.value = key s a.value + 1) : Step a b := by
  unfold Step
  unfold key int64 at h
  cases s <;> simp only [Bool.false_eq_true, if_false, if_true] at h
  · omega
  · split at h <;> split at h <;> omega

theorem mem_splitIntoRuns_sublist (vs r : List Value) (hr : r ∈ splitIntoRuns vs) :
    r.Sublist (sortAndDedup vs) := by
  rw [← (splitIntoRuns_spec vs).1]
  exact List.sublist_flatten_of_mem hr

/-- Inside a run every value is the integer successor of the one before it. -/
theorem run_succ {s : Bool} (vs : List Value) (h : OneType s vs) (r : List Value)
    (hr : r ∈ splitIntoRuns vs) :
    List.Chain' (fun a b => key s b.value = key s a.value + 1) r := by
  have hsub := mem_splitIntoRuns_sublist vs r hr
  have hasc : Ascending s r := List.Pairwise.sublist hsub (sortAndDedup_ascending vs h)
  have hstep := ((splitIntoRuns_spec vs).2.1 r hr).2
  have hboth := chain'_and r hstep (List.Pairwise.chain' hasc)
  refine chain'_imp_mem r hboth ?_
  intro a ha b _ hab
  exact step_key_succ (sortAndDedup_oneType vs h a (hsub.subset ha)).2 hab.1 hab.2

theorem flatten_adjacent (a b : Value) (hs : Step a b) :
    ∀ (R : List (List Value)) (l1 l2 : List Value), (∀ r ∈ R, r ≠ []) →
      List.Chain' Boundary R → R.flatten = l1 ++ a :: b :: l2 →
      ∃ r ∈ R, ∃ r1 r2, r = r1 ++ a :: b :: r2 := by
  intro R
  induction R with
  | nil => intro l1 l2 _ _ h; simp at h
  | cons r R ih =>
    intro l1 l2 hne hc hflat
    rw [List.flatten_cons, List.append_eq_append_iff] at hflat
    have hneR : ∀ r ∈ R, r ≠ [] := fun q hq => hne q (List.mem_cons_of_mem _ hq)
    have hcR : List.Chain' Boundary R := by
      cases R with
      | nil => exact List.chain'_nil
      | cons q Q => exact (List.chain'_cons.mp hc).2
    rcases hflat with ⟨t, ht1, ht2⟩ | ⟨t, ht1, ht2⟩
    · obtain ⟨q, hq, h⟩ := ih t l2 hneR hcR ht2
      exact ⟨q, List.mem_cons_of_mem _ hq, h⟩
    · cases t with
      | nil =>
        simp only [List.nil_append] at ht2
        obtain ⟨q, hq, h⟩ := ih [] l2 hneR hcR (by simpa using ht2.symm)
        exact ⟨q, List.mem_cons_of_mem _ hq, h⟩
      | cons c t =>
        cases t with
        | nil =>
          simp only [List.singleton_append, List.cons.injEq] at ht2
          obtain ⟨hca, hrest⟩ := ht2
          subst hca
          cases R with
          | nil => simp at hrest
          | cons q Q =>
            have hq := hne q (List.mem_cons_of_mem _ (List.mem_cons_self _ _))
            cases q with
            | nil => exact absurd rfl hq
            | cons d ds =>
              simp only [List.flatten_cons, List.cons_append, List.cons.injEq] at hrest
              have hb := (List.chain'_cons.mp hc).1
              have : ¬ Step a d := hb a d (by rw [ht1]; simp) (by simp)
              rw [← hrest.1] at this
              exact absurd hs this
        | cons c2 t =>
          simp only [List.cons_append, List.cons.injEq] at ht2
          obtain ⟨hca, hcb, _⟩ := ht2
          subst hca; subst hcb
          exact ⟨r, List.mem_cons_self _ _, l1, t, ht1⟩

/-! ## Tables -/

theorem writeAll_snd (text : Value → GoString) (run : List Value) :
    ∀ b, (writeAll text run b).2 = b ++ (run.map text).flatten := by
  induction run with
  | nil => intro b; simp [writeAll]
  | cons v run ih => intro b; simp [writeAll, ih]

theorem writeAll_length (text : Value → GoString) (run : List Value) :
    ∀ b, (writeAll text run b).1.length = run.length := by
  induction run with
  | nil => intro b; simp [writeAll]
  | cons v run ih => intro b; simp [writeAll, ih]

theorem writeAll_chain (text : Value → GoString) (run : List Value) :
    ∀ b, List.Chain (fun x y => x ≤ y) b.length (writeAll text run b).1 := by
  induction run with
  | nil => intro b; exact List.Chain.nil
  | cons v run ih =>
    intro b
    simp only [writeAll]
    exact List.Chain.cons (by simp) (ih (b ++ text v))

theorem writeAll_getLast (text : Value → GoString) (run : List Value) :
    ∀ b, (b.length :: (writeAll text run b).1).getLast? =
      some (writeAll text run b).2.length := by
  induction run with
  | nil => intro b; simp [writeAll]
  | cons v run ih =>
    intro b
    simp only [writeAll]
    rw [List.getLast?_cons_cons]
    exact ih (b ++ text v)

/-- Offsets `i` and `i+1` cut the text of entry `i` out of the buffer. -/
theorem writeAll_entry (text : Value → GoString) (run : List Value) :
    ∀ (b : GoString) (i : Nat) (d : Value), run[i]? = some d →
      ∃ lo hi, (b.length :: (writeAll text run b).1)[i]? = some lo ∧
        (b.length :: (writeAll text run b).1)[i + 1]? = some hi ∧
        hi = lo + (text d).length ∧ hi ≤ (writeAll text run b).2.length ∧
        ((writeAll text run b).2.take hi).drop lo = text d := by
  induction run with
  | nil => intro b i d h; simp at h
  | cons v run ih =>
    intro b i d h
    cases i with
    | zero =>
      simp only [List.getElem?_cons_zero, Option.some.injEq] at h
      subst h
      refine ⟨b.length, (b ++ text v).length, by simp, by simp [writeAll], by simp, ?_, ?_⟩
      · simp only [writeAll, writeAll_snd]
        simp
      · simp only [writeAll, writeAll_snd]
        rw [List.take_left' rfl]
        simp
    | succ i =>
      simp only [List.getElem?_cons_succ] at h
      obtain ⟨lo, hi, h1, h2, h3, h4, h5⟩ := ih (b ++ text v) i d h
      refine ⟨lo, hi, ?_, ?_, h3, ?_, ?_⟩
      · simpa [writeAll] using h1
      · simpa [writeAll] using h2
      · simpa [writeAll] using h4
      · simpa [writeAll] using h5

theorem slice?_eq_some {str : GoString} {lo hi : Nat} (h1 : lo ≤ hi) (h2 : hi ≤ str.length) :
    slice? str lo hi = some ((str.take hi).drop lo) := by
  simp [slice?, h1, h2]

/-! ## The builders return -/

theorem runCase_isSome (mk : List Value → IndexAndName) (r : List Value) (h : r ≠ []) :
    ∃ c, runCase mk r = some c := by
  cases r with
  | nil => exact absurd rfl h
  | cons v0 rest =>
    cases rest with
    | nil => exact ⟨_, rfl⟩
    | cons w rest => exact ⟨_, rfl⟩

theorem mapOpt_isSome {α β : Type} (f : α → Option β) (l : List α)
    (h : ∀ a ∈ l, ∃ b, f a = some b) : ∃ bs, mapOpt f l = some bs := by
  induction l with
  | nil => exact ⟨[], rfl⟩
  | cons a as ih =>
    obtain ⟨b, hb⟩ := h a (List.mem_cons_self _ _)
    obtain ⟨bs, hbs⟩ := ih (fun x hx => h x (List.mem_cons_of_mem _ hx))
    exact ⟨b :: bs, by simp [mapOpt, hb, hbs]⟩

theorem buildMultipleRuns_isSome (runs : List (List Value)) (typeName : GoString)
    (h : ∀ r ∈ runs, r ≠ []) : ∃ p, buildMultipleRuns runs typeName = some p := by
  obtain ⟨ns, hns⟩ := mapOpt_isSome (runCase createIndexAndNameDecl) runs
    (fun r hr => runCase_isSome _ r (h r hr))
  obtain ⟨ds, hds⟩ := mapOpt_isSome (runCase createIndexAndNameDescDecl) runs
    (fun r hr => runCase_isSome _ r (h r hr))
  exact ⟨⟨typeName, ns, ds⟩, by simp [buildMultipleRuns, hns, hds]⟩

theorem buildOneRun_isSome (runs : List (List Value)) (typeName : GoString)
    (h : ∀ r ∈ runs, r ≠ []) (hk : runs.length = 1) :
    ∃ p, buildOneRun runs typeName = some p := by
  cases runs with
  | nil => simp at hk
  | cons r rest =>
    have hr := h r (List.mem_cons_self _ _)
    cases r with
    | nil => exact absurd rfl hr
    | cons v0 vs => exact ⟨_, rfl⟩

/-! ## Arithmetic in the enum type -/

/-- The bounds of a type of `w` bits. -/
theorem width_bounds {w : Nat} (hw : 0 < w ∧ w ≤ 64) (s : Bool) :
    limitT w s - minT w s = ((2 ^ w : Nat) : Int) ∧ minT w s ≤ 0 ∧ 0 < limitT w s ∧
    limitT w s ≤ (if s then 2 ^ 63 else 2 ^ 64 : Int) ∧
    (if s then -(2 ^ 63) else 0 : Int) ≤ minT w s ∧ (s = false → minT w s = 0) ∧
    (s = true → minT w s = -limitT w s) := by
  obtain ⟨h0, h64⟩ := hw
  have hpow : 2 ^ w = 2 * 2 ^ (w - 1) := by
    cases w with
    | zero => omega
    | succ n => rw [Nat.add_sub_cancel, pow_succ, Nat.mul_comm]
  have h1 : 2 ^ (w - 1) ≤ 2 ^ 63 := Nat.pow_le_pow_right (by norm_num) (by omega)
  have h2 : 2 ^ w ≤ 2 ^ 64 := Nat.pow_le_pow_right (by norm_num) h64
  have h3 : 0 < 2 ^ (w - 1) := Nat.pow_pos (by norm_num)
  unfold limitT minT
  generalize 2 ^ (w - 1) = a at *
  generalize 2 ^ w = b at *
  cases s
  · simp only [Bool.false_eq_true, if_false, forall_const, false_implies]
    refine ⟨?_, ?_, ?_, ?_, ?_, ?_, ?_⟩ <;> first | omega | trivial
  · simp only [if_true, forall_const, Bool.true_eq_false, false_implies]
    refine ⟨?_, ?_, ?_, ?_, ?_, ?_, ?_⟩ <;> first | omega | trivial

/-- The remainder of an integer that lies within one modulus of the range. -/
theorem emod_window (a m : Int) (h1 : -m ≤ a) (h2 : a < 2 * m) :
    a % m = if a < 0 then a + m else if a < m then a else a - m := by
  split
  · rw [← Int.add_emod_self, Int.emod_eq_of_lt (by omega) (by omega)]
  · split
    · exact Int.emod_eq_of_lt (by omega) (by omega)
    · have e : a = (a - m) + m := by omega
      calc a % m = ((a - m) + m) % m := by rw [← e]
        _ = (a - m) % m := Int.add_emod_self
        _ = a - m := Int.emod_eq_of_lt (by omega) (by omega)

/-- The value that an integer wraps around to, when it lies within one modulus
of the range of the type. -/
theorem wrapT_key {w : Nat} (hw : 0 < w ∧ w ≤ 64) (s : Bool) (z : Int)
    (h1 : minT w s - ((2 ^ w : Nat) : Int) ≤ z)
    (h2 : z < limitT w s + ((2 ^ w : Nat) : Int)) :
    InT w s (wrapT w s z) ∧
    key s (wrapT w s z) =
      (if z < minT w s then z + ((2 ^ w : Nat) : Int)
       else if z < limitT w s then z else z - ((2 ^ w : Nat) : Int)) := by
  obtain ⟨b1, b2, b3, b4, b5, b6, b7⟩ := width_bounds hw s
  have hm : (0 : Int) < ((2 ^ w : Nat) : Int) := by omega
  have hwin := emod_window (z - minT w s) ((2 ^ w : Nat) : Int) (by omega) (by omega)
  have hk : ∀ r : Int, minT w s ≤ r → r < limitT w s →
      (r % 2 ^ 64).toNat < 2 ^ 64 ∧ key s (r % 2 ^ 64).toNat = r := by
    intro r hr1 hr2
    unfold key int64
    cases s
    · simp only [Bool.false_eq_true, if_false] at b4 b5 ⊢
      omega
    · simp only [if_true] at b4 b5 ⊢
      refine ⟨by omega, ?_⟩
      split <;> omega
  unfold InT wrapT
  rw [hwin]
  generalize ((2 ^ w : Nat) : Int) = m at *
  by_cases c1 : z < minT w s
  · rw [if_pos (by omega), if_pos c1]
    obtain ⟨e1, e2⟩ := hk (z + m) (by omega) (by omega)
    have e3 : z - minT w s + m + minT w s = z + m := by omega
    rw [e3]
    exact ⟨⟨e1, by omega, by omega⟩, e2⟩
  · rw [if_neg (by omega), if_neg c1]
    by_cases c2 : z < limitT w s
    · rw [if_pos (by omega), if_pos c2]
      obtain ⟨e1, e2⟩ := hk z (by omega) c2
      have e3 : z - minT w s + minT w s = z := by omega
      rw [e3]
      exact ⟨⟨e1, by omega, by omega⟩, e2⟩
    · rw [if_neg (by omega), if_neg c2]
      obtain ⟨e1, e2⟩ := hk (z - m) (by omega) (by omega)
      have e3 : z - minT w s - m + minT w s = z - m := by omega
      rw [e3]
      exact ⟨⟨e1, by omega, by omega⟩, e2⟩

/-- The difference `i - c` computed in the type. -/
theorem subT_key {w : Nat} (hw : 0 < w ∧ w ≤ 64) {s : Bool} {i c : Nat}
    (hi : InT w s i) (hc : InT w s c) :
    InT w s (subT w s i c) ∧
    key s (subT w s i c) =
      (if key s i - key s c < minT w s then key s i - key s c + ((2 ^ w : Nat) : Int)
       else if key s i - key s c < limitT w s then key s i - key s c
       else key s i - key s c - ((2 ^ w : Nat) : Int)) := by
  obtain ⟨b1, _⟩ := width_bounds hw s
  obtain ⟨_, i1, i2⟩ := hi
  obtain ⟨_, c1, c2⟩ := hc
  exact wrapT_key hw s _ (by omega) (by omega)

/-- The sum `i + c` computed in the type. -/
theorem addT_key {w : Nat} (hw : 0 < w ∧ w ≤ 64) {s : Bool} {i c : Nat}
    (hi : InT w s i) (hc : InT w s c) :
    InT w s (addT w s i c) ∧
    key s (addT w s i c) =
      (if key s i + key s c < minT w s then key s i + key s c + ((2 ^ w : Nat) : Int)
       else if key s i + key s c < limitT w s then key s i + key s c
       else key s i + key s c - ((2 ^ w : Nat) : Int)) := by
  obtain ⟨b1, b2, b3, _⟩ := width_bounds hw s
  obtain ⟨_, i1, i2⟩ := hi
  obtain ⟨_, c1, c2⟩ := hc
  exact wrapT_key hw s _ (by omega) (by omega)

/-- Zero is a value of every type. -/
theorem InT_zero {w : Nat} (hw : 0 < w ∧ w ≤ 64) (s : Bool) : InT w s 0 := by
  obtain ⟨_, b2, b3, _⟩ := width_bounds hw s
  have h0 : key s 0 = 0 := by unfold key int64; cases s <;> simp
  refine ⟨by norm_num, ?_, ?_⟩ <;> rw [h0] <;> assumption

/-- In a 64-bit type every pattern is a value. -/
theorem InT_64 (s : Bool) (x : Nat) : InT 64 s x ↔ x < 2 ^ 64 := by
  unfold InT minT limitT key int64
  cases s
  · simp only [Bool.false_eq_true, if_false]
    constructor
    · exact fun h => h.1
    · intro h
      exact ⟨h, by omega, by norm_num; omega⟩
  · simp only [if_true]
    constructor
    · exact fun h => h.1
    · intro h
      refine ⟨h, ?_, ?_⟩ <;> norm_num <;> split <;> omega

/-- For a 64-bit type the two ways of saying that the declarations belong to one
type agree. -/
theorem OfType_64 (s : Bool) (vs : List Value) : OfType 64 s vs ↔ OneType s vs := by
  unfold OfType OneType
  constructor
  · intro h v hv
    exact ⟨(h v hv).1, (h v hv).2.1⟩
  · intro h v hv
    exact ⟨(h v hv).1, (InT_64 s v.value).mpr (h v hv).2⟩

theorem OfType_OneType {w : Nat} {s : Bool} {vs : List Value} (h : OfType w s vs) :
    OneType s vs :=
  fun v hv => ⟨(h v hv).1, (h v hv).2.1⟩

/-! ## Values of a run -/

theorem key_zero (s : Bool) : key s 0 = 0 := by
  unfold key int64
  cases s <;> simp

/-- A small natural number is the pattern of itself. -/
theorem key_of_small {w : Nat} (hw : 0 < w ∧ w ≤ 64) {s : Bool} {n : Nat}
    (hn : (n : Int) < limitT w s) : n < 2 ^ 64 ∧ key s n = (n : Int) ∧ InT w s n := by
  obtain ⟨_, b2, _, b4, _⟩ := width_bounds hw s
  have h2 : n < 2 ^ 64 ∧ key s n = (n : Int) := by
    unfold key int64
    cases s
    · simp only [Bool.false_eq_true, if_false] at b4 ⊢
      exact ⟨by omega, trivial⟩
    · simp only [if_true] at b4 ⊢
      refine ⟨by omega, ?_⟩
      rw [if_pos (by omega)]
  refine ⟨h2.1, h2.2, h2.1, ?_, ?_⟩
  · rw [h2.2]; omega
  · rw [h2.2]; exact hn

theorem addT_subT {w : Nat} (hw : 0 < w ∧ w ≤ 64) {s : Bool} {v c : Nat}
    (hv : InT w s v) (hc : InT w s c) : addT w s (subT w s v c) c = v := by
  obtain ⟨b1, b2, b3, _⟩ := width_bounds hw s
  obtain ⟨hs1, hs2⟩ := subT_key hw hv hc
  obtain ⟨ha1, ha2⟩ := addT_key hw hs1 hc
  refine key_inj (s := s) ha1.1 hv.1 ?_
  rw [ha2, hs2]
  obtain ⟨_, v1, v2⟩ := hv
  obtain ⟨_, c1, c2⟩ := hc
  generalize ((2 ^ w : Nat) : Int) = m at *
  generalize key s v = kv at *
  generalize key s c = kc at *
  split_ifs <;> omega

theorem subT_lt (w : Nat) (s : Bool) (i c : Nat) : subT w s i c < 2 ^ 64 := by
  unfold subT wrapT
  omega

theorem subT_zero {w : Nat} (hw : 0 < w ∧ w ≤ 64) {s : Bool} {i : Nat} (hi : InT w s i) :
    subT w s i 0 = i := by
  obtain ⟨hs1, hs2⟩ := subT_key hw hi (InT_zero hw s)
  refine key_inj (s := s) hs1.1 hi.1 ?_
  rw [hs2, key_zero]
  obtain ⟨_, v1, v2⟩ := hi
  rw [if_neg (by omega), if_pos (by omega)]
  omega

theorem addT_zero {w : Nat} (hw : 0 < w ∧ w ≤ 64) {s : Bool} {i : Nat} (hi : InT w s i) :
    addT w s i 0 = i := by
  obtain ⟨hs1, hs2⟩ := addT_key hw hi (InT_zero hw s)
  refine key_inj (s := s) hs1.1 hi.1 ?_
  rw [hs2, key_zero]
  obtain ⟨_, v1, v2⟩ := hi
  rw [if_neg (by omega), if_pos (by omega)]
  omega

/-- The successor of a position below the limit of the type. -/
theorem addT_one {w : Nat} (hw : 0 < w ∧ w ≤ 64) {s : Bool} {i : Nat}
    (hi : ((i + 1 : Nat) : Int) < limitT w s) : addT w s i 1 = i + 1 := by
  obtain ⟨_, b2, _⟩ := width_bounds hw s
  have hi0 : (i : Int) < limitT w s := by omega
  have hi1 : ((1 : Nat) : Int) < limitT w s := by omega
  obtain ⟨i1, i2, _⟩ := key_of_small hw hi0
  obtain ⟨o1, o2, _⟩ := key_of_small hw hi1
  obtain ⟨n1, n2, _⟩ := key_of_small hw hi
  have hkey := wrapT_key hw s (key s i + key s 1) (by rw [i2, o2]; omega) (by rw [i2, o2]; omega)
  refine key_inj (s := s) hkey.1.1 n1 ?_
  show key s (wrapT w s (key s i + key s 1)) = key s (i + 1)
  rw [hkey.2, n2, i2, o2]
  rw [if_neg (by omega), if_pos (by omega)]
  omega

/-- The constant `T(len(index)-1)` for an index array of `n + 1` offsets. -/
theorem convT?_length {w : Nat} (hw : 0 < w ∧ w ≤ 64) (s : Bool) (n : Nat) :
    ((n : Int) < limitT w s → convT? w s (((n + 1 : Nat) : Int) - 1) = some n) ∧
    (limitT w s ≤ (n : Int) → convT? w s (((n + 1 : Nat) : Int) - 1) = none) := by
  obtain ⟨_, b2, _, b4, _⟩ := width_bounds hw s
  have e : ((n + 1 : Nat) : Int) - 1 = (n : Int) := by omega
  unfold convT?
  rw [e]
  constructor
  · intro hn
    rw [if_pos ⟨by omega, hn⟩]
    have : ((n : Int) % 2 ^ 64).toNat = n := by
      cases s <;> simp only [Bool.false_eq_true, if_false, if_true] at b4 <;> omega
    rw [this]
  · intro hn
    rw [if_neg (by omega)]

theorem chain_key_at {s : Bool} (r : List Value) :
    ∀ (d0 : Value), List.Chain (fun a b => key s b.value = key s a.value + 1) d0 r →
      ∀ (i : Nat) (d : Value), (d0 :: r)[i]? = some d →
        key s d.value = key s d0.value + i := by
  induction r with
  | nil =>
    intro d0 _ i d h
    cases i with
    | zero => simp at h; subst h; simp
    | succ i => simp at h
  | cons y ys ih =>
    intro d0 hc i d h
    rw [List.chain_cons] at hc
    cases i with
    | zero => simp at h; subst h; simp
    | succ i =>
      rw [List.getElem?_cons_succ] at h
      have := ih y hc.2 i d h
      rw [this, hc.1]
      push_cast
      omega

/-- In a run that starts with `d0` and has `n` elements, every integer from the
value of `d0` up to `n - 1` more is the value of a declaration of the run. -/
theorem chain_covers {s : Bool} (d0 : Value) (r : List Value)
    (hc : List.Chain (fun a b => key s b.value = key s a.value + 1) d0 r)
    (k : Int) (h0 : key s d0.value ≤ k) (h1 : k < key s d0.value + ((d0 :: r).length : Int)) :
    ∃ d ∈ d0 :: r, key s d.value = k := by
  have hi : (k - key s d0.value).toNat < (d0 :: r).length := by omega
  refine ⟨(d0 :: r)[(k - key s d0.value).toNat], List.getElem_mem _, ?_⟩
  have := chain_key_at r d0 hc (k - key s d0.value).toNat _ (List.getElem?_eq_getElem hi)
  rw [this]
  omega

theorem chain_last_key {s : Bool} (d0 : Value) (r : List Value)
    (hc : List.Chain (fun a b => key s b.value = key s a.value + 1) d0 r) :
    key s (r.getLastD d0).value = key s d0.value + (r.length : Int) := by
  have hlast : (d0 :: r)[r.length]? = some (r.getLastD d0) := by
    have h1 : (d0 :: r).getLast? = some (r.getLastD d0) := by
      rw [List.getLast?_cons, List.getLastD_eq_getLast?]
    rw [List.getLast?_eq_getElem?] at h1
    simpa using h1
  exact chain_key_at r d0 hc r.length _ hlast

/-- The index computed by `i -= start` lies inside the table only for a value
of the run. -/
theorem subT_in_range {w : Nat} (hw : 0 < w ∧ w ≤ 64) {s : Bool} {v v0 n : Nat}
    (hv : InT w s v) (hv0 : InT w s v0)
    (hn : key s v0 + (n : Int) ≤ limitT w s)
    (hj0 : s = true → 0 ≤ key s (subT w s v v0)) (hjn : key s (subT w s v v0) < (n : Int)) :
    key s v = key s v0 + key s (subT w s v v0) ∧ 0 ≤ key s (subT w s v v0) := by
  obtain ⟨b1, b2, b3, b4, b5, b6, b7⟩ := width_bounds hw s
  obtain ⟨hs1, hs2⟩ := subT_key hw hv hv0
  obtain ⟨_, v1, v2⟩ := hv
  obtain ⟨_, c1, c2⟩ := hv0
  obtain ⟨_, j1, j2⟩ := hs1
  generalize key s (subT w s v v0) = j at *
  generalize ((2 ^ w : Nat) : Int) = m at *
  generalize key s v = kv at *
  generalize key s v0 = kc at *
  cases s
  · have := b6 rfl
    split_ifs at hs2 <;> omega
  · have := hj0 rfl
    have := b7 rfl
    split_ifs at hs2 <;> omega

/-! ## Values without a declaration -/

/-- The facts about one run that the lookups rely on. -/
theorem run_facts {s : Bool} (vs : List Value) (h : OneType s vs) (r : List Value)
    (hr : r ∈ splitIntoRuns vs) :
    r ≠ [] ∧ List.Chain' (fun a b => key s b.value = key s a.value + 1) r ∧
      (∀ d ∈ r, d ∈ vs) := by
  refine ⟨((splitIntoRuns_spec vs).2.1 r hr).1, run_succ vs h r hr, ?_⟩
  intro d hd
  exact sortAndDedup_subset vs d ((mem_splitIntoRuns_sublist vs r hr).subset hd)

theorem run_limit {w : Nat} {s : Bool} (d0 : Value) (r : List Value)
    (hc : List.Chain (fun a b => key s b.value = key s a.value + 1) d0 r)
    (hb : ∀ d ∈ d0 :: r, InT w s d.value) :
    key s d0.value + ((d0 :: r).length : Int) ≤ limitT w s := by
  have h1 := chain_last_key d0 r hc
  have hmem : r.getLastD d0 ∈ d0 :: r := by
    have : (d0 :: r).getLast? = some (r.getLastD d0) := by
      rw [List.getLast?_cons, List.getLastD_eq_getLast?]
    exact List.mem_of_getLast?_eq_some this
  have h2 := (hb _ hmem).2.2
  simp only [List.length_cons]
  push_cast
  omega

/-- A run of an unsigned type that leaves out a value of the type is shorter
than the type is wide. -/
theorem run_length_lt_unsigned {w : Nat} (hw : 0 < w ∧ w ≤ 64) (d0 : Value)
    (r : List Value)
    (hc : List.Chain (fun a b => key false b.value = key false a.value + 1) d0 r)
    (hb : ∀ d ∈ d0 :: r, InT w false d.value) (v : Nat) (hv : InT w false v)
    (hnot : ∀ d ∈ d0 :: r, d.value ≠ v) :
    ((d0 :: r).length : Int) < limitT w false := by
  by_contra hge
  have hlim := run_limit d0 r hc hb
  obtain ⟨_, _, _, _, _, b6, _⟩ := width_bounds hw false
  have hmin := b6 rfl
  have h0 := (hb d0 (List.mem_cons_self _ _)).2.1
  obtain ⟨_, v1, v2⟩ := hv
  obtain ⟨d, hd, hkd⟩ := chain_covers d0 r hc (key false v) (by omega) (by omega)
  exact hnot d hd (key_inj (hb d hd).1 (by assumption) hkd)

theorem stringOneRunWithOffset_fallback {w : Nat} (hw : 0 < w ∧ w ≤ 64) {s : Bool}
    (typeName : GoString) (d0 : Value)
    (r : List Value) (t : IndexAndName) (v : Nat)
    (hc : List.Chain (fun a b => key s b.value = key s a.value + 1) d0 r)
    (hb : ∀ d ∈ d0 :: r, InT w s d.value) (hs : d0.signed = s)
    (ht : t.index.length = (d0 :: r).length + 1)
    (hfit : ((d0 :: r).length : Int) < limitT w s)
    (hv : InT w s v) (hnot : ∀ d ∈ d0 :: r, d.value ≠ v) :
    stringOneRunWithOffset w s typeName d0 d0.signed t v = some (fallback typeName v) := by
  have hd0 := hb d0 (List.mem_cons_self _ _)
  have hkn := (key_of_small hw hfit).2.1
  unfold stringOneRunWithOffset
  rw [ht, (convT?_length hw s (d0 :: r).length).1 hfit]
  simp only
  rw [addT_subT hw hv hd0]
  split
  · rfl
  · rename_i hcond
    exfalso
    rw [not_or, not_and_or] at hcond
    obtain ⟨hlz, hn⟩ := hcond
    have hn2 : key s (subT w s v d0.value) < ((d0 :: r).length : Int) := by
      rw [hkn] at hn
      omega
    have hj0 : s = true → 0 ≤ key s (subT w s v d0.value) := by
      intro hst
      rcases hlz with h | h
      · rw [hs, hst] at h; exact absurd rfl h
      · omega
    have hlim := run_limit d0 r hc hb
    obtain ⟨hk, h0⟩ := subT_in_range hw hv hd0 hlim hj0 hn2
    obtain ⟨d, hd, hkd⟩ := chain_covers d0 r hc (key s v) (by omega) (by omega)
    exact hnot d hd (key_inj (hb d hd).1 hv.1 hkd)

theorem stringOneRun_eq_offset {w : Nat} (hw : 0 < w ∧ w ≤ 64) (s : Bool)
    (typeName : GoString) (d0 : Value) (l : Bool)
    (t : IndexAndName) (v : Nat) (hv : InT w s v) (h0 : d0.value = 0) :
    stringOneRun w s typeName l t v = stringOneRunWithOffset w s typeName d0 l t v := by
  have h1 : subT w s v d0.value = v := by rw [h0]; exact subT_zero hw hv
  have h2 : addT w s v d0.value = v := by rw [h0]; exact addT_zero hw hv
  unfold stringOneRun stringOneRunWithOffset
  cases convT? w s ((t.index.length : Int) - 1) with
  | none => rfl
  | some n => simp only [h1, h2]

theorem createIndexAndNameDecl_length (run : List Value) :
    (createIndexAndNameDecl run).index.length = run.length + 1 := by
  simp [createIndexAndNameDecl, writeAll_length]

theorem createIndexAndNameDescDecl_length (run : List Value) :
    (createIndexAndNameDescDecl run).index.length = run.length + 1 := by
  simp [createIndexAndNameDescDecl, writeAll_length]

/-- The single-run shape returns the fallback for a value that the run does
not hold. -/
theorem oneRun_fallback {w : Nat} (hw : 0 < w ∧ w ≤ 64) {s : Bool} (typeName : GoString)
    (d0 : Value) (r : List Value)
    (rest : List (List Value)) (p : OneRun) (v : Nat)
    (hp : buildOneRun ((d0 :: r) :: rest) typeName = some p)
    (hc : List.Chain (fun a b => key s b.value = key s a.value + 1) d0 r)
    (hb : ∀ d ∈ d0 :: r, InT w s d.value) (hs : d0.signed = s)
    (hfit : s = true → ((d0 :: r).length : Int) < limitT w s)
    (hv : InT w s v) (hnot : ∀ d ∈ d0 :: r, d.value ≠ v) :
    p.String w s v = some (fallback typeName v) ∧
      p.Description w s v = some (fallback typeName v) := by
  simp only [buildOneRun, Option.some.injEq] at hp
  subst hp
  have hfit2 : ((d0 :: r).length : Int) < limitT w s := by
    cases s with
    | true => exact hfit rfl
    | false => exact run_length_lt_unsigned hw d0 r hc hb v hv hnot
  have hn := stringOneRunWithOffset_fallback hw typeName d0 r
    (createIndexAndNameDecl (d0 :: r)) v
    hc hb hs (createIndexAndNameDecl_length _) hfit2 hv hnot
  have hd := stringOneRunWithOffset_fallback hw typeName d0 r
    (createIndexAndNameDescDecl (d0 :: r)) v
    hc hb hs (createIndexAndNameDescDecl_length _) hfit2 hv hnot
  by_cases h0 : d0.value = 0
  · simp only [OneRun.String, OneRun.Description, h0, if_true]
    rw [stringOneRun_eq_offset hw s typeName d0 _ _ v hv h0,
      stringOneRun_eq_offset hw s typeName d0 _ _ v hv h0]
    exact ⟨hn, hd⟩
  · simp only [OneRun.String, OneRun.Description, h0, if_false]
    exact ⟨hn, hd⟩

theorem runCase_not_holds {s : Bool} (mk : List Value → IndexAndName) (r : List Value)
    (c : Case) (v : Nat) (hcase : runCase mk r = some c)
    (hc : List.Chain' (fun a b => key s b.value = key s a.value + 1) r)
    (hb : ∀ d ∈ r, d.value < 2 ^ 64 ∧ d.signed = s)
    (hv : v < 2 ^ 64) (hnot : ∀ d ∈ r, d.value ≠ v) : c.holds s v = false := by
  cases r with
  | nil => simp [runCase] at hcase
  | cons d0 rest =>
    cases rest with
    | nil =>
      simp only [runCase, Option.some.injEq] at hcase
      subst hcase
      have := hnot d0 (List.mem_cons_self _ _)
      simp only [Case.holds, beq_eq_false_iff_ne, ne_eq]
      exact fun e => this e.symm
    | cons w rest =>
      simp only [runCase, Option.some.injEq] at hcase
      subst hcase
      by_contra hholds
      rw [Bool.not_eq_false] at hholds
      simp only [Case.holds, Bool.and_eq_true, Bool.or_eq_true, Bool.not_eq_true',
        Bool.not_eq_false', decide_eq_true_eq, beq_iff_eq] at hholds
      obtain ⟨hlow, hhigh⟩ := hholds
      have hbv : ∀ d ∈ d0 :: w :: rest, d.value < 2 ^ 64 := fun d hd => (hb d hd).1
      have hs0 : d0.signed = s := (hb d0 (List.mem_cons_self _ _)).2
      have hlast := chain_last_key d0 (w :: rest) hc
      have hlow2 : key s d0.value ≤ key s v := by
        rcases hlow with h | h
        · have hz : key s d0.value = 0 := by rw [h.1]; exact key_zero s
          have hsf : s = false := by rw [← hs0]; exact h.2
          rw [hz, hsf]
          show (0 : Int) ≤ key false v
          unfold key
          simp
        · exact h
      obtain ⟨d, hd, hkd⟩ := chain_covers d0 (w :: rest) hc (key s v) hlow2 (by
        rw [hlast] at hhigh
        simp only [List.length_cons] at hhigh ⊢
        push_cast at hhigh ⊢
        omega)
      exact hnot d hd (key_inj (hbv d hd) hv hkd)

theorem switchCases_fallback (w : Nat) (s : Bool) (typeName : GoString) (cs : List Case)
    (v : Nat) (h : ∀ c ∈ cs, c.holds s v = false) :
    switchCases w s typeName cs v = some (fallback typeName v) := by
  induction cs with
  | nil => rfl
  | cons c cs ih =>
    simp only [switchCases, h c (List.mem_cons_self _ _), Bool.false_eq_true, if_false]
    exact ih (fun c hc => h c (List.mem_cons_of_mem _ hc))

theorem mapOpt_mem {α β : Type} (f : α → Option β) :
    ∀ (l : List α) (bs : List β), mapOpt f l = some bs →
      ∀ b ∈ bs, ∃ a ∈ l, f a = some b := by
  intro l
  induction l with
  | nil =>
    intro bs h b hb
    simp only [mapOpt, Option.some.injEq] at h
    subst h
    simp at hb
  | cons a as ih =>
    intro bs h b hb
    simp only [mapOpt] at h
    cases hfa : f a with
    | none => simp [hfa] at h
    | some b0 =>
      cases hrest : mapOpt f as with
      | none => simp [hfa, hrest] at h
      | some bs0 =>
        simp only [hfa, hrest, Option.some.injEq] at h
        subst h
        rcases List.mem_cons.mp hb with e | hb
        · exact ⟨a, List.mem_cons_self _ _, by rw [hfa, e]⟩
        · obtain ⟨x, hx, hfx⟩ := ih bs0 hrest b hb
          exact ⟨x, List.mem_cons_of_mem _ hx, hfx⟩

/-- The multiple-runs shape returns the fallback for a value that no run holds. -/
theorem multipleRuns_fallback (w : Nat) {s : Bool} (typeName : GoString)
    (runs : List (List Value))
    (p : MultipleRuns) (v : Nat) (hp : buildMultipleRuns runs typeName = some p)
    (hc : ∀ r ∈ runs, List.Chain' (fun a b => key s b.value = key s a.value + 1) r)
    (hb : ∀ r ∈ runs, ∀ d ∈ r, d.value < 2 ^ 64 ∧ d.signed = s)
    (hv : v < 2 ^ 64) (hnot : ∀ r ∈ runs, ∀ d ∈ r, d.value ≠ v) :
    p.String w s v = some (fallback typeName v) ∧
      p.Description w s v = some (fallback typeName v) := by
  unfold buildMultipleRuns at hp
  cases hns : mapOpt (runCase createIndexAndNameDecl) runs with
  | none => simp [hns] at hp
  | some ns =>
    cases hds : mapOpt (runCase createIndexAndNameDescDecl) runs with
    | none => simp [hns, hds] at hp
    | some ds =>
      simp only [hns, hds, Option.some.injEq] at hp
      subst hp
      constructor
      · refine switchCases_fallback w s typeName ns v ?_
        intro c hcs
        obtain ⟨r, hr, hrc⟩ := mapOpt_mem _ runs ns hns c hcs
        exact runCase_not_holds _ r c v hrc (hc r hr) (hb r hr) hv (hnot r hr)
      · refine switchCases_fallback w s typeName ds v ?_
        intro c hcs
        obtain ⟨r, hr, hrc⟩ := mapOpt_mem _ runs ds hds c hcs
        exact runCase_not_holds _ r c v hrc (hc r hr) (hb r hr) hv (hnot r hr)

theorem mapEntries_mem (text : Value → GoString) :
    ∀ (l : List Value) (n : Nat), ∀ e ∈ mapEntries text l n, e.1 ∈ l := by
  intro l
  induction l with
  | nil => intro n e he; simp [mapEntries] at he
  | cons d ds ih =>
    intro n e he
    simp only [mapEntries, List.mem_cons] at he
    rcases he with e1 | he
    · rw [e1]; exact List.mem_cons_self _ _
    · exact List.mem_cons_of_mem _ (ih _ e he)

theorem mapLiteral_fallback (typeName : GoString) (text : GoString)
    (field : Value → GoString) (l : List Value) (m : List (Nat × GoString)) (v : Nat)
    (hm : mapLiteral text (mapEntries field l 0) = some m) (hnot : ∀ d ∈ l, d.value ≠ v) :
    stringMap typeName m v = fallback typeName v := by
  unfold mapLiteral at hm
  cases hc : interpreted text with
  | none => simp [hc] at hm
  | some c =>
    simp only [hc] at hm
    have hfind : m.find? (fun kv => kv.1 == v) = none := by
      rw [List.find?_eq_none]
      intro kv hkv
      obtain ⟨e, he, hfe⟩ := mapOpt_mem _ _ m hm kv hkv
      have hmem := mapEntries_mem field l 0 e he
      cases hsl : slice? c e.2.1 e.2.2 with
      | none => simp [hsl] at hfe
      | some str =>
        simp only [hsl, Option.map_some', Option.some.injEq] at hfe
        rw [← hfe]
        simpa using hnot e.1 hmem
    simp [stringMap, hfind]

/-- The map shape, where the compiler accepts it, returns the fallback for a
value that is not a key. -/
theorem map_fallback (typeName : GoString) (runs : List (List Value)) (v : Nat)
    (m1 m2 : List (Nat × GoString))
    (h1 : mapLiteral (buildMap runs typeName).nameText (buildMap runs typeName).nameEntries
      = some m1)
    (h2 : mapLiteral (buildMap runs typeName).descText (buildMap runs typeName).descEntries
      = some m2)
    (hnot : ∀ d ∈ runs.flatten, d.value ≠ v) :
    (buildMap runs typeName).String v = some (fallback typeName v) ∧
      (buildMap runs typeName).Description v = some (fallback typeName v) := by
  have e1 := mapLiteral_fallback typeName _ _ _ m1 v h1 hnot
  have e2 := mapLiteral_fallback typeName _ _ _ m2 v h2 hnot
  simp only [MapShape.String, MapShape.Description, h1, h2]
  exact ⟨by rw [← e1]; rfl, by rw [← e2]; rfl⟩

/-! ## Declared values -/

/-- The literal is read in at most one step per byte: every number of steps
above the length of the text gives the same result. -/
theorem interpretedAux_fuel : ∀ (n m : Nat) (t : GoString), t.length < n → t.length < m →
    interpretedAux n t = interpretedAux m t := by
  intro n
  induction n with
  | zero => intro m t h _; simp at h
  | succ n ih =>
    intro m t hn hm
    cases m with
    | zero => simp at hm
    | succ m =>
      cases t with
      | nil => rfl
      | cons b rest =>
        simp only [List.length_cons, Nat.add_lt_add_iff_right] at hn hm
        have h0 := ih m rest hn hm
        rcases rest with _ | ⟨e, r⟩
        · simp only [interpretedAux, h0]
        · simp only [List.length_cons] at hn hm
          have h1 := ih m r (by omega) (by omega)
          rcases r with _ | ⟨a1, _ | ⟨a2, r2⟩⟩
          · simp only [interpretedAux, h0, h1]
          · simp only [interpretedAux, h0, h1]
          · simp only [List.length_cons] at hn hm
            have h2 := ih m r2 (by omega) (by omega)
            rcases r2 with _ | ⟨a3, _ | ⟨a4, r4⟩⟩
            · simp only [interpretedAux, h0, h1, h2]
            · simp only [interpretedAux, h0, h1, h2]
            · simp only [List.length_cons] at hn hm
              have h4 := ih m r4 (by omega) (by omega)
              rcases r4 with _ | ⟨a5, _ | ⟨a6, _ | ⟨a7, _ | ⟨a8, r8⟩⟩⟩⟩
              · simp only [interpretedAux, h0, h1, h2, h4]
              · simp only [interpretedAux, h0, h1, h2, h4]
              · simp only [interpretedAux, h0, h1, h2, h4]
              · simp only [interpretedAux, h0, h1, h2, h4]
              · simp only [List.length_cons] at hn hm
                have h8 := ih m r8 (by omega) (by omega)
                simp only [interpretedAux, h0, h1, h2, h4, h8]

theorem interpretedAux_plain (t : GoString) :
    ∀ n, t.length < n → Plain t → interpretedAux n t = some t := by
  induction t with
  | nil =>
    intro n hn _
    cases n with
    | zero => simp at hn
    | succ n => rfl
  | cons b rest ih =>
    intro n hn hp
    cases n with
    | zero => simp at hn
    | succ n =>
      have hb := hp b (List.mem_cons_self _ _)
      have hrest : Plain rest := fun x hx => hp x (List.mem_cons_of_mem _ hx)
      have hlen : rest.length < n := by simpa using hn
      simp only [interpretedAux, hb.1, hb.2.1, hb.2.2, or_self, if_false, ih n hlen hrest,
        Option.map_some']

theorem interpreted_plain (t : GoString) (h : Plain t) : interpreted t = some t :=
  interpretedAux_plain t (t.length + 1) (Nat.lt_succ_self _) h

theorem plain_flatten (l : List GoString) (h : ∀ t ∈ l, Plain t) : Plain l.flatten := by
  intro b hb
  obtain ⟨t, ht, hbt⟩ := List.mem_flatten.mp hb
  exact h t ht b hbt

theorem mapEntries_slices (text : Value → GoString) (l : List Value) :
    ∀ (pre : GoString),
      mapOpt (fun e : Value × Nat × Nat =>
          (slice? (pre ++ (l.map text).flatten) e.2.1 e.2.2).map (fun str => (e.1.value, str)))
        (mapEntries text l pre.length) = some (l.map (fun d => (d.value, text d))) := by
  induction l with
  | nil => intro pre; rfl
  | cons d ds ih =>
    intro pre
    have hrest := ih (pre ++ text d)
    simp only [List.map_cons, List.flatten_cons, List.length_append] at hrest ⊢
    rw [← List.append_assoc]
    simp only [mapEntries, mapOpt, hrest]
    have hs : slice? (pre ++ text d ++ (ds.map text).flatten) pre.length
        (pre.length + (text d).length) = some (text d) := by
      rw [slice?_eq_some (by omega) (by simp only [List.length_append]; omega)]
      have : pre.length + (text d).length = (pre ++ text d).length := by simp
      rw [this, List.take_left' rfl]
      simp
    rw [hs]
    rfl

theorem mapLiteral_plain (text : Value → GoString) (l : List Value)
    (hp : ∀ d ∈ l, Plain (text d)) :
    mapLiteral (l.map text).flatten (mapEntries text l 0) =
      some (l.map (fun d => (d.value, text d))) := by
  have hplain : Plain (l.map text).flatten := by
    refine plain_flatten _ ?_
    intro t ht
    obtain ⟨d, hd, e⟩ := List.mem_map.mp ht
    rw [← e]
    exact hp d hd
  unfold mapLiteral
  rw [interpreted_plain _ hplain]
  simpa using mapEntries_slices text l []

theorem find?_map_pair (text : Value → GoString) (l : List Value) (v : Nat) :
    (l.map (fun d => (d.value, text d))).find? (fun kv => kv.1 == v) =
      (l.find? (fun d => d.value == v)).map (fun d => (d.value, text d)) := by
  induction l with
  | nil => rfl
  | cons d ds ih =>
    simp only [List.map_cons, List.find?_cons]
    cases hd : (d.value == v)
    · simpa using ih
    · simp

/-- In the sorted and deduplicated list the declaration found for a value is
the first one of the input with that value. -/
theorem sortAndDedup_find? {s : Bool} (vs : List Value) (h : OneType s vs) (v : Nat) :
    (sortAndDedup vs).find? (fun d => d.value == v) = vs.find? (fun d => d.value == v) := by
  rw [find?_eq_head?_filter, sortAndDedup_filter vs h v]
  cases vs.find? (fun d => d.value == v) <;> rfl

/-- The map shape with plain texts returns the name and the description of the
first declaration of a value. -/
theorem map_roundtrip {s : Bool} (typeName : GoString) (vs : List Value) (h : OneType s vs)
    (hp : ∀ d ∈ vs, Plain d.name ∧ Plain d.description) (v : Nat) (d : Value)
    (hd : vs.find? (fun e => e.value == v) = some d) :
    (buildMap (splitIntoRuns vs) typeName).String v = some d.name ∧
      (buildMap (splitIntoRuns vs) typeName).Description v = some d.description := by
  have hflat := (splitIntoRuns_spec vs).1
  have hpl : ∀ e ∈ sortAndDedup vs, Plain e.name ∧ Plain e.description :=
    fun e he => hp e (sortAndDedup_subset vs e he)
  have h1 := mapLiteral_plain (fun e => e.name) (sortAndDedup vs) (fun e he => (hpl e he).1)
  have h2 := mapLiteral_plain (fun e => e.description) (sortAndDedup vs)
    (fun e he => (hpl e he).2)
  have hfind := sortAndDedup_find? vs h v
  rw [hd] at hfind
  simp only [MapShape.String, MapShape.Description, buildMap, declareNameVars, hflat, h1, h2,
    stringMap, find?_map_pair, hfind, Option.map_some']
  exact ⟨trivial, trivial⟩

theorem createIndexAndNameDecl_eq :
    createIndexAndNameDecl = tableOf (fun v => v.name) := rfl

theorem createIndexAndNameDescDecl_eq :
    createIndexAndNameDescDecl = tableOf (fun v => v.description) := rfl

theorem tableOf_length (text : Value → GoString) (run : List Value) :
    (tableOf text run).index.length = run.length + 1 := by
  simp [tableOf, writeAll_length]

theorem subT_of_key {w : Nat} (hw : 0 < w ∧ w ≤ 64) {s : Bool} {v v0 i : Nat}
    (hv : InT w s v) (hv0 : InT w s v0)
    (hi : (i : Int) < limitT w s) (hk : key s v = key s v0 + (i : Int)) :
    subT w s v v0 = i := by
  obtain ⟨_, b2, _⟩ := width_bounds hw s
  obtain ⟨hs1, hs2⟩ := subT_key hw hv hv0
  obtain ⟨i1, i2, _⟩ := key_of_small hw hi
  refine key_inj (s := s) hs1.1 i1 ?_
  rw [hs2, i2, hk]
  rw [if_neg (by omega), if_pos (by omega)]
  omega

/-- The expression `name[index[i]:index[i+1]]` at a position of the run is the
text of the declaration at that position. -/
theorem tableEntry_at {w : Nat} (hw : 0 < w ∧ w ≤ 64) {s : Bool} (text : Value → GoString)
    (run : List Value) (i : Nat)
    (d : Value) (hi : ((i + 1 : Nat) : Int) < limitT w s) (hd : run[i]? = some d) :
    tableEntry w s (tableOf text run) i = some (text d) := by
  obtain ⟨lo, hi2, h1, h2, h3, h4, h5⟩ := writeAll_entry text run [] i d hd
  have hi0 : (i : Int) < limitT w s := by omega
  have hk1 : key s i = (i : Int) := (key_of_small hw hi0).2.1
  have ha : addT w s i 1 = i + 1 := addT_one hw hi
  have hk2 : key s (i + 1) = ((i + 1 : Nat) : Int) := (key_of_small hw hi).2.1
  have e1 : index? s (tableOf text run).index i = some lo := by
    simp only [index?, hk1, tableOf]
    simpa using h1
  have e2 : index? s (tableOf text run).index (addT w s i 1) = some hi2 := by
    rw [ha]
    simp only [index?, hk2, tableOf]
    rw [if_pos (by omega)]
    simpa using h2
  simp only [tableEntry, e1, e2]
  have : (tableOf text run).name = (writeAll text run []).2 := rfl
  rw [this, slice?_eq_some (by omega) h4, h5]

theorem stringOneRunWithOffset_at {w : Nat} (hw : 0 < w ∧ w ≤ 64) {s : Bool}
    (typeName : GoString) (text : Value → GoString)
    (d0 : Value) (r : List Value) (i : Nat) (d : Value)
    (hc : List.Chain (fun a b => key s b.value = key s a.value + 1) d0 r)
    (hb : ∀ e ∈ d0 :: r, InT w s e.value) (hlen : ((d0 :: r).length : Int) < limitT w s)
    (hd : (d0 :: r)[i]? = some d) :
    stringOneRunWithOffset w s typeName d0 d0.signed (tableOf text (d0 :: r)) d.value =
      some (text d) := by
  have hi : i < (d0 :: r).length := (List.getElem?_eq_some_iff.mp hd).1
  have hmem : d ∈ d0 :: r := List.getElem?_mem hd
  have hk := chain_key_at r d0 hc i d hd
  have hi0 : (i : Int) < limitT w s := by omega
  have hj : subT w s d.value d0.value = i :=
    subT_of_key hw (hb d hmem) (hb d0 (List.mem_cons_self _ _)) hi0 hk
  have hk1 : key s i = (i : Int) := (key_of_small hw hi0).2.1
  have hkn := (key_of_small hw hlen).2.1
  unfold stringOneRunWithOffset
  rw [tableOf_length, (convT?_length hw s (d0 :: r).length).1 hlen]
  simp only [hj, hk1, hkn]
  rw [if_neg]
  · exact tableEntry_at hw text (d0 :: r) i d (by omega) hd
  · omega

/-- The single-run shape returns name and description at every position of
its run. -/
theorem oneRun_roundtrip {w : Nat} (hw : 0 < w ∧ w ≤ 64) {s : Bool} (typeName : GoString)
    (d0 : Value) (r : List Value)
    (rest : List (List Value)) (p : OneRun) (i : Nat) (d : Value)
    (hp : buildOneRun ((d0 :: r) :: rest) typeName = some p)
    (hc : List.Chain (fun a b => key s b.value = key s a.value + 1) d0 r)
    (hb : ∀ e ∈ d0 :: r, InT w s e.value) (hlen : ((d0 :: r).length : Int) < limitT w s)
    (hd : (d0 :: r)[i]? = some d) :
    p.String w s d.value = some d.name ∧
      p.Description w s d.value = some d.description := by
  simp only [buildOneRun, Option.some.injEq] at hp
  subst hp
  have hv : InT w s d.value := hb d (List.getElem?_mem hd)
  have hn := stringOneRunWithOffset_at hw typeName (fun v => v.name) d0 r i d hc hb hlen hd
  have hde := stringOneRunWithOffset_at hw typeName (fun v => v.description) d0 r i d hc hb
    hlen hd
  rw [← createIndexAndNameDecl_eq] at hn
  rw [← createIndexAndNameDescDecl_eq] at hde
  by_cases h0 : d0.value = 0
  · simp only [OneRun.String, OneRun.Description, h0, if_true]
    rw [stringOneRun_eq_offset hw s typeName d0 _ _ d.value hv h0,
      stringOneRun_eq_offset hw s typeName d0 _ _ d.value hv h0]
    exact ⟨hn, hde⟩
  · simp only [OneRun.String, OneRun.Description, h0, if_false]
    exact ⟨hn, hde⟩

/-- The case printed for a run is taken at every value of the run and returns
the text of its declaration. -/
theorem runCase_hit {w : Nat} (hw : 0 < w ∧ w ≤ 64) {s : Bool} (text : Value → GoString)
    (r : List Value) (c : Case)
    (i : Nat) (d : Value) (hcase : runCase (tableOf text) r = some c)
    (hc : List.Chain' (fun a b => key s b.value = key s a.value + 1) r)
    (hb : ∀ e ∈ r, InT w s e.value) (hlen : (r.length : Int) < limitT w s)
    (hd : r[i]? = some d) :
    c.holds s d.value = true ∧ c.body w s d.value = some (text d) := by
  cases r with
  | nil => simp [runCase] at hcase
  | cons d0 rest =>
    cases rest with
    | nil =>
      simp only [runCase, Option.some.injEq] at hcase
      subst hcase
      have hi : i = 0 := by
        have := (List.getElem?_eq_some_iff.mp hd).1
        simpa using this
      subst hi
      simp only [List.getElem?_cons_zero, Option.some.injEq] at hd
      subst hd
      simp [Case.holds, Case.body, tableOf, writeAll]
    | cons d1 rest =>
      simp only [runCase, Option.some.injEq] at hcase
      subst hcase
      have hi : i < (d0 :: d1 :: rest).length := (List.getElem?_eq_some_iff.mp hd).1
      have hmem : d ∈ d0 :: d1 :: rest := List.getElem?_mem hd
      have hk := chain_key_at (d1 :: rest) d0 hc i d hd
      have hlast := chain_last_key d0 (d1 :: rest) hc
      have hv0 := hb d0 (List.mem_cons_self _ _)
      have hi0 : (i : Int) < limitT w s := by omega
      have hj : subT w s d.value d0.value = i := subT_of_key hw (hb d hmem) hv0 hi0 hk
      constructor
      · simp only [Case.holds, Bool.and_eq_true, Bool.or_eq_true, decide_eq_true_eq]
        refine ⟨Or.inr (by omega), ?_⟩
        rw [hlast, hk]
        simp only [List.length_cons] at hi ⊢
        push_cast
        omega
      · have hidx : (if (d0.value != 0) = true then subT w s d.value d0.value else d.value) =
            i := by
          split
          · exact hj
          · rename_i hz
            have hz2 : d0.value = 0 := by simpa using hz
            rw [← hj, hz2]
            exact (subT_zero hw (hb d hmem)).symm
        simp only [Case.body, hidx]
        exact tableEntry_at hw text (d0 :: d1 :: rest) i d (by omega) hd

theorem mapOpt_cons_some {α β : Type} (f : α → Option β) (a : α) (as : List α)
    (bs : List β) (h : mapOpt f (a :: as) = some bs) :
    ∃ b bs2, bs = b :: bs2 ∧ f a = some b ∧ mapOpt f as = some bs2 := by
  simp only [mapOpt] at h
  cases hfa : f a with
  | none => simp [hfa] at h
  | some b =>
    cases hrest : mapOpt f as with
    | none => simp [hfa, hrest] at h
    | some bs2 =>
      simp only [hfa, hrest, Option.some.injEq] at h
      exact ⟨b, bs2, h.symm, rfl, rfl⟩

theorem switchCases_roundtrip {w : Nat} (hw : 0 < w ∧ w ≤ 64) {s : Bool}
    (typeName : GoString) (text : Value → GoString)
    (d : Value) :
    ∀ (runs : List (List Value)) (cs : List Case),
      mapOpt (runCase (tableOf text)) runs = some cs →
      (∀ r ∈ runs, List.Chain' (fun a b => key s b.value = key s a.value + 1) r) →
      (∀ r ∈ runs, ∀ e ∈ r, InT w s e.value ∧ e.signed = s) →
      Fits w s runs →
      (∀ e ∈ runs.flatten, e.value = d.value → e = d) → d ∈ runs.flatten →
      switchCases w s typeName cs d.value = some (text d) := by
  intro runs
  induction runs with
  | nil => intro cs _ _ _ _ _ hd; simp at hd
  | cons r rs ih =>
    intro cs hcs hc hb hlen huniq hd
    obtain ⟨c, cs2, e, hrc, hrest⟩ := mapOpt_cons_some _ r rs cs hcs
    subst e
    have hr : r ∈ r :: rs := List.mem_cons_self _ _
    by_cases hdr : d ∈ r
    · obtain ⟨i, hi⟩ := List.getElem?_of_mem hdr
      obtain ⟨h1, h2⟩ := runCase_hit hw text r c i d hrc (hc r hr)
        (fun e he => (hb r hr e he).1) (hlen r hr) hi
      simp only [switchCases, h1, if_true, h2]
    · have hv : d.value < 2 ^ 64 := by
        obtain ⟨q, hq, hdq⟩ := List.mem_flatten.mp hd
        exact (hb q hq d hdq).1.1
      have hnot : ∀ e ∈ r, e.value ≠ d.value := by
        intro e he hev
        have := huniq e (List.mem_flatten.mpr ⟨r, hr, he⟩) hev
        exact hdr (this ▸ he)
      have hnh := runCase_not_holds (tableOf text) r c d.value hrc (hc r hr)
        (fun e he => ⟨(hb r hr e he).1.1, (hb r hr e he).2⟩) hv hnot
      simp only [switchCases, hnh, Bool.false_eq_true, if_false]
      refine ih cs2 hrest (fun q hq => hc q (List.mem_cons_of_mem _ hq))
        (fun q hq => hb q (List.mem_cons_of_mem _ hq))
        (fun q hq => hlen q (List.mem_cons_of_mem _ hq)) ?_ ?_
      · intro e he
        exact huniq e (by
          rw [List.flatten_cons]
          exact List.mem_append_right _ he)
      · rw [List.flatten_cons] at hd
        rcases List.mem_append.mp hd with h | h
        · exact absurd h hdr
        · exact h

theorem sortAndDedup_length_le (vs : List Value) : (sortAndDedup vs).length ≤ vs.length := by
  rw [sortAndDedup_eq, ← (sortStable_perm vs).length_eq]
  exact (dedupAdj_sublist _).length_le

theorem map_accepted (typeName : GoString) (vs : List Value)
    (hp : ∀ d ∈ vs, Plain d.name ∧ Plain d.description) :
    (∃ m, mapLiteral (buildMap (splitIntoRuns vs) typeName).nameText
        (buildMap (splitIntoRuns vs) typeName).nameEntries = some m) ∧
    (∃ m, mapLiteral (buildMap (splitIntoRuns vs) typeName).descText
        (buildMap (splitIntoRuns vs) typeName).descEntries = some m) := by
  have hflat := (splitIntoRuns_spec vs).1
  have hpl : ∀ e ∈ sortAndDedup vs, Plain e.name ∧ Plain e.description :=
    fun e he => hp e (sortAndDedup_subset vs e he)
  constructor
  · refine ⟨(sortAndDedup vs).map (fun d => (d.value, d.name)), ?_⟩
    simp only [buildMap, declareNameVars, hflat]
    exact mapLiteral_plain (fun e => e.name) (sortAndDedup vs) (fun e he => (hpl e he).1)
  · refine ⟨(sortAndDedup vs).map (fun d => (d.value, d.description)), ?_⟩
    simp only [buildMap, declareNameVars, hflat]
    exact mapLiteral_plain (fun e => e.description) (sortAndDedup vs)
      (fun e he => (hpl e he).2)

/-- Round trip: at a declared value the accessors of the single-run shape and of
the multiple-runs shape return the name and the description of the first
declaration of that value, and so do those of the map shape when no name and no
description holds a double quote, a backslash or a newline. -/
theorem accessors_roundtrip {w : Nat} (hw : 0 < w ∧ w ≤ 64) (s : Bool)
    (typeName : GoString) (vs : List Value) (v : Nat)
    (d : Value) (hin : OfType w s vs) (hrlen : Fits w s (splitIntoRuns vs))
    (hd : vs.find? (fun e => e.value == v) = some d) :
    ((splitIntoRuns vs).length = 1 →
      ∃ p, buildOneRun (splitIntoRuns vs) typeName = some p ∧
        p.String w s v = some d.name ∧ p.Description w s v = some d.description) ∧
    (∃ p, buildMultipleRuns (splitIntoRuns vs) typeName = some p ∧
      p.String w s v = some d.name ∧ p.Description w s v = some d.description) ∧
    ((∀ e ∈ vs, Plain e.name ∧ Plain e.description) →
      (buildMap (splitIntoRuns vs) typeName).String v = some d.name ∧
      (buildMap (splitIntoRuns vs) typeName).Description v = some d.description) := by
  have h : OneType s vs := OfType_OneType hin
  have hdv : d.value = v := by
    have := List.find?_some hd
    simpa using this
  have hfilter : (sortAndDedup vs).filter (fun e => e.value == v) = [d] := by
    rw [sortAndDedup_filter vs h v, hd]; rfl
  have hmem : d ∈ sortAndDedup vs := by
    have : d ∈ (sortAndDedup vs).filter (fun e => e.value == v) := by rw [hfilter]; simp
    exact (List.mem_filter.mp this).1
  have huniq : ∀ e ∈ sortAndDedup vs, e.value = d.value → e = d := by
    intro e he hev
    have : e ∈ (sortAndDedup vs).filter (fun e => e.value == v) := by
      rw [List.mem_filter]; exact ⟨he, by simp [hev, hdv]⟩
    rw [hfilter] at this
    simpa using this
  have hspec := splitIntoRuns_spec vs
  have hruns : ∀ r ∈ splitIntoRuns vs, r ≠ [] ∧
      List.Chain' (fun a b => key s b.value = key s a.value + 1) r ∧ (∀ d ∈ r, d ∈ vs) :=
    fun r hr => run_facts vs h r hr
  subst hdv
  refine ⟨?_, ?_, ?_⟩
  · intro h1
    cases hsplit : splitIntoRuns vs with
    | nil => rw [hsplit] at h1; simp at h1
    | cons r rest =>
      have hrest : rest = [] := by
        rw [hsplit] at h1
        exact List.eq_nil_of_length_eq_zero (by simpa using h1)
      subst hrest
      have hr : r ∈ splitIntoRuns vs := by rw [hsplit]; exact List.mem_cons_self _ _
      obtain ⟨hrne, hrc, hrmem⟩ := hruns r hr
      have hdr : d ∈ r := by
        have : r = sortAndDedup vs := by rw [← hspec.1, hsplit]; simp
        rw [this]; exact hmem
      obtain ⟨i, hi⟩ := List.getElem?_of_mem hdr
      cases r with
      | nil => exact absurd rfl hrne
      | cons d0 r =>
        refine ⟨_, rfl, ?_⟩
        exact oneRun_roundtrip hw typeName d0 r [] _ i d rfl hrc
          (fun e he => (hin e (hrmem e he)).2) (hrlen _ hr) hi
  · obtain ⟨p, hp⟩ := buildMultipleRuns_isSome (splitIntoRuns vs) typeName
      (fun r hr => (hruns r hr).1)
    refine ⟨p, hp, ?_⟩
    unfold buildMultipleRuns at hp
    cases hns : mapOpt (runCase createIndexAndNameDecl) (splitIntoRuns vs) with
    | none => simp [hns] at hp
    | some ns =>
      cases hds : mapOpt (runCase createIndexAndNameDescDecl) (splitIntoRuns vs) with
      | none => simp [hns, hds] at hp
      | some ds =>
        simp only [hns, hds, Option.some.injEq] at hp
        subst hp
        have hb : ∀ r ∈ splitIntoRuns vs, ∀ e ∈ r, InT w s e.value ∧ e.signed = s :=
          fun r hr e he =>
            ⟨(hin e ((hruns r hr).2.2 e he)).2, (hin e ((hruns r hr).2.2 e he)).1⟩
        have hu : ∀ e ∈ (splitIntoRuns vs).flatten, e.value = d.value → e = d := by
          rw [hspec.1]; exact huniq
        have hm : d ∈ (splitIntoRuns vs).flatten := by rw [hspec.1]; exact hmem
        exact ⟨switchCases_roundtrip hw typeName (fun e => e.name) d _ ns hns
            (fun r hr => (hruns r hr).2.1) hb hrlen hu hm,
          switchCases_roundtrip hw typeName (fun e => e.description) d _ ds hds
            (fun r hr => (hruns r hr).2.1) hb hrlen hu hm⟩
  · intro hp
    exact map_roundtrip typeName vs h hp d.value d hd

/-- Where every name and description is plain text, the three shapes define the
same lookups: at every value the multiple-runs shape, the map shape and, for a
single run, the single-run shape return the same name and the same
description. -/
theorem shapes_agree_on_plain_texts {w : Nat} (hw : 0 < w ∧ w ≤ 64) (s : Bool)
    (typeName : GoString) (vs : List Value)
    (v : Nat) (hin : OfType w s vs) (hfit : Fits w s (splitIntoRuns vs))
    (hp : ∀ e ∈ vs, Plain e.name ∧ Plain e.description) (hvT : InT w s v) :
    ∃ p, buildMultipleRuns (splitIntoRuns vs) typeName = some p ∧
      p.String w s v = (buildMap (splitIntoRuns vs) typeName).String v ∧
      p.Description w s v = (buildMap (splitIntoRuns vs) typeName).Description v ∧
      ((splitIntoRuns vs).length = 1 →
        ∃ q, buildOneRun (splitIntoRuns vs) typeName = some q ∧
          q.String w s v = p.String w s v ∧ q.Description w s v = p.Description w s v) := by
  have h : OneType s vs := OfType_OneType hin
  have hv : v < 2 ^ 64 := hvT.1
  cases hfind : vs.find? (fun e => e.value == v) with
  | some d =>
    obtain ⟨h1, ⟨p, hpb, hps, hpd⟩, h3⟩ :=
      accessors_roundtrip hw s typeName vs v d hin hfit hfind
    obtain ⟨hms, hmd⟩ := h3 hp
    refine ⟨p, hpb, by rw [hps, hms], by rw [hpd, hmd], ?_⟩
    intro hk
    obtain ⟨q, hq, hqs, hqd⟩ := h1 hk
    exact ⟨q, hq, by rw [hqs, hps], by rw [hqd, hpd]⟩
  | none =>
    have hnot : ∀ e ∈ vs, e.value ≠ v := by
      intro e he
      have := List.find?_eq_none.mp hfind e he
      simpa using this
    have hruns : ∀ r ∈ splitIntoRuns vs, r ≠ [] ∧
        List.Chain' (fun a b => key s b.value = key s a.value + 1) r ∧ (∀ d ∈ r, d ∈ vs) :=
      fun r hr => run_facts vs h r hr
    obtain ⟨p, hpb⟩ := buildMultipleRuns_isSome (splitIntoRuns vs) typeName
      (fun r hr => (hruns r hr).1)
    obtain ⟨hps, hpd⟩ := multipleRuns_fallback w typeName (splitIntoRuns vs) p v hpb
      (fun r hr => (hruns r hr).2.1)
      (fun r hr d hd => ⟨(h d ((hruns r hr).2.2 d hd)).2, (h d ((hruns r hr).2.2 d hd)).1⟩)
      hv (fun r hr d hd => hnot d ((hruns r hr).2.2 d hd))
    obtain ⟨⟨m1, hm1⟩, ⟨m2, hm2⟩⟩ := map_accepted typeName vs hp
    have hflat : ∀ d ∈ (splitIntoRuns vs).flatten, d.value ≠ v := by
      intro d hd
      rw [(splitIntoRuns_spec vs).1] at hd
      exact hnot d (sortAndDedup_subset vs d hd)
    obtain ⟨hms, hmd⟩ := map_fallback typeName (splitIntoRuns vs) v m1 m2 hm1 hm2 hflat
    refine ⟨p, hpb, by rw [hps, hms], by rw [hpd, hmd], ?_⟩
    intro hk
    cases hsplit : splitIntoRuns vs with
    | nil => rw [hsplit] at hk; simp at hk
    | cons r rest =>
      have hr : r ∈ splitIntoRuns vs := by rw [hsplit]; exact List.mem_cons_self _ _
      obtain ⟨hrne, hrc, hrmem⟩ := hruns r hr
      cases r with
      | nil => exact absurd rfl hrne
      | cons d0 r =>
        obtain ⟨hqs, hqd⟩ := oneRun_fallback hw typeName d0 r rest _ v rfl hrc
          (fun d hd => (hin d (hrmem d hd)).2) (h d0 (hrmem d0 (List.mem_cons_self _ _))).1
          (fun _ => hfit _ hr) hvT
          (fun d hd => hnot d (hrmem d hd))
        refine ⟨_, rfl, ?_, ?_⟩
        · rw [hqs, hps]
        · rw [hqd, hpd]

/-! ## The single-run accessors, step by step -/

theorem key_eq_nat {s : Bool} {x k : Nat} (hx : x < 2 ^ 64) (h : key s x = (k : Int)) :
    x = k := by
  unfold key int64 at h
  cases s <;> simp only [Bool.false_eq_true, if_false, if_true] at h
  · omega
  · split at h <;> omega

/-- What the templates `stringOneRunWithOffset` and `stringOneRunWithOffsetDesc`
compute for the table of a run, written out. -/
theorem stringOneRunWithOffset_steps {w : Nat} (hw : 0 < w ∧ w ≤ 64) (typeName : GoString)
    (text : Value → GoString)
    (d0 : Value) (r : List Value) (i : Nat) (hi : InT w d0.signed i)
    (h0 : InT w d0.signed d0.value)
    (hlen : ((d0 :: r).length : Int) < limitT w d0.signed) :
    ((d0.signed = true ∧ key d0.signed (subT w d0.signed i d0.value) < 0) ∨
        ((d0 :: r).length : Int) ≤ key d0.signed (subT w d0.signed i d0.value) →
      stringOneRunWithOffset w d0.signed typeName d0 d0.signed (tableOf text (d0 :: r)) i =
        some (fallback typeName i)) ∧
    (∀ (k : Nat) (d : Value), key d0.signed (subT w d0.signed i d0.value) = (k : Int) →
        (d0 :: r)[k]? = some d →
      stringOneRunWithOffset w d0.signed typeName d0 d0.signed (tableOf text (d0 :: r)) i =
        some (text d)) := by
  have hkn := (key_of_small hw hlen).2.1
  have hconv := (convT?_length hw d0.signed (d0 :: r).length).1 hlen
  constructor
  · intro hcond
    unfold stringOneRunWithOffset
    rw [tableOf_length, hconv]
    simp only [addT_subT hw hi h0, hkn]
    rw [if_pos]
    rcases hcond with h | h
    · exact Or.inl h
    · right
      omega
  · intro k d hk hd
    have hkn2 : k < (d0 :: r).length := (List.getElem?_eq_some_iff.mp hd).1
    have hidx : subT w d0.signed i d0.value = k := key_eq_nat (subT_lt _ _ _ _) hk
    unfold stringOneRunWithOffset
    rw [tableOf_length, hconv]
    simp only [hidx, hkn]
    rw [hidx] at hk
    rw [if_neg]
    · exact tableEntry_at hw text (d0 :: r) k d (by omega) hd
    · rw [hk]
      omega

/-- When the run has more elements than the largest value of the type, the
conversion `T(len(index)-1)` is rejected and the single-run accessors do not
exist. -/
theorem stringOneRun_rejected {w : Nat} (hw : 0 < w ∧ w ≤ 64) (s : Bool)
    (typeName : GoString) (start : Value) (l : Bool) (t : IndexAndName) (n : Nat)
    (ht : t.index.length = n + 1) (hlen : limitT w s ≤ (n : Int)) (i : Nat) :
    stringOneRun w s typeName l t i = none ∧
      stringOneRunWithOffset w s typeName start l t i = none := by
  have hconv := (convT?_length hw s n).2 hlen
  unfold stringOneRun stringOneRunWithOffset
  rw [ht, hconv]
  exact ⟨rfl, rfl⟩

/-! ## The cases and the map entries, one by one -/

theorem mapOpt_getElem {α β : Type} (f : α → Option β) :
    ∀ (l : List α) (bs : List β), mapOpt f l = some bs →
      bs.length = l.length ∧
      ∀ (k : Nat) (a : α), l[k]? = some a → ∃ b, bs[k]? = some b ∧ f a = some b := by
  intro l
  induction l with
  | nil =>
    intro bs h
    simp only [mapOpt, Option.some.injEq] at h
    subst h
    exact ⟨rfl, fun k a hk => by simp at hk⟩
  | cons x xs ih =>
    intro bs h
    obtain ⟨b, bs2, e, hfx, hrest⟩ := mapOpt_cons_some f x xs bs h
    subst e
    obtain ⟨hl, hk⟩ := ih bs2 hrest
    refine ⟨by simp [hl], ?_⟩
    intro k a hka
    cases k with
    | zero =>
      simp only [List.getElem?_cons_zero, Option.some.injEq] at hka
      subst hka
      exact ⟨b, by simp, hfx⟩
    | succ k =>
      rw [List.getElem?_cons_succ] at hka
      obtain ⟨b2, h1, h2⟩ := hk k a hka
      exact ⟨b2, by simpa using h1, h2⟩

theorem range_holds_iff {s : Bool} (d0 last : Value) (t : IndexAndName) (i : Nat)
    (hs : d0.signed = s) :
    (Case.range (!(d0.value == 0 && !d0.signed)) d0 last (d0.value != 0) t).holds s i = true ↔
      key s d0.value ≤ key s i ∧ key s i ≤ key s last.value := by
  simp only [Case.holds, Bool.and_eq_true, Bool.or_eq_true, Bool.not_not, Bool.not_eq_true',
    decide_eq_true_eq, beq_iff_eq]
  constructor
  · rintro ⟨h1, h2⟩
    refine ⟨?_, h2⟩
    rcases h1 with h | h
    · have hz : key s d0.value = 0 := by rw [h.1]; exact key_zero s
      have hsf : s = false := by rw [← hs]; exact h.2
      rw [hz, hsf]
      show (0 : Int) ≤ key false i
      unfold key
      simp
    · exact h
  · rintro ⟨h1, h2⟩
    exact ⟨Or.inr h1, h2⟩

theorem range_body_eq {w : Nat} (hw : 0 < w ∧ w ≤ 64) (s : Bool) (d0 last : Value)
    (lower : Bool) (t : IndexAndName) (i : Nat)
    (hi : InT w s i) :
    (Case.range lower d0 last (d0.value != 0) t).body w s i =
      tableEntry w s t (subT w s i d0.value) := by
  simp only [Case.body]
  by_cases h0 : d0.value = 0
  · simp [h0, subT_zero hw hi]
  · simp [h0]

theorem mapEntries_fst (text : Value → GoString) :
    ∀ (l : List Value) (n : Nat), (mapEntries text l n).map (fun e => e.1) = l := by
  intro l
  induction l with
  | nil => intro n; rfl
  | cons d ds ih => intro n; simp [mapEntries, ih]

theorem mapEntries_getElem (text : Value → GoString) :
    ∀ (l : List Value) (n k : Nat) (e : Value × Nat × Nat),
      (mapEntries text l n)[k]? = some e →
      ∃ d, l[k]? = some d ∧ e.1 = d ∧
        e.2.1 = n + ((l.take k).map text).flatten.length ∧
        e.2.2 = e.2.1 + (text d).length := by
  intro l
  induction l with
  | nil => intro n k e h; simp [mapEntries] at h
  | cons x xs ih =>
    intro n k e h
    cases k with
    | zero =>
      simp only [mapEntries, List.getElem?_cons_zero, Option.some.injEq] at h
      subst h
      exact ⟨x, by simp, rfl, by simp, rfl⟩
    | succ k =>
      simp only [mapEntries, List.getElem?_cons_succ] at h
      obtain ⟨d, h1, h2, h3, h4⟩ := ih _ k e h
      refine ⟨d, by simpa using h1, h2, ?_, h4⟩
      rw [h3]
      simp only [List.take_succ_cons, List.map_cons, List.flatten_cons, List.length_append]
      omega

/-- In the concatenation of the texts, the text of position `k` lies between the
total length of the texts before it and that length plus its own. -/
theorem concat_slice (text : Value → GoString) :
    ∀ (l : List Value) (k : Nat) (d : Value), l[k]? = some d →
      ((l.take k).map text).flatten.length + (text d).length ≤ (l.map text).flatten.length ∧
      (((l.map text).flatten).take
          (((l.take k).map text).flatten.length + (text d).length)).drop
        ((l.take k).map text).flatten.length = text d := by
  intro l
  induction l with
  | nil => intro k d h; simp at h
  | cons x xs ih =>
    intro k d h
    cases k with
    | zero =>
      simp only [List.getElem?_cons_zero, Option.some.injEq] at h
      subst h
      simp
    | succ k =>
      rw [List.getElem?_cons_succ] at h
      obtain ⟨h1, h2⟩ := ih k d h
      simp only [List.take_succ_cons, List.map_cons, List.flatten_cons, List.length_append]
      refine ⟨by omega, ?_⟩
      rw [Nat.add_assoc, List.take_append, List.drop_append]
      exact h2

/-! ## The method `generate` and the command -/

theorem generate_cases (typeName : GoString) (vs : List Value) (hne : vs ≠ []) :
    ∃ g, generate typeName vs = some g ∧
      ((splitIntoRuns vs).length = 1 →
        ∃ p, buildOneRun (splitIntoRuns vs) typeName = some p ∧ g.lookup = Lookup.oneRun p) ∧
      (2 ≤ (splitIntoRuns vs).length ∧ (splitIntoRuns vs).length ≤ 10 →
        ∃ p, buildMultipleRuns (splitIntoRuns vs) typeName = some p ∧
          g.lookup = Lookup.multipleRuns p) ∧
      (10 < (splitIntoRuns vs).length →
        g.lookup = Lookup.map (buildMap (splitIntoRuns vs) typeName)) := by
  have hnonempty : ∀ r ∈ splitIntoRuns vs, r ≠ [] := fun r hr =>
    ((splitIntoRuns_spec vs).2.1 r hr).1
  have hlen : ¬ vs.length = 0 := fun h => hne (List.eq_nil_of_length_eq_zero h)
  by_cases h1 : (splitIntoRuns vs).length = 1
  · obtain ⟨p, hp⟩ := buildOneRun_isSome _ typeName hnonempty h1
    refine ⟨⟨vs.map (fun v => (v.originalName, v.str)), Lookup.oneRun p⟩, ?_, ?_, ?_, ?_⟩
    · simp [generate, hlen, h1, hp]
    · intro _; exact ⟨p, hp, rfl⟩
    · intro h; omega
    · intro h; omega
  · by_cases h10 : (splitIntoRuns vs).length ≤ 10
    · obtain ⟨p, hp⟩ := buildMultipleRuns_isSome _ typeName hnonempty
      refine ⟨⟨vs.map (fun v => (v.originalName, v.str)), Lookup.multipleRuns p⟩, ?_, ?_, ?_, ?_⟩
      · simp [generate, hlen, h1, h10, hp]
      · intro h; exact absurd h h1
      · intro _; exact ⟨p, hp, rfl⟩
      · intro h; omega
    · refine ⟨⟨vs.map (fun v => (v.originalName, v.str)),
        Lookup.map (buildMap (splitIntoRuns vs) typeName)⟩, ?_, ?_, ?_, ?_⟩
      · simp [generate, hlen, h1, h10]
      · intro h; exact absurd h h1
      · intro h; omega
      · intro _; rfl

theorem FormatIntBase_ten (x : Int) : FormatIntBase x 10 = FormatInt x := by
  unfold FormatIntBase FormatInt FormatUint
  cases x with
  | ofNat n => simp; rfl
  | negSucc n =>
    have h1 : Int.negSucc n < 0 := Int.negSucc_lt_zero n
    simp only [h1, if_true]
    have h2 : toString (Int.negSucc n) = "-" ++ String.mk (Nat.toDigits 10 (n + 1)) := rfl
    rw [h2, Int.natAbs_negSucc]
    simp [utf8, String.data_append]

theorem generate_guard (typeName : GoString) (vs : List Value) (g : Generated)
    (h : generate typeName vs = some g) :
    g.guard = vs.map (fun v => (v.originalName, v.str)) := by
  unfold generate at h
  split at h
  · simp at h
  · simp only at h
    split at h
    · obtain ⟨p, _, hp⟩ := Option.map_eq_some'.mp h
      rw [← hp]
    · split at h
      · obtain ⟨p, _, hp⟩ := Option.map_eq_some'.mp h
        rw [← hp]
      · rw [← Option.some.inj h]

theorem generateMethod_empty (g : Generator) (typeName : GoString)
    (h : g.pkg.values typeName = Except.ok []) :
    g.generate typeName = Except.error (utf8 "no values defined for type " ++ typeName) := by
  simp [Generator.generate, h]

theorem generateMethod_ok (g : Generator) (typeName : GoString) (values : List Value)
    (h : g.pkg.values typeName = Except.ok values) (hne : values ≠ []) :
    ∃ gen, generate typeName values = some gen ∧
      g.generate typeName = Except.ok ⟨typeName, gen, g.pkg.name,
        (values.headD Value.zero).signed, g.codeBase, g.codeBasePrefix, g.ohnoEnable⟩ := by
  obtain ⟨gen, hgen, _⟩ := generate_cases typeName values hne
  have hlen : ¬ values.length = 0 := fun e => hne (List.eq_nil_of_length_eq_zero e)
  exact ⟨gen, hgen, by simp [Generator.generate, h, hlen, hgen]⟩

theorem generateMethod_inv (g : Generator) (typeName : GoString) (m : Methods)
    (h : g.generate typeName = Except.ok m) :
    ∃ values gen, g.pkg.values typeName = Except.ok values ∧ values ≠ [] ∧
      generate typeName values = some gen ∧
      m = ⟨typeName, gen, g.pkg.name, (values.headD Value.zero).signed, g.codeBase,
        g.codeBasePrefix, g.ohnoEnable⟩ := by
  unfold Generator.generate at h
  cases hv : g.pkg.values typeName with
  | error msg => simp [hv] at h
  | ok values =>
    simp only [hv] at h
    by_cases hlen : values.length = 0
    · simp [hlen] at h
    · simp only [hlen, if_false] at h
      cases hgen : generate typeName values with
      | none => simp [hgen] at h
      | some gen =>
        simp only [hgen, Except.ok.injEq] at h
        exact ⟨values, gen, rfl, fun e => hlen (by rw [e]; rfl), hgen, h.symm⟩

theorem generateTypes_events (g : Generator) :
    ∀ (ts : List GoString) (out : List Methods),
      ∀ e ∈ (generateTypes g ts out).1, ∃ t ∈ ts, e = Event.generate t := by
  intro ts
  induction ts with
  | nil => intro out e he; simp [generateTypes] at he
  | cons t ts ih =>
    intro out e he
    simp only [generateTypes] at he
    cases hg : g.generate t with
    | error msg =>
      simp only [hg, List.mem_singleton] at he
      exact ⟨t, List.mem_cons_self _ _, he⟩
    | ok m =>
      simp only [hg, List.mem_cons] at he
      rcases he with e1 | he
      · exact ⟨t, List.mem_cons_self _ _, e1⟩
      · obtain ⟨u, hu, hue⟩ := ih _ e he
        exact ⟨u, List.mem_cons_of_mem _ hu, hue⟩

theorem generateTypes_ok (g : Generator) :
    ∀ (ts : List GoString) (out ms : List Methods),
      (generateTypes g ts out).2 = Except.ok ms →
      ∀ m ∈ ms, m ∈ out ∨ ∃ t ∈ ts, g.generate t = Except.ok m := by
  intro ts
  induction ts with
  | nil =>
    intro out ms h m hm
    simp only [generateTypes, Except.ok.injEq] at h
    subst h
    exact Or.inl hm
  | cons t ts ih =>
    intro out ms h m hm
    simp only [generateTypes] at h
    cases hg : g.generate t with
    | error msg => simp [hg] at h
    | ok m0 =>
      simp only [hg] at h
      rcases ih _ ms h m hm with h1 | ⟨u, hu, hgu⟩
      · rcases List.mem_append.mp h1 with h2 | h2
        · exact Or.inl h2
        · have : m = m0 := by simpa using h2
          subst this
          exact Or.inr ⟨t, List.mem_cons_self _ _, hg⟩
      · exact Or.inr ⟨u, List.mem_cons_of_mem _ hu, hgu⟩

/-- The loop stops at the first type without constants, after the types before
it were generated. -/
theorem generateTypes_stops (g : Generator) (typeName : GoString) (after : List GoString)
    (hempty : g.pkg.values typeName = Except.ok []) :
    ∀ (before : List GoString) (out : List Methods),
      (∀ u ∈ before, ∃ values, g.pkg.values u = Except.ok values ∧ values ≠ []) →
      generateTypes g (before ++ typeName :: after) out =
        ((before ++ [typeName]).map Event.generate,
          Except.error (utf8 "no values defined for type " ++ typeName)) := by
  intro before
  induction before with
  | nil =>
    intro out _
    simp [generateTypes, generateMethod_empty g typeName hempty]
  | cons u us ih =>
    intro out hb
    obtain ⟨values, hv, hne⟩ := hb u (List.mem_cons_self _ _)
    obtain ⟨gen, _, hg⟩ := generateMethod_ok g u values hv hne
    have := ih (out ++ [⟨u, gen, g.pkg.name, (values.headD Value.zero).signed, g.codeBase,
      g.codeBasePrefix, g.ohnoEnable⟩]) (fun w hw => hb w (List.mem_cons_of_mem _ hw))
    rw [List.cons_append, generateTypes, hg]
    simp only [this, List.map_cons, List.cons_append]

/-- A file is written only after every step of `main` went through. -/
theorem main_written (flags : Flags) (world : World) (ms : List Methods)
    (h : Event.writeFile ms ∈ (main flags world).events) :
    ∃ pre pkg, flags.typeNames ≠ [] ∧ codeBasePrefixString flags.codeBaseFlag = some pre ∧
      world.argsError = none ∧ world.load = Except.ok pkg ∧
      (generateTypes ⟨pkg, flags.trimPrefixFlag, true, flags.ohnoFlag, flags.codeBaseFlag, pre⟩
        (splitOn 44 flags.typeNames) []).2 = Except.ok ms := by
  unfold main at h
  by_cases ht : flags.typeNames.length = 0
  · simp [ht] at h
  · simp only [ht, if_false] at h
    have htn : flags.typeNames ≠ [] := fun e => ht (by rw [e]; rfl)
    cases hpre : codeBasePrefixString flags.codeBaseFlag with
    | none => simp [hpre] at h
    | some pre =>
      simp only [hpre] at h
      cases hargs : world.argsError with
      | some msg => simp [hargs] at h
      | none =>
        simp only [hargs] at h
        cases hload : world.load with
        | error msg => simp [hload] at h
        | ok pkg =>
          simp only [hload] at h
          have hev := generateTypes_events
            ⟨pkg, flags.trimPrefixFlag, true, flags.ohnoFlag, flags.codeBaseFlag, pre⟩
            (splitOn 44 flags.typeNames) []
          cases hres : (generateTypes
            ⟨pkg, flags.trimPrefixFlag, true, flags.ohnoFlag, flags.codeBaseFlag, pre⟩
            (splitOn 44 flags.typeNames) []).2 with
          | error msg =>
            simp only [hres, List.mem_cons] at h
            rcases h with h | h
            · cases h
            · obtain ⟨t, _, ht2⟩ := hev _ h
              cases ht2
          | ok ms2 =>
            refine ⟨pre, pkg, htn, rfl, rfl, rfl, ?_⟩
            have hmem : Event.writeFile ms ∈ Event.parsePackage ::
                (generateTypes
                  ⟨pkg, flags.trimPrefixFlag, true, flags.ohnoFlag, flags.codeBaseFlag, pre⟩
                  (splitOn 44 flags.typeNames) []).1 ++ [Event.writeFile ms2] := by
              cases hw : world.writeError with
              | some err => simpa [hres, hw] using h
              | none => simpa [hres, hw] using h
            simp only [List.cons_append, List.mem_cons, List.mem_append,
              List.mem_singleton] at hmem
            rcases hmem with h1 | h1 | h1
            · cases h1
            · obtain ⟨t, _, ht2⟩ := hev _ h1
              cases ht2
            · rcases h1 with h1 | h1
              · have e : ms = ms2 := by injection h1
                rw [e]
                exact hres
              · cases h1

/-- A run for one type whose constants are found writes the file. -/
theorem main_single (flags : Flags) (world : World) (pkg : Package) (pre t : GoString)
    (m : Methods) (ht : flags.typeNames ≠ [])
    (hpre : codeBasePrefixString flags.codeBaseFlag = some pre)
    (hargs : world.argsError = none) (hload : world.load = Except.ok pkg)
    (hwrite : world.writeError = none) (hsplit : splitOn 44 flags.typeNames = [t])
    (hg : Generator.generate
      ⟨pkg, flags.trimPrefixFlag, true, flags.ohnoFlag, flags.codeBaseFlag, pre⟩ t =
        Except.ok m) :
    main flags world =
      ⟨[Event.parsePackage, Event.generate t, Event.writeFile [m]], Exit.success⟩ := by
  have hlen : ¬ flags.typeNames.length = 0 := fun e => ht (List.eq_nil_of_length_eq_zero e)
  simp only [main, hlen, if_false, hpre, hargs, hload, hsplit, generateTypes, hg, hwrite]
  rfl

/-! ## Declarations that differ in their texts only -/

theorem insertStable_map (f : Value → Value) (hv : ∀ v, (f v).value = v.value)
    (hs : ∀ v, (f v).signed = v.signed) (x : Value) (l : List Value) :
    insertStable (f x) (l.map f) = (insertStable x l).map f := by
  induction l with
  | nil => rfl
  | cons y ys ih =>
    have hless : byValue.Less (f y) (f x) = byValue.Less y x := by
      simp only [byValue.Less, hv, hs]
    simp only [List.map_cons, insertStable, hless]
    split
    · rw [ih]; rfl
    · rfl

theorem sortStable_map (f : Value → Value) (hv : ∀ v, (f v).value = v.value)
    (hs : ∀ v, (f v).signed = v.signed) (l : List Value) :
    sortStable (l.map f) = (sortStable l).map f := by
  induction l with
  | nil => rfl
  | cons x xs ih =>
    simp only [List.map_cons, sortStable, ih]
    exact insertStable_map f hv hs x _

theorem dedupFrom_map (f : Value → Value) (hv : ∀ v, (f v).value = v.value)
    (l : List Value) : ∀ p, dedupFrom (f p) (l.map f) = (dedupFrom p l).map f := by
  induction l with
  | nil => intro p; rfl
  | cons y ys ih =>
    intro p
    simp only [List.map_cons, dedupFrom, hv]
    split
    · rw [ih]; rfl
    · exact ih y

theorem sortAndDedup_map (f : Value → Value) (hv : ∀ v, (f v).value = v.value)
    (hs : ∀ v, (f v).signed = v.signed) (l : List Value) :
    sortAndDedup (l.map f) = (sortAndDedup l).map f := by
  rw [sortAndDedup_eq, sortAndDedup_eq, sortStable_map f hv hs]
  cases sortStable l with
  | nil => rfl
  | cons x xs =>
    simp only [List.map_cons, dedupAdj]
    rw [dedupFrom_map f hv]

theorem getD_map_value (f : Value → Value) (hv : ∀ v, (f v).value = v.value)
    (l : List Value) (i : Nat) :
    ((l.map f).getD i Value.zero).value = (l.getD i Value.zero).value := by
  simp only [List.getD_eq_getElem?_getD, List.getElem?_map]
  cases l[i]? with
  | none => rfl
  | some v => exact hv v

theorem runEnd_map (f : Value → Value) (hv : ∀ v, (f v).value = v.value)
    (l : List Value) : ∀ (n i : Nat), runEnd (l.map f) n i = runEnd l n i := by
  intro n
  induction n with
  | zero => intro i; rfl
  | succ n ih =>
    intro i
    simp only [runEnd, getD_map_value f hv, List.length_map, ih]

theorem runsLoop_map (f : Value → Value) (hv : ∀ v, (f v).value = v.value) :
    ∀ (n : Nat) (l : List Value) (runs : List (List Value)),
      runsLoop n (l.map f) (runs.map (List.map f)) = (runsLoop n l runs).map (List.map f) := by
  intro n
  induction n with
  | zero => intro l runs; rfl
  | succ n ih =>
    intro l runs
    simp only [runsLoop, List.length_map, runEnd_map f hv]
    split
    · rw [← List.map_drop, ← List.map_take]
      have := ih (l.drop (runEnd l l.length 1)) (runs ++ [l.take (runEnd l l.length 1)])
      simpa using this
    · rfl

theorem splitIntoRuns_map (f : Value → Value) (hv : ∀ v, (f v).value = v.value)
    (hs : ∀ v, (f v).signed = v.signed) (l : List Value) :
    splitIntoRuns (l.map f) = (splitIntoRuns l).map (List.map f) := by
  simp only [splitIntoRuns, sortAndDedup_map f hv hs, List.length_map]
  exact runsLoop_map f hv _ _ []

theorem generate_shape_eq (typeName : GoString) (vs ws : List Value)
    (hlen : vs.length = ws.length)
    (hruns : (splitIntoRuns vs).length = (splitIntoRuns ws).length) :
    (generate typeName vs).map (fun g => g.lookup.shape) =
      (generate typeName ws).map (fun g => g.lookup.shape) := by
  by_cases hne : vs = []
  · have hw : ws = [] := List.eq_nil_of_length_eq_zero (by rw [← hlen, hne]; rfl)
    rw [hne, hw]
  · have hnw : ws ≠ [] := fun h => hne (List.eq_nil_of_length_eq_zero (by rw [hlen, h]; rfl))
    obtain ⟨g, hg, h1, h2, h3⟩ := generate_cases typeName vs hne
    obtain ⟨g2, hg2, k1, k2, k3⟩ := generate_cases typeName ws hnw
    rw [hg, hg2]
    simp only [Option.map_some', Option.some.injEq]
    by_cases c1 : (splitIntoRuns vs).length = 1
    · obtain ⟨p, _, hp⟩ := h1 c1
      obtain ⟨q, _, hq⟩ := k1 (hruns ▸ c1)
      rw [hp, hq]; rfl
    · by_cases c2 : (splitIntoRuns vs).length ≤ 10
      · have hpos : (splitIntoRuns vs).length ≠ 0 := by
          intro h0
          have hnil := List.eq_nil_of_length_eq_zero h0
          have hflat := (splitIntoRuns_spec vs).1
          rw [hnil] at hflat
          exact sortAndDedup_ne_nil vs hne hflat.symm
        have c3 : 2 ≤ (splitIntoRuns vs).length ∧ (splitIntoRuns vs).length ≤ 10 := by omega
        obtain ⟨p, _, hp⟩ := h2 c3
        obtain ⟨q, _, hq⟩ := k2 (hruns ▸ c3)
        rw [hp, hq]; rfl
      · have c3 : 10 < (splitIntoRuns vs).length := by omega
        rw [h3 c3, k3 (hruns ▸ c3)]; rfl

theorem TrimPrefix_nil (s : GoString) : TrimPrefix s [] = s := by
  simp [TrimPrefix, HasPrefix]

theorem genDeclValue_retrim (p q : GoString) (lineComment : Bool) (c : Constant) :
    genDeclValue p lineComment c = retrim p (genDeclValue q lineComment c) := by
  cases lineComment <;> cases hc : c.comment <;> simp [genDeclValue, retrim, hc]

/-! ## The declarations of the multiple-runs shape -/

theorem declareIndexAndNameVarsLoop_eq (runs : List (List Value)) :
    ∀ (i : Nat) (d : Declarations),
      declareIndexAndNameVarsLoop i runs d =
        ⟨d.names ++ (runs.enumFrom i).map
            (fun kr => (some kr.1, (createIndexAndNameDecl kr.2).name)),
          d.dNames ++ (runs.enumFrom i).map
            (fun kr => (some kr.1, (createIndexAndNameDescDecl kr.2).name)),
          d.indexes ++ ((runs.enumFrom i).filter (fun kr => decide (kr.2.length ≠ 1))).map
            (fun kr => (some kr.1, (createIndexAndNameDecl kr.2).bits,
              (createIndexAndNameDecl kr.2).index)),
          d.dIndexes ++ ((runs.enumFrom i).filter (fun kr => decide (kr.2.length ≠ 1))).map
            (fun kr => (some kr.1, (createIndexAndNameDescDecl kr.2).bits,
              (createIndexAndNameDescDecl kr.2).index))⟩ := by
  induction runs with
  | nil => intro i d; simp [declareIndexAndNameVarsLoop]
  | cons run runs ih =>
    intro i d
    simp only [declareIndexAndNameVarsLoop, ih, List.enumFrom_cons, List.map_cons,
      List.filter_cons]
    by_cases h : run.length = 1
    · simp [h]
    · simp [h]

theorem declareIndexAndNameVars_eq (runs : List (List Value)) :
    declareIndexAndNameVars runs =
      ⟨runs.enum.map (fun kr => (some kr.1, (createIndexAndNameDecl kr.2).name)),
        runs.enum.map (fun kr => (some kr.1, (createIndexAndNameDescDecl kr.2).name)),
        (runs.enum.filter (fun kr => decide (kr.2.length ≠ 1))).map
          (fun kr => (some kr.1, (createIndexAndNameDecl kr.2).bits,
            (createIndexAndNameDecl kr.2).index)),
        (runs.enum.filter (fun kr => decide (kr.2.length ≠ 1))).map
          (fun kr => (some kr.1, (createIndexAndNameDescDecl kr.2).bits,
            (createIndexAndNameDescDecl kr.2).index))⟩ := by
  unfold declareIndexAndNameVars
  rw [declareIndexAndNameVarsLoop_eq]
  simp [List.enum]

/-! ## The method `Error` -/

theorem OhNoError_Error_eq (format : Time → GoString → GoString) (o : OhNoError) :
    o.Error format =
      OhNoError.writeError format o.Message o.Extra o.SourceInfo o.Timestamp o.TimestampLayout
        (o.ErrorCode.Error format) o.Cause.isNil (o.Cause.Error format) := by
  cases o
  simp only [OhNoError.Error]

theorem isNil_iff (e : GoError) : e.isNil = true ↔ e = GoError.nil := by
  cases e <;> simp [GoError.isNil]

theorem joinLoop_cons (format : Time → GoString → GoString) (err : GoError)
    (rest : List GoError) (i : Nat) (b : GoString) :
    joinLoop format (err :: rest) i b =
      (GoError.Error format err).bind (fun text =>
        joinLoop format rest (i + 1) ((if i > 0 then b ++ [10] else b) ++ text)) := by
  simp only [joinLoop]
  cases GoError.Error format err <;> rfl

/-! ## The method `Error` of a join error -/

theorem intercalate_cons_eq (sep t : GoString) (ts : List GoString) :
    List.intercalate sep (t :: ts) = t ++ (ts.map (fun u => sep ++ u)).flatten := by
  induction ts generalizing t with
  | nil => simp [List.intercalate]
  | cons u us ih =>
    have h := ih u
    simp only [List.intercalate, List.intersperse, List.flatten_cons, List.map_cons] at h ⊢
    rw [h]
    simp [List.append_assoc]

theorem joinLoop_pos (format : Time → GoString → GoString) (errs : List GoError) :
    ∀ (texts : List GoString) (i : Nat) (b : GoString), 0 < i →
      errs.map (GoError.Error format) = texts.map some →
      joinLoop format errs i b = some (b ++ (texts.map (fun u => [10] ++ u)).flatten) := by
  induction errs with
  | nil =>
    intro texts i b _ h
    cases texts with
    | nil => simp [joinLoop]
    | cons t ts => simp at h
  | cons e es ih =>
    intro texts i b hi h
    cases texts with
    | nil => simp at h
    | cons t ts =>
      simp only [List.map_cons, List.cons.injEq] at h
      rw [joinLoop_cons, h.1]
      simp only [Option.some_bind, hi, if_true]
      rw [ih ts (i + 1) _ (Nat.succ_pos i) h.2]
      simp [List.append_assoc]

theorem OhNoJoinError_Error_eq (format : Time → GoString → GoString) (j : OhNoJoinError)
    (texts : List GoString) (h : j.Errors.map (GoError.Error format) = texts.map some) :
    j.Error format = some (List.intercalate [10] texts) := by
  obtain ⟨errs⟩ := j
  simp only at h
  simp only [OhNoJoinError.Error]
  cases errs with
  | nil =>
    cases texts with
    | nil => simp [joinLoop, List.intercalate]
    | cons t ts => simp at h
  | cons e es =>
    cases texts with
    | nil => simp at h
    | cons t ts =>
      simp only [List.map_cons, List.cons.injEq] at h
      rw [joinLoop_cons, h.1, intercalate_cons_eq]
      simp only [Option.some_bind, Nat.lt_irrefl, if_false, List.nil_append]
      exact joinLoop_pos format es ts 1 t Nat.one_pos h.2

/-! ## The method `Is` -/

theorem errors_is_ohNo (samePointer : GoError → GoError → Bool) (target : GoError)
    (o : OhNoError) :
    errors.is samePointer target (GoError.ohNo o) =
      ((target.comparable && GoError.equal samePointer (GoError.ohNo o) target) ||
        o.Is samePointer target || errors.is samePointer target o.Unwrap) := by
  cases o
  simp only [errors.is, OhNoError.Is, errors.Is, OhNoError.Unwrap]

/-! ## Flattening a chain -/

theorem removeCauseAndAppendRecursive_eq (o : OhNoError) (errs : List GoError) :
    o.removeCauseAndAppendRecursive errs =
      o.Cause.appendCause (errs ++ [GoError.ohNo { o with Cause := GoError.nil }]) := by
  cases o
  simp only [OhNoError.removeCauseAndAppendRecursive]

theorem appendCause_chained (os : List OhNoError) :
    ∀ errs : List GoError,
      (chained os).appendCause errs =
        errs ++ os.map (fun x => GoError.ohNo { x with Cause := GoError.nil }) := by
  induction os with
  | nil => intro errs; simp [chained, GoError.appendCause]
  | cons o rest ih =>
    intro errs
    simp only [chained, GoError.appendCause, removeCauseAndAppendRecursive_eq, ih,
      List.map_cons, List.append_assoc, List.singleton_append]

theorem drillDownAndStackUp_chained (o : OhNoError) (rest : List OhNoError) :
    OhNoError.drillDownAndStackUp { o with Cause := chained rest } =
      GoError.join ⟨(o :: rest).map (fun x => GoError.ohNo { x with Cause := GoError.nil })⟩ := by
  simp only [OhNoError.drillDownAndStackUp, removeCauseAndAppendRecursive_eq,
    appendCause_chained, List.nil_append, List.map_cons, List.singleton_append]

/-! ## The marshalled record -/

theorem marshalableError_eq (format : Time → GoString → GoString) (o : OhNoError) (c : OhNoer)
    (hc : o.ErrorCode = GoError.ohnoer c) :
    o.marshalableError format =
      some ⟨c.Package, c.Code, c.String, c.Description,
        if o.Timestamp.IsZero then []
        else format o.Timestamp
          (if o.TimestampLayout = [] then RFC3339Nano else o.TimestampLayout),
        o.SourceInfo, o.Cause⟩ := by
  simp only [OhNoError.marshalableError, hc]
  cases hz : o.Timestamp.IsZero <;> cases hs : o.SourceInfo <;> cases hn : o.Cause.isNil <;>
    simp [(isNil_iff _).mp, hn]
  all_goals exact ((isNil_iff _).mp hn).symm

theorem OhNoError_Error_parts (format : Time → GoString → GoString) (o : OhNoError) :
    o.Error format =
      (o.ErrorCode.Error format).bind (fun code =>
        (if o.Cause.isNil then some []
          else (o.Cause.Error format).map (fun text => utf8 "\n-> " ++ text)).map
          (fun tail =>
            (if o.Timestamp.IsZero then []
              else format o.Timestamp
                (if o.TimestampLayout = [] then RFC3339Nano else o.TimestampLayout) ++
                  utf8 " ") ++
            (match o.SourceInfo with
              | some s => s.String ++ utf8 " "
              | none => []) ++
            code ++
            (if o.Message = [] then [] else utf8 ", " ++ o.Message) ++
            (match o.Extra with
              | some x => utf8 ", " ++ x.plusV
              | none => []) ++
            tail)) := by
  rw [OhNoError_Error_eq]
  simp only [OhNoError.writeError, separator, commaSeparator, newlineTab]
  cases o.ErrorCode.Error format <;> cases o.Cause.isNil <;> cases o.Cause.Error format <;>
    cases o.Timestamp.IsZero <;> cases o.SourceInfo <;> cases o.Extra <;>
    by_cases hm : o.Message = [] <;> simp [hm]

theorem marshalableError_timestamp (format : Time → GoString → GoString) (o : OhNoError)
    (r : ohNoMarshalError) (h : o.marshalableError format = some r) :
    r.TimeStamp =
      (if o.Timestamp.IsZero then []
        else format o.Timestamp
          (if o.TimestampLayout = [] then RFC3339Nano else o.TimestampLayout)) := by
  cases hc : o.ErrorCode with
  | ohnoer c =>
    rw [marshalableError_eq format o c hc] at h
    rw [← Option.some.inj h]
  | nil => simp [OhNoError.marshalableError, hc] at h
  | plain t => simp [OhNoError.marshalableError, hc] at h
  | wrap t e => simp [OhNoError.marshalableError, hc] at h
  | multi t es => simp [OhNoError.marshalableError, hc] at h
  | ohNo e => simp [OhNoError.marshalableError, hc] at h
  | join j => simp [OhNoError.marshalableError, hc] at h

theorem Error_timestamp_front (format : Time → GoString → GoString) (o : OhNoError)
    (hz : o.Timestamp.IsZero = false) :
    o.Error format =
      (OhNoError.Error format { o with Timestamp := ⟨0, 0⟩ }).map (fun rest =>
        format o.Timestamp
          (if o.TimestampLayout = [] then RFC3339Nano else o.TimestampLayout) ++
          utf8 " " ++ rest) := by
  have h0 : Time.IsZero ⟨0, 0⟩ = true := rfl
  rw [OhNoError_Error_parts, OhNoError_Error_parts format { o with Timestamp := ⟨0, 0⟩ }]
  simp only [hz, h0]
  cases o.ErrorCode.Error format <;> cases o.Cause.isNil <;> cases o.Cause.Error format <;>
    simp [List.append_assoc]

/-! ## The offsets of an index array -/

theorem writeAll_le (text : Value → GoString) (run : List Value) :
    ∀ b, b.length ≤ (writeAll text run b).2.length ∧
      ∀ x ∈ (writeAll text run b).1, x ≤ (writeAll text run b).2.length := by
  induction run with
  | nil => intro b; simp [writeAll]
  | cons v run ih =>
    intro b
    obtain ⟨h1, h2⟩ := ih (b ++ text v)
    simp only [writeAll, List.mem_cons]
    refine ⟨?_, ?_⟩
    · have : b.length ≤ (b ++ text v).length := by simp
      omega
    · intro x hx
      rcases hx with hx | hx
      · rw [hx]; exact h1
      · exact h2 x hx

theorem tableOf_offsets (text : Value → GoString) (run : List Value) :
    (∀ x ∈ (tableOf text run).index, x ≤ (tableOf text run).name.length) ∧
    (tableOf text run).index.getLast? = some (tableOf text run).name.length ∧
    (tableOf text run).bits = usize (tableOf text run).name.length ∧
    (tableOf text run).name = (run.map text).flatten := by
  refine ⟨?_, ?_, rfl, ?_⟩
  · intro x hx
    simp only [tableOf, List.mem_cons] at hx ⊢
    rcases hx with hx | hx
    · rw [hx]; exact Nat.zero_le _
    · exact (writeAll_le text run []).2 x hx
  · have := writeAll_getLast text run []
    simpa [tableOf] using this
  · simp [tableOf, writeAll_snd]

theorem usize_covers (n : Nat) (hn : n < 2 ^ 32) : n < 2 ^ usize n := by
  unfold usize
  split
  · assumption
  · split
    · assumption
    · exact hn

theorem usize_minimal (n : Nat) : ∀ w ∈ [8, 16, 32], w < usize n → ¬ n < 2 ^ w := by
  intro w hw hlt
  simp only [List.mem_cons, List.mem_singleton, List.not_mem_nil, or_false] at hw
  unfold usize at hlt
  split at hlt
  · omega
  · split at hlt
    · rcases hw with rfl | rfl | rfl
      · assumption
      · omega
      · omega
    · rcases hw with rfl | rfl | rfl
      · assumption
      · assumption
      · omega

/-! ## The fallback in the three shapes -/

theorem undeclared_fallback {w : Nat} (hw : 0 < w ∧ w ≤ 64) (s : Bool)
    (typeName : GoString) (vs : List Value) (v : Nat)
    (hne : vs ≠ []) (hin : OfType w s vs) (hvT : InT w s v)
    (hnot : ∀ d ∈ vs, d.value ≠ v) :
    (∃ p, buildOneRun (splitIntoRuns vs) typeName = some p ∧
      ((s = true → ∀ r, (splitIntoRuns vs).head? = some r → (r.length : Int) < limitT w s) →
        p.String w s v = some (fallback typeName v) ∧
        p.Description w s v = some (fallback typeName v))) ∧
    (∃ p, buildMultipleRuns (splitIntoRuns vs) typeName = some p ∧
      p.String w s v = some (fallback typeName v) ∧
      p.Description w s v = some (fallback typeName v)) ∧
    ((mapLiteral (buildMap (splitIntoRuns vs) typeName).nameText
        (buildMap (splitIntoRuns vs) typeName).nameEntries).isSome →
      (mapLiteral (buildMap (splitIntoRuns vs) typeName).descText
        (buildMap (splitIntoRuns vs) typeName).descEntries).isSome →
      (buildMap (splitIntoRuns vs) typeName).String v = some (fallback typeName v) ∧
      (buildMap (splitIntoRuns vs) typeName).Description v = some (fallback typeName v)) := by
  have h : OneType s vs := OfType_OneType hin
  have hv : v < 2 ^ 64 := hvT.1
  have hruns : ∀ r ∈ splitIntoRuns vs, r ≠ [] ∧
      List.Chain' (fun a b => key s b.value = key s a.value + 1) r ∧ (∀ d ∈ r, d ∈ vs) :=
    fun r hr => run_facts vs h r hr
  have hflat : ∀ d ∈ (splitIntoRuns vs).flatten, d.value ≠ v := by
    intro d hd
    rw [(splitIntoRuns_spec vs).1] at hd
    exact hnot d (sortAndDedup_subset vs d hd)
  refine ⟨?_, ?_, ?_⟩
  · cases hsplit : splitIntoRuns vs with
    | nil =>
      have := (splitIntoRuns_spec vs).1
      rw [hsplit] at this
      exact absurd this.symm (sortAndDedup_ne_nil vs hne)
    | cons r rest =>
      have hr : r ∈ splitIntoRuns vs := by rw [hsplit]; exact List.mem_cons_self _ _
      obtain ⟨hrne, hrc, hrmem⟩ := hruns r hr
      cases r with
      | nil => exact absurd rfl hrne
      | cons d0 r =>
        refine ⟨_, rfl, ?_⟩
        intro hfit
        exact oneRun_fallback hw typeName d0 r rest _ v rfl hrc
          (fun d hd => (hin d (hrmem d hd)).2) (h d0 (hrmem d0 (List.mem_cons_self _ _))).1
          (fun hs => hfit hs _ rfl) hvT
          (fun d hd => hnot d (hrmem d hd))
  · obtain ⟨p, hp⟩ := buildMultipleRuns_isSome (splitIntoRuns vs) typeName
      (fun r hr => (hruns r hr).1)
    refine ⟨p, hp, ?_⟩
    exact multipleRuns_fallback w typeName (splitIntoRuns vs) p v hp
      (fun r hr => (hruns r hr).2.1)
      (fun r hr d hd => ⟨(h d ((hruns r hr).2.2 d hd)).2, (h d ((hruns r hr).2.2 d hd)).1⟩)
      hv (fun r hr d hd => hnot d ((hruns r hr).2.2 d hd))
  · intro h1 h2
    obtain ⟨m1, hm1⟩ := Option.isSome_iff_exists.mp h1
    obtain ⟨m2, hm2⟩ := Option.isSome_iff_exists.mp h2
    exact map_fallback typeName (splitIntoRuns vs) v m1 m2 hm1 hm2 hflat

/-! ## The last element of a path -/

theorem takeWhile_append_stop {α : Type} (p : α → Bool) (l r : List α) (x : α)
    (hl : ∀ a ∈ l, p a = true) (hx : p x = false) : (l ++ x :: r).takeWhile p = l := by
  induction l with
  | nil => simp [List.takeWhile, hx]
  | cons a l ih =>
    have ha : p a = true := hl a (List.mem_cons_self _ _)
    simp [List.takeWhile_cons, ha, ih (fun b hb => hl b (List.mem_cons_of_mem _ hb))]

theorem takeWhile_all {α : Type} (p : α → Bool) (l : List α) (hl : ∀ a ∈ l, p a = true) :
    l.takeWhile p = l := by
  induction l with
  | nil => rfl
  | cons a l ih =>
    have ha : p a = true := hl a (List.mem_cons_self _ _)
    simp [List.takeWhile_cons, ha, ih (fun b hb => hl b (List.mem_cons_of_mem _ hb))]

theorem dropWhile_reverse_keep (name : GoString) (rest : GoString) (hne : name ≠ [])
    (hns : ∀ b ∈ name, b ≠ 47) :
    (name.reverse ++ rest).dropWhile (fun b => b == 47) = name.reverse ++ rest := by
  cases hrev : name.reverse with
  | nil => exact absurd (List.reverse_eq_nil_iff.mp hrev) hne
  | cons a l =>
    have ha : a ∈ name := by
      have : a ∈ name.reverse := by rw [hrev]; exact List.mem_cons_self _ _
      exact List.mem_reverse.mp this
    have h47 : (a == 47) = false := by simpa using hns a ha
    simp [List.dropWhile_cons, h47]

theorem path_Base_last (dir name : GoString) (hne : name ≠ []) (hns : ∀ b ∈ name, b ≠ 47) :
    path.Base (dir ++ 47 :: name) = name ∧ path.Base name = name := by
  have hall : ∀ a ∈ name.reverse, (fun b : UInt8 => b != 47) a = true := by
    intro a ha
    simpa using hns a (List.mem_reverse.mp ha)
  constructor
  · have hp : dir ++ 47 :: name ≠ [] := by simp
    have hrev : (dir ++ 47 :: name).reverse = name.reverse ++ 47 :: dir.reverse := by simp
    simp only [path.Base, hp, if_false, hrev, dropWhile_reverse_keep name _ hne hns,
      List.reverse_reverse]
    rw [takeWhile_append_stop _ _ _ _ hall (by simp)]
    simp [hne]
  · have h0 := dropWhile_reverse_keep name [] hne hns
    simp only [List.append_nil] at h0
    simp only [path.Base, hne, if_false, h0, List.reverse_reverse, takeWhile_all _ _ hall]

/-! ## The ranges of the runs -/

theorem runs_separated {s : Bool} (vs : List Value) (h : OneType s vs) :
    (∀ r ∈ splitIntoRuns vs, Ascending s r) ∧
    List.Pairwise (fun r1 r2 => ∀ a ∈ r1, ∀ b ∈ r2, key s a.value < key s b.value)
      (splitIntoRuns vs) := by
  have hasc := sortAndDedup_ascending vs h
  unfold Ascending at hasc
  rw [← (splitIntoRuns_spec vs).1] at hasc
  exact List.pairwise_flatten.mp hasc

theorem ascending_bounds {s : Bool} (r : List Value) (hr : Ascending s r) (a b : Value)
    (ha : r.head? = some a) (hb : r.getLast? = some b) :
    ∀ d ∈ r, key s a.value ≤ key s d.value ∧ key s d.value ≤ key s b.value := by
  intro d hd
  constructor
  · cases r with
    | nil => simp at ha
    | cons x xs =>
      simp only [List.head?_cons, Option.some.injEq] at ha
      subst ha
      rcases List.mem_cons.mp hd with rfl | hd
      · exact le_refl _
      · exact le_of_lt ((List.pairwise_cons.mp hr).1 d hd)
  · obtain ⟨init, hinit⟩ : ∃ init, r = init ++ [b] := by
      have hne : r ≠ [] := by intro e; rw [e] at hb; simp at hb
      refine ⟨r.dropLast, ?_⟩
      have h1 := List.dropLast_append_getLast hne
      rw [List.getLast?_eq_getLast r hne] at hb
      rw [← Option.some.inj hb]
      exact h1.symm
    subst hinit
    rcases List.mem_append.mp hd with hd | hd
    · have := (List.pairwise_append.mp hr).2.2 d hd b (List.mem_singleton.mpr rfl)
      exact le_of_lt this
    · rw [List.mem_singleton.mp hd]

theorem runCase_holds_iff {s : Bool} (mk : List Value → IndexAndName) (r : List Value)
    (c : Case) (i : Nat) (hcase : runCase mk r = some c)
    (hb : ∀ d ∈ r, d.value < 2 ^ 64 ∧ d.signed = s) (hi : i < 2 ^ 64) :
    c.holds s i = true ↔
      ∃ a b, r.head? = some a ∧ r.getLast? = some b ∧
        key s a.value ≤ key s i ∧ key s i ≤ key s b.value := by
  cases r with
  | nil => simp [runCase] at hcase
  | cons v0 r =>
    cases r with
    | nil =>
      simp only [runCase, Option.some.injEq] at hcase
      subst hcase
      have hv := (hb v0 (List.mem_cons_self _ _)).1
      simp only [Case.holds, beq_iff_eq, List.head?_cons, List.getLast?_singleton,
        Option.some.injEq]
      constructor
      · intro e
        exact ⟨v0, v0, rfl, rfl, by rw [e], by rw [e]⟩
      · rintro ⟨a, b, rfl, rfl, h1, h2⟩
        exact key_inj hi hv (le_antisymm h2 h1)
    | cons w rest =>
      simp only [runCase, Option.some.injEq] at hcase
      subst hcase
      have hs := (hb v0 (List.mem_cons_self _ _)).2
      rw [range_holds_iff v0 _ _ i hs]
      have hlast : (v0 :: w :: rest).getLast? = some ((w :: rest).getLastD v0) := by
        rw [List.getLast?_cons_cons, List.getLastD_eq_getLast?]
        cases hl : (w :: rest).getLast? with
        | none => simp at hl
        | some x => rfl
      constructor
      · intro ⟨h1, h2⟩
        exact ⟨v0, _, rfl, hlast, h1, h2⟩
      · rintro ⟨a, b, ha, hb2, h1, h2⟩
        simp only [List.head?_cons, Option.some.injEq] at ha
        rw [hlast] at hb2
        have hb3 := Option.some.inj hb2
        subst ha
        subst hb3
        exact ⟨h1, h2⟩

theorem mapOpt_pairwise {α β : Type} (f : α → Option β) (P : α → α → Prop)
    (Q : β → β → Prop) :
    ∀ (l : List α) (bs : List β), mapOpt f l = some bs → l.Pairwise P →
      (∀ a ∈ l, ∀ a2 ∈ l, ∀ b b2, f a = some b → f a2 = some b2 → P a a2 → Q b b2) →
      bs.Pairwise Q := by
  intro l
  induction l with
  | nil =>
    intro bs h _ _
    simp only [mapOpt, Option.some.injEq] at h
    rw [← h]
    exact List.Pairwise.nil
  | cons a as ih =>
    intro bs h hp hq
    obtain ⟨b, bs2, rfl, hfa, hrest⟩ := mapOpt_cons_some f a as bs h
    obtain ⟨hp1, hp2⟩ := List.pairwise_cons.mp hp
    refine List.pairwise_cons.mpr ⟨?_, ?_⟩
    · intro b2 hb2
      obtain ⟨a2, ha2, hfa2⟩ := mapOpt_mem f as bs2 hrest b2 hb2
      exact hq a (List.mem_cons_self _ _) a2 (List.mem_cons_of_mem _ ha2) b b2 hfa hfa2
        (hp1 a2 ha2)
    · exact ih bs2 hrest hp2 (fun x hx y hy => hq x (List.mem_cons_of_mem _ hx) y
        (List.mem_cons_of_mem _ hy))

theorem cases_exclusive {s : Bool} (mk : List Value → IndexAndName) (runs : List (List Value))
    (cs : List Case) (i : Nat) (hcs : mapOpt (runCase mk) runs = some cs)
    (hsep : List.Pairwise (fun r1 r2 => ∀ a ∈ r1, ∀ b ∈ r2, key s a.value < key s b.value) runs)
    (hb : ∀ r ∈ runs, ∀ d ∈ r, d.value < 2 ^ 64 ∧ d.signed = s) (hi : i < 2 ^ 64) :
    cs.Pairwise (fun c1 c2 => ¬ (c1.holds s i = true ∧ c2.holds s i = true)) := by
  refine mapOpt_pairwise (runCase mk) _ _ runs cs hcs hsep ?_
  intro r1 hr1 r2 hr2 c1 c2 h1 h2 hlt ⟨hh1, hh2⟩
  obtain ⟨_, b1, _, hb1, _, hle1⟩ := (runCase_holds_iff mk r1 c1 i h1 (hb r1 hr1) hi).mp hh1
  obtain ⟨a2, _, ha2, _, hle2, _⟩ := (runCase_holds_iff mk r2 c2 i h2 (hb r2 hr2) hi).mp hh2
  have := hlt b1 (List.mem_of_getLast?_eq_some hb1) a2 (List.mem_of_mem_head? ha2)
  omega

theorem switchCases_unique (w : Nat) (s : Bool) (typeName : GoString) (i : Nat) (c : Case) :
    ∀ cs : List Case,
      (∀ c1 ∈ cs, ∀ c2 ∈ cs, c1.holds s i = true → c2.holds s i = true → c1 = c2) →
      c ∈ cs → c.holds s i = true → switchCases w s typeName cs i = c.body w s i := by
  intro cs
  induction cs with
  | nil => intro _ hc _; simp at hc
  | cons x xs ih =>
    intro hE hc hh
    simp only [switchCases]
    by_cases hx : x.holds s i = true
    · rw [if_pos hx, hE x (List.mem_cons_self _ _) c hc hx hh]
    · rw [if_neg hx]
      have hcx : c ∈ xs := by
        rcases List.mem_cons.mp hc with rfl | h
        · exact absurd hh hx
        · exact h
      exact ih (fun c1 h1 c2 h2 => hE c1 (List.mem_cons_of_mem _ h1) c2
        (List.mem_cons_of_mem _ h2)) hcx hh

theorem switchCases_perm (w : Nat) (s : Bool) (typeName : GoString) (i : Nat)
    (cs cs2 : List Case)
    (hex : cs.Pairwise (fun c1 c2 => ¬ (c1.holds s i = true ∧ c2.holds s i = true)))
    (hperm : cs2.Perm cs) :
    switchCases w s typeName cs2 i = switchCases w s typeName cs i := by
  have hE : ∀ c1 ∈ cs, ∀ c2 ∈ cs, c1.holds s i = true → c2.holds s i = true → c1 = c2 := by
    intro c1 h1 c2 h2 hh1 hh2
    by_contra hne
    have hsym : Symmetric (fun c1 c2 : Case =>
        ¬ (c1.holds s i = true ∧ c2.holds s i = true)) :=
      fun _ _ hxy hyx => hxy ⟨hyx.2, hyx.1⟩
    exact List.Pairwise.forall hsym hex h1 h2 hne ⟨hh1, hh2⟩
  have hE2 : ∀ c1 ∈ cs2, ∀ c2 ∈ cs2, c1.holds s i = true → c2.holds s i = true → c1 = c2 :=
    fun c1 h1 c2 h2 => hE c1 (hperm.mem_iff.mp h1) c2 (hperm.mem_iff.mp h2)
  by_cases hsome : ∃ c ∈ cs, c.holds s i = true
  · obtain ⟨c, hc, hh⟩ := hsome
    rw [switchCases_unique w s typeName i c cs hE hc hh,
      switchCases_unique w s typeName i c cs2 hE2 (hperm.mem_iff.mpr hc) hh]
  · have hnone : ∀ c ∈ cs, c.holds s i = false := by
      intro c hc
      cases hh : c.holds s i
      · rfl
      · exact absurd ⟨c, hc, hh⟩ hsome
    rw [switchCases_fallback w s typeName cs i hnone,
      switchCases_fallback w s typeName cs2 i (fun c hc => hnone c (hperm.mem_iff.mp hc))]

/-- The `switch` statement runs the body of the first case whose condition
holds. -/
theorem switchCases_first (w : Nat) (s : Bool) (typeName : GoString) (i : Nat) :
    ∀ (cs : List Case) (k : Nat) (c : Case), cs[k]? = some c → c.holds s i = true →
      (∀ (j : Nat) (c2 : Case), j < k → cs[j]? = some c2 → c2.holds s i = false) →
      switchCases w s typeName cs i = c.body w s i := by
  intro cs
  induction cs with
  | nil => intro k c hk _ _; simp at hk
  | cons x xs ih =>
    intro k c hk hh hbefore
    cases k with
    | zero =>
      simp only [List.getElem?_cons_zero, Option.some.injEq] at hk
      subst hk
      simp only [switchCases, hh, if_true]
    | succ k =>
      rw [List.getElem?_cons_succ] at hk
      have hx : x.holds s i = false := hbefore 0 x (Nat.succ_pos _) (by simp)
      simp only [switchCases, hx, Bool.false_eq_true, if_false]
      refine ih k c hk hh ?_
      intro j c2 hj hc2
      exact hbefore (j + 1) c2 (Nat.succ_lt_succ hj) (by rw [List.getElem?_cons_succ]; exact hc2)

/-- In a run that fits the type, the index `v - s` of a declared value is the
position of its declaration, and the table entry at that index is its text. -/
theorem run_index_entry {w : Nat} (hw : 0 < w ∧ w ≤ 64) {s : Bool} (text : Value → GoString)
    (d0 : Value) (r : List Value) (n : Nat) (d : Value)
    (hc : List.Chain (fun a b => key s b.value = key s a.value + 1) d0 r)
    (hb : ∀ e ∈ d0 :: r, InT w s e.value) (hlen : ((d0 :: r).length : Int) < limitT w s)
    (hd : (d0 :: r)[n]? = some d) :
    subT w s d.value d0.value = n ∧
      tableEntry w s (tableOf text (d0 :: r)) (subT w s d.value d0.value) = some (text d) := by
  have hi : n < (d0 :: r).length := (List.getElem?_eq_some_iff.mp hd).1
  have hk := chain_key_at r d0 hc n d hd
  have hi0 : (n : Int) < limitT w s := by omega
  have hj : subT w s d.value d0.value = n :=
    subT_of_key hw (hb d (List.getElem?_mem hd)) (hb d0 (List.mem_cons_self _ _)) hi0 hk
  refine ⟨hj, ?_⟩
  rw [hj]
  exact tableEntry_at hw text (d0 :: r) n d (by omega) hd

/-! ## The loops of `splitIntoRuns` come to an end -/

theorem runEnd_fuel (values : List Value) (m : Nat) (hm : values.length ≤ m) :
    runEnd values m 1 = runEnd values values.length 1 := by
  cases values with
  | nil => cases m <;> simp [runEnd]
  | cons p rest =>
    have h1 := runEnd_eq rest [] p m (by simp at hm; omega)
    have h2 := runEnd_eq rest [] p (p :: rest).length (by simp)
    simp only [List.nil_append, List.length_nil, Nat.zero_add] at h1 h2
    rw [h1, h2]

theorem runEnd_pos (p : Value) (rest : List Value) :
    1 ≤ runEnd (p :: rest) (p :: rest).length 1 := by
  have h2 := runEnd_eq rest [] p (p :: rest).length (by simp)
  simp only [List.nil_append, List.length_nil, Nat.zero_add] at h2
  rw [h2]
  omega

theorem runsLoop_fuel :
    ∀ (n m : Nat) (values : List Value) (runs : List (List Value)),
      values.length ≤ n → values.length ≤ m → runsLoop n values runs = runsLoop m values runs := by
  intro n
  induction n with
  | zero =>
    intro m values runs hn _
    have : values = [] := List.eq_nil_of_length_eq_zero (by omega)
    subst this
    cases m <;> simp [runsLoop]
  | succ n ih =>
    intro m values runs hn hm
    cases values with
    | nil => cases m <;> simp [runsLoop]
    | cons p rest =>
      cases m with
      | zero => simp at hm
      | succ m =>
        have hpos : 1 ≤ runEnd (p :: rest) (rest.length + 1) 1 := runEnd_pos p rest
        have hlen : ((p :: rest).drop (runEnd (p :: rest) (rest.length + 1) 1)).length ≤
            rest.length := by
          simp only [List.length_drop, List.length_cons]
          omega
        simp only [List.length_cons] at hn hm
        simp only [runsLoop, List.length_cons, Nat.zero_lt_succ, if_true]
        exact ih m _ _ (by omega) (by omega)

theorem sortAndDedup_count {s : Bool} (vs : List Value) (h : OneType s vs) :
    (sortAndDedup vs).length = (vs.map (fun d => d.value)).dedup.length := by
  have hnodup : ((sortAndDedup vs).map (fun d => d.value)).Nodup := by
    have hasc := sortAndDedup_ascending vs h
    unfold Ascending at hasc
    rw [List.Nodup, List.pairwise_map]
    refine hasc.imp ?_
    intro a b hlt heq
    rw [heq] at hlt
    exact lt_irrefl _ hlt
  have hset : ((sortAndDedup vs).map (fun d => d.value)).toFinset =
      (vs.map (fun d => d.value)).toFinset := by
    ext v
    simp only [List.mem_toFinset, List.mem_map]
    exact sortAndDedup_mem_value vs h v
  have h1 := List.toFinset_card_of_nodup hnodup
  rw [hset, List.card_toFinset, List.length_map] at h1
  exact h1.symm

/-! ## The errors after `Error()` -/

theorem RFC3339Nano_ne : RFC3339Nano ≠ [] := by decide

theorem writeError_layout (format : Time → GoString → GoString) (message : GoString)
    (extra : Option Any) (sourceInfo : Option SourceInformation) (timestamp : Time)
    (timestampLayout : GoString) (code : Option GoString) (causeNil : Bool)
    (causeText : Option GoString) :
    OhNoError.writeError format message extra sourceInfo timestamp
        (if (!timestamp.IsZero) ∧ timestampLayout = [] then RFC3339Nano else timestampLayout)
        code causeNil causeText =
      OhNoError.writeError format message extra sourceInfo timestamp timestampLayout
        code causeNil causeText := by
  have hne := RFC3339Nano_ne
  cases hz : timestamp.IsZero
  · by_cases hl : timestampLayout = []
    · simp [OhNoError.writeError, hz, hl, hne]
    · simp [OhNoError.writeError, hz, hl]
  · simp [OhNoError.writeError, hz]

theorem afterError_Error (format : Time → GoString → GoString) (e : GoError) :
    (GoError.afterError e).isNil = e.isNil ∧
      GoError.Error format (GoError.afterError e) = GoError.Error format e := by
  refine GoError.rec
    (motive_1 := fun e => (GoError.afterError e).isNil = e.isNil ∧
      GoError.Error format (GoError.afterError e) = GoError.Error format e)
    (motive_2 := fun es => ∀ (i : Nat) (b : GoString),
      joinLoop format (GoError.afterErrors es) i b = joinLoop format es i b)
    (motive_3 := fun o =>
      OhNoError.Error format (OhNoError.afterError o) = OhNoError.Error format o)
    (motive_4 := fun j =>
      OhNoJoinError.Error format (OhNoJoinError.afterError j) = OhNoJoinError.Error format j)
    ?_ ?_ ?_ ?_ ?_ ?_ ?_ ?_ ?_ ?_ ?_ e
  · exact ⟨rfl, rfl⟩
  · intro c; exact ⟨rfl, rfl⟩
  · intro t; exact ⟨rfl, rfl⟩
  · intro t inner _; exact ⟨rfl, rfl⟩
  · intro t errs _; exact ⟨rfl, rfl⟩
  · intro o ih
    refine ⟨rfl, ?_⟩
    simp only [GoError.afterError, GoError.Error]
    exact ih
  · intro j ih
    refine ⟨rfl, ?_⟩
    simp only [GoError.afterError, GoError.Error]
    exact ih
  · intro i b
    simp only [GoError.afterErrors]
  · intro head tail ih1 ih2 i b
    simp only [GoError.afterErrors]
    rw [joinLoop_cons, joinLoop_cons, ih1.2]
    cases GoError.Error format head with
    | none => rfl
    | some t => simp only [Option.some_bind]; exact ih2 _ _
  · intro code msg extra cause si ts layout ih1 ih2
    simp only [OhNoError.afterError, OhNoError.Error, ih1.2, ih2.1, ih2.2]
    exact writeError_layout format msg extra si ts layout _ _ _
  · intro errs ih
    simp only [OhNoJoinError.afterError, OhNoJoinError.Error]
    exact ih 0 []

theorem afterError_eraseLayouts (e : GoError) :
    GoError.eraseLayouts (GoError.afterError e) = GoError.eraseLayouts e := by
  refine GoError.rec
    (motive_1 := fun e => GoError.eraseLayouts (GoError.afterError e) = GoError.eraseLayouts e)
    (motive_2 := fun es =>
      GoError.eraseLayoutsList (GoError.afterErrors es) = GoError.eraseLayoutsList es)
    (motive_3 := fun o =>
      OhNoError.eraseLayouts (OhNoError.afterError o) = OhNoError.eraseLayouts o)
    (motive_4 := fun j =>
      OhNoJoinError.eraseLayouts (OhNoJoinError.afterError j) = OhNoJoinError.eraseLayouts j)
    ?_ ?_ ?_ ?_ ?_ ?_ ?_ ?_ ?_ ?_ ?_ e
  · rfl
  · intro c; rfl
  · intro t; rfl
  · intro t inner _; rfl
  · intro t errs _; rfl
  · intro o ih
    simp only [GoError.afterError, GoError.eraseLayouts, ih]
  · intro j ih
    simp only [GoError.afterError, GoError.eraseLayouts, ih]
  · rfl
  · intro head tail ih1 ih2
    simp only [GoError.afterErrors, GoError.eraseLayoutsList, ih1, ih2]
  · intro code msg extra cause si ts layout ih1 ih2
    simp only [OhNoError.afterError, OhNoError.eraseLayouts, ih1, ih2]
  · intro errs ih
    simp only [OhNoJoinError.afterError, OhNoJoinError.eraseLayouts, ih]

theorem OhNoError_afterError_eq (o : OhNoError) :
    o.afterError =
      ⟨o.ErrorCode.afterError, o.Message, o.Extra, o.Cause.afterError, o.SourceInfo, o.Timestamp,
        if (!o.Timestamp.IsZero) ∧ o.TimestampLayout = [] then RFC3339Nano
        else o.TimestampLayout⟩ := by
  cases o
  simp only [OhNoError.afterError]


theorem appendCause_chainedOnto (last : GoError) (os : List OhNoError) :
    ∀ errs : List GoError,
      (chainedOnto last os).appendCause errs =
        last.appendCause
          (errs ++ os.map (fun x => GoError.ohNo { x with Cause := GoError.nil })) := by
  induction os with
  | nil => intro errs; simp [chainedOnto]
  | cons o rest ih =>
    intro errs
    simp only [chainedOnto, GoError.appendCause, removeCauseAndAppendRecursive_eq, ih,
      List.map_cons, List.append_assoc, List.singleton_append]

theorem drillDownAndStackUp_chainedOnto (last : GoError) (o : OhNoError)
    (rest : List OhNoError) :
    OhNoError.drillDownAndStackUp { o with Cause := chainedOnto last rest } =
      GoError.join ⟨last.appendCause
        ((o :: rest).map (fun x => GoError.ohNo { x with Cause := GoError.nil }))⟩ := by
  simp only [OhNoError.drillDownAndStackUp, removeCauseAndAppendRecursive_eq,
    appendCause_chainedOnto, List.nil_append, List.map_cons, List.singleton_append]

/-! ## The text of a chain and of its flattening -/

theorem Error_add_cause (format : Time → GoString → GoString) (o : OhNoError) (c : GoError)
    (h1 t : GoString) (h : OhNoError.Error format { o with Cause := GoError.nil } = some h1)
    (hc : c.isNil = false) (ht : c.Error format = some t) :
    OhNoError.Error format { o with Cause := c } = some (h1 ++ utf8 "\n-> " ++ t) := by
  have hnil : GoError.nil.isNil = true := rfl
  rw [OhNoError_Error_parts] at h ⊢
  simp only [hnil, if_true, hc, ht, Option.map_some', Bool.false_eq_true, if_false] at h ⊢
  cases hcode : o.ErrorCode.Error format with
  | none => rw [hcode] at h; simp at h
  | some code =>
    rw [hcode] at h
    simp only [Option.some_bind, Option.map_some', Option.some.injEq, List.append_nil] at h ⊢
    rw [← h]
    simp only [List.append_assoc]

theorem chained_isNil (o : OhNoError) (rest : List OhNoError) :
    (chained (o :: rest)).isNil = false := rfl

theorem chained_Error (format : Time → GoString → GoString) (rest : List OhNoError) :
    ∀ (o : OhNoError) (hs : List GoString),
      (o :: rest).map (fun x => OhNoError.Error format { x with Cause := GoError.nil }) =
        hs.map some →
      OhNoError.Error format { o with Cause := chained rest } =
        some (List.intercalate (utf8 "\n-> ") hs) := by
  induction rest with
  | nil =>
    intro o hs hh
    cases hs with
    | nil => simp at hh
    | cons h1 hs =>
      cases hs with
      | nil =>
        simp only [List.map_cons, List.map_nil, List.cons.injEq, and_true] at hh
        simp only [chained, hh]
        simp [List.intercalate]
      | cons h2 hs => simp at hh
  | cons o2 rest ih =>
    intro o hs hh
    cases hs with
    | nil => simp at hh
    | cons h1 hs =>
      simp only [List.map_cons, List.cons.injEq] at hh
      have hrest := ih o2 hs (by simpa using hh.2)
      have hcause : (chained (o2 :: rest)).Error format =
          some (List.intercalate (utf8 "\n-> ") hs) := by
        simp only [chained, GoError.Error]
        exact hrest
      rw [Error_add_cause format o (chained (o2 :: rest)) h1 _ hh.1 (chained_isNil o2 rest)
        hcause]
      cases hs with
      | nil => simp at hh
      | cons h2 hs =>
        rw [intercalate_cons_eq, intercalate_cons_eq]
        simp [List.append_assoc]

theorem flattened_Error (format : Time → GoString → GoString) (o : OhNoError)
    (rest : List OhNoError) (hs : List GoString)
    (hh : (o :: rest).map (fun x => OhNoError.Error format { x with Cause := GoError.nil }) =
      hs.map some) :
    (OhNoError.drillDownAndStackUp { o with Cause := chained rest }).Error format =
      some (List.intercalate (utf8 "\n") hs) := by
  rw [drillDownAndStackUp_chained]
  simp only [GoError.Error]
  have hn : utf8 "\n" = [10] := by decide
  rw [hn]
  apply OhNoJoinError_Error_eq
  rw [← hh]
  simp only [List.map_map]
  apply List.map_congr_left
  intro x _
  simp only [Function.comp, GoError.Error]

/-! # The claims -/

set_option maxRecDepth 8000

/-- C2: the sort-and-deduplicate step of `splitIntoRuns` keeps, for every value
that occurs in the input, exactly one declaration, and that declaration is the
first one of the input (declaration) order with this value; for `A = 0, B = 1,
C = 2, D = 2` the declaration kept for the value 2 is `C`. -/
theorem sortAndDedup_keeps_first (s : Bool) (vs : List Value) (h : OneType s vs) :
    (∀ x ∈ vs, ∃ d, (sortAndDedup vs).filter (fun e => e.value == x.value) = [d] ∧
      vs.find? (fun e => e.value == x.value) = some d) ∧
    (sortAndDedup exAlias).filter (fun e => e.value == 2) = [mkU "C" 2 "third"] := by
  refine ⟨?_, by decide⟩
  intro x hx
  have hf := sortAndDedup_filter vs h x.value
  cases hfind : vs.find? (fun d => d.value == x.value) with
  | none =>
    have := List.find?_eq_none.mp hfind x hx
    simp at this
  | some d =>
    rw [hfind] at hf
    exact ⟨d, hf, rfl⟩

theorem sortAndDedup_keeps_first_witness :
    OneType false exAlias ∧
    ((∀ x ∈ exAlias, ∃ d, (sortAndDedup exAlias).filter (fun e => e.value == x.value) = [d] ∧
      exAlias.find? (fun e => e.value == x.value) = some d) ∧
    (sortAndDedup exAlias).filter (fun e => e.value == 2) = [mkU "C" 2 "third"]) :=
  ⟨by decide, sortAndDedup_keeps_first false exAlias (by decide)⟩

/-- C4: for a non-empty input the list left after the sort-and-deduplicate step
is strictly ascending by value, compared as signed 64-bit integers for a signed
type and as unsigned ones otherwise, and it has exactly the values of the
input. -/
theorem sortAndDedup_strictly_ascending (s : Bool) (vs : List Value) (hne : vs ≠ [])
    (h : OneType s vs) :
    (sortAndDedup vs).Pairwise (fun a b => key s a.value < key s b.value) ∧
    (∀ v, v ∈ (sortAndDedup vs).map (fun d => d.value) ↔ v ∈ vs.map (fun d => d.value)) ∧
    sortAndDedup vs ≠ [] := by
  refine ⟨sortAndDedup_ascending vs h, ?_, sortAndDedup_ne_nil vs hne⟩
  intro v
  simp only [List.mem_map]
  exact sortAndDedup_mem_value vs h v

theorem sortAndDedup_strictly_ascending_witness :
    exMinusOne ≠ [] ∧ OneType true exMinusOne ∧
    (sortAndDedup exMinusOne).Pairwise (fun a b => key true a.value < key true b.value) ∧
    (∀ v, v ∈ (sortAndDedup exMinusOne).map (fun d => d.value) ↔
      v ∈ exMinusOne.map (fun d => d.value)) ∧
    sortAndDedup exMinusOne ≠ [] :=
  ⟨by decide, by decide, sortAndDedup_strictly_ascending true exMinusOne (by decide) (by decide)⟩

/-- C5: for a non-empty input the runs returned by `splitIntoRuns`, concatenated
in order, are the sorted and deduplicated list, and inside every run each value,
read as an integer of the declared signedness, is exactly one more than the
value before it; the values 1, 2, 3, 5, 6, 7 give the runs {1, 2, 3} and
{5, 6, 7}, and a single declaration gives one run of length 1. -/
theorem splitIntoRuns_consecutive (s : Bool) (vs : List Value) (hne : vs ≠ [])
    (h : OneType s vs) :
    (splitIntoRuns vs).flatten = sortAndDedup vs ∧
    (∀ r ∈ splitIntoRuns vs, r ≠ [] ∧
      List.Chain' (fun a b => key s b.value = key s a.value + 1) r) ∧
    (splitIntoRuns exSix).map (fun r => r.map (fun d => d.value)) = [[1, 2, 3], [5, 6, 7]] ∧
    (∀ d, vs = [d] → splitIntoRuns vs = [[d]]) := by
  refine ⟨(splitIntoRuns_spec vs).1, ?_, by decide, ?_⟩
  · intro r hr
    exact ⟨((splitIntoRuns_spec vs).2.1 r hr).1, run_succ vs h r hr⟩
  · intro d hd
    subst hd
    simp [splitIntoRuns, sortAndDedup, sortStable, insertStable, dedupLoop, runsLoop, runEnd]

theorem splitIntoRuns_consecutive_witness :
    exSix ≠ [] ∧ OneType false exSix ∧
    ((splitIntoRuns exSix).flatten = sortAndDedup exSix ∧
    (∀ r ∈ splitIntoRuns exSix, r ≠ [] ∧
      List.Chain' (fun a b => key false b.value = key false a.value + 1) r) ∧
    (splitIntoRuns exSix).map (fun r => r.map (fun d => d.value)) = [[1, 2, 3], [5, 6, 7]] ∧
    (∀ d, exSix = [d] → splitIntoRuns exSix = [[d]])) :=
  ⟨by decide, by decide, splitIntoRuns_consecutive false exSix (by decide) (by decide)⟩

/-- C6: for a non-empty input the runs returned by `splitIntoRuns` are maximal:
in two adjacent runs the first value of the later run is not the integer
successor of the last value of the earlier one, and two neighbours of the
sorted deduplicated list whose values differ by exactly 1 lie next to each
other in one run; the signed values -1 and 0 form one run. -/
theorem splitIntoRuns_maximal (s : Bool) (vs : List Value) (_hne : vs ≠ [])
    (h : OneType s vs) :
    List.Chain' (fun r1 r2 => ∀ a b, r1.getLast? = some a → r2.head? = some b →
      key s b.value ≠ key s a.value + 1) (splitIntoRuns vs) ∧
    (∀ l1 a b l2, sortAndDedup vs = l1 ++ a :: b :: l2 →
      key s b.value = key s a.value + 1 →
      ∃ r ∈ splitIntoRuns vs, ∃ r1 r2, r = r1 ++ a :: b :: r2) ∧
    splitIntoRuns exMinusOne = [[mkS "MinusOne" (-1) "", mkS "Zero" 0 ""]] := by
  have hspec := splitIntoRuns_spec vs
  have hbound : ∀ r ∈ splitIntoRuns vs, ∀ d ∈ r, d.value < 2 ^ 64 := fun r hr d hd =>
    (sortAndDedup_oneType vs h d ((mem_splitIntoRuns_sublist vs r hr).subset hd)).2
  refine ⟨?_, ?_, by decide⟩
  · refine chain'_imp_mem _ hspec.2.2 ?_
    intro r1 hr1 r2 hr2 hb a b ha hb2 hkey
    have hma : a ∈ r1 := List.mem_of_getLast?_eq_some ha
    have hmb : b ∈ r2 := List.mem_of_mem_head? hb2
    exact hb a b ha hb2 (key_succ_step (hbound r1 hr1 a hma) (hbound r2 hr2 b hmb) hkey)
  · intro l1 a b l2 hl hkey
    have hmem : ∀ d ∈ l1 ++ a :: b :: l2, d.value < 2 ^ 64 := fun d hd =>
      (sortAndDedup_oneType vs h d (by rw [hl]; exact hd)).2
    have hstep : Step a b := key_succ_step (hmem a (by simp)) (hmem b (by simp)) hkey
    exact flatten_adjacent a b hstep (splitIntoRuns vs) l1 l2
      (fun r hr => (hspec.2.1 r hr).1) hspec.2.2 (hspec.1.trans hl)

theorem splitIntoRuns_maximal_witness :
    exMinusOne ≠ [] ∧ OneType true exMinusOne ∧
    (List.Chain' (fun r1 r2 => ∀ a b, r1.getLast? = some a → r2.head? = some b →
      key true b.value ≠ key true a.value + 1) (splitIntoRuns exMinusOne) ∧
    (∀ l1 a b l2, sortAndDedup exMinusOne = l1 ++ a :: b :: l2 →
      key true b.value = key true a.value + 1 →
      ∃ r ∈ splitIntoRuns exMinusOne, ∃ r1 r2, r = r1 ++ a :: b :: r2) ∧
    splitIntoRuns exMinusOne = [[mkS "MinusOne" (-1) "", mkS "Zero" 0 ""]]) :=
  ⟨by decide, by decide, splitIntoRuns_maximal true exMinusOne (by decide) (by decide)⟩


/-- C7: `generate` chooses the shape from the number of runs alone:
`buildOneRun` for one run, `buildMultipleRuns` for 2 to 10 runs, `buildMap` for
more than 10; ten runs of length 1 give the multiple-runs shape, eleven give
the map shape, and the values 1, ..., 10, 12 (two runs) give the multiple-runs
shape. -/
theorem generate_shape (typeName : GoString) (vs : List Value) (hne : vs ≠ []) :
    (∃ g, generate typeName vs = some g ∧
      ((splitIntoRuns vs).length = 1 →
        ∃ p, buildOneRun (splitIntoRuns vs) typeName = some p ∧ g.lookup = Lookup.oneRun p) ∧
      (2 ≤ (splitIntoRuns vs).length ∧ (splitIntoRuns vs).length ≤ 10 →
        ∃ p, buildMultipleRuns (splitIntoRuns vs) typeName = some p ∧
          g.lookup = Lookup.multipleRuns p) ∧
      (10 < (splitIntoRuns vs).length →
        g.lookup = Lookup.map (buildMap (splitIntoRuns vs) typeName))) ∧
    ((splitIntoRuns exTenRuns).length = 10 ∧
      (generate typeName exTenRuns).map (fun g => g.lookup.shape) = some Shape.multipleRuns) ∧
    ((splitIntoRuns (exSparse "zero")).length = 11 ∧
      (generate typeName (exSparse "zero")).map (fun g => g.lookup.shape) =
        some Shape.sparseMap) ∧
    ((splitIntoRuns exTwoRuns).length = 2 ∧
      (generate typeName exTwoRuns).map (fun g => g.lookup.shape) = some Shape.multipleRuns) := by
  refine ⟨generate_cases typeName vs hne, ?_, ?_, ?_⟩
  · have h : (splitIntoRuns exTenRuns).length = 10 := by decide
    obtain ⟨g, hg, _, h2, _⟩ := generate_cases typeName exTenRuns (by decide)
    obtain ⟨p, _, hp⟩ := h2 (by omega)
    exact ⟨h, by rw [hg, Option.map_some', hp]; rfl⟩
  · have h : (splitIntoRuns (exSparse "zero")).length = 11 := by decide
    obtain ⟨g, hg, _, _, h3⟩ := generate_cases typeName (exSparse "zero") (by decide)
    exact ⟨h, by rw [hg, Option.map_some', h3 (by omega)]; rfl⟩
  · have h : (splitIntoRuns exTwoRuns).length = 2 := by decide
    obtain ⟨g, hg, _, h2, _⟩ := generate_cases typeName exTwoRuns (by decide)
    obtain ⟨p, _, hp⟩ := h2 (by omega)
    exact ⟨h, by rw [hg, Option.map_some', hp]; rfl⟩

theorem generate_shape_witness :
    exTwoRuns ≠ [] ∧
    ∃ g, generate (utf8 "T") exTwoRuns = some g ∧ g.lookup.shape = Shape.multipleRuns := by
  refine ⟨by decide, ?_⟩
  obtain ⟨⟨g, hg, _, h2, _⟩, _⟩ := generate_shape (utf8 "T") exTwoRuns (by decide)
  obtain ⟨p, _, hp⟩ := h2 (by decide)
  exact ⟨g, hg, by rw [hp]; rfl⟩

/-- C9: for every run, and for names and descriptions independently, the offsets
written by `createIndexAndNameDecl` and `createIndexAndNameDescDecl` are run
length + 1 in number, begin with 0, end with the byte length of the concatenated
text, and never decrease. -/
theorem index_offsets_shape (run : List Value) :
    ((createIndexAndNameDecl run).name = (run.map (fun v => v.name)).flatten ∧
      (createIndexAndNameDecl run).index.length = run.length + 1 ∧
      (createIndexAndNameDecl run).index.head? = some 0 ∧
      (createIndexAndNameDecl run).index.getLast? =
        some (createIndexAndNameDecl run).name.length ∧
      List.Chain' (fun x y => x ≤ y) (createIndexAndNameDecl run).index) ∧
    ((createIndexAndNameDescDecl run).name = (run.map (fun v => v.description)).flatten ∧
      (createIndexAndNameDescDecl run).index.length = run.length + 1 ∧
      (createIndexAndNameDescDecl run).index.head? = some 0 ∧
      (createIndexAndNameDescDecl run).index.getLast? =
        some (createIndexAndNameDescDecl run).name.length ∧
      List.Chain' (fun x y => x ≤ y) (createIndexAndNameDescDecl run).index) := by
  have key : ∀ text : Value → GoString,
      (writeAll text run []).2 = (run.map text).flatten ∧
      (0 :: (writeAll text run []).1).length = run.length + 1 ∧
      (0 :: (writeAll text run []).1).head? = some 0 ∧
      (0 :: (writeAll text run []).1).getLast? = some (writeAll text run []).2.length ∧
      List.Chain' (fun x y => x ≤ y) (0 :: (writeAll text run []).1) := by
    intro text
    refine ⟨by simp [writeAll_snd], by simp [writeAll_length], rfl, ?_, ?_⟩
    · exact writeAll_getLast text run []
    · exact writeAll_chain text run []
  exact ⟨key (fun v => v.name), key (fun v => v.description)⟩

/-- C10: for every run and every position `i` in it, the bytes of the
concatenated name text between offset `i` and offset `i+1` are the trimmed name
of the `i`-th declaration, and the bytes of the concatenated description text
between the description offsets `i` and `i+1` are its description. -/
theorem index_offsets_delimit (run : List Value) (i : Nat) (v : Value)
    (h : run[i]? = some v) :
    (∃ lo hi, (createIndexAndNameDecl run).index[i]? = some lo ∧
      (createIndexAndNameDecl run).index[i + 1]? = some hi ∧
      lo ≤ hi ∧ hi ≤ (createIndexAndNameDecl run).name.length ∧
      ((createIndexAndNameDecl run).name.take hi).drop lo = v.name) ∧
    (∃ lo hi, (createIndexAndNameDescDecl run).index[i]? = some lo ∧
      (createIndexAndNameDescDecl run).index[i + 1]? = some hi ∧
      lo ≤ hi ∧ hi ≤ (createIndexAndNameDescDecl run).name.length ∧
      ((createIndexAndNameDescDecl run).name.take hi).drop lo = v.description) := by
  constructor
  · obtain ⟨lo, hi, h1, h2, h3, h4, h5⟩ := writeAll_entry (fun v => v.name) run [] i v h
    exact ⟨lo, hi, h1, h2, by omega, h4, h5⟩
  · obtain ⟨lo, hi, h1, h2, h3, h4, h5⟩ := writeAll_entry (fun v => v.description) run [] i v h
    exact ⟨lo, hi, h1, h2, by omega, h4, h5⟩

theorem index_offsets_delimit_witness :
    [mkU "Ab" 5 "x", mkU "Cde" 6 "yz"][1]? = some (mkU "Cde" 6 "yz") ∧
    (∃ lo hi, (createIndexAndNameDecl [mkU "Ab" 5 "x", mkU "Cde" 6 "yz"]).index[1]? = some lo ∧
      (createIndexAndNameDecl [mkU "Ab" 5 "x", mkU "Cde" 6 "yz"]).index[1 + 1]? = some hi ∧
      lo ≤ hi ∧ hi ≤ (createIndexAndNameDecl [mkU "Ab" 5 "x", mkU "Cde" 6 "yz"]).name.length ∧
      ((createIndexAndNameDecl [mkU "Ab" 5 "x", mkU "Cde" 6 "yz"]).name.take hi).drop lo =
        (mkU "Cde" 6 "yz").name) ∧
    (∃ lo hi,
      (createIndexAndNameDescDecl [mkU "Ab" 5 "x", mkU "Cde" 6 "yz"]).index[1]? = some lo ∧
      (createIndexAndNameDescDecl [mkU "Ab" 5 "x", mkU "Cde" 6 "yz"]).index[1 + 1]? = some hi ∧
      lo ≤ hi ∧
      hi ≤ (createIndexAndNameDescDecl [mkU "Ab" 5 "x", mkU "Cde" 6 "yz"]).name.length ∧
      ((createIndexAndNameDescDecl [mkU "Ab" 5 "x", mkU "Cde" 6 "yz"]).name.take hi).drop lo =
        (mkU "Cde" 6 "yz").description) :=
  ⟨rfl, index_offsets_delimit [mkU "Ab" 5 "x", mkU "Cde" 6 "yz"] 1 (mkU "Cde" 6 "yz") rfl⟩

/-- C3 as stated fails: for the unsigned 64-bit constants `X = 0, Y = 1, Z = 2`
the lookup at the undeclared value 18446744073709551615 returns "T(-1)" from
both accessors, not the base-10 rendering of that value. -/
theorem fallback_rejects_unsigned_rendering :
    OneType false exXYZ ∧ (∀ d ∈ exXYZ, d.value ≠ 2 ^ 64 - 1) ∧
    (generate (utf8 "T") exXYZ).map (fun g => g.lookup.String 64 false (2 ^ 64 - 1)) =
      some (some (utf8 "T(-1)")) ∧
    (generate (utf8 "T") exXYZ).map (fun g => g.lookup.Description 64 false (2 ^ 64 - 1)) =
      some (some (utf8 "T(-1)")) ∧
    fallbackAsStated (utf8 "T") false (2 ^ 64 - 1) = utf8 "T(18446744073709551615)" ∧
    utf8 "T(-1)" ≠ fallbackAsStated (utf8 "T") false (2 ^ 64 - 1) := by
  decide

/-- C3, amended: for every type name `T`, every width of the type and every
value `v` of the type that no declaration has, the name accessor and the
description accessor of the single-run shape and of the multiple-runs shape,
and those of the map shape where its two declarations are accepted, return
`T + "(" + d + ")"` with `d` the base-10 rendering of `v` converted to a signed
64-bit integer (for an unsigned type and `v >= 2^63` that is `v - 2^64`).  In the
single-run shape of a signed type this needs the run to have at most as many
elements as the largest value of the type, so that the generated file compiles;
for an unsigned type that is always so.  Declared values {0, 1, 2} give "T(99)"
at 99, a signed type gives "T(-1)" at -1, also when it is an 8-bit type, and a
run starting at 100 shows the original value 99, not the shifted index. -/
theorem fallback_signed_decimal (w : Nat) (s : Bool) (typeName : GoString) (vs : List Value)
    (v : Nat) (hw : 0 < w ∧ w ≤ 64) (hne : vs ≠ []) (h : OfType w s vs) (hv : InT w s v)
    (hnot : ∀ d ∈ vs, d.value ≠ v) :
    (∃ p, buildOneRun (splitIntoRuns vs) typeName = some p ∧
      ((s = true → ∀ r, (splitIntoRuns vs).head? = some r → (r.length : Int) < limitT w s) →
        p.String w s v = some (typeName ++ utf8 "(" ++ FormatInt (int64 v) ++ utf8 ")") ∧
        p.Description w s v =
          some (typeName ++ utf8 "(" ++ FormatInt (int64 v) ++ utf8 ")"))) ∧
    (∃ p, buildMultipleRuns (splitIntoRuns vs) typeName = some p ∧
      p.String w s v = some (typeName ++ utf8 "(" ++ FormatInt (int64 v) ++ utf8 ")") ∧
      p.Description w s v = some (typeName ++ utf8 "(" ++ FormatInt (int64 v) ++ utf8 ")")) ∧
    ((mapLiteral (buildMap (splitIntoRuns vs) typeName).nameText
        (buildMap (splitIntoRuns vs) typeName).nameEntries).isSome →
      (mapLiteral (buildMap (splitIntoRuns vs) typeName).descText
        (buildMap (splitIntoRuns vs) typeName).descEntries).isSome →
      (buildMap (splitIntoRuns vs) typeName).String v =
        some (typeName ++ utf8 "(" ++ FormatInt (int64 v) ++ utf8 ")") ∧
      (buildMap (splitIntoRuns vs) typeName).Description v =
        some (typeName ++ utf8 "(" ++ FormatInt (int64 v) ++ utf8 ")")) ∧
    ((generate (utf8 "T") exXYZ).map
        (fun g => (g.lookup.String 64 false 99, g.lookup.Description 64 false 99)) =
      some (some (utf8 "T(99)"), some (utf8 "T(99)")) ∧
     (generate (utf8 "T") exSignedXYZ).map
        (fun g => (g.lookup.String 64 true (2 ^ 64 - 1),
          g.lookup.Description 64 true (2 ^ 64 - 1))) =
      some (some (utf8 "T(-1)"), some (utf8 "T(-1)")) ∧
     (generate (utf8 "T") exSignedXYZ).map
        (fun g => (g.lookup.String 8 true (2 ^ 64 - 1),
          g.lookup.Description 8 true (2 ^ 64 - 1))) =
      some (some (utf8 "T(-1)"), some (utf8 "T(-1)")) ∧
     (generate (utf8 "MyFabulousError") exFabulous).map
        (fun g => (g.lookup.shape, g.lookup.String 64 true 99,
          g.lookup.Description 64 true 99)) =
      some (Shape.singleRun, some (utf8 "MyFabulousError(99)"),
        some (utf8 "MyFabulousError(99)"))) := by
  obtain ⟨h1, h2, h3⟩ := undeclared_fallback hw s typeName vs v hne h hv hnot
  exact ⟨h1, h2, h3, by decide, by decide, by decide, by decide⟩

theorem fallback_signed_decimal_witness :
    (0 < 8 ∧ 8 ≤ 64) ∧ exSparse "zero" ≠ [] ∧ OfType 8 false (exSparse "zero") ∧
    InT 8 false 99 ∧ (∀ d ∈ exSparse "zero", d.value ≠ 99) ∧
    (buildMap (splitIntoRuns (exSparse "zero")) (utf8 "T")).String 99 = some (utf8 "T(99)") ∧
    (buildMap (splitIntoRuns (exSparse "zero")) (utf8 "T")).Description 99 =
      some (utf8 "T(99)") :=
  ⟨by decide, by decide, by decide, by decide, by decide,
    (fallback_signed_decimal 8 false (utf8 "T") (exSparse "zero") 99 (by decide) (by decide)
      (by decide) (by decide) (by decide)).2.2.1 (by decide) (by decide)⟩

/-- C1 at a failing input: eleven constants 0, 2, ..., 20, the first with the
comment `say "hi"`.  `generate` takes the map shape, `declareNameVars` prints
the descriptions unquoted between double quotes, the text is no string literal,
and neither accessor returns the name or the description kept for the value 0. -/
theorem map_shape_loses_quoted_description :
    (sortAndDedup (exSparse "say \"hi\"")).filter (fun d => d.value == 0) =
      [mkU "E0" 0 "say \"hi\""] ∧
    (generate (utf8 "T") (exSparse "say \"hi\"")).map (fun g => g.lookup.shape) =
      some Shape.sparseMap ∧
    interpreted (buildMap (splitIntoRuns (exSparse "say \"hi\"")) (utf8 "T")).descText = none ∧
    (generate (utf8 "T") (exSparse "say \"hi\"")).map
        (fun g => (g.lookup.String 64 false 0, g.lookup.Description 64 false 0)) =
      some (none, none) ∧
    (createIndexAndNameDescDecl [mkU "E0" 0 "say \"hi\""]).name = utf8 "say \"hi\"" := by
  decide

/-- C8 at a failing input: eleven constants 0, 2, ..., 20, the first with the
comment `C:\temp`.  The multiple-runs shape returns this description for the
value 0; in the map shape `\t` is read as an escape, the constant is one byte
short of the slice bounds, and no accessor returns anything. -/
theorem map_shape_differs_from_multipleRuns :
    (buildMultipleRuns (splitIntoRuns (exSparse "C:\\temp")) (utf8 "T")).map
        (fun p => (p.String 64 false 0, p.Description 64 false 0)) =
      some (some (utf8 "E0"), some (utf8 "C:\\temp")) ∧
    (interpreted (buildMap (splitIntoRuns (exSparse "C:\\temp")) (utf8 "T")).descText).map
        (fun c => c.length + 1) =
      some (buildMap (splitIntoRuns (exSparse "C:\\temp")) (utf8 "T")).descText.length ∧
    (buildMap (splitIntoRuns (exSparse "C:\\temp")) (utf8 "T")).String 0 = none ∧
    (buildMap (splitIntoRuns (exSparse "C:\\temp")) (utf8 "T")).Description 0 = none ∧
    (generate (utf8 "T") (exSparse "C:\\temp")).map
        (fun g => (g.lookup.shape, g.lookup.Description 64 false 0)) =
      some (Shape.sparseMap, none) := by
  decide

/-- C11: `usize(n)` is 8 for `n < 256`, 16 for `256 <= n < 65536` and 32
otherwise, and the element type of each index array has `usize(L)` bits, `L`
being the byte length of that table's concatenated text, not the number of
entries, for names and descriptions independently: 255 bytes give uint8, 256
give uint16, 65535 give uint16 and 65536 give uint32. -/
theorem usize_of_text_length (n : Nat) (run : List Value) :
    usize n = (if n < 256 then 8 else if n < 65536 then 16 else 32) ∧
    (createIndexAndNameDecl run).bits = usize ((run.map (fun v => v.name)).flatten.length) ∧
    (createIndexAndNameDescDecl run).bits =
      usize ((run.map (fun v => v.description)).flatten.length) ∧
    (usize 255 = 8 ∧ usize 256 = 16 ∧ usize 65535 = 16 ∧ usize 65536 = 32) ∧
    ((createIndexAndNameDecl
        [⟨[], List.replicate 256 65, 0, false, [], List.replicate 255 66⟩]).bits = 16 ∧
     (createIndexAndNameDescDecl
        [⟨[], List.replicate 256 65, 0, false, [], List.replicate 255 66⟩]).bits = 8) := by
  have hn : ∀ l : List Value,
      (createIndexAndNameDecl l).bits = usize ((l.map (fun v => v.name)).flatten.length) := by
    intro l; simp [createIndexAndNameDecl, writeAll_snd]
  have hd : ∀ l : List Value, (createIndexAndNameDescDecl l).bits =
      usize ((l.map (fun v => v.description)).flatten.length) := by
    intro l; simp [createIndexAndNameDescDecl, writeAll_snd]
  refine ⟨?_, hn run, hd run, by decide, ?_, ?_⟩
  · unfold usize
    norm_num
  · rw [hn]
    simp only [List.map_cons, List.map_nil, List.flatten_cons, List.flatten_nil,
      List.append_nil, List.length_replicate]
    decide
  · rw [hd]
    simp only [List.map_cons, List.map_nil, List.flatten_cons, List.flatten_nil,
      List.append_nil, List.length_replicate]
    decide

/-- C12: in the single-run shape with first declared value `s` and `n` entries,
for a type of any width, the subtraction `i -= s` is left out of the code
exactly when `s` is 0 and the test `i < 0` is printed only for a signed type.
When the run has fewer than `max(T) + 1` entries, the accessors compute
`index = value - s` in the type, return the fallback when `index < 0` or
`index >= n`, and otherwise return entry number `index` of the table; for the
values 100, ..., 106 the lookups at 100 and 106 return the 1st and the 7th
entry.  When the run has more entries than the largest value of the type, the
constant `T(len(_T_index)-1)` overflows, the generated file is rejected and
there is no accessor at all: so for the 256 constants `V0, ..., V255` of a
`uint8` type and for the 128 constants `V0, ..., V127` of an `int8` type, while
the same 128 constants of an `int16` type are looked up as the claim says. -/
theorem oneRun_index (w : Nat) (typeName : GoString) (d0 : Value) (r : List Value)
    (rest : List (List Value)) (p : OneRun) (i : Nat) (hw : 0 < w ∧ w ≤ 64)
    (hp : buildOneRun ((d0 :: r) :: rest) typeName = some p)
    (h0 : InT w d0.signed d0.value) (hi : InT w d0.signed i) :
    ((p.offset = none ↔ d0.value = 0) ∧ (d0.value ≠ 0 → p.offset = some d0)) ∧
    p.lessThanZero = d0.signed ∧
    (((d0 :: r).length : Int) < limitT w d0.signed →
      ((d0.signed = true ∧ key d0.signed (subT w d0.signed i d0.value) < 0) ∨
          ((d0 :: r).length : Int) ≤ key d0.signed (subT w d0.signed i d0.value) →
        p.String w d0.signed i = some (fallback typeName i) ∧
        p.Description w d0.signed i = some (fallback typeName i)) ∧
      (∀ (k : Nat) (d : Value), key d0.signed (subT w d0.signed i d0.value) = (k : Int) →
          (d0 :: r)[k]? = some d →
        p.String w d0.signed i = some d.name ∧
        p.Description w d0.signed i = some d.description)) ∧
    (limitT w d0.signed ≤ ((d0 :: r).length : Int) →
      p.String w d0.signed i = none ∧ p.Description w d0.signed i = none) ∧
    ((generate (utf8 "MyFabulousError") exFabulous).map
        (fun g => (g.lookup.shape, g.lookup.String 64 true 100, g.lookup.String 64 true 106)) =
      some (Shape.singleRun, some (utf8 "NotFound"), some (utf8 "Fatal")) ∧
     (generate (utf8 "MyFabulousError") exFabulous).map
        (fun g => (g.lookup.Description 64 true 100, g.lookup.Description 64 true 106)) =
      some (some (utf8 "I didn't find what you were looking for!"),
        some (utf8 "Help!!! Im dying!!!"))) ∧
    (OfType 8 false exByte ∧
      (generate (utf8 "T") exByte).map
          (fun g => (g.lookup.shape, g.lookup.String 8 false 255,
            g.lookup.Description 8 false 0)) =
        some (Shape.singleRun, none, none) ∧
      OfType 8 true exInt8 ∧
      (generate (utf8 "T") exInt8).map
          (fun g => (g.lookup.shape, g.lookup.String 8 true 127,
            g.lookup.Description 8 true 0)) =
        some (Shape.singleRun, none, none) ∧
      (generate (utf8 "T") exInt8).map
          (fun g => (g.lookup.shape, g.lookup.String 16 true 127,
            g.lookup.String 16 true 128)) =
        some (Shape.singleRun, some (utf8 "V127"), some (utf8 "T(128)"))) := by
  simp only [buildOneRun, Option.some.injEq] at hp
  subst hp
  have hS : OneRun.String w d0.signed
      ⟨typeName, createIndexAndNameDecl (d0 :: r), createIndexAndNameDescDecl (d0 :: r),
        d0.signed, if d0.value = 0 then none else some d0⟩ i =
      stringOneRunWithOffset w d0.signed typeName d0 d0.signed
        (createIndexAndNameDecl (d0 :: r)) i := by
    by_cases hz : d0.value = 0
    · simp only [OneRun.String, hz, if_true]
      exact stringOneRun_eq_offset hw _ typeName d0 _ _ i hi hz
    · simp only [OneRun.String, hz, if_false]
  have hD : OneRun.Description w d0.signed
      ⟨typeName, createIndexAndNameDecl (d0 :: r), createIndexAndNameDescDecl (d0 :: r),
        d0.signed, if d0.value = 0 then none else some d0⟩ i =
      stringOneRunWithOffset w d0.signed typeName d0 d0.signed
        (createIndexAndNameDescDecl (d0 :: r)) i := by
    by_cases hz : d0.value = 0
    · simp only [OneRun.Description, hz, if_true]
      exact stringOneRun_eq_offset hw _ typeName d0 _ _ i hi hz
    · simp only [OneRun.Description, hz, if_false]
  refine ⟨⟨?_, ?_⟩, rfl, ?_, ?_, ⟨by decide, by decide⟩,
    by decide, by decide, by decide, by decide, by decide⟩
  · by_cases hz : d0.value = 0 <;> simp [hz]
  · intro hz; simp [hz]
  · intro hlen
    have hn := stringOneRunWithOffset_steps hw typeName (fun v => v.name) d0 r i hi h0 hlen
    have hd := stringOneRunWithOffset_steps hw typeName (fun v => v.description) d0 r i hi h0
      hlen
    rw [← createIndexAndNameDecl_eq] at hn
    rw [← createIndexAndNameDescDecl_eq] at hd
    rw [hS, hD]
    exact ⟨fun hcond => ⟨hn.1 hcond, hd.1 hcond⟩,
      fun k d hk hkd => ⟨hn.2 k d hk hkd, hd.2 k d hk hkd⟩⟩
  · intro hlen
    rw [hS, hD]
    exact ⟨(stringOneRun_rejected hw d0.signed typeName d0 d0.signed _ (d0 :: r).length
        (createIndexAndNameDecl_length _) hlen i).2,
      (stringOneRun_rejected hw d0.signed typeName d0 d0.signed _ (d0 :: r).length
        (createIndexAndNameDescDecl_length _) hlen i).2⟩

theorem oneRun_index_witness :
    (0 < 8 ∧ 8 ≤ 64) ∧
    buildOneRun [[mkS "A" 100 "a", mkS "B" 101 "b"]] (utf8 "T") =
      some ⟨utf8 "T", createIndexAndNameDecl [mkS "A" 100 "a", mkS "B" 101 "b"],
        createIndexAndNameDescDecl [mkS "A" 100 "a", mkS "B" 101 "b"], true,
        some (mkS "A" 100 "a")⟩ ∧
    InT 8 true 100 ∧ InT 8 true 101 ∧
    (([mkS "A" 100 "a", mkS "B" 101 "b"].length : Nat) : Int) < limitT 8 true ∧
    key true (subT 8 true 101 100) = ((1 : Nat) : Int) ∧
    OneRun.String 8 true ⟨utf8 "T", createIndexAndNameDecl [mkS "A" 100 "a", mkS "B" 101 "b"],
        createIndexAndNameDescDecl [mkS "A" 100 "a", mkS "B" 101 "b"], true,
        some (mkS "A" 100 "a")⟩ 101 = some (utf8 "B") :=
  ⟨by decide, by decide, by decide, by decide, by decide, by decide,
    (((oneRun_index 8 (utf8 "T") (mkS "A" 100 "a") [mkS "B" 101 "b"] [] _ 101 (by decide) rfl
      (by decide) (by decide)).2.2.1 (by decide)).2 1 (mkS "B" 101 "b") (by decide)
      (by decide)).1⟩

/-- C13: in the multiple-runs shape there is one case per run, in the order of
the runs, the same for names and for descriptions.  A run of length at least 2
with first value `s` and last value `e` is tested by `s <= v && v <= e`, the
lower bound being left out exactly when `s` is 0 and the type is unsigned, and
its table is indexed by `v - s` (the subtraction is left out when `s` is 0); a
run of length 1 is tested by `v == s` and returns the whole text constant.  The
accessors run the statements of the first case whose test holds, and a value
for which no case holds gets the fallback.  Where a run has at most as many
elements as the largest value of the type, the index `v - s` of a declared
value is the position of its declaration and the entry read is its text; in an
`int8` type with the runs -2 and 0, ..., 127 the lookup at 126 returns "V126"
and the one at 127 panics in `_T_index_1[i+1]`. -/
theorem multipleRuns_cases (w : Nat) (s : Bool) (typeName : GoString)
    (runs : List (List Value)) (hw : 0 < w ∧ w ≤ 64)
    (hne : ∀ r ∈ runs, r ≠ []) (hs : ∀ r ∈ runs, ∀ d ∈ r, d.signed = s) :
    (∃ p, buildMultipleRuns runs typeName = some p ∧
      p.nameCases.length = runs.length ∧ p.descCases.length = runs.length ∧
      (∀ (k : Nat) (d : Value), runs[k]? = some [d] →
        p.nameCases[k]? = some (Case.single d d.name) ∧
        p.descCases[k]? = some (Case.single d d.description) ∧
        ∀ i, ((Case.single d d.name).holds s i = true ↔ i = d.value) ∧
          ((Case.single d d.description).holds s i = true ↔ i = d.value) ∧
          (Case.single d d.name).body w s i = some d.name ∧
          (Case.single d d.description).body w s i = some d.description) ∧
      (∀ (k : Nat) (d0 d1 : Value) (rest : List Value), runs[k]? = some (d0 :: d1 :: rest) →
        ∃ lower sub,
          p.nameCases[k]? = some (Case.range lower d0 ((d1 :: rest).getLastD d0) sub
            (createIndexAndNameDecl (d0 :: d1 :: rest))) ∧
          p.descCases[k]? = some (Case.range lower d0 ((d1 :: rest).getLastD d0) sub
            (createIndexAndNameDescDecl (d0 :: d1 :: rest))) ∧
          (lower = false ↔ d0.value = 0 ∧ s = false) ∧ (sub = false ↔ d0.value = 0) ∧
          ∀ i, InT w s i →
            ((Case.range lower d0 ((d1 :: rest).getLastD d0) sub
                (createIndexAndNameDecl (d0 :: d1 :: rest))).holds s i = true ↔
              key s d0.value ≤ key s i ∧ key s i ≤ key s ((d1 :: rest).getLastD d0).value) ∧
            ((Case.range lower d0 ((d1 :: rest).getLastD d0) sub
                (createIndexAndNameDescDecl (d0 :: d1 :: rest))).holds s i = true ↔
              key s d0.value ≤ key s i ∧ key s i ≤ key s ((d1 :: rest).getLastD d0).value) ∧
            (Case.range lower d0 ((d1 :: rest).getLastD d0) sub
                (createIndexAndNameDecl (d0 :: d1 :: rest))).body w s i =
              tableEntry w s (createIndexAndNameDecl (d0 :: d1 :: rest))
                (subT w s i d0.value) ∧
            (Case.range lower d0 ((d1 :: rest).getLastD d0) sub
                (createIndexAndNameDescDecl (d0 :: d1 :: rest))).body w s i =
              tableEntry w s (createIndexAndNameDescDecl (d0 :: d1 :: rest))
                (subT w s i d0.value)) ∧
      (∀ (i k : Nat) (c : Case), p.nameCases[k]? = some c → c.holds s i = true →
        (∀ (j : Nat) (c2 : Case), j < k → p.nameCases[j]? = some c2 → c2.holds s i = false) →
        p.String w s i = c.body w s i) ∧
      (∀ (i k : Nat) (c : Case), p.descCases[k]? = some c → c.holds s i = true →
        (∀ (j : Nat) (c2 : Case), j < k → p.descCases[j]? = some c2 → c2.holds s i = false) →
        p.Description w s i = c.body w s i) ∧
      (∀ i, (∀ c ∈ p.nameCases, c.holds s i = false) →
        p.String w s i = some (fallback typeName i)) ∧
      (∀ i, (∀ c ∈ p.descCases, c.holds s i = false) →
        p.Description w s i = some (fallback typeName i))) ∧
    (∀ (d0 : Value) (r : List Value) (n : Nat) (d : Value), (d0 :: r) ∈ runs →
      List.Chain (fun a b => key s b.value = key s a.value + 1) d0 r →
      (∀ e ∈ d0 :: r, InT w s e.value) → ((d0 :: r).length : Int) < limitT w s →
      (d0 :: r)[n]? = some d →
      subT w s d.value d0.value = n ∧
      tableEntry w s (createIndexAndNameDecl (d0 :: r)) (subT w s d.value d0.value) =
        some d.name ∧
      tableEntry w s (createIndexAndNameDescDecl (d0 :: r)) (subT w s d.value d0.value) =
        some d.description) ∧
    (OfType 8 true exInt8Two ∧
      (generate (utf8 "T") exInt8Two).map
          (fun g => (g.lookup.shape, g.lookup.String 8 true (2 ^ 64 - 2),
            g.lookup.String 8 true 126, g.lookup.String 8 true 127)) =
        some (Shape.multipleRuns, some (utf8 "M2"), some (utf8 "V126"), none) ∧
      (generate (utf8 "T") exInt8Two).map
          (fun g => (g.lookup.String 16 true 127, g.lookup.String 16 true 128)) =
        some (some (utf8 "V127"), some (utf8 "T(128)"))) := by
  refine ⟨?_, ?_, by decide, by decide, by decide⟩
  · obtain ⟨p, hp⟩ := buildMultipleRuns_isSome runs typeName hne
    refine ⟨p, hp, ?_⟩
    unfold buildMultipleRuns at hp
    cases hns : mapOpt (runCase createIndexAndNameDecl) runs with
    | none => simp [hns] at hp
    | some ns =>
      cases hds : mapOpt (runCase createIndexAndNameDescDecl) runs with
      | none => simp [hns, hds] at hp
      | some ds =>
        simp only [hns, hds, Option.some.injEq] at hp
        subst hp
        obtain ⟨hnl, hnk⟩ := mapOpt_getElem _ runs ns hns
        obtain ⟨hdl, hdk⟩ := mapOpt_getElem _ runs ds hds
        refine ⟨hnl, hdl, ?_, ?_, ?_, ?_, ?_, ?_⟩
        · intro k d hk
          obtain ⟨cn, hcn, hfn⟩ := hnk k [d] hk
          obtain ⟨cd, hcd, hfd⟩ := hdk k [d] hk
          simp only [runCase, Option.some.injEq] at hfn hfd
          subst hfn; subst hfd
          refine ⟨by simpa [createIndexAndNameDecl, writeAll] using hcn,
            by simpa [createIndexAndNameDescDecl, writeAll] using hcd, ?_⟩
          intro i
          simp [Case.holds, Case.body]
        · intro k d0 d1 rest hk
          obtain ⟨cn, hcn, hfn⟩ := hnk k (d0 :: d1 :: rest) hk
          obtain ⟨cd, hcd, hfd⟩ := hdk k (d0 :: d1 :: rest) hk
          simp only [runCase, Option.some.injEq] at hfn hfd
          subst hfn; subst hfd
          have hs0 : d0.signed = s :=
            hs _ (List.getElem?_mem hk) d0 (List.mem_cons_self _ _)
          refine ⟨!(d0.value == 0 && !d0.signed), d0.value != 0, hcn, hcd, ?_, ?_, ?_⟩
          · rw [← hs0]
            simp
          · simp
          · intro i hi
            exact ⟨range_holds_iff d0 _ _ i hs0, range_holds_iff d0 _ _ i hs0,
              range_body_eq hw s d0 _ _ _ i hi, range_body_eq hw s d0 _ _ _ i hi⟩
        · intro i k c hk hh hbefore
          exact switchCases_first w s typeName i ns k c hk hh hbefore
        · intro i k c hk hh hbefore
          exact switchCases_first w s typeName i ds k c hk hh hbefore
        · intro i hno
          exact switchCases_fallback w s typeName ns i hno
        · intro i hno
          exact switchCases_fallback w s typeName ds i hno
  · intro d0 r n d _ hc hb hlen hd
    have h1 := run_index_entry hw (fun v => v.name) d0 r n d hc hb hlen hd
    have h2 := run_index_entry hw (fun v => v.description) d0 r n d hc hb hlen hd
    rw [← createIndexAndNameDecl_eq] at h1
    rw [← createIndexAndNameDescDecl_eq] at h2
    exact ⟨h1.1, h1.2, h2.2⟩

theorem multipleRuns_cases_witness :
    (0 < 8 ∧ 8 ≤ 64) ∧
    (∀ r ∈ [[mkU "A" 0 "a", mkU "B" 1 "b"], [mkU "D" 3 "d"]], r ≠ []) ∧
    (∀ r ∈ [[mkU "A" 0 "a", mkU "B" 1 "b"], [mkU "D" 3 "d"]], ∀ d ∈ r, d.signed = false) ∧
    ∃ p, buildMultipleRuns [[mkU "A" 0 "a", mkU "B" 1 "b"], [mkU "D" 3 "d"]] (utf8 "T") =
        some p ∧
      p.nameCases[1]? = some (Case.single (mkU "D" 3 "d") (utf8 "D")) ∧
      p.String 8 false 3 = some (utf8 "D") ∧
      p.String 8 false 7 = some (utf8 "T(7)") ∧
      tableEntry 8 false (createIndexAndNameDecl [mkU "A" 0 "a", mkU "B" 1 "b"])
        (subT 8 false 1 0) = some (utf8 "B") := by
  refine ⟨by decide, by decide, by decide, ?_⟩
  obtain ⟨⟨p, hp, _, _, h1, _, h3, _, h5, _⟩, hidx, _⟩ := multipleRuns_cases 8 false (utf8 "T")
    [[mkU "A" 0 "a", mkU "B" 1 "b"], [mkU "D" 3 "d"]] (by decide) (by decide) (by decide)
  have hp2 : p = ⟨utf8 "T",
      [Case.range false (mkU "A" 0 "a") (mkU "B" 1 "b") false
          (createIndexAndNameDecl [mkU "A" 0 "a", mkU "B" 1 "b"]),
        Case.single (mkU "D" 3 "d") (utf8 "D")],
      [Case.range false (mkU "A" 0 "a") (mkU "B" 1 "b") false
          (createIndexAndNameDescDecl [mkU "A" 0 "a", mkU "B" 1 "b"]),
        Case.single (mkU "D" 3 "d") (utf8 "d")]⟩ := by
    have : buildMultipleRuns [[mkU "A" 0 "a", mkU "B" 1 "b"], [mkU "D" 3 "d"]] (utf8 "T") =
        some ⟨utf8 "T",
          [Case.range false (mkU "A" 0 "a") (mkU "B" 1 "b") false
              (createIndexAndNameDecl [mkU "A" 0 "a", mkU "B" 1 "b"]),
            Case.single (mkU "D" 3 "d") (utf8 "D")],
          [Case.range false (mkU "A" 0 "a") (mkU "B" 1 "b") false
              (createIndexAndNameDescDecl [mkU "A" 0 "a", mkU "B" 1 "b"]),
            Case.single (mkU "D" 3 "d") (utf8 "d")]⟩ := by decide
    rw [this] at hp
    exact (Option.some.inj hp).symm
  refine ⟨p, hp, (h1 1 (mkU "D" 3 "d") rfl).1, ?_, ?_,
    (hidx (mkU "A" 0 "a") [mkU "B" 1 "b"] 1 (mkU "B" 1 "b") (by decide)
      (List.Chain.cons (by decide) List.Chain.nil) (by decide) (by decide) rfl).2.1⟩
  · have h := h3 3 1 (Case.single (mkU "D" 3 "d") (utf8 "D")) (h1 1 (mkU "D" 3 "d") rfl).1
      (by decide) (by
        intro j c2 hj hc2
        have hj0 : j = 0 := by omega
        subst hj0
        rw [hp2] at hc2
        simp only [List.getElem?_cons_zero, Option.some.injEq] at hc2
        subst hc2
        decide)
    rw [h]
    rfl
  · have h := h5 7 (by rw [hp2]; decide)
    rw [h]
    decide

/-- C14: in the map shape the name text and the description text are the
concatenations of the names and of the descriptions of all kept declarations in
ascending value order; each of the two maps has exactly one entry for every
declared value, keyed by the literal of the kept declaration; the slice bounds
of an entry are `n` and `n + len`, with `n` the total byte length of the texts
before it, and cut exactly the name (description) of that declaration out of
the concatenation; a value that is not a key gets the fallback. -/
theorem map_shape_tables (s : Bool) (typeName : GoString) (vs : List Value)
    (h : OneType s vs) :
    ((buildMap (splitIntoRuns vs) typeName).nameText =
        ((sortAndDedup vs).map (fun d => d.name)).flatten ∧
      (buildMap (splitIntoRuns vs) typeName).descText =
        ((sortAndDedup vs).map (fun d => d.description)).flatten ∧
      (sortAndDedup vs).Pairwise (fun a b => key s a.value < key s b.value)) ∧
    (((buildMap (splitIntoRuns vs) typeName).nameEntries.map (fun e => e.1) = sortAndDedup vs ∧
      (buildMap (splitIntoRuns vs) typeName).descEntries.map (fun e => e.1) =
        sortAndDedup vs) ∧
      ∀ x ∈ vs,
        (((buildMap (splitIntoRuns vs) typeName).nameEntries.map (fun e => e.1)).filter
          (fun d => d.value == x.value)).length = 1 ∧
        (((buildMap (splitIntoRuns vs) typeName).descEntries.map (fun e => e.1)).filter
          (fun d => d.value == x.value)).length = 1) ∧
    (∀ (k : Nat) (e : Value × Nat × Nat),
      (buildMap (splitIntoRuns vs) typeName).nameEntries[k]? = some e →
      e.2.1 = (((sortAndDedup vs).take k).map (fun d => d.name)).flatten.length ∧
      e.2.2 = e.2.1 + e.1.name.length ∧
      e.2.2 ≤ (buildMap (splitIntoRuns vs) typeName).nameText.length ∧
      (((buildMap (splitIntoRuns vs) typeName).nameText).take e.2.2).drop e.2.1 = e.1.name) ∧
    (∀ (k : Nat) (e : Value × Nat × Nat),
      (buildMap (splitIntoRuns vs) typeName).descEntries[k]? = some e →
      e.2.1 = (((sortAndDedup vs).take k).map (fun d => d.description)).flatten.length ∧
      e.2.2 = e.2.1 + e.1.description.length ∧
      e.2.2 ≤ (buildMap (splitIntoRuns vs) typeName).descText.length ∧
      (((buildMap (splitIntoRuns vs) typeName).descText).take e.2.2).drop e.2.1 =
        e.1.description) ∧
    (∀ (m : List (Nat × GoString)) (i : Nat), (∀ kv ∈ m, kv.1 ≠ i) →
      stringMap typeName m i = typeName ++ utf8 "(" ++ FormatInt (int64 i) ++ utf8 ")") := by
  have hflat := (splitIntoRuns_spec vs).1
  have hentry : ∀ (text : Value → GoString) (k : Nat) (e : Value × Nat × Nat),
      (mapEntries text (sortAndDedup vs) 0)[k]? = some e →
      e.2.1 = (((sortAndDedup vs).take k).map text).flatten.length ∧
      e.2.2 = e.2.1 + (text e.1).length ∧
      e.2.2 ≤ ((sortAndDedup vs).map text).flatten.length ∧
      ((((sortAndDedup vs).map text).flatten).take e.2.2).drop e.2.1 = text e.1 := by
    intro text k e he
    obtain ⟨d, h1, h2, h3, h4⟩ := mapEntries_getElem text _ 0 k e he
    obtain ⟨h5, h6⟩ := concat_slice text _ k d h1
    have h3b : e.2.1 = (((sortAndDedup vs).take k).map text).flatten.length := by
      rw [h3]; omega
    rw [h2, h4, h3b]
    exact ⟨rfl, rfl, h5, h6⟩
  refine ⟨⟨?_, ?_, sortAndDedup_ascending vs h⟩, ⟨⟨?_, ?_⟩, ?_⟩, ?_, ?_, ?_⟩
  · simp only [buildMap, declareNameVars, hflat]
  · simp only [buildMap, declareNameVars, hflat]
  · simp only [buildMap, hflat]
    exact mapEntries_fst _ _ 0
  · simp only [buildMap, hflat]
    exact mapEntries_fst _ _ 0
  · intro x hx
    simp only [buildMap, hflat, mapEntries_fst]
    have hf := sortAndDedup_filter vs h x.value
    cases hfind : vs.find? (fun d => d.value == x.value) with
    | none =>
      have := List.find?_eq_none.mp hfind x hx
      simp at this
    | some d =>
      rw [hfind] at hf
      rw [hf]
      exact ⟨rfl, rfl⟩
  · intro k e he
    simp only [buildMap, declareNameVars, hflat] at he ⊢
    exact hentry (fun d => d.name) k e he
  · intro k e he
    simp only [buildMap, declareNameVars, hflat] at he ⊢
    exact hentry (fun d => d.description) k e he
  · intro m i hno
    have hfind : m.find? (fun kv => kv.1 == i) = none := by
      rw [List.find?_eq_none]
      intro kv hkv
      simpa using hno kv hkv
    simp [stringMap, hfind, fallback]

theorem map_shape_tables_witness :
    OneType false exAlias ∧
    (buildMap (splitIntoRuns exAlias) (utf8 "T")).nameText = utf8 "ABC" ∧
    (buildMap (splitIntoRuns exAlias) (utf8 "T")).descText = utf8 "firstsecondthird" :=
  ⟨by decide,
    (map_shape_tables false (utf8 "T") exAlias (by decide)).1.1.trans (by decide),
    (map_shape_tables false (utf8 "T") exAlias (by decide)).1.2.1.trans (by decide)⟩

/-- C15: for a non-empty declaration list `generate` prints a guard function
with exactly one line `_ = x[<originalName> - <literal>]` per declared constant,
in declaration order, the aliases that the deduplication drops included; with
`x` an array of length 1, the index of a line is 0 exactly when the constant
still has the value recorded in the literal, so a change of the value of any
declared constant puts at least one index out of bounds. -/
theorem guard_lines (typeName : GoString) (vs : List Value) (hne : vs ≠ [])
    (hlit : ∀ v ∈ vs, atoi v.str = some (key v.signed v.value)) :
    (∃ g, generate typeName vs = some g ∧
      g.guard = vs.map (fun v => (v.originalName, v.str)) ∧
      (∀ (current : GoString → Int) (k : Nat) (v : Value), vs[k]? = some v →
        ∃ idx, g.guard[k]? = some (v.originalName, v.str) ∧
          guardIndex current (v.originalName, v.str) = some idx ∧
          idx = current v.originalName - key v.signed v.value ∧
          (idx = 0 ↔ current v.originalName = key v.signed v.value) ∧
          (inBounds 1 idx ↔ idx = 0)) ∧
      (∀ (current : GoString → Int),
        (∃ v ∈ vs, current v.originalName ≠ key v.signed v.value) →
        ∃ line ∈ g.guard, ∃ idx, guardIndex current line = some idx ∧ ¬ inBounds 1 idx)) ∧
    ((generate (utf8 "T") exAlias).map (fun g => g.guard) =
        some [(utf8 "A", utf8 "0"), (utf8 "B", utf8 "1"), (utf8 "C", utf8 "2"),
          (utf8 "D", utf8 "2")] ∧
      (sortAndDedup exAlias).map (fun d => d.originalName) = [utf8 "A", utf8 "B", utf8 "C"]) := by
  obtain ⟨g, hg, _⟩ := generate_cases typeName vs hne
  have hguard := generate_guard typeName vs g hg
  have hidx : ∀ (current : GoString → Int) (v : Value), v ∈ vs →
      guardIndex current (v.originalName, v.str) =
        some (current v.originalName - key v.signed v.value) := by
    intro current v hv
    simp [guardIndex, hlit v hv]
  refine ⟨⟨g, hg, hguard, ?_, ?_⟩, by decide, by decide⟩
  · intro current k v hk
    refine ⟨current v.originalName - key v.signed v.value, ?_,
      hidx current v (List.getElem?_mem hk), rfl, ?_, ?_⟩
    · rw [hguard, List.getElem?_map, hk]
      rfl
    · omega
    · unfold inBounds
      omega
  · rintro current ⟨v, hv, hchg⟩
    refine ⟨(v.originalName, v.str), ?_, current v.originalName - key v.signed v.value,
      hidx current v hv, ?_⟩
    · rw [hguard]
      exact List.mem_map.mpr ⟨v, hv, rfl⟩
    · unfold inBounds
      omega

theorem guard_lines_witness :
    exAlias ≠ [] ∧ (∀ v ∈ exAlias, atoi v.str = some (key v.signed v.value)) ∧
    ∃ g, generate (utf8 "T") exAlias = some g ∧
      g.guard = exAlias.map (fun v => (v.originalName, v.str)) := by
  refine ⟨by decide, by decide, ?_⟩
  obtain ⟨⟨g, hg, hguard, _⟩, _⟩ := guard_lines (utf8 "T") exAlias (by decide) (by decide)
  exact ⟨g, hg, hguard⟩

/-- C16: for every value `i` of a generated type, `Error()` is
`"[" + Code() + "]" + Package() + "." + String() + ": " + Description()`, where
`Package()` is the package name fixed at generation time; the constant
`Fatal = 106` of package `usage_without_ohno`, generated with formatbase 16,
gives "[0x6a]usage_without_ohno.Fatal: Help!!! Im dying!!!". -/
theorem Error_composition (w : Nat) (s : Bool) (m : Methods) (i : Nat) :
    m.Error w s i = (m.String w s i).bind (fun name => (m.Description w s i).map (fun desc =>
      utf8 "[" ++ m.Code i ++ utf8 "]" ++ m.Package ++ utf8 "." ++ name ++ utf8 ": " ++ desc)) ∧
    (∀ (g : Generator) (typeName : GoString) (m2 : Methods),
      g.generate typeName = Except.ok m2 → m2.Package = g.pkg.name) ∧
    (exFabulousGenerator.generate (utf8 "MyFabulousError")).toOption.bind
        (fun m2 => m2.Error 64 true 106) =
      some (utf8 "[0x6a]usage_without_ohno.Fatal: Help!!! Im dying!!!") := by
  refine ⟨?_, ?_, by decide⟩
  · unfold Methods.Error
    cases m.String w s i <;> cases m.Description w s i <;> rfl
  · intro g typeName m2 h
    obtain ⟨values, gen, _, _, _, hm⟩ := generateMethod_inv g typeName m2 h
    rw [hm]
    rfl

theorem Error_composition_witness :
    ∃ m2, exFabulousGenerator.generate (utf8 "MyFabulousError") = Except.ok m2 ∧
      m2.Package = utf8 "usage_without_ohno" := by
  obtain ⟨gen, _, hg⟩ := generateMethod_ok exFabulousGenerator (utf8 "MyFabulousError")
    exFabulous rfl (by decide)
  exact ⟨_, hg, (Error_composition 64 true
    ⟨utf8 "MyFabulousError", gen, [], true, 16, [], false⟩ 0).2.1 exFabulousGenerator _ _ hg⟩

/-- C17 as stated fails: for the constants of the package documentation
(`NotFound = 0` of type `MyError` in package `somepkg`, with the comment
"Requested resource was not found") `NotFound.Error()` is
"[0]somepkg.NotFound: Requested resource was not found" with the default
formatbase 10 and "[0x0]somepkg.NotFound: ..." with formatbase 16; no generated
`Error()` ever returns "NotFound: Requested resource was not found". -/
theorem Error_differs_from_package_doc :
    ((exMyErrorGenerator 10 "").generate (utf8 "MyError")).toOption.bind
        (fun m => m.Error 64 true 0) =
      some (utf8 "[0]somepkg.NotFound: Requested resource was not found") ∧
    ((exMyErrorGenerator 16 "0x").generate (utf8 "MyError")).toOption.bind
        (fun m => m.Error 64 true 0) =
      some (utf8 "[0x0]somepkg.NotFound: Requested resource was not found") ∧
    ((exMyErrorGenerator 10 "").generate (utf8 "MyError")).toOption.bind
        (fun m => m.Error 64 true 0) ≠
      some (utf8 "NotFound: Requested resource was not found") ∧
    (∀ (w : Nat) (s : Bool) (m : Methods) (i : Nat),
      m.Error w s i ≠ some (utf8 "NotFound: Requested resource was not found")) := by
  refine ⟨by decide, by decide, by decide, ?_⟩
  intro w s m i h
  unfold Methods.Error at h
  cases hs : m.String w s i with
  | none => simp [hs] at h
  | some name =>
    cases hd : m.Description w s i with
    | none => simp [hs, hd] at h
    | some desc =>
      simp only [hs, hd, Option.some.injEq] at h
      have h1 : utf8 "[" = [91] := by decide
      have h2 : utf8 "NotFound: Requested resource was not found" =
          78 :: utf8 "otFound: Requested resource was not found" := by decide
      rw [h1, h2] at h
      have h3 := congrArg List.head? h
      simp only [List.append_assoc, List.singleton_append, List.cons_append, List.head?_cons,
        Option.some.injEq] at h3
      revert h3
      decide

/-- C17, amended: the generated `Error()` method returns a single string that
holds the code, the package name, the name and the description of the
constant, `"[" + Code() + "]" + Package() + "." + String() + ": " +
Description()`: it begins with "[", and it ends with the name, ": " and the
description.  For the constant `NotFound = 0` of package `somepkg` whose comment
is "Requested resource was not found", `NotFound.Error()` is
"[0]somepkg.NotFound: Requested resource was not found" with the default
formatbase 10 and "[0x0]somepkg.NotFound: Requested resource was not found"
with formatbase 16; of the five lines of that example `genDecl` collects the
first four. -/
theorem Error_holds_name_and_description (w : Nat) (s : Bool) (m : Methods) (i : Nat)
    (name desc : GoString) (hn : m.String w s i = some name)
    (hd : m.Description w s i = some desc) :
    m.Error w s i =
      some (utf8 "[" ++ m.Code i ++ utf8 "]" ++ m.Package ++ utf8 "." ++ name ++ utf8 ": " ++
        desc) ∧
    (∃ e, m.Error w s i = some e ∧ utf8 "[" <+: e ∧ (name ++ utf8 ": " ++ desc) <:+ e ∧
      name <:+: e ∧ desc <:+: e ∧ m.Code i <:+: e ∧ m.Package <:+: e) ∧
    (genDeclSpecs (utf8 "MyError") [] true [] exMyErrorSpecs = exMyError ∧
      ((exMyErrorGenerator 10 "").generate (utf8 "MyError")).toOption = some exMyErrorMethods ∧
      exMyErrorMethods.String 64 true 0 = some (utf8 "NotFound") ∧
      exMyErrorMethods.Description 64 true 0 =
        some (utf8 "Requested resource was not found") ∧
      exMyErrorMethods.Error 64 true 0 =
        some (utf8 "[0]somepkg.NotFound: Requested resource was not found") ∧
      ((exMyErrorGenerator 16 "0x").generate (utf8 "MyError")).toOption.bind
          (fun m2 => m2.Error 64 true 0) =
        some (utf8 "[0x0]somepkg.NotFound: Requested resource was not found")) := by
  have he : m.Error w s i =
      some (utf8 "[" ++ m.Code i ++ utf8 "]" ++ m.Package ++ utf8 "." ++ name ++ utf8 ": " ++
        desc) := by
    unfold Methods.Error
    rw [hn, hd]
  refine ⟨he, ⟨_, he, ?_, ?_, ?_, ?_, ?_, ?_⟩, by decide, by decide, by decide, by decide,
    by decide, by decide⟩
  · exact ⟨m.Code i ++ utf8 "]" ++ m.Package ++ utf8 "." ++ name ++ utf8 ": " ++ desc,
      by simp only [List.append_assoc]⟩
  · exact ⟨utf8 "[" ++ m.Code i ++ utf8 "]" ++ m.Package ++ utf8 ".",
      by simp only [List.append_assoc]⟩
  · exact ⟨utf8 "[" ++ m.Code i ++ utf8 "]" ++ m.Package ++ utf8 ".", utf8 ": " ++ desc,
      by simp only [List.append_assoc]⟩
  · exact ⟨utf8 "[" ++ m.Code i ++ utf8 "]" ++ m.Package ++ utf8 "." ++ name ++ utf8 ": ", [],
      by simp only [List.append_assoc, List.append_nil]⟩
  · exact ⟨utf8 "[", utf8 "]" ++ m.Package ++ utf8 "." ++ name ++ utf8 ": " ++ desc,
      by simp only [List.append_assoc]⟩
  · exact ⟨utf8 "[" ++ m.Code i ++ utf8 "]", utf8 "." ++ name ++ utf8 ": " ++ desc,
      by simp only [List.append_assoc]⟩

theorem Error_holds_name_and_description_witness :
    exMyErrorMethods.String 64 true 0 = some (utf8 "NotFound") ∧
    exMyErrorMethods.Description 64 true 0 = some (utf8 "Requested resource was not found") ∧
    exMyErrorMethods.Error 64 true 0 =
      some (utf8 "[" ++ exMyErrorMethods.Code 0 ++ utf8 "]" ++ exMyErrorMethods.Package ++
        utf8 "." ++ utf8 "NotFound" ++ utf8 ": " ++ utf8 "Requested resource was not found") :=
  ⟨by decide, by decide,
    (Error_holds_name_and_description 64 true exMyErrorMethods 0 (utf8 "NotFound")
      (utf8 "Requested resource was not found") (by decide) (by decide)).1⟩

/-- C18: `Code()` returns the literal prefix of the configured base ("0b" for
2, "0o" for 8, nothing for 10, "0x" for 16) followed by the value rendered in
that base, as a signed 64-bit integer when the type is signed and as an
unsigned 64-bit integer otherwise; with formatbase 16 the value 0 gives "0x0"
and the value 106 gives "0x6a". -/
theorem Code_format (flags : Flags) (world : World) (ms : List Methods) (m : Methods)
    (i : Nat) (hw : Event.writeFile ms ∈ (main flags world).events) (hm : m ∈ ms) :
    (∃ pre pkg values, codeBasePrefixString flags.codeBaseFlag = some pre ∧
      world.load = Except.ok pkg ∧ pkg.values m.typeName = Except.ok values ∧ values ≠ [] ∧
      m.Code i = pre ++
        (if (values.headD Value.zero).signed then
          FormatIntBase (int64 i) flags.codeBaseFlag.toNat
         else FormatUint i flags.codeBaseFlag.toNat)) ∧
    (codeBasePrefixString 2 = some (utf8 "0b") ∧ codeBasePrefixString 8 = some (utf8 "0o") ∧
      codeBasePrefixString 10 = some (utf8 "") ∧ codeBasePrefixString 16 = some (utf8 "0x")) ∧
    (exFabulousGenerator.generate (utf8 "MyFabulousError")).toOption.map
        (fun m2 => (m2.Code 0, m2.Code 106)) = some (utf8 "0x0", utf8 "0x6a") := by
  refine ⟨?_, by decide, by decide⟩
  obtain ⟨pre, pkg, _, hpre, _, hload, hres⟩ := main_written flags world ms hw
  rcases generateTypes_ok _ _ [] ms hres m hm with h | ⟨t, _, hg⟩
  · simp at h
  · obtain ⟨values, gen, hv, hne, _, hmeq⟩ := generateMethod_inv _ t m hg
    refine ⟨pre, pkg, values, hpre, hload, ?_, hne, ?_⟩
    · rw [hmeq]; exact hv
    · rw [hmeq]; rfl

theorem Code_format_witness :
    ∃ ms m, Event.writeFile ms ∈
        (main ⟨utf8 "MyFabulousError", [], [], false, 16, []⟩
          ⟨none, Except.ok exFabulousPackage, none⟩).events ∧
      m ∈ ms ∧
      ∃ pre pkg values, codeBasePrefixString 16 = some pre ∧
        (Except.ok exFabulousPackage : Except GoString Package) = Except.ok pkg ∧
        pkg.values m.typeName = Except.ok values ∧ values ≠ [] ∧
        m.Code 106 = pre ++
          (if (values.headD Value.zero).signed then FormatIntBase (int64 106) 16
           else FormatUint 106 16) := by
  obtain ⟨gen, _, hg⟩ := generateMethod_ok
    ⟨exFabulousPackage, [], true, false, 16, utf8 "0x"⟩ (utf8 "MyFabulousError")
    exFabulous rfl (by decide)
  have hrun := main_single ⟨utf8 "MyFabulousError", [], [], false, 16, []⟩
    ⟨none, Except.ok exFabulousPackage, none⟩ exFabulousPackage (utf8 "0x")
    (utf8 "MyFabulousError") _ (by decide) (by decide) rfl rfl rfl (by decide) hg
  have hmain : Event.writeFile
      [⟨utf8 "MyFabulousError", gen, utf8 "usage_without_ohno", true, 16, utf8 "0x", false⟩] ∈
      (main ⟨utf8 "MyFabulousError", [], [], false, 16, []⟩
        ⟨none, Except.ok exFabulousPackage, none⟩).events := by
    rw [hrun]
    exact List.mem_cons_of_mem _ (List.mem_cons_of_mem _ (List.mem_singleton.mpr rfl))
  exact ⟨_, _, hmain, List.mem_singleton.mpr rfl,
    (Code_format _ _ _ _ 106 hmain (List.mem_singleton.mpr rfl)).1⟩

/-- C19: with the `-type` flag set, for every formatbase other than 2, 8, 10 and
16 the program stops with the fatal error that names the value, before the
package is loaded and before anything is generated or written; for each of the
four accepted values it goes on to the arguments and the loading of the
package. -/
theorem formatbase_checked_first (flags : Flags) (world : World)
    (ht : flags.typeNames ≠ []) :
    (flags.codeBaseFlag ≠ 2 ∧ flags.codeBaseFlag ≠ 8 ∧ flags.codeBaseFlag ≠ 10 ∧
        flags.codeBaseFlag ≠ 16 →
      main flags world =
        ⟨[], Exit.fatal (utf8 "formatbase can only be one of 2,8,10,16 current value = " ++
          FormatInt flags.codeBaseFlag)⟩) ∧
    (flags.codeBaseFlag = 2 ∨ flags.codeBaseFlag = 8 ∨ flags.codeBaseFlag = 10 ∨
        flags.codeBaseFlag = 16 →
      (∃ pre, codeBasePrefixString flags.codeBaseFlag = some pre) ∧
      (world.argsError = none → (main flags world).events.head? = some Event.parsePackage) ∧
      (∀ msg, world.argsError = some msg → main flags world = ⟨[], Exit.fatal msg⟩)) := by
  have hlen : ¬ flags.typeNames.length = 0 := fun e => ht (List.eq_nil_of_length_eq_zero e)
  constructor
  · rintro ⟨h2, h8, h10, h16⟩
    have hp : codeBasePrefixString flags.codeBaseFlag = none := by
      simp [codeBasePrefixString, h2, h8, h10, h16]
    simp only [main, hlen, if_false, hp]
  · intro hacc
    have hp : ∃ pre, codeBasePrefixString flags.codeBaseFlag = some pre := by
      rcases hacc with h | h | h | h <;> rw [h] <;> exact ⟨_, rfl⟩
    obtain ⟨pre, hpre⟩ := hp
    refine ⟨⟨pre, hpre⟩, ?_, ?_⟩
    · intro hargs
      simp only [main, hlen, if_false, hpre, hargs]
      cases hload : world.load with
      | error msg => rfl
      | ok pkg =>
        simp only
        split
        · rfl
        · split <;> rfl
    · intro msg hargs
      simp only [main, hlen, if_false, hpre, hargs]

theorem formatbase_checked_first_witness :
    utf8 "T" ≠ [] ∧
    main ⟨utf8 "T", [], [], false, 7, []⟩ ⟨none, Except.ok exFabulousPackage, none⟩ =
      ⟨[], Exit.fatal (utf8 "formatbase can only be one of 2,8,10,16 current value = 7")⟩ :=
  ⟨by decide,
    (formatbase_checked_first ⟨utf8 "T", [], [], false, 7, []⟩
      ⟨none, Except.ok exFabulousPackage, none⟩ (by decide)).1 (by decide)⟩

/-- C20: when no constant of a requested type is found, `generate` stops with
the fatal error "no values defined for type <T>" before it prints the guard or
any lookup code for that type, and the run ends without writing a file, also
when types before it were generated; when at least one constant is found this
error does not occur. -/
theorem no_values_is_fatal (flags : Flags) (world : World) (pkg : Package) (pre : GoString)
    (before after : List GoString) (typeName : GoString)
    (ht : flags.typeNames ≠ [])
    (hpre : codeBasePrefixString flags.codeBaseFlag = some pre)
    (hargs : world.argsError = none) (hload : world.load = Except.ok pkg)
    (hsplit : splitOn 44 flags.typeNames = before ++ typeName :: after)
    (hbefore : ∀ u ∈ before, ∃ values, pkg.values u = Except.ok values ∧ values ≠ [])
    (hempty : pkg.values typeName = Except.ok []) :
    main flags world =
      ⟨Event.parsePackage :: (before ++ [typeName]).map Event.generate,
        Exit.fatal (utf8 "no values defined for type " ++ typeName)⟩ ∧
    (∀ ms, Event.writeFile ms ∉ (main flags world).events) ∧
    (∀ (g : Generator) (t : GoString), g.pkg.values t = Except.ok [] →
      g.generate t = Except.error (utf8 "no values defined for type " ++ t)) ∧
    (∀ (g : Generator) (t : GoString) (values : List Value),
      g.pkg.values t = Except.ok values → values ≠ [] →
      ∃ m, g.generate t = Except.ok m ∧
        m.generated.guard = values.map (fun v => (v.originalName, v.str))) := by
  have hlen : ¬ flags.typeNames.length = 0 := fun e => ht (List.eq_nil_of_length_eq_zero e)
  have hstop := generateTypes_stops
    ⟨pkg, flags.trimPrefixFlag, true, flags.ohnoFlag, flags.codeBaseFlag, pre⟩
    typeName after hempty before [] hbefore
  have hmain : main flags world =
      ⟨Event.parsePackage :: (before ++ [typeName]).map Event.generate,
        Exit.fatal (utf8 "no values defined for type " ++ typeName)⟩ := by
    simp only [main, hlen, if_false, hpre, hargs, hload, hsplit, hstop]
  refine ⟨hmain, ?_, ?_, ?_⟩
  · intro ms hmem
    rw [hmain] at hmem
    simp only [List.mem_cons, List.mem_map] at hmem
    rcases hmem with h | ⟨t, _, h⟩
    · cases h
    · cases h
  · intro g t h
    exact generateMethod_empty g t h
  · intro g t values hv hne
    obtain ⟨gen, hgen, hg⟩ := generateMethod_ok g t values hv hne
    exact ⟨_, hg, generate_guard t values gen hgen⟩

theorem no_values_is_fatal_witness :
    utf8 "MyFabulousError,Nope" ≠ [] ∧ codeBasePrefixString 16 = some (utf8 "0x") ∧
    splitOn 44 (utf8 "MyFabulousError,Nope") = [utf8 "MyFabulousError"] ++ utf8 "Nope" :: [] ∧
    (∀ u ∈ [utf8 "MyFabulousError"],
      ∃ values, exFabulousPackage.values u = Except.ok values ∧ values ≠ []) ∧
    exFabulousPackage.values (utf8 "Nope") = Except.ok [] ∧
    main ⟨utf8 "MyFabulousError,Nope", [], [], false, 16, []⟩
        ⟨none, Except.ok exFabulousPackage, none⟩ =
      ⟨[Event.parsePackage, Event.generate (utf8 "MyFabulousError"),
          Event.generate (utf8 "Nope")],
        Exit.fatal (utf8 "no values defined for type Nope")⟩ := by
  have hb : ∀ u ∈ [utf8 "MyFabulousError"],
      ∃ values, exFabulousPackage.values u = Except.ok values ∧ values ≠ [] := by
    intro u hu
    rw [List.mem_singleton.mp hu]
    exact ⟨exFabulous, rfl, by decide⟩
  exact ⟨by decide, by decide, by decide, hb, rfl,
    (no_values_is_fatal ⟨utf8 "MyFabulousError,Nope", [], [], false, 16, []⟩
      ⟨none, Except.ok exFabulousPackage, none⟩ exFabulousPackage (utf8 "0x")
      [utf8 "MyFabulousError"] [] (utf8 "Nope") (by decide) (by decide) rfl rfl (by decide)
      hb rfl).1⟩

/-- C21: for every constant the emitted name is the original name with the
configured `trimPrefix` taken off when the original name starts with it, and the
original name itself otherwise.  The prefix changes the name text only: the
guard still names the original constants, and the sorted and deduplicated list
(so the order and the declaration kept for a value), the runs and the shape of
the lookup code are the same for any two prefixes, up to the field `name`. -/
theorem trimPrefix_changes_name_only (p q : GoString) (lineComment : Bool)
    (typeName : GoString) (consts : List Constant) :
    (∀ c : Constant,
      (genDeclValue p lineComment c).name =
        (if HasPrefix c.name p then c.name.drop p.length else c.name) ∧
      (HasPrefix c.name p = true → p ++ (genDeclValue p lineComment c).name = c.name) ∧
      (genDeclValue p lineComment c).originalName = c.name ∧
      genDeclValue p lineComment c = retrim p (genDeclValue q lineComment c)) ∧
    (∀ v : Value, (retrim p v).originalName = v.originalName ∧ (retrim p v).value = v.value ∧
      (retrim p v).signed = v.signed ∧ (retrim p v).str = v.str ∧
      (retrim p v).description = v.description) ∧
    (∀ g, generate typeName (consts.map (genDeclValue p lineComment)) = some g →
      g.guard = consts.map (fun c => (c.name, c.str))) ∧
    (generate typeName (consts.map (genDeclValue p lineComment))).map (fun g => g.guard) =
      (generate typeName (consts.map (genDeclValue q lineComment))).map (fun g => g.guard) ∧
    sortAndDedup (consts.map (genDeclValue p lineComment)) =
      (sortAndDedup (consts.map (genDeclValue q lineComment))).map (retrim p) ∧
    splitIntoRuns (consts.map (genDeclValue p lineComment)) =
      (splitIntoRuns (consts.map (genDeclValue q lineComment))).map (List.map (retrim p)) ∧
    (generate typeName (consts.map (genDeclValue p lineComment))).map
        (fun g => g.lookup.shape) =
      (generate typeName (consts.map (genDeclValue q lineComment))).map
        (fun g => g.lookup.shape) := by
  have hmap : consts.map (genDeclValue p lineComment) =
      (consts.map (genDeclValue q lineComment)).map (retrim p) := by
    rw [List.map_map]
    exact List.map_congr_left (fun c _ => genDeclValue_retrim p q lineComment c)
  have horig : ∀ (r : GoString) (c : Constant),
      ((genDeclValue r lineComment c).originalName, (genDeclValue r lineComment c).str) =
        (c.name, c.str) := by
    intro r c
    cases lineComment <;> cases hc : c.comment <;> simp [genDeclValue, hc]
  have hguard : ∀ (r : GoString) (g : Generated),
      generate typeName (consts.map (genDeclValue r lineComment)) = some g →
      g.guard = consts.map (fun c => (c.name, c.str)) := by
    intro r g hg
    rw [generate_guard typeName _ g hg, List.map_map]
    exact List.map_congr_left (fun c _ => horig r c)
  have hsome : ∀ r : GoString, consts ≠ [] →
      ∃ g, generate typeName (consts.map (genDeclValue r lineComment)) = some g := by
    intro r hne
    obtain ⟨g, hg, _⟩ := generate_cases typeName (consts.map (genDeclValue r lineComment))
      (by simpa using hne)
    exact ⟨g, hg⟩
  have hruns := splitIntoRuns_map (retrim p) (fun _ => rfl) (fun _ => rfl)
    (consts.map (genDeclValue q lineComment))
  refine ⟨?_, fun _ => ⟨rfl, rfl, rfl, rfl, rfl⟩, hguard p, ?_, ?_, ?_, ?_⟩
  · intro c
    have hname : (genDeclValue p lineComment c).name = TrimPrefix c.name p := by
      cases lineComment <;> cases hc : c.comment <;> simp [genDeclValue, hc]
    refine ⟨by rw [hname]; rfl, ?_, congrArg Prod.fst (horig p c),
      genDeclValue_retrim p q lineComment c⟩
    intro hp
    rw [hname]
    simp only [TrimPrefix, hp, if_true]
    simp only [HasPrefix, Bool.and_eq_true, decide_eq_true_eq] at hp
    have hcat := List.take_append_drop p.length c.name
    rw [hp.2] at hcat
    exact hcat
  · by_cases hne : consts = []
    · rw [hne]; rfl
    · obtain ⟨g, hg⟩ := hsome p hne
      obtain ⟨g2, hg2⟩ := hsome q hne
      rw [hg, hg2]
      simp only [Option.map_some', hguard p g hg, hguard q g2 hg2]
  · rw [hmap]
    exact sortAndDedup_map (retrim p) (fun _ => rfl) (fun _ => rfl) _
  · rw [hmap]
    exact hruns
  · apply generate_shape_eq
    · simp
    · rw [hmap, hruns, List.length_map]

theorem trimPrefix_changes_name_only_witness :
    HasPrefix (utf8 "ErrBusy") (utf8 "Err") = true ∧
    utf8 "Err" ++ (genDeclValue (utf8 "Err") true
      ⟨utf8 "ErrBusy", 1, true, utf8 "1", some (utf8 "busy")⟩).name = utf8 "ErrBusy" ∧
    (exPrefixed.map (genDeclValue (utf8 "Err") true)).map (fun v => v.name) =
      [utf8 "NotFound", utf8 "Busy", utf8 "Fatal"] ∧
    (generate (utf8 "T") (exPrefixed.map (genDeclValue (utf8 "Err") true))).map
        (fun g => g.guard) =
      some [(utf8 "ErrNotFound", utf8 "0"), (utf8 "ErrBusy", utf8 "1"), (utf8 "Fatal", utf8 "3")] :=
  ⟨by decide,
    ((trimPrefix_changes_name_only (utf8 "Err") [] true (utf8 "T") exPrefixed).1
      ⟨utf8 "ErrBusy", 1, true, utf8 "1", some (utf8 "busy")⟩).2.1 (by decide),
    by decide, by decide⟩

/-- C22 as stated, at a type with the single constant `A = 5`: `generate`
chooses the single-run shape, and `declareIndexAndNameVar` prints both index
arrays, `{0, 1}` each, which the accessors then read; the run of one
declaration does get its index arrays. -/
theorem oneRun_single_declaration_has_index :
    (generate (utf8 "T") [mkU "A" 5 "a"]).map (fun g => g.lookup.shape) =
      some Shape.singleRun ∧
    splitIntoRuns [mkU "A" 5 "a"] = [[mkU "A" 5 "a"]] ∧
    declareIndexAndNameVar [mkU "A" 5 "a"] =
      ⟨[(none, utf8 "A")], [(none, utf8 "a")], [(none, 8, [0, 1])], [(none, 8, [0, 1])]⟩ ∧
    ¬ ((declareIndexAndNameVar [mkU "A" 5 "a"]).indexes = [] ∧
      (declareIndexAndNameVar [mkU "A" 5 "a"]).dIndexes = []) ∧
    (generate (utf8 "T") [mkU "A" 5 "a"]).map (fun g => g.lookup) =
      some (Lookup.oneRun ⟨utf8 "T", ⟨utf8 "A", 8, [0, 1]⟩, ⟨utf8 "a", 8, [0, 1]⟩, false,
        some (mkU "A" 5 "a")⟩) := by
  refine ⟨by decide, by decide, by decide, by decide, by decide⟩

/-- C22, amended: in the multiple-runs shape every run gets its name constant
and its description constant, with the run number as suffix, and a run that
consists of a single declaration gets no index array: its case returns the
constant as a whole; a longer run gets both index arrays.  In the single-run
shape the two constants and the two index arrays are always printed; for a
single declaration the arrays hold the offsets 0 and the length of the text. -/
theorem single_declaration_run_tables (runs : List (List Value)) (typeName : GoString) :
    ((declareIndexAndNameVars runs).names.map (fun e => e.1) =
        (List.range runs.length).map some ∧
      (declareIndexAndNameVars runs).dNames.map (fun e => e.1) =
        (List.range runs.length).map some) ∧
    (∀ (k : Nat) (d : Value), runs[k]? = some [d] →
      (∀ e ∈ (declareIndexAndNameVars runs).indexes, e.1 ≠ some k) ∧
      (∀ e ∈ (declareIndexAndNameVars runs).dIndexes, e.1 ≠ some k) ∧
      (some k, d.name) ∈ (declareIndexAndNameVars runs).names ∧
      (some k, d.description) ∈ (declareIndexAndNameVars runs).dNames ∧
      runCase createIndexAndNameDecl [d] = some (Case.single d d.name) ∧
      runCase createIndexAndNameDescDecl [d] = some (Case.single d d.description)) ∧
    (∀ (k : Nat) (run : List Value), runs[k]? = some run → run.length ≠ 1 →
      (some k, (createIndexAndNameDecl run).bits, (createIndexAndNameDecl run).index) ∈
        (declareIndexAndNameVars runs).indexes ∧
      (some k, (createIndexAndNameDescDecl run).bits, (createIndexAndNameDescDecl run).index) ∈
        (declareIndexAndNameVars runs).dIndexes ∧
      (some k, (createIndexAndNameDecl run).name) ∈ (declareIndexAndNameVars runs).names ∧
      (some k, (createIndexAndNameDescDecl run).name) ∈
        (declareIndexAndNameVars runs).dNames) ∧
    (∀ (d : Value) (rest : List (List Value)),
      declareIndexAndNameVar [d] =
        ⟨[(none, d.name)], [(none, d.description)],
          [(none, usize d.name.length, [0, d.name.length])],
          [(none, usize d.description.length, [0, d.description.length])]⟩ ∧
      ∃ p, buildOneRun ([d] :: rest) typeName = some p ∧
        p.names.index = [0, d.name.length] ∧ p.descs.index = [0, d.description.length]) := by
  have hmem : ∀ (k : Nat) (run : List Value), runs[k]? = some run → (k, run) ∈ runs.enum :=
    fun k run h => List.mk_mem_enum_iff_getElem?.mpr h
  have hfst : ∀ (f : List Value → GoString),
      (runs.enum.map (fun kr => ((some kr.1 : Option Nat), f kr.2))).map (fun e => e.1) =
        (List.range runs.length).map some := by
    intro f
    rw [List.map_map]
    have : ((fun e : Option Nat × GoString => e.1) ∘
        (fun kr : Nat × List Value => ((some kr.1 : Option Nat), f kr.2))) =
        some ∘ Prod.fst := rfl
    rw [this, ← List.map_map, List.enum_map_fst]
  rw [declareIndexAndNameVars_eq]
  refine ⟨⟨hfst (fun r => (createIndexAndNameDecl r).name),
    hfst (fun r => (createIndexAndNameDescDecl r).name)⟩, ?_, ?_, ?_⟩
  · intro k d hk
    have hno : ∀ (g : List Value → Nat × List Nat),
        ∀ e ∈ (runs.enum.filter (fun kr => decide (kr.2.length ≠ 1))).map
          (fun kr => ((some kr.1 : Option Nat), g kr.2)), e.1 ≠ some k := by
      intro g e he
      obtain ⟨kr, hkr, rfl⟩ := List.mem_map.mp he
      obtain ⟨hin, hlen⟩ := List.mem_filter.mp hkr
      intro heq
      have hk2 : kr.1 = k := Option.some.inj heq
      have hget := List.mem_enum_iff_getElem?.mp hin
      rw [hk2, hk] at hget
      have : kr.2 = [d] := (Option.some.inj hget).symm
      rw [this] at hlen
      simp at hlen
    refine ⟨hno (fun r => ((createIndexAndNameDecl r).bits, (createIndexAndNameDecl r).index)),
      hno (fun r => ((createIndexAndNameDescDecl r).bits,
        (createIndexAndNameDescDecl r).index)), ?_, ?_, ?_, ?_⟩
    · exact List.mem_map.mpr ⟨(k, [d]), hmem k [d] hk, by
        simp [createIndexAndNameDecl, writeAll]⟩
    · exact List.mem_map.mpr ⟨(k, [d]), hmem k [d] hk, by
        simp [createIndexAndNameDescDecl, writeAll]⟩
    · simp [runCase, createIndexAndNameDecl, writeAll]
    · simp [runCase, createIndexAndNameDescDecl, writeAll]
  · intro k run hk hlen
    have hin : (k, run) ∈ runs.enum.filter (fun kr => decide (kr.2.length ≠ 1)) :=
      List.mem_filter.mpr ⟨hmem k run hk, by simpa using hlen⟩
    exact ⟨List.mem_map.mpr ⟨(k, run), hin, rfl⟩, List.mem_map.mpr ⟨(k, run), hin, rfl⟩,
      List.mem_map.mpr ⟨(k, run), hmem k run hk, rfl⟩,
      List.mem_map.mpr ⟨(k, run), hmem k run hk, rfl⟩⟩
  · intro d rest
    refine ⟨by simp [declareIndexAndNameVar, createIndexAndNameDecl,
      createIndexAndNameDescDecl, writeAll], _, rfl, ?_, ?_⟩
    · simp [createIndexAndNameDecl, writeAll]
    · simp [createIndexAndNameDescDecl, writeAll]

theorem single_declaration_run_tables_witness :
    [[mkU "A" 0 "a", mkU "B" 1 "b"], [mkU "D" 3 "d"]][1]? = some [mkU "D" 3 "d"] ∧
    declareIndexAndNameVars [[mkU "A" 0 "a", mkU "B" 1 "b"], [mkU "D" 3 "d"]] =
      ⟨[(some 0, utf8 "AB"), (some 1, utf8 "D")], [(some 0, utf8 "ab"), (some 1, utf8 "d")],
        [(some 0, 8, [0, 1, 2])], [(some 0, 8, [0, 1, 2])]⟩ ∧
    ∀ e ∈ (declareIndexAndNameVars [[mkU "A" 0 "a", mkU "B" 1 "b"], [mkU "D" 3 "d"]]).indexes,
      e.1 ≠ some 1 :=
  ⟨by decide, by decide,
    ((single_declaration_run_tables [[mkU "A" 0 "a", mkU "B" 1 "b"], [mkU "D" 3 "d"]]
      (utf8 "T")).2.1 1 (mkU "D" 3 "d") (by decide)).1⟩

/-- C29: for every `SourceInformation`, `String()` is `File + ":" +` the decimal
rendering of `Line` `+ ":"` when `Function` is empty, and
`File + ":" +` the decimal rendering of `Line` `+ " (" + Function + ")" + ":"`
when `Function` is not empty; the file example_test.go, the line 23 and the
function F give "example_test.go:23 (F):". -/
theorem SourceInformation_String_format (s : SourceInformation) :
    (s.Function = [] → s.String = s.File ++ utf8 ":" ++ FormatInt s.Line ++ utf8 ":") ∧
    (s.Function ≠ [] →
      s.String =
        s.File ++ utf8 ":" ++ FormatInt s.Line ++ utf8 " (" ++ s.Function ++ utf8 ")" ++
          utf8 ":") ∧
    (⟨utf8 "example_test.go", utf8 "F", 23⟩ : SourceInformation).String =
      utf8 "example_test.go:23 (F):" ∧
    (⟨utf8 "example_test.go", [], 23⟩ : SourceInformation).String = utf8 "example_test.go:23:" := by
  refine ⟨?_, ?_, by decide, by decide⟩
  · intro h
    simp [SourceInformation.String, h]
  · intro h
    simp [SourceInformation.String, h, List.append_assoc]

theorem SourceInformation_String_format_witness :
    (⟨utf8 "a.go", utf8 "main.f", 7⟩ : SourceInformation).Function ≠ [] ∧
    (⟨utf8 "a.go", utf8 "main.f", 7⟩ : SourceInformation).String = utf8 "a.go:7 (main.f):" :=
  ⟨by decide,
    ((SourceInformation_String_format ⟨utf8 "a.go", utf8 "main.f", 7⟩).2.1 (by decide)).trans
      (by decide)⟩

/-- C30: for every call depth, `GetSourceInformation` called with `NoSourceInfo`
returns the nil pointer without a call into `runtime`; for every other type it
returns nil whenever `runtime.Callers` stores no program counter or the frame
read from it has no program counter, and only then. -/
theorem GetSourceInformation_nil (stack : Stack) (callDepth : Int) (t : SourceInfoType) :
    GetSourceInformation stack callDepth NoSourceInfo = ([], none) ∧
    (t ≠ NoSourceInfo →
      (stack.callers ((if callDepth = 0 then DefaultCallDepth else callDepth) + 1) < 1 →
        GetSourceInformation stack callDepth t =
          ([RuntimeCall.Callers ((if callDepth = 0 then DefaultCallDepth else callDepth) + 1)],
            none)) ∧
      ((stack.frame ((if callDepth = 0 then DefaultCallDepth else callDepth) + 1)).PC = 0 →
        (GetSourceInformation stack callDepth t).2 = none) ∧
      ((GetSourceInformation stack callDepth t).2 = none ↔
        stack.callers ((if callDepth = 0 then DefaultCallDepth else callDepth) + 1) < 1 ∨
        (stack.frame ((if callDepth = 0 then DefaultCallDepth else callDepth) + 1)).PC = 0)) := by
  refine ⟨by simp [GetSourceInformation], ?_⟩
  intro ht
  have hres : (GetSourceInformation stack callDepth t).2 = none ↔
      stack.callers ((if callDepth = 0 then DefaultCallDepth else callDepth) + 1) < 1 ∨
      (stack.frame ((if callDepth = 0 then DefaultCallDepth else callDepth) + 1)).PC = 0 := by
    simp only [GetSourceInformation, ht, if_false]
    by_cases hn : stack.callers ((if callDepth = 0 then DefaultCallDepth else callDepth) + 1) < 1
    · simp [hn]
    · by_cases hpc :
          (stack.frame ((if callDepth = 0 then DefaultCallDepth else callDepth) + 1)).PC = 0
      · simp [hn, hpc]
      · simp [hn, hpc]
  refine ⟨?_, ?_, hres⟩
  · intro hn
    simp only [GetSourceInformation, ht, if_false, hn, if_true]
  · intro hpc
    exact hres.mpr (Or.inr hpc)

theorem GetSourceInformation_nil_witness :
    ShortFileAndLine ≠ NoSourceInfo ∧
    exNoStack.callers ((if (5 : Int) = 0 then DefaultCallDepth else 5) + 1) < 1 ∧
    GetSourceInformation exNoStack 5 ShortFileAndLine = ([RuntimeCall.Callers 6], none) :=
  ⟨by decide, by decide,
    ((GetSourceInformation_nil exNoStack 5 ShortFileAndLine).2 (by decide)).1 (by decide)⟩

/-- C23: for every `OhNoError` whose `ErrorCode` is not nil (its `Error()`
returns `code`), `Error()` is the concatenation, in this order, of: the
timestamp formatted with the layout and one space, only when `Timestamp` is not
the zero time; `SourceInfo.String()` and one space, only when `SourceInfo` is
not nil; `code`; ", " and `Message`, only when `Message` is not empty; ", " and
`Extra` printed with `%+v`, only when `Extra` is not nil; "\n-> " and
`Cause.Error()`, only when `Cause` is not nil. -/
theorem OhNoError_Error_composition (format : Time → GoString → GoString) (o : OhNoError)
    (code : GoString) (hcode : o.ErrorCode.Error format = some code) :
    (o.Cause = GoError.nil →
      o.Error format = some (
        (if o.Timestamp.IsZero then []
          else format o.Timestamp
            (if o.TimestampLayout = [] then RFC3339Nano else o.TimestampLayout) ++ utf8 " ") ++
        (match o.SourceInfo with
          | some s => s.String ++ utf8 " "
          | none => []) ++
        code ++
        (if o.Message = [] then [] else utf8 ", " ++ o.Message) ++
        (match o.Extra with
          | some x => utf8 ", " ++ x.plusV
          | none => []))) ∧
    (∀ text : GoString, o.Cause ≠ GoError.nil → o.Cause.Error format = some text →
      o.Error format = some (
        (if o.Timestamp.IsZero then []
          else format o.Timestamp
            (if o.TimestampLayout = [] then RFC3339Nano else o.TimestampLayout) ++ utf8 " ") ++
        (match o.SourceInfo with
          | some s => s.String ++ utf8 " "
          | none => []) ++
        code ++
        (if o.Message = [] then [] else utf8 ", " ++ o.Message) ++
        (match o.Extra with
          | some x => utf8 ", " ++ x.plusV
          | none => []) ++
        utf8 "\n-> " ++ text)) ∧
    (exFoo.Error exFormat = some (utf8 ("1970-01-01 00:00:00 example_test.go:23 " ++
        "(github.com/A-0-5/ohno/examples/usage_with_ohno_test.Foo): " ++
        "[0x6a]usage_with_ohno.Fatal: Help!!! Im dying!!!, " ++
        "something really bad happened, \x7bBadStuff:some data here\x7d")) ∧
      exWrapped.Error exFormat = some (utf8 ("1970-01-01 00:05:00 " ++
        "[0x67]usage_with_ohno.Unknown: I don't know what happened, " ++
        "Ive got no clue as to what happened, 12345\n-> " ++
        "1970-01-01 00:00:00 example_test.go:23 " ++
        "(github.com/A-0-5/ohno/examples/usage_with_ohno_test.Foo): " ++
        "[0x6a]usage_with_ohno.Fatal: Help!!! Im dying!!!, " ++
        "something really bad happened, \x7bBadStuff:some data here\x7d"))) := by
  refine ⟨?_, ?_, by decide, by decide⟩
  · intro hc
    rw [OhNoError_Error_eq, hcode, hc]
    simp only [OhNoError.writeError, GoError.isNil, separator, commaSeparator]
    cases o.Timestamp.IsZero <;> cases o.SourceInfo <;> cases o.Extra <;>
      by_cases hm : o.Message = [] <;> simp [hm]
  · intro text hne hc
    have hnil : o.Cause.isNil = false := by
      cases h : o.Cause.isNil
      · rfl
      · exact absurd ((isNil_iff _).mp h) hne
    rw [OhNoError_Error_eq, hcode, hc, hnil]
    simp only [OhNoError.writeError, separator, commaSeparator, newlineTab]
    cases o.Timestamp.IsZero <;> cases o.SourceInfo <;> cases o.Extra <;>
      by_cases hm : o.Message = [] <;> simp [hm]

theorem OhNoError_Error_composition_witness :
    exFoo.ErrorCode.Error exFormat =
      some (utf8 "[0x6a]usage_with_ohno.Fatal: Help!!! Im dying!!!") ∧
    exFoo.Cause = GoError.nil ∧
    exFoo.Error exFormat = some (utf8 ("1970-01-01 00:00:00 example_test.go:23 " ++
      "(github.com/A-0-5/ohno/examples/usage_with_ohno_test.Foo): " ++
      "[0x6a]usage_with_ohno.Fatal: Help!!! Im dying!!!, " ++
      "something really bad happened, \x7bBadStuff:some data here\x7d")) :=
  ⟨by decide, rfl,
    ((OhNoError_Error_composition exFormat exFoo
      (utf8 "[0x6a]usage_with_ohno.Fatal: Help!!! Im dying!!!") (by decide)).1 rfl).trans
      (by decide)⟩

/-- C25: for every `OhNoJoinError` whose elements return the texts `texts` from
`Error()`, `Error()` is these texts in list order with one newline character
between two neighbours and none in front or at the end: the first text followed
by every further text with a newline before it; the empty string for the empty
list, and the text of the element for a list of one. -/
theorem OhNoJoinError_Error_lines (format : Time → GoString → GoString) (j : OhNoJoinError)
    (texts : List GoString) (h : j.Errors.map (GoError.Error format) = texts.map some) :
    j.Error format = some (List.intercalate [10] texts) ∧
    (∀ (t : GoString) (ts : List GoString), texts = t :: ts →
      j.Error format = some (t ++ (ts.map (fun u => utf8 "\n" ++ u)).flatten)) ∧
    (j.Errors = [] → j.Error format = some []) ∧
    (∀ (e : GoError) (t : GoString), j.Errors = [e] → e.Error format = some t →
      j.Error format = some t) ∧
    OhNoJoinError.Error exFormat ⟨[GoError.ohNo exInternalError, GoError.ohNo exFoo]⟩ =
      some (utf8 ("1970-01-01 00:05:00 [0x66]usage_with_ohno.Internal: " ++
        "Its not you, its me :(, something went wrong, some data\n" ++
        "1970-01-01 00:00:00 example_test.go:23 " ++
        "(github.com/A-0-5/ohno/examples/usage_with_ohno_test.Foo): " ++
        "[0x6a]usage_with_ohno.Fatal: Help!!! Im dying!!!, " ++
        "something really bad happened, \x7bBadStuff:some data here\x7d")) := by
  have hmain := OhNoJoinError_Error_eq format j texts h
  refine ⟨hmain, ?_, ?_, ?_, by decide⟩
  · intro t ts ht
    rw [hmain, ht, intercalate_cons_eq]
    rfl
  · intro hnil
    rw [hnil] at h
    cases texts with
    | nil => rw [hmain]; rfl
    | cons t ts => simp at h
  · intro e t he het
    rw [he] at h
    cases texts with
    | nil => simp at h
    | cons u us =>
      cases us with
      | nil =>
        simp only [List.map_cons, List.map_nil, List.cons.injEq, and_true] at h
        rw [het] at h
        rw [hmain, Option.some.inj h]
        simp [List.intercalate]
      | cons v vs => simp at h

theorem OhNoJoinError_Error_lines_witness :
    [GoError.plain (utf8 "a"), GoError.plain (utf8 "b")].map (GoError.Error exFormat) =
      [utf8 "a", utf8 "b"].map some ∧
    OhNoJoinError.Error exFormat ⟨[GoError.plain (utf8 "a"), GoError.plain (utf8 "b")]⟩ =
      some (utf8 "a\nb") :=
  ⟨by decide,
    (OhNoJoinError_Error_lines exFormat ⟨[GoError.plain (utf8 "a"), GoError.plain (utf8 "b")]⟩
      [utf8 "a", utf8 "b"] (by decide)).1.trans (by decide)⟩

/-- C24: `OhNoError.Is(target)` returns false whenever `ErrorCode` is nil and
otherwise exactly `errors.Is(ErrorCode, target)`.  An `OhNoError` whose
`ErrorCode` is the value `c` of a comparable type matches `c`, through its
method and so through `errors.Is(err, c)`; its method does not match a value
`d` that differs from `c` in type or in number, and `errors.Is(err, d)` is then
decided by the cause alone: false when there is none. -/
theorem OhNoError_Is_delegates (samePointer : GoError → GoError → Bool) (o : OhNoError)
    (target : GoError) :
    (o.ErrorCode = GoError.nil → o.Is samePointer target = false) ∧
    (o.ErrorCode ≠ GoError.nil →
      o.Is samePointer target = errors.Is samePointer o.ErrorCode target) ∧
    (∀ c : OhNoer, o.ErrorCode = GoError.ohnoer c → c.comparable = true →
      o.Is samePointer (GoError.ohnoer c) = true ∧
      errors.Is samePointer (GoError.ohNo o) (GoError.ohnoer c) = true) ∧
    (∀ c d : OhNoer, o.ErrorCode = GoError.ohnoer c →
      d.dynType ≠ c.dynType ∨ d.value ≠ c.value →
      o.Is samePointer (GoError.ohnoer d) = false ∧
      errors.Is samePointer (GoError.ohNo o) (GoError.ohnoer d) =
        errors.is samePointer (GoError.ohnoer d) o.Cause ∧
      (o.Cause = GoError.nil →
        errors.Is samePointer (GoError.ohNo o) (GoError.ohnoer d) = false)) ∧
    (errors.Is exDistinct (GoError.ohNo exFoo) (GoError.ohnoer exFatal) = true ∧
      errors.Is exDistinct (GoError.ohNo exFoo) (GoError.ohnoer exUnknown) = false ∧
      errors.Is exDistinct (GoError.ohNo exWrapped) (GoError.ohnoer exUnknown) = true ∧
      errors.Is exDistinct exWrapped.Unwrap (GoError.ohnoer exFatal) = true) := by
  refine ⟨?_, ?_, ?_, ?_, by decide⟩
  · intro h
    simp [OhNoError.Is, h, GoError.isNil]
  · intro h
    have hnil : o.ErrorCode.isNil = false := by
      cases hb : o.ErrorCode.isNil
      · rfl
      · exact absurd ((isNil_iff _).mp hb) h
    simp [OhNoError.Is, hnil]
  · intro c hc hcmp
    have hIs : o.Is samePointer (GoError.ohnoer c) = true := by
      simp [OhNoError.Is, hc, GoError.isNil, errors.Is, errors.IsOf, errors.is,
        GoError.comparable, GoError.equal, hcmp]
    refine ⟨hIs, ?_⟩
    simp [errors.Is, errors.IsOf, GoError.isNil, errors_is_ohNo, hIs]
  · intro c d hc hne
    have hIs : o.Is samePointer (GoError.ohnoer d) = false := by
      simp only [OhNoError.Is, hc, GoError.isNil, errors.Is, errors.IsOf, errors.is,
        GoError.comparable, GoError.equal]
      rcases hne with h | h
      · have : (c.dynType == d.dynType) = false := by
          simpa using fun e => h e.symm
        simp [this]
      · have : (c.value == d.value) = false := by
          simpa using fun e => h e.symm
        simp [this]
    have hrest : errors.Is samePointer (GoError.ohNo o) (GoError.ohnoer d) =
        errors.is samePointer (GoError.ohnoer d) o.Cause := by
      simp [errors.Is, errors.IsOf, GoError.isNil, errors_is_ohNo, hIs, GoError.equal,
        OhNoError.Unwrap]
    refine ⟨hIs, hrest, ?_⟩
    intro hcause
    rw [hrest, hcause]
    simp [errors.is]

theorem OhNoError_Is_delegates_witness :
    exFoo.ErrorCode = GoError.ohnoer exFatal ∧ exFatal.comparable = true ∧
    exFoo.Is exDistinct (GoError.ohnoer exFatal) = true ∧
    errors.Is exDistinct (GoError.ohNo exFoo) (GoError.ohnoer exFatal) = true :=
  ⟨rfl, rfl,
    (OhNoError_Is_delegates exDistinct exFoo GoError.nil).2.2.1 exFatal rfl rfl⟩

/-- C26: for every chain of `n >= 1` `OhNoError`s linked through `Cause` and
ending in a nil `Cause`, `drillDownAndStackUp` returns an `OhNoJoinError` with
exactly `n` errors, in the order from the outermost to the innermost, the k-th
being a copy of the k-th element of the chain with the same `ErrorCode`,
`Message`, `Extra`, `SourceInfo`, `Timestamp` and `TimestampLayout` and with a
nil `Cause`. -/
theorem drillDownAndStackUp_chain (o : OhNoError) (rest : List OhNoError) :
    ∃ errors : List GoError,
      OhNoError.drillDownAndStackUp { o with Cause := chained rest } =
        GoError.join ⟨errors⟩ ∧
      errors.length = (o :: rest).length ∧
      (∀ (k : Nat) (x : OhNoError), (o :: rest)[k]? = some x →
        ∃ y : OhNoError, errors[k]? = some (GoError.ohNo y) ∧
          y.ErrorCode = x.ErrorCode ∧ y.Message = x.Message ∧ y.Extra = x.Extra ∧
          y.SourceInfo = x.SourceInfo ∧ y.Timestamp = x.Timestamp ∧
          y.TimestampLayout = x.TimestampLayout ∧ y.Cause = GoError.nil) ∧
      (GoError.ohNo exBaz = chained [exBaz, exBar, exFoo] ∧
        exBaz.drillDownAndStackUp =
          GoError.join ⟨[GoError.ohNo { exBaz with Cause := GoError.nil },
            GoError.ohNo { exBar with Cause := GoError.nil }, GoError.ohNo exFoo]⟩) := by
  refine ⟨_, drillDownAndStackUp_chained o rest, by simp, ?_, rfl, rfl⟩
  intro k x hk
  refine ⟨{ x with Cause := GoError.nil }, ?_, rfl, rfl, rfl, rfl, rfl, rfl, rfl⟩
  rw [List.getElem?_map, hk]
  rfl

theorem drillDownAndStackUp_chain_witness :
    [exWrapped, exFoo][1]? = some exFoo ∧
    ∃ errors : List GoError,
      OhNoError.drillDownAndStackUp { exWrapped with Cause := chained [exFoo] } =
        GoError.join ⟨errors⟩ ∧ errors.length = 2 ∧
      ∃ y : OhNoError, errors[1]? = some (GoError.ohNo y) ∧ y.Message = exFoo.Message ∧
        y.Cause = GoError.nil := by
  obtain ⟨errors, h1, h2, h3, _⟩ := drillDownAndStackUp_chain exWrapped [exFoo]
  obtain ⟨y, hy, _, hm, _, _, _, _, hc⟩ := h3 1 exFoo rfl
  exact ⟨rfl, errors, h1, h2, y, hy, hm, hc⟩

/-- C27 as stated fails: an `OhNoError` made with the timestamp `time.Unix(0, 0)`
(not the zero time) and the layout ".999999999", which prints the fraction of
the second and prints nothing for a whole second, is marshalled to a record
without the key `timestamp`, because the tag `omitempty` drops the empty text;
with 500 milliseconds more the text is ".5" and the key is there. -/
theorem marshal_record_drops_empty_timestamp :
    (Time.Unix 0).IsZero = false ∧
    exFormatFraction (Time.Unix 0) (utf8 ".999999999") = [] ∧
    (OhNoError.marshalableError exFormatFraction
        { exFoo with TimestampLayout := utf8 ".999999999" }).map
        (fun r => (r.TimeStamp, r.keys)) =
      some ([], [utf8 "package", utf8 "code", utf8 "name", utf8 "description",
        utf8 "source_information"]) ∧
    (OhNoError.MarshalJSON exFormatFraction exJson
        { exFoo with TimestampLayout := utf8 ".999999999" }).map (fun e => e.toOption) =
      some (some (utf8 "package,code,name,description,source_information")) ∧
    (OhNoError.marshalableError exFormatFraction
        { exFoo with TimestampLayout := utf8 ".999999999",
                     Timestamp := ⟨62135596800, 500000000⟩ }).map
        (fun r => (r.TimeStamp, r.keys)) =
      some (utf8 ".5", [utf8 "package", utf8 "code", utf8 "name", utf8 "description",
        utf8 "timestamp", utf8 "source_information"]) := by
  refine ⟨by decide, by decide, by decide, by decide, by decide⟩

/-- C27, amended: `MarshalJSON` and `MarshalYAML` produce the plain `Error()`
string when `ErrorCode` does not implement `OhNoer`; otherwise they produce a
record whose package, code, name and description are what `Package()`,
`Code()`, `String()` and `Description()` of `ErrorCode` return, whose timestamp
is the formatted `Timestamp` and is present exactly when `Timestamp` is not the
zero time and its formatted text is not empty, whose source_information is
`SourceInfo`, present exactly when it is not nil, and whose caused_by is
`Cause`, absent when it is nil; the record has no other key and does not depend
on `Message` and `Extra`. -/
theorem marshal_record (format : Time → GoString → GoString)
    (jsonMarshal : Marshalled → Except GoString GoString) (o : OhNoError) :
    (o.ErrorCode.implementsOhNoer = false →
      o.MarshalYAML format = (o.Error format).map Marshalled.text ∧
      o.MarshalJSON format jsonMarshal =
        (o.Error format).map (fun s => jsonMarshal (Marshalled.text s))) ∧
    (∀ c : OhNoer, o.ErrorCode = GoError.ohnoer c →
      ∃ r : ohNoMarshalError, o.marshalableError format = some r ∧
        o.MarshalYAML format = some (Marshalled.record r) ∧
        o.MarshalJSON format jsonMarshal = some (jsonMarshal (Marshalled.record r)) ∧
        (r.Package = c.Package ∧ r.Code = c.Code ∧ r.Name = c.String ∧
          r.Description = c.Description) ∧
        r.TimeStamp =
          (if o.Timestamp.IsZero then []
            else format o.Timestamp
              (if o.TimestampLayout = [] then RFC3339Nano else o.TimestampLayout)) ∧
        r.SourceInfo = o.SourceInfo ∧ r.CausedBy = o.Cause ∧
        (utf8 "timestamp" ∈ r.keys ↔
          o.Timestamp.IsZero = false ∧
            format o.Timestamp
              (if o.TimestampLayout = [] then RFC3339Nano else o.TimestampLayout) ≠ []) ∧
        (utf8 "source_information" ∈ r.keys ↔ o.SourceInfo ≠ none) ∧
        (utf8 "caused_by" ∈ r.keys ↔ o.Cause ≠ GoError.nil) ∧
        (∀ k ∈ r.keys, k ∈ [utf8 "package", utf8 "code", utf8 "name", utf8 "description",
          utf8 "timestamp", utf8 "source_information", utf8 "caused_by"]) ∧
        (∀ (message : GoString) (extra : Option Any),
          OhNoError.marshalableError format { o with Message := message, Extra := extra } =
            some r)) ∧
    ((exFoo.marshalableError exFormat).map
        (fun r => (r.Package, r.Code, r.Name, r.Description, r.TimeStamp)) =
      some (utf8 "usage_with_ohno", utf8 "0x6a", utf8 "Fatal", utf8 "Help!!! Im dying!!!",
        utf8 "1970-01-01 00:00:00") ∧
     (exFoo.marshalableError exFormat).map (fun r => (r.SourceInfo, r.CausedBy.isNil, r.keys)) =
      some (some ⟨utf8 "example_test.go",
          utf8 "github.com/A-0-5/ohno/examples/usage_with_ohno_test.Foo", 23⟩,
        true,
        [utf8 "package", utf8 "code", utf8 "name", utf8 "description", utf8 "timestamp",
          utf8 "source_information"])) := by
  refine ⟨?_, ?_, by decide, by decide⟩
  · intro h
    simp [OhNoError.MarshalYAML, OhNoError.MarshalJSON, h]
  · intro c hc
    have hr := marshalableError_eq format o c hc
    have himpl : o.ErrorCode.implementsOhNoer = true := by rw [hc]; rfl
    refine ⟨_, hr, by simp [OhNoError.MarshalYAML, himpl, hr],
      by simp [OhNoError.MarshalJSON, himpl, hr], ⟨rfl, rfl, rfl, rfl⟩, rfl, rfl, rfl,
      ?_, ?_, ?_, ?_, ?_⟩
    · have h1 : utf8 "timestamp" ∉
          [utf8 "package", utf8 "code", utf8 "name", utf8 "description"] := by decide
      have h2 : utf8 "timestamp" ≠ utf8 "source_information" := by decide
      have h3 : utf8 "timestamp" ≠ utf8 "caused_by" := by decide
      cases hz : o.Timestamp.IsZero
      · simp only [ohNoMarshalError.keys, List.mem_append, hz]
        by_cases hfmt : format o.Timestamp
            (if o.TimestampLayout = [] then RFC3339Nano else o.TimestampLayout) = []
        · simp [h1, h2, h3, hfmt]
        · simp [h1, h2, h3, hfmt]
      · simp only [ohNoMarshalError.keys, List.mem_append, hz]
        simp [h1, h2, h3]
    · have h1 : utf8 "source_information" ∉
          [utf8 "package", utf8 "code", utf8 "name", utf8 "description"] := by decide
      have h2 : utf8 "source_information" ≠ utf8 "timestamp" := by decide
      have h3 : utf8 "source_information" ≠ utf8 "caused_by" := by decide
      simp only [ohNoMarshalError.keys, List.mem_append]
      cases o.SourceInfo <;> simp [h1, h2, h3]
    · have h1 : utf8 "caused_by" ∉
          [utf8 "package", utf8 "code", utf8 "name", utf8 "description"] := by decide
      have h2 : utf8 "caused_by" ≠ utf8 "timestamp" := by decide
      have h3 : utf8 "caused_by" ≠ utf8 "source_information" := by decide
      simp only [ohNoMarshalError.keys, List.mem_append]
      cases hn : o.Cause.isNil
      · have hne : o.Cause ≠ GoError.nil := fun e => by
          rw [e] at hn; exact absurd hn (by decide)
        simp [h1, h2, h3, hne]
      · have he : o.Cause = GoError.nil := (isNil_iff _).mp hn
        simp [h1, h2, h3, he]
    · intro k hk
      have hif : ∀ (p : Prop) [Decidable p] (x : GoString),
          k ∈ (if p then [x] else ([] : List GoString)) → k = x := by
        intro p _ x h
        split at h
        · exact List.mem_singleton.mp h
        · exact absurd h (List.not_mem_nil _)
      unfold ohNoMarshalError.keys at hk
      simp only [List.mem_cons]
      rcases List.mem_append.mp hk with hk | hk
      · rcases List.mem_append.mp hk with hk | hk
        · rcases List.mem_append.mp hk with hk | hk
          · simp only [List.mem_cons, List.not_mem_nil, or_false] at hk
            tauto
          · have := hif _ _ hk
            tauto
        · have := hif _ _ hk
          tauto
      · have := hif _ _ hk
        tauto
    · intro message extra
      rw [marshalableError_eq format { o with Message := message, Extra := extra } c hc]

theorem marshal_record_witness :
    exFoo.ErrorCode = GoError.ohnoer exFatal ∧
    ∃ r : ohNoMarshalError, exFoo.marshalableError exFormat = some r ∧
      exFoo.MarshalJSON exFormat exJson = some (exJson (Marshalled.record r)) ∧
      r.Name = utf8 "Fatal" ∧ r.TimeStamp = utf8 "1970-01-01 00:00:00" ∧
      utf8 "timestamp" ∈ r.keys := by
  obtain ⟨r, h1, _, h3, ⟨_, _, h4, _⟩, h5, _, _, h8, _⟩ :=
    (marshal_record exFormat exJson exFoo).2.1 exFatal rfl
  exact ⟨rfl, r, h1, h3, h4.trans (by decide), h5.trans (by decide),
    h8.mpr ⟨by decide, by decide⟩⟩

/-- C28: when `Timestamp` is not the zero time and `TimestampLayout` is the empty
string, `Error()` and the marshalled record render the timestamp in the layout
`time.RFC3339Nano`; when `TimestampLayout` is not empty they render it in that
layout; when `Timestamp` is the zero time no timestamp text is produced,
whatever the layout: `Error()` begins with the source information or the error
code, and the record has an empty timestamp and no timestamp key.  The record
is the one that `marshalableError` builds for an `ErrorCode` that implements
`OhNoer`, and `Error()` returns its text for such an `ErrorCode` and no
cause. -/
theorem timestamp_layout (format : Time → GoString → GoString) (o : OhNoError) :
    (o.Timestamp.IsZero = false → o.TimestampLayout = [] →
      o.Error format =
        (OhNoError.Error format { o with Timestamp := ⟨0, 0⟩ }).map (fun rest =>
          format o.Timestamp RFC3339Nano ++ utf8 " " ++ rest) ∧
      (∀ c : OhNoer, o.ErrorCode = GoError.ohnoer c →
        (o.marshalableError format).map (fun r => r.TimeStamp) =
          some (format o.Timestamp RFC3339Nano) ∧
        (o.Cause = GoError.nil →
          ∃ rest, o.Error format = some (format o.Timestamp RFC3339Nano ++ utf8 " " ++ rest)))) ∧
    (o.Timestamp.IsZero = false → o.TimestampLayout ≠ [] →
      o.Error format =
        (OhNoError.Error format { o with Timestamp := ⟨0, 0⟩ }).map (fun rest =>
          format o.Timestamp o.TimestampLayout ++ utf8 " " ++ rest) ∧
      (∀ c : OhNoer, o.ErrorCode = GoError.ohnoer c →
        (o.marshalableError format).map (fun r => r.TimeStamp) =
          some (format o.Timestamp o.TimestampLayout) ∧
        (o.Cause = GoError.nil →
          ∃ rest, o.Error format =
            some (format o.Timestamp o.TimestampLayout ++ utf8 " " ++ rest)))) ∧
    (o.Timestamp.IsZero = true →
      o.Error format =
        (o.ErrorCode.Error format).bind (fun code =>
          (if o.Cause.isNil then some []
            else (o.Cause.Error format).map (fun text => utf8 "\n-> " ++ text)).map
            (fun tail =>
              (match o.SourceInfo with
                | some s => s.String ++ utf8 " "
                | none => []) ++
              code ++
              (if o.Message = [] then [] else utf8 ", " ++ o.Message) ++
              (match o.Extra with
                | some x => utf8 ", " ++ x.plusV
                | none => []) ++
              tail)) ∧
      (∀ layout : GoString,
        OhNoError.Error format { o with TimestampLayout := layout } = o.Error format) ∧
      (∀ c : OhNoer, o.ErrorCode = GoError.ohnoer c →
        (o.marshalableError format).map (fun r => (r.TimeStamp, decide (utf8 "timestamp" ∈ r.keys))) =
          some ([], false))) ∧
    (OhNoError.Error exFormat { exInternalError with TimestampLayout := [] } =
        some (utf8 ("1970-01-01T00:05:00Z [0x66]usage_with_ohno.Internal: " ++
          "Its not you, its me :(, something went wrong, some data")) ∧
      exInternalError.Error exFormat =
        some (utf8 ("1970-01-01 00:05:00 [0x66]usage_with_ohno.Internal: " ++
          "Its not you, its me :(, something went wrong, some data")) ∧
      OhNoError.Error exFormat { exInternalError with Timestamp := ⟨0, 0⟩ } =
        some (utf8 ("[0x66]usage_with_ohno.Internal: " ++
          "Its not you, its me :(, something went wrong, some data")) ∧
      (OhNoError.marshalableError exFormat { exInternalError with TimestampLayout := [] }).map
          (fun r => r.TimeStamp) = some (utf8 "1970-01-01T00:05:00Z") ∧
      (exInternalError.marshalableError exFormat).map (fun r => r.TimeStamp) =
        some (utf8 "1970-01-01 00:05:00") ∧
      (OhNoError.marshalableError exFormat { exInternalError with Timestamp := ⟨0, 0⟩ }).map
          (fun r => (r.TimeStamp, r.keys)) =
        some ([], [utf8 "package", utf8 "code", utf8 "name", utf8 "description"])) := by
  have hsome : ∀ (o2 : OhNoError) (c : OhNoer), o2.ErrorCode = GoError.ohnoer c →
      o2.Cause = GoError.nil → ∃ t, OhNoError.Error format o2 = some t := by
    intro o2 c hc hn
    rw [OhNoError_Error_parts, hc, hn]
    exact ⟨_, rfl⟩
  have hrec : ∀ c : OhNoer, o.ErrorCode = GoError.ohnoer c →
      (o.marshalableError format).map (fun r => r.TimeStamp) =
        some (if o.Timestamp.IsZero then []
          else format o.Timestamp
            (if o.TimestampLayout = [] then RFC3339Nano else o.TimestampLayout)) := by
    intro c hc
    rw [marshalableError_eq format o c hc]
    rfl
  refine ⟨?_, ?_, ?_, by decide, by decide, by decide, by decide, by decide, by decide⟩
  · intro hz hl
    have h1 := Error_timestamp_front format o hz
    simp only [hl, if_true] at h1
    refine ⟨h1, ?_⟩
    intro c hc
    refine ⟨?_, ?_⟩
    · rw [hrec c hc]
      simp [hz, hl]
    · intro hn
      obtain ⟨t, ht⟩ := hsome { o with Timestamp := ⟨0, 0⟩ } c hc hn
      refine ⟨t, ?_⟩
      rw [Error_timestamp_front format o hz, ht]
      simp [hl]
  · intro hz hl
    have h1 := Error_timestamp_front format o hz
    simp only [hl, if_false] at h1
    refine ⟨h1, ?_⟩
    intro c hc
    refine ⟨?_, ?_⟩
    · rw [hrec c hc]
      simp [hz, hl]
    · intro hn
      obtain ⟨t, ht⟩ := hsome { o with Timestamp := ⟨0, 0⟩ } c hc hn
      refine ⟨t, ?_⟩
      rw [Error_timestamp_front format o hz, ht]
      simp [hl]
  · intro hz
    have hparts : ∀ layout : GoString,
        OhNoError.Error format { o with TimestampLayout := layout } =
          (o.ErrorCode.Error format).bind (fun code =>
            (if o.Cause.isNil then some []
              else (o.Cause.Error format).map (fun text => utf8 "\n-> " ++ text)).map
              (fun tail =>
                (match o.SourceInfo with
                  | some s => s.String ++ utf8 " "
                  | none => []) ++
                code ++
                (if o.Message = [] then [] else utf8 ", " ++ o.Message) ++
                (match o.Extra with
                  | some x => utf8 ", " ++ x.plusV
                  | none => []) ++
                tail)) := by
      intro layout
      rw [OhNoError_Error_parts]
      simp only [hz, if_true, List.nil_append]
      try rfl
    have hself := hparts o.TimestampLayout
    refine ⟨hself, fun layout => (hparts layout).trans hself.symm, ?_⟩
    intro c hc
    rw [marshalableError_eq format o c hc]
    have h1 : utf8 "timestamp" ∉
        [utf8 "package", utf8 "code", utf8 "name", utf8 "description"] := by decide
    have h2 : utf8 "timestamp" ≠ utf8 "source_information" := by decide
    have h3 : utf8 "timestamp" ≠ utf8 "caused_by" := by decide
    simp only [Option.map_some', hz, if_true, Option.some.injEq, Prod.mk.injEq, true_and,
      decide_eq_false_iff_not, ohNoMarshalError.keys, List.mem_append]
    simp [h1, h2, h3]

theorem timestamp_layout_witness :
    (Time.Unix 300).IsZero = false ∧
    ({ exInternalError with TimestampLayout := [] } : OhNoError).TimestampLayout = [] ∧
    ({ exInternalError with TimestampLayout := [] } : OhNoError).ErrorCode =
      GoError.ohnoer exInternal ∧
    OhNoError.Error exFormat { exInternalError with TimestampLayout := [] } =
      (OhNoError.Error exFormat
        { exInternalError with TimestampLayout := [], Timestamp := ⟨0, 0⟩ }).map
        (fun rest => exFormat (Time.Unix 300) RFC3339Nano ++ utf8 " " ++ rest) ∧
    (OhNoError.marshalableError exFormat { exInternalError with TimestampLayout := [] }).map
        (fun r => r.TimeStamp) = some (exFormat (Time.Unix 300) RFC3339Nano) :=
  ⟨by decide, rfl, rfl,
    ((timestamp_layout exFormat { exInternalError with TimestampLayout := [] }).1
      (by decide) rfl).1,
    (((timestamp_layout exFormat { exInternalError with TimestampLayout := [] }).1
      (by decide) rfl).2 exInternal rfl).1⟩

/-- C31: for each of the two tables of a run, the last offset of the index
array is the byte length of the concatenated text and the declared width is
`usize` of that length; when the text is shorter than 2^32 bytes every offset
of the array, the last one included, is less than 2 to the power of the
declared width, and no smaller width among 8, 16 and 32 has that property. -/
theorem index_width_covers (run : List Value) :
    (∀ t ∈ [createIndexAndNameDecl run, createIndexAndNameDescDecl run],
      t.index.getLast? = some t.name.length ∧
      t.bits = usize t.name.length ∧
      (t.name.length < 2 ^ 32 → ∀ x ∈ t.index, x < 2 ^ t.bits) ∧
      (∀ w ∈ [8, 16, 32], w < t.bits → ¬ ∀ x ∈ t.index, x < 2 ^ w)) ∧
    (createIndexAndNameDecl run).name = (run.map (fun v => v.name)).flatten ∧
    (createIndexAndNameDescDecl run).name = (run.map (fun v => v.description)).flatten ∧
    ((createIndexAndNameDecl
        [⟨[], List.replicate 200 65, 0, false, [], []⟩,
          ⟨[], List.replicate 100 66, 1, false, [], []⟩]).index = [0, 200, 300] ∧
      (createIndexAndNameDecl
        [⟨[], List.replicate 200 65, 0, false, [], []⟩,
          ⟨[], List.replicate 100 66, 1, false, [], []⟩]).bits = 16) := by
  have hall : ∀ (text : Value → GoString),
      (tableOf text run).index.getLast? = some (tableOf text run).name.length ∧
      (tableOf text run).bits = usize (tableOf text run).name.length ∧
      ((tableOf text run).name.length < 2 ^ 32 →
        ∀ x ∈ (tableOf text run).index, x < 2 ^ (tableOf text run).bits) ∧
      (∀ w ∈ [8, 16, 32], w < (tableOf text run).bits →
        ¬ ∀ x ∈ (tableOf text run).index, x < 2 ^ w) := by
    intro text
    obtain ⟨hle, hlast, hbits, _⟩ := tableOf_offsets text run
    refine ⟨hlast, hbits, ?_, ?_⟩
    · intro hn x hx
      rw [hbits]
      exact Nat.lt_of_le_of_lt (hle x hx) (usize_covers _ hn)
    · intro w hw hlt hall
      rw [hbits] at hlt
      exact usize_minimal _ w hw hlt (hall _ (List.mem_of_getLast?_eq_some hlast))
  refine ⟨?_, (tableOf_offsets (fun v => v.name) run).2.2.2,
    (tableOf_offsets (fun v => v.description) run).2.2.2, ?_, ?_⟩
  · intro t ht
    simp only [List.mem_cons, List.mem_singleton, List.not_mem_nil, or_false] at ht
    rcases ht with rfl | rfl
    · exact hall (fun v => v.name)
    · exact hall (fun v => v.description)
  · simp only [createIndexAndNameDecl, writeAll, List.nil_append, List.length_append,
      List.length_replicate]
  · have := (tableOf_offsets (fun v => v.name)
      [⟨[], List.replicate 200 65, 0, false, [], []⟩,
        ⟨[], List.replicate 100 66, 1, false, [], []⟩]).2.2
    rw [← createIndexAndNameDecl_eq] at this
    rw [this.1, this.2]
    simp only [List.map_cons, List.map_nil, List.flatten_cons, List.flatten_nil,
      List.append_nil, List.length_append, List.length_replicate]
    decide

theorem index_width_covers_witness :
    (createIndexAndNameDecl [mkU "AB" 0 "a", mkU "C" 1 "b"]).name.length < 2 ^ 32 ∧
    (createIndexAndNameDecl [mkU "AB" 0 "a", mkU "C" 1 "b"]).index = [0, 2, 3] ∧
    ∀ x ∈ (createIndexAndNameDecl [mkU "AB" 0 "a", mkU "C" 1 "b"]).index,
      x < 2 ^ (createIndexAndNameDecl [mkU "AB" 0 "a", mkU "C" 1 "b"]).bits :=
  ⟨by decide, by decide,
    ((index_width_covers [mkU "AB" 0 "a", mkU "C" 1 "b"]).1 _
      (List.mem_cons_self _ _)).2.2.1 (by decide)⟩

/-- C32: the fallback text always shows the value as a signed decimal number:
`T(` + the base-10 rendering of `int64(v)` + `)`.  For an unsigned 64-bit type and
a value `v >= 2^63` that no declaration has, the three shapes return
`T(` + the rendering of `v - 2^64` + `)` (the map shape where its declarations
are accepted); the unsigned value 2^64 - 1 gives "T(-1)". -/
theorem fallback_unsigned_wraps (typeName : GoString) (vs : List Value) (v : Nat)
    (hne : vs ≠ []) (h : OneType false vs) (hv63 : 2 ^ 63 ≤ v) (hv : v < 2 ^ 64)
    (hnot : ∀ d ∈ vs, d.value ≠ v) :
    (∀ (t : GoString) (x : Nat),
      fallback t x = t ++ utf8 "(" ++ FormatInt (int64 x) ++ utf8 ")") ∧
    int64 v = (v : Int) - 2 ^ 64 ∧
    (∃ p, buildOneRun (splitIntoRuns vs) typeName = some p ∧
      p.String 64 false v =
        some (typeName ++ utf8 "(" ++ FormatInt ((v : Int) - 2 ^ 64) ++ utf8 ")") ∧
      p.Description 64 false v =
        some (typeName ++ utf8 "(" ++ FormatInt ((v : Int) - 2 ^ 64) ++ utf8 ")")) ∧
    (∃ p, buildMultipleRuns (splitIntoRuns vs) typeName = some p ∧
      p.String 64 false v =
        some (typeName ++ utf8 "(" ++ FormatInt ((v : Int) - 2 ^ 64) ++ utf8 ")") ∧
      p.Description 64 false v =
        some (typeName ++ utf8 "(" ++ FormatInt ((v : Int) - 2 ^ 64) ++ utf8 ")")) ∧
    ((mapLiteral (buildMap (splitIntoRuns vs) typeName).nameText
        (buildMap (splitIntoRuns vs) typeName).nameEntries).isSome →
      (mapLiteral (buildMap (splitIntoRuns vs) typeName).descText
        (buildMap (splitIntoRuns vs) typeName).descEntries).isSome →
      (buildMap (splitIntoRuns vs) typeName).String v =
        some (typeName ++ utf8 "(" ++ FormatInt ((v : Int) - 2 ^ 64) ++ utf8 ")") ∧
      (buildMap (splitIntoRuns vs) typeName).Description v =
        some (typeName ++ utf8 "(" ++ FormatInt ((v : Int) - 2 ^ 64) ++ utf8 ")")) ∧
    ((generate (utf8 "T") exXYZ).map
        (fun g => (g.lookup.shape, g.lookup.String 64 false (2 ^ 64 - 1))) =
      some (Shape.singleRun, some (utf8 "T(-1)")) ∧
     (generate (utf8 "T") exTwoRuns).map
        (fun g => (g.lookup.shape, g.lookup.String 64 false (2 ^ 64 - 1))) =
      some (Shape.multipleRuns, some (utf8 "T(-1)")) ∧
     (generate (utf8 "T") (exSparse "zero")).map
        (fun g => (g.lookup.shape, g.lookup.Description 64 false (2 ^ 64 - 1))) =
      some (Shape.sparseMap, some (utf8 "T(-1)"))) := by
  have hint : int64 v = (v : Int) - 2 ^ 64 := by
    unfold int64
    rw [if_neg (by omega)]
  have hfb : fallback typeName v =
      typeName ++ utf8 "(" ++ FormatInt ((v : Int) - 2 ^ 64) ++ utf8 ")" := by
    rw [← hint]; rfl
  have hin : OfType 64 false vs := (OfType_64 false vs).mpr h
  have hvT : InT 64 false v := (InT_64 false v).mpr hv
  obtain ⟨⟨p1, hp1, h1⟩, h2, h3⟩ :=
    undeclared_fallback (by decide : 0 < 64 ∧ 64 ≤ 64) false typeName vs v hne hin hvT hnot
  have h1b := h1 (fun hs => absurd hs (by decide))
  rw [hfb] at h1b h2 h3
  exact ⟨fun _ _ => rfl, hint, ⟨p1, hp1, h1b⟩, h2, h3, by decide, by decide, by decide⟩

theorem fallback_unsigned_wraps_witness :
    exXYZ ≠ [] ∧ OneType false exXYZ ∧ 2 ^ 63 ≤ 2 ^ 64 - 1 ∧ 2 ^ 64 - 1 < 2 ^ 64 ∧
    (∀ d ∈ exXYZ, d.value ≠ 2 ^ 64 - 1) ∧
    ∃ p, buildOneRun (splitIntoRuns exXYZ) (utf8 "T") = some p ∧
      p.String 64 false (2 ^ 64 - 1) = some (utf8 "T(-1)") := by
  obtain ⟨p, hp, hs, _⟩ := (fallback_unsigned_wraps (utf8 "T") exXYZ (2 ^ 64 - 1)
    (by decide) (by decide) (by decide) (by decide) (by decide)).2.2.1
  exact ⟨by decide, by decide, by decide, by decide, by decide, p, hp, hs.trans (by decide)⟩

/-- C36: for a signed type, a negative value and any base, `Code()` is the
prefix of the base, then the minus sign, then the magnitude in that base, and
not the two's-complement bit pattern: -106 with formatbase 16 gives "0x-6a",
and -1 with formatbase 2 gives "0b-1". -/
theorem Code_negative (m : Methods) (i : Nat) (hs : m.signed = true) (hneg : 2 ^ 63 ≤ i)
    (hi : i < 2 ^ 64) :
    int64 i = -((2 ^ 64 - i : Nat) : Int) ∧
    m.Code i = m.codeBasePrefix ++ utf8 "-" ++ FormatUint (2 ^ 64 - i) m.codeBase.toNat ∧
    (int64 (2 ^ 64 - 106) = -106 ∧
      (exFabulousGenerator.generate (utf8 "MyFabulousError")).toOption.map
          (fun m2 => (m2.signed, m2.codeBasePrefix, m2.Code (2 ^ 64 - 106))) =
        some (true, utf8 "0x", utf8 "0x-6a") ∧
      ((exMyErrorGenerator 2 "0b").generate (utf8 "MyError")).toOption.map
          (fun m2 => (m2.signed, m2.codeBasePrefix, m2.Code (2 ^ 64 - 1))) =
        some (true, utf8 "0b", utf8 "0b-1") ∧
      codeBasePrefixString 2 = some (utf8 "0b") ∧
      utf8 "0x" ++ FormatUint (2 ^ 64 - 106) 16 = utf8 "0xffffffffffffff96") := by
  have hint : int64 i = -((2 ^ 64 - i : Nat) : Int) := by
    unfold int64
    rw [if_neg (by omega)]
    omega
  refine ⟨hint, ?_, by decide, by decide, by decide, by decide, by decide⟩
  have hlt : int64 i < 0 := by rw [hint]; omega
  have habs : (int64 i).natAbs = 2 ^ 64 - i := by rw [hint]; simp
  simp only [Methods.Code, hs, if_true, FormatIntBase, hlt, habs, List.append_assoc]

theorem Code_negative_witness :
    (⟨utf8 "T", ⟨[], Lookup.map ⟨utf8 "T", [], [], [], []⟩⟩, utf8 "p", true, 16, utf8 "0x",
        false⟩ : Methods).signed = true ∧
    2 ^ 63 ≤ 2 ^ 64 - 106 ∧ 2 ^ 64 - 106 < 2 ^ 64 ∧
    Methods.Code ⟨utf8 "T", ⟨[], Lookup.map ⟨utf8 "T", [], [], [], []⟩⟩, utf8 "p", true, 16,
        utf8 "0x", false⟩ (2 ^ 64 - 106) = utf8 "0x-6a" :=
  ⟨rfl, by decide, by decide,
    ((Code_negative ⟨utf8 "T", ⟨[], Lookup.map ⟨utf8 "T", [], [], [], []⟩⟩, utf8 "p", true, 16,
      utf8 "0x", false⟩ (2 ^ 64 - 106) rfl (by decide) (by decide)).2.1).trans (by decide)⟩

/-- C34: for a captured caller frame with the file path `f`, the line `l` and
the function name `fn`, `GetSourceInformation` returns `File = f` for
`FullFileAndLine` and `FullFileAndLineWithFunc` and `File = path.Base(f)`, the
last element of the path, for `ShortFileAndLine` and
`ShortFileAndLineWithFunc`; `Function = fn` for the two types with the function
and the empty string for the other two; `Line = l` for all four; a call depth
of 0 is treated as `DefaultCallDepth`, which is 1. -/
theorem GetSourceInformation_fields (stack : Stack) (callDepth : Int) (t : SourceInfoType)
    (hn : 1 ≤ stack.callers ((if callDepth = 0 then DefaultCallDepth else callDepth) + 1))
    (hpc : (stack.frame ((if callDepth = 0 then DefaultCallDepth else callDepth) + 1)).PC ≠ 0)
    (ht : t = FullFileAndLine ∨ t = FullFileAndLineWithFunc ∨ t = ShortFileAndLine ∨
      t = ShortFileAndLineWithFunc) :
    (∃ si : SourceInformation, (GetSourceInformation stack callDepth t).2 = some si ∧
      si.Line =
        (stack.frame ((if callDepth = 0 then DefaultCallDepth else callDepth) + 1)).Line ∧
      (t = FullFileAndLine ∨ t = FullFileAndLineWithFunc →
        si.File =
          (stack.frame ((if callDepth = 0 then DefaultCallDepth else callDepth) + 1)).File) ∧
      (t = ShortFileAndLine ∨ t = ShortFileAndLineWithFunc →
        si.File = path.Base
          (stack.frame ((if callDepth = 0 then DefaultCallDepth else callDepth) + 1)).File) ∧
      (t = FullFileAndLineWithFunc ∨ t = ShortFileAndLineWithFunc →
        si.Function =
          (stack.frame ((if callDepth = 0 then DefaultCallDepth else callDepth) + 1)).Function) ∧
      (t = FullFileAndLine ∨ t = ShortFileAndLine → si.Function = [])) ∧
    (∀ (st : Stack) (u : SourceInfoType),
      GetSourceInformation st 0 u = GetSourceInformation st DefaultCallDepth u) ∧
    DefaultCallDepth = 1 ∧
    (∀ dir name : GoString, name ≠ [] → (∀ b ∈ name, b ≠ 47) →
      path.Base (dir ++ utf8 "/" ++ name) = name ∧ path.Base name = name) ∧
    (GetSourceInformation exStack (DefaultCallDepth + 1) ShortFileAndLineWithFunc).2 =
      some ⟨utf8 "example_test.go",
        utf8 "github.com/A-0-5/ohno/examples/usage_with_ohno_test.Foo", 23⟩ := by
  have hn0 : ¬ stack.callers ((if callDepth = 0 then DefaultCallDepth else callDepth) + 1) < 1 :=
    by omega
  have h10 : FullFileAndLine ≠ NoSourceInfo := by decide
  have h20 : FullFileAndLineWithFunc ≠ NoSourceInfo := by decide
  have h30 : ShortFileAndLine ≠ NoSourceInfo := by decide
  have h40 : ShortFileAndLineWithFunc ≠ NoSourceInfo := by decide
  have h13 : FullFileAndLine ≠ ShortFileAndLine := by decide
  have h14 : FullFileAndLine ≠ ShortFileAndLineWithFunc := by decide
  have h12 : FullFileAndLine ≠ FullFileAndLineWithFunc := by decide
  have h23 : FullFileAndLineWithFunc ≠ ShortFileAndLine := by decide
  have h24 : FullFileAndLineWithFunc ≠ ShortFileAndLineWithFunc := by decide
  have h34 : ShortFileAndLine ≠ ShortFileAndLineWithFunc := by decide
  refine ⟨?_, ?_, rfl, ?_, by decide⟩
  · rcases ht with rfl | rfl | rfl | rfl
    · refine ⟨⟨(stack.frame ((if callDepth = 0 then DefaultCallDepth else callDepth) + 1)).File, [], (stack.frame ((if callDepth = 0 then DefaultCallDepth else callDepth) + 1)).Line⟩, ?_, ?_⟩
      · simp [GetSourceInformation, h10, hn0, hpc, h13, h14, h12]
      · simp [h13, h14, h12]
    · refine ⟨⟨(stack.frame ((if callDepth = 0 then DefaultCallDepth else callDepth) + 1)).File, (stack.frame ((if callDepth = 0 then DefaultCallDepth else callDepth) + 1)).Function, (stack.frame ((if callDepth = 0 then DefaultCallDepth else callDepth) + 1)).Line⟩, ?_, ?_⟩
      · simp [GetSourceInformation, h20, hn0, hpc, h23, h24, h12.symm]
      · simp [h23, h24, h12.symm]
    · refine ⟨⟨path.Base (stack.frame ((if callDepth = 0 then DefaultCallDepth else callDepth) + 1)).File, [], (stack.frame ((if callDepth = 0 then DefaultCallDepth else callDepth) + 1)).Line⟩, ?_, ?_⟩
      · simp [GetSourceInformation, h30, hn0, hpc, h13.symm, h23.symm, h34]
      · simp [h13.symm, h23.symm, h34]
    · refine ⟨⟨path.Base (stack.frame ((if callDepth = 0 then DefaultCallDepth else callDepth) + 1)).File, (stack.frame ((if callDepth = 0 then DefaultCallDepth else callDepth) + 1)).Function, (stack.frame ((if callDepth = 0 then DefaultCallDepth else callDepth) + 1)).Line⟩, ?_, ?_⟩
      · simp [GetSourceInformation, h40, hn0, hpc, h14.symm, h24.symm, h34.symm]
      · simp [h14.symm, h24.symm, h34.symm]
  · intro st u
    simp [GetSourceInformation, DefaultCallDepth]
  · intro dir name hne hns
    have h := path_Base_last dir name hne hns
    have hs : utf8 "/" = [47] := by decide
    rw [hs]
    simpa using h

theorem GetSourceInformation_fields_witness :
    1 ≤ exStack.callers ((if (2 : Int) = 0 then DefaultCallDepth else 2) + 1) ∧
    (exStack.frame ((if (2 : Int) = 0 then DefaultCallDepth else 2) + 1)).PC ≠ 0 ∧
    ∃ si : SourceInformation,
      (GetSourceInformation exStack 2 ShortFileAndLine).2 = some si ∧ si.Line = 23 ∧
      si.File = utf8 "example_test.go" := by
  obtain ⟨si, h1, h2, _, h4, _⟩ := (GetSourceInformation_fields exStack 2 ShortFileAndLine
    (by decide) (by decide) (Or.inr (Or.inr (Or.inl rfl)))).1
  exact ⟨by decide, by decide, si, h1, h2.trans (by decide),
    (h4 (Or.inl rfl)).trans (by decide)⟩

/-- C37: for the runs that `splitIntoRuns` returns, every value of an earlier run
is below every value of a later run, and the values of a run lie between its
first and its last value: the ranges [first value, last value] of two runs are
disjoint and ascend with the runs.  So in the multiple-runs shape at most one
case condition holds for any value, and the switch returns the same for any
order of its cases. -/
theorem runs_disjoint_ascending (w : Nat) (s : Bool) (typeName : GoString)
    (vs : List Value) (h : OneType s vs) :
    List.Pairwise (fun r1 r2 => ∀ a ∈ r1, ∀ b ∈ r2, key s a.value < key s b.value)
      (splitIntoRuns vs) ∧
    List.Pairwise (fun r1 r2 => ∀ a b, r1.getLast? = some a → r2.head? = some b →
      key s a.value < key s b.value) (splitIntoRuns vs) ∧
    (∀ r ∈ splitIntoRuns vs, ∀ a b, r.head? = some a → r.getLast? = some b →
      ∀ d ∈ r, key s a.value ≤ key s d.value ∧ key s d.value ≤ key s b.value) ∧
    (∀ p, buildMultipleRuns (splitIntoRuns vs) typeName = some p → ∀ i, i < 2 ^ 64 →
      p.nameCases.Pairwise (fun c1 c2 => ¬ (c1.holds s i = true ∧ c2.holds s i = true)) ∧
      p.descCases.Pairwise (fun c1 c2 => ¬ (c1.holds s i = true ∧ c2.holds s i = true)) ∧
      (∀ cs : List Case, cs.Perm p.nameCases →
        switchCases w s typeName cs i = p.String w s i) ∧
      (∀ cs : List Case, cs.Perm p.descCases →
        switchCases w s typeName cs i = p.Description w s i)) ∧
    (splitIntoRuns exSix =
        [[mkU "A" 1 "", mkU "B" 2 "", mkU "C" 3 ""], [mkU "E" 5 "", mkU "F" 6 "", mkU "G" 7 ""]] ∧
      (buildMultipleRuns (splitIntoRuns exSix) (utf8 "T")).map
          (fun p => (p.String 64 false 6,
            switchCases 64 false (utf8 "T") p.nameCases.reverse 6)) =
        some (some (utf8 "F"), some (utf8 "F"))) := by
  obtain ⟨hasc, hsep⟩ := runs_separated vs h
  have hb : ∀ r ∈ splitIntoRuns vs, ∀ d ∈ r, d.value < 2 ^ 64 ∧ d.signed = s := by
    intro r hr d hd
    have hmem := (run_facts vs h r hr).2.2 d hd
    exact ⟨(h d hmem).2, (h d hmem).1⟩
  refine ⟨hsep, ?_, ?_, ?_, by decide, by decide⟩
  · refine hsep.imp ?_
    intro r1 r2 hlt a b ha hb2
    exact hlt a (List.mem_of_getLast?_eq_some ha) b (List.mem_of_mem_head? hb2)
  · intro r hr a b ha hb2
    exact ascending_bounds r (hasc r hr) a b ha hb2
  · intro p hp i hi
    unfold buildMultipleRuns at hp
    cases hns : mapOpt (runCase createIndexAndNameDecl) (splitIntoRuns vs) with
    | none => simp [hns] at hp
    | some ns =>
      cases hds : mapOpt (runCase createIndexAndNameDescDecl) (splitIntoRuns vs) with
      | none => simp [hns, hds] at hp
      | some ds =>
        simp only [hns, hds, Option.some.injEq] at hp
        subst hp
        have hn := cases_exclusive createIndexAndNameDecl _ ns i hns hsep hb hi
        have hd := cases_exclusive createIndexAndNameDescDecl _ ds i hds hsep hb hi
        exact ⟨hn, hd, fun cs hperm => switchCases_perm w s typeName i ns cs hn hperm,
          fun cs hperm => switchCases_perm w s typeName i ds cs hd hperm⟩

theorem runs_disjoint_ascending_witness :
    OneType false exSix ∧ 6 < 2 ^ 64 ∧
    ∃ p, buildMultipleRuns (splitIntoRuns exSix) (utf8 "T") = some p ∧
      p.nameCases.reverse.Perm p.nameCases ∧
      switchCases 8 false (utf8 "T") p.nameCases.reverse 6 = p.String 8 false 6 := by
  obtain ⟨p, hp⟩ : ∃ p, buildMultipleRuns (splitIntoRuns exSix) (utf8 "T") = some p :=
    Option.isSome_iff_exists.mp (by decide)
  exact ⟨by decide, by decide, p, hp, List.reverse_perm _,
    ((runs_disjoint_ascending 8 false (utf8 "T") exSix (by decide)).2.2.2.1 p hp 6
      (by decide)).2.2.1 _ (List.reverse_perm _)⟩

/-- C38: for every non-empty input list `splitIntoRuns` comes to an end: any
number of passes of the outer loop from the number of values on gives the same
runs, and so does any bound of the inner loop from the length of the slice on.
It returns at least one run, every run has at least one element, and the runs
together have as many elements as the input has distinct values.  So `runs[0]`,
`values[0]` and `values[len(values)-1]` are in bounds, and `buildOneRun`,
`buildMultipleRuns` and `generate` return. -/
theorem splitIntoRuns_total (s : Bool) (typeName : GoString) (vs : List Value)
    (hne : vs ≠ []) (h : OneType s vs) :
    ((∀ n, (sortAndDedup vs).length ≤ n →
        runsLoop n (sortAndDedup vs) [] = splitIntoRuns vs) ∧
      (∀ (values : List Value) (m : Nat), values.length ≤ m →
        runEnd values m 1 = runEnd values values.length 1)) ∧
    (1 ≤ (splitIntoRuns vs).length ∧ (∀ r ∈ splitIntoRuns vs, 1 ≤ r.length)) ∧
    (((splitIntoRuns vs).map List.length).sum = (vs.map (fun d => d.value)).dedup.length ∧
      (splitIntoRuns vs).flatten.length = (vs.map (fun d => d.value)).dedup.length) ∧
    ((∃ r, (splitIntoRuns vs)[0]? = some r) ∧
      (∀ r ∈ splitIntoRuns vs, (∃ d, r[0]? = some d) ∧ (∃ d, r[r.length - 1]? = some d))) ∧
    (((splitIntoRuns vs).length = 1 →
        ∃ p, buildOneRun (splitIntoRuns vs) typeName = some p) ∧
      (∃ p, buildMultipleRuns (splitIntoRuns vs) typeName = some p) ∧
      (∃ g, generate typeName vs = some g)) ∧
    ((splitIntoRuns exSix).map List.length = [3, 3] ∧
      (exAlias.map (fun d => d.value)).dedup.length = 3 ∧
      (splitIntoRuns exAlias).map List.length = [3]) := by
  have hrun : ∀ r ∈ splitIntoRuns vs, r ≠ [] := fun r hr => ((splitIntoRuns_spec vs).2.1 r hr).1
  have hflat := (splitIntoRuns_spec vs).1
  have hpos : 1 ≤ (splitIntoRuns vs).length := by
    cases hsplit : splitIntoRuns vs with
    | nil =>
      rw [hsplit] at hflat
      exact absurd hflat.symm (sortAndDedup_ne_nil vs hne)
    | cons r rest => simp
  have hlen : ∀ r ∈ splitIntoRuns vs, 1 ≤ r.length := by
    intro r hr
    cases hr2 : r with
    | nil => exact absurd hr2 (hrun r hr)
    | cons d r => simp
  have hcount : (splitIntoRuns vs).flatten.length = (vs.map (fun d => d.value)).dedup.length := by
    rw [hflat]
    exact sortAndDedup_count vs h
  refine ⟨⟨?_, runEnd_fuel⟩, ⟨hpos, hlen⟩, ⟨?_, hcount⟩, ⟨?_, ?_⟩, ⟨?_, ?_, ?_⟩,
    by decide, by decide, by decide⟩
  · intro n hn
    unfold splitIntoRuns
    exact runsLoop_fuel n _ _ [] hn (le_refl _)
  · rw [← hcount, List.length_flatten]
  · cases hsplit : splitIntoRuns vs with
    | nil => rw [hsplit] at hpos; simp at hpos
    | cons r rest => exact ⟨r, by simp⟩
  · intro r hr
    have h1 := hlen r hr
    refine ⟨⟨r[0], ?_⟩, ⟨r[r.length - 1], ?_⟩⟩
    · exact List.getElem?_eq_getElem (by omega)
    · exact List.getElem?_eq_getElem (by omega)
  · intro h1
    exact buildOneRun_isSome _ typeName hrun h1
  · exact buildMultipleRuns_isSome _ typeName hrun
  · obtain ⟨g, hg, _⟩ := generate_cases typeName vs hne
    exact ⟨g, hg⟩

theorem splitIntoRuns_total_witness :
    exSix ≠ [] ∧ OneType false exSix ∧
    ((splitIntoRuns exSix).map List.length).sum = 6 ∧
    ∃ p, buildMultipleRuns (splitIntoRuns exSix) (utf8 "T") = some p := by
  have h := splitIntoRuns_total false (utf8 "T") exSix (by decide) (by decide)
  exact ⟨by decide, by decide, h.2.2.1.1.trans (by decide), h.2.2.2.2.1.2.1⟩

/-- C33: for every chain of `OhNoError`s linked through `Cause` and ending in a
nil `Cause`, with `h_k` the text that `Error()` returns for the k-th element
without its cause, `Error()` of the nested error is
`h_1 + "\n-> " + h_2 + ... + "\n-> " + h_n`, and `Error()` of the
`OhNoJoinError` that `drillDownAndStackUp` returns is
`h_1 + "\n" + h_2 + ... + "\n" + h_n`: flattening changes the separators
between the levels and nothing else. -/
theorem flatten_changes_separators (format : Time → GoString → GoString) (o : OhNoError)
    (rest : List OhNoError) (hs : List GoString)
    (hh : (o :: rest).map (fun x => OhNoError.Error format { x with Cause := GoError.nil }) =
      hs.map some) :
    OhNoError.Error format { o with Cause := chained rest } =
      some (List.intercalate (utf8 "\n-> ") hs) ∧
    (OhNoError.drillDownAndStackUp { o with Cause := chained rest }).Error format =
      some (List.intercalate (utf8 "\n") hs) ∧
    (∀ (h1 : GoString) (hs2 : List GoString), hs = h1 :: hs2 →
      OhNoError.Error format { o with Cause := chained rest } =
        some (h1 ++ (hs2.map (fun u => utf8 "\n-> " ++ u)).flatten) ∧
      (OhNoError.drillDownAndStackUp { o with Cause := chained rest }).Error format =
        some (h1 ++ (hs2.map (fun u => utf8 "\n" ++ u)).flatten)) ∧
    (exBaz.Error exFormat = some (utf8 ("1970-01-01 00:10:00 " ++
        "[0x67]usage_with_ohno.Unknown: I don't know what happened, " ++
        "this error wraps barErr, level-2 nesting\n-> " ++
        "1970-01-01 00:05:00 [0x66]usage_with_ohno.Internal: Its not you, its me :(, " ++
        "this error wraps fooErr, level-1 nesting\n-> " ++
        "1970-01-01 00:00:00 example_test.go:23 " ++
        "(github.com/A-0-5/ohno/examples/usage_with_ohno_test.Foo): " ++
        "[0x6a]usage_with_ohno.Fatal: Help!!! Im dying!!!, " ++
        "something really bad happened, \x7bBadStuff:some data here\x7d")) ∧
      exBaz.drillDownAndStackUp.Error exFormat = some (utf8 ("1970-01-01 00:10:00 " ++
        "[0x67]usage_with_ohno.Unknown: I don't know what happened, " ++
        "this error wraps barErr, level-2 nesting\n" ++
        "1970-01-01 00:05:00 [0x66]usage_with_ohno.Internal: Its not you, its me :(, " ++
        "this error wraps fooErr, level-1 nesting\n" ++
        "1970-01-01 00:00:00 example_test.go:23 " ++
        "(github.com/A-0-5/ohno/examples/usage_with_ohno_test.Foo): " ++
        "[0x6a]usage_with_ohno.Fatal: Help!!! Im dying!!!, " ++
        "something really bad happened, \x7bBadStuff:some data here\x7d"))) := by
  have h1 := chained_Error format rest o hs hh
  have h2 := flattened_Error format o rest hs hh
  refine ⟨h1, h2, ?_, by decide, by decide⟩
  intro g hs2 hg
  rw [h1, h2, hg, intercalate_cons_eq, intercalate_cons_eq]
  exact ⟨rfl, rfl⟩

theorem flatten_changes_separators_witness :
    [exBar, exFoo].map (fun x => OhNoError.Error exFormat { x with Cause := GoError.nil }) =
      [utf8 ("1970-01-01 00:05:00 [0x66]usage_with_ohno.Internal: Its not you, its me :(, " ++
          "this error wraps fooErr, level-1 nesting"),
        utf8 ("1970-01-01 00:00:00 example_test.go:23 " ++
          "(github.com/A-0-5/ohno/examples/usage_with_ohno_test.Foo): " ++
          "[0x6a]usage_with_ohno.Fatal: Help!!! Im dying!!!, " ++
          "something really bad happened, \x7bBadStuff:some data here\x7d")].map some ∧
    (OhNoError.drillDownAndStackUp { exBar with Cause := chained [exFoo] }).Error exFormat =
      some (utf8 ("1970-01-01 00:05:00 [0x66]usage_with_ohno.Internal: Its not you, its me :(, " ++
        "this error wraps fooErr, level-1 nesting\n" ++
        "1970-01-01 00:00:00 example_test.go:23 " ++
        "(github.com/A-0-5/ohno/examples/usage_with_ohno_test.Foo): " ++
        "[0x6a]usage_with_ohno.Fatal: Help!!! Im dying!!!, " ++
        "something really bad happened, \x7bBadStuff:some data here\x7d")) :=
  ⟨by decide,
    (flatten_changes_separators exFormat exBar [exFoo]
      [utf8 ("1970-01-01 00:05:00 [0x66]usage_with_ohno.Internal: Its not you, its me :(, " ++
          "this error wraps fooErr, level-1 nesting"),
        utf8 ("1970-01-01 00:00:00 example_test.go:23 " ++
          "(github.com/A-0-5/ohno/examples/usage_with_ohno_test.Foo): " ++
          "[0x6a]usage_with_ohno.Fatal: Help!!! Im dying!!!, " ++
          "something really bad happened, \x7bBadStuff:some data here\x7d")]
      (by decide)).2.1.trans (by decide)⟩

/-- C39: `OhNoError.Error()` leaves `ErrorCode`, `Message`, `Extra`, `Cause`,
`SourceInfo` and `Timestamp` of its receiver as they are (`ErrorCode` and
`Cause` are the same errors, after their own `Error()`), and overwrites
`TimestampLayout` with `time.RFC3339Nano` exactly when `Timestamp` is not the
zero time and `TimestampLayout` was empty; nothing but layouts changes in any
error behind the receiver.  A second call of `Error()` returns the string of
the first. -/
theorem Error_changes_layout_only (format : Time → GoString → GoString) (o : OhNoError) :
    (o.afterError.Message = o.Message ∧ o.afterError.Extra = o.Extra ∧
      o.afterError.SourceInfo = o.SourceInfo ∧ o.afterError.Timestamp = o.Timestamp ∧
      o.afterError.ErrorCode = o.ErrorCode.afterError ∧
      o.afterError.Cause = o.Cause.afterError) ∧
    ((o.Timestamp.IsZero = false ∧ o.TimestampLayout = [] →
        o.afterError.TimestampLayout = RFC3339Nano) ∧
      (¬ (o.Timestamp.IsZero = false ∧ o.TimestampLayout = []) →
        o.afterError.TimestampLayout = o.TimestampLayout)) ∧
    ((∀ c : OhNoer, GoError.afterError (GoError.ohnoer c) = GoError.ohnoer c) ∧
      GoError.afterError GoError.nil = GoError.nil ∧
      (∀ e : GoError, GoError.eraseLayouts (GoError.afterError e) = GoError.eraseLayouts e) ∧
      OhNoError.eraseLayouts o.afterError = OhNoError.eraseLayouts o) ∧
    (∀ c : OhNoer, o.ErrorCode = GoError.ohnoer c → o.Cause = GoError.nil →
      o.afterError =
        { o with TimestampLayout :=
          if o.Timestamp.IsZero = false ∧ o.TimestampLayout = [] then RFC3339Nano
          else o.TimestampLayout }) ∧
    o.afterError.Error format = o.Error format ∧
    ((OhNoError.afterError { exFoo with TimestampLayout := [] }).TimestampLayout =
        RFC3339Nano ∧
      exFoo.afterError.TimestampLayout = DateTime ∧
      (OhNoError.afterError { exFoo with TimestampLayout := [], Timestamp := ⟨0, 0⟩ }
        ).TimestampLayout = [] ∧
      OhNoError.Error exFormat (OhNoError.afterError { exFoo with TimestampLayout := [] }) =
        OhNoError.Error exFormat { exFoo with TimestampLayout := [] }) := by
  have heq := OhNoError_afterError_eq o
  have hE : OhNoError.Error format o.afterError = OhNoError.Error format o := by
    have := (afterError_Error format (GoError.ohNo o)).2
    simpa only [GoError.afterError, GoError.Error] using this
  have hL : OhNoError.eraseLayouts o.afterError = OhNoError.eraseLayouts o := by
    have := afterError_eraseLayouts (GoError.ohNo o)
    simpa only [GoError.afterError, GoError.eraseLayouts, GoError.ohNo.injEq] using this
  refine ⟨?_, ⟨?_, ?_⟩, ⟨fun _ => rfl, rfl, afterError_eraseLayouts, hL⟩, ?_, hE,
    by decide, by decide, by decide, by decide⟩
  · rw [heq]
    exact ⟨rfl, rfl, rfl, rfl, rfl, rfl⟩
  · intro ⟨hz, hl⟩
    rw [heq]
    simp [hz, hl]
  · intro hn
    rw [heq]
    by_cases hz : o.Timestamp.IsZero = false
    · have hl : o.TimestampLayout ≠ [] := fun e => hn ⟨hz, e⟩
      simp [hl]
    · simp [hz]
  · intro c hc hcause
    rw [heq, hc, hcause]
    cases o
    simp only at hc hcause
    subst hc
    subst hcause
    simp [GoError.afterError]

theorem Error_changes_layout_only_witness :
    ({ exInternalError with TimestampLayout := [] } : OhNoError).Timestamp.IsZero = false ∧
    ({ exInternalError with TimestampLayout := [] } : OhNoError).TimestampLayout = [] ∧
    (OhNoError.afterError { exInternalError with TimestampLayout := [] }).TimestampLayout =
      RFC3339Nano :=
  ⟨by decide, rfl,
    (Error_changes_layout_only exFormat { exInternalError with TimestampLayout := [] }).2.1.1
      ⟨by decide, rfl⟩⟩

/-- C35 at failing inputs: eleven constants 0, 2, ..., 20 (the map shape), the
first with a comment that holds a double quote, a backslash or a line break.
The text that `declareNameVars` writes between the quotes is the plain
concatenation of the descriptions; read as a string literal it is no literal
(double quote, line break) or denotes another, shorter string (backslash),
while the constant that `createIndexAndNameDescDecl` prints with `%q` for the
same declarations is the concatenation itself.  The bounds of the first map
entry, computed from the concatenation, then cut other bytes out of the
constant. -/
theorem declareNameVars_text_is_not_quoted :
    ((generate (utf8 "T") (exSparse "a \"b\"")).map (fun g => g.lookup.shape) =
        some Shape.sparseMap ∧
      (declareNameVars (splitIntoRuns (exSparse "a \"b\""))).2 =
        utf8 "a \"b\"twofoursixeighttentwelvefourteensixteeneighteentwenty" ∧
      interpreted (declareNameVars (splitIntoRuns (exSparse "a \"b\""))).2 = none ∧
      (createIndexAndNameDescDecl (sortAndDedup (exSparse "a \"b\""))).name =
        utf8 "a \"b\"twofoursixeighttentwelvefourteensixteeneighteentwenty") ∧
    ((declareNameVars (splitIntoRuns (exSparse "a\\nb"))).2 =
        utf8 "a\\nbtwofoursixeighttentwelvefourteensixteeneighteentwenty" ∧
      interpreted (declareNameVars (splitIntoRuns (exSparse "a\\nb"))).2 =
        some (utf8 "a\nbtwofoursixeighttentwelvefourteensixteeneighteentwenty") ∧
      (createIndexAndNameDescDecl (sortAndDedup (exSparse "a\\nb"))).name =
        utf8 "a\\nbtwofoursixeighttentwelvefourteensixteeneighteentwenty" ∧
      (buildMap (splitIntoRuns (exSparse "a\\nb")) (utf8 "T")).descEntries.head? =
        some (mkU "E0" 0 "a\\nb", 0, 4) ∧
      (interpreted (declareNameVars (splitIntoRuns (exSparse "a\\nb"))).2).bind
          (fun c => slice? c 0 4) = some (utf8 "a\nbt") ∧
      (buildMap (splitIntoRuns (exSparse "a\\nb")) (utf8 "T")).Description 0 = none) ∧
    ((declareNameVars (splitIntoRuns (exSparse "a\nb"))).2 =
        utf8 "a\nbtwofoursixeighttentwelvefourteensixteeneighteentwenty" ∧
      interpreted (declareNameVars (splitIntoRuns (exSparse "a\nb"))).2 = none ∧
      (createIndexAndNameDescDecl (sortAndDedup (exSparse "a\nb"))).name =
        utf8 "a\nbtwofoursixeighttentwelvefourteensixteeneighteentwenty") := by
  refine ⟨⟨by decide, by decide, by decide, by decide⟩,
    ⟨by decide, by decide, by decide, by decide, by decide, by decide⟩,
    ⟨by decide, by decide, by decide⟩⟩

/-- C40: when the flattening of `drillDownAndStackUp` comes, after the
`OhNoError`s of a chain, to a cause that is no `OhNoError`: the elements of an
`OhNoJoinError`, or of another error with `Unwrap() []error`, are appended in
their order as they are, after the copies of the chain, and the join error
itself is no element; any other error is appended as it is, as the last
element.  An appended element that is an `OhNoError` keeps its own cause, and
the copies are new values: the receiver is read, not changed. -/
theorem flatten_keeps_other_errors (o : OhNoError) (rest : List OhNoError) :
    (∀ errs : List GoError,
      OhNoError.drillDownAndStackUp
          { o with Cause := chainedOnto (GoError.join ⟨errs⟩) rest } =
        GoError.join
          ⟨(o :: rest).map (fun x => GoError.ohNo { x with Cause := GoError.nil }) ++ errs⟩) ∧
    (∀ (text : GoString) (errs : List GoError),
      OhNoError.drillDownAndStackUp
          { o with Cause := chainedOnto (GoError.multi text errs) rest } =
        GoError.join
          ⟨(o :: rest).map (fun x => GoError.ohNo { x with Cause := GoError.nil }) ++ errs⟩) ∧
    (∀ last : GoError, last ≠ GoError.nil → (∀ x, last ≠ GoError.ohNo x) →
      (∀ j, last ≠ GoError.join j) → (∀ text errs, last ≠ GoError.multi text errs) →
      OhNoError.drillDownAndStackUp { o with Cause := chainedOnto last rest } =
        GoError.join
          ⟨(o :: rest).map (fun x => GoError.ohNo { x with Cause := GoError.nil }) ++
            [last]⟩) ∧
    (∀ j : OhNoJoinError, j.Unwrap = j.Errors) ∧
    (OhNoError.drillDownAndStackUp
        { exInternalError with
          Cause := GoError.join ⟨[GoError.ohNo exBar, GoError.plain (utf8 "p")]⟩ } =
      GoError.join ⟨[GoError.ohNo exInternalError, GoError.ohNo exBar,
        GoError.plain (utf8 "p")]⟩ ∧
      exBar.Cause = GoError.ohNo exFoo ∧ exInternalError.Cause = GoError.nil ∧
      OhNoError.drillDownAndStackUp
          { exInternalError with Cause := GoError.wrap (utf8 "w") (GoError.ohNo exFoo) } =
        GoError.join ⟨[GoError.ohNo exInternalError,
          GoError.wrap (utf8 "w") (GoError.ohNo exFoo)]⟩) := by
  refine ⟨?_, ?_, ?_, fun _ => rfl, rfl, rfl, rfl, rfl⟩
  · intro errs
    rw [drillDownAndStackUp_chainedOnto]
    simp only [GoError.appendCause]
  · intro text errs
    rw [drillDownAndStackUp_chainedOnto]
    simp only [GoError.appendCause]
  · intro last h0 h1 h2 h3
    rw [drillDownAndStackUp_chainedOnto]
    cases last with
    | nil => exact absurd rfl h0
    | ohNo x => exact absurd rfl (h1 x)
    | join j => exact absurd rfl (h2 j)
    | multi t es => exact absurd rfl (h3 t es)
    | ohnoer c => simp only [GoError.appendCause]
    | plain t => simp only [GoError.appendCause]
    | wrap t e => simp only [GoError.appendCause]

theorem flatten_keeps_other_errors_witness :
    GoError.plain (utf8 "p") ≠ GoError.nil ∧
    OhNoError.drillDownAndStackUp
        { exBar with Cause := chainedOnto (GoError.plain (utf8 "p")) [exFoo] } =
      GoError.join ⟨[GoError.ohNo { exBar with Cause := GoError.nil }, GoError.ohNo exFoo,
        GoError.plain (utf8 "p")]⟩ :=
  ⟨fun e => GoError.noConfusion e,
    (flatten_keeps_other_errors exBar [exFoo]).2.2.1 (GoError.plain (utf8 "p"))
      (fun e => GoError.noConfusion e) (fun _ e => GoError.noConfusion e)
      (fun _ e => GoError.noConfusion e) (fun _ _ e => GoError.noConfusion e)⟩

end Ohnogen
